import Mathlib

/-!
# Assembly index search (croningp/assembly_go): a shallow embedding

Go `int` values are embedded as `Int` (vertex labels, step counts) and slice
indices and lengths as `Nat`; no quantity of the program comes near the 64-bit
range.  Go slices are lists, Go maps keyed by edge index are total functions on
`Nat` or lists indexed by position, and a fatal error (`log.Fatal`) of a
fallible function is `none`.
-/

namespace AssemblyGo

/-! ## pkg/helpers -/

/-- Go `helpers.Contains`: true when `i` occurs in the slice `l`. -/
def Contains (l : List Int) (i : Int) : Bool :=
  match l with
  | [] => false
  | v :: rest => if v = i then true else Contains rest i

/-- Go `helpers.Contains` on a slice of edge indices. -/
def ContainsIdx (l : List Nat) (i : Nat) : Bool :=
  match l with
  | [] => false
  | v :: rest => if v = i then true else ContainsIdx rest i

/-- Go `helpers.ContainsStr`. -/
def ContainsStr (l : List String) (i : String) : Bool :=
  match l with
  | [] => false
  | v :: rest => if v = i then true else ContainsStr rest i

/-- The largest value of a Go `int` (64 bits). -/
def MaxInt64 : Int := 9223372036854775807

/-- The value that Go computes for an `int` whose exact value is `x`: the
arithmetic of `int` wraps around at 64 bits. -/
def wrapInt (x : Int) : Int :=
  (x + 9223372036854775808) % 18446744073709551616 - 9223372036854775808

/-- Go `helpers.MaxIntSlice`: the running maximum starts at `0`. -/
def MaxIntSlice (inputSlice : List Int) : Int :=
  inputSlice.foldl (fun m i => if i > m then i else m) 0

/-- Go `helpers.SliceCompare`: shorter first, then the first differing element. -/
def SliceCompareEq : List Int → List Int → Bool
  | a :: s1, b :: s2 => if a ≠ b then decide (a < b) else SliceCompareEq s1 s2
  | _, _ => false

/-- Go `helpers.SliceCompare`. -/
def SliceCompare (slice1 slice2 : List Int) : Bool :=
  if slice1.length ≠ slice2.length then decide (slice1.length < slice2.length)
  else SliceCompareEq slice1 slice2

/-! ## pkg/assembly/graphstruct.go -/

/-- Go `Graph`: vertex labels, edges as pairs of labels, optional colours. -/
structure Graph where
  Vertices : List Int
  Edges : List (Int × Int)
  VertexColours : List String
  EdgeColours : List String
deriving DecidableEq, Repr

/-- Go `NewColourGraph`. -/
def NewColourGraph (vertices : List Int) (edges : List (Int × Int))
    (vColours eColours : List String) : Graph :=
  { Vertices := vertices, Edges := edges, VertexColours := vColours, EdgeColours := eColours }

/-- Go `NewGraph`: blank vertex and edge colours. -/
def NewGraph (vertices : List Int) (edges : List (Int × Int)) : Graph :=
  NewColourGraph vertices edges [] []

/-- Go `CopyGraph`: a value copy. -/
def CopyGraph (g : Graph) : Graph :=
  NewColourGraph g.Vertices g.Edges g.VertexColours g.EdgeColours

/-- Go `GraphIsVertexColoured`. -/
def GraphIsVertexColoured (g : Graph) : Bool :=
  decide (g.Vertices.length = g.VertexColours.length)

/-- Go `GraphIsEdgeColoured`. -/
def GraphIsEdgeColoured (g : Graph) : Bool :=
  decide (g.Edges.length = g.EdgeColours.length)

/-- The test of `EdgeAdjacencies`: two edges share an endpoint. -/
def sharesVertex (e1 e2 : Int × Int) : Bool :=
  decide (e1.1 = e2.1) || decide (e1.1 = e2.2) || decide (e1.2 = e2.1) || decide (e1.2 = e2.2)

/-- Go `(*Graph).EdgeAdjacencies`: the map from an edge index `i` to the indices
`j ≠ i`, in increasing order, of the edges sharing an endpoint with edge `i`.
The Go map is a function on indices; an absent key reads as the empty slice. -/
def EdgeAdjacencies (g : Graph) : Nat → List Nat := fun i =>
  match g.Edges[i]? with
  | none => []
  | some e1 =>
    (List.range g.Edges.length).filter (fun j =>
      match g.Edges[j]? with
      | none => false
      | some e2 => decide (i ≠ j) && sharesVertex e1 e2)

/-- Byte-wise comparison `a <= b` of two strings, as Go orders strings. -/
def charsLe : List Char → List Char → Bool
  | [], _ => true
  | _ :: _, [] => false
  | a :: l, b :: r =>
    if a.toNat < b.toNat then true else if b.toNat < a.toNat then false else charsLe l r

/-- Go string order `a <= b`. -/
def strLe (a b : String) : Bool := charsLe a.data b.data

/-- Go `sort.Ints`. -/
def sortInts (l : List Int) : List Int := l.insertionSort (fun a b => a ≤ b)

/-- Go `sort.Strings`. -/
def sortStrings (l : List String) : List String := l.insertionSort (fun a b => strLe a b = true)

/-- The `less` function of `ListPairSort` negated with its arguments swapped:
`a` does not come after `b`. -/
def pairLe (a b : Int × Int) : Bool :=
  if a.1 ≠ b.1 then decide (a.1 < b.1) else decide (a.2 ≤ b.2)

/-- Go `ListPairSort`: order each pair, then sort the list by first and second
component. -/
def ListPairSort (l : List (Int × Int)) : List (Int × Int) :=
  (l.map (fun pair => if pair.1 < pair.2 then (pair.1, pair.2) else (pair.2, pair.1))).insertionSort
    (fun a b => pairLe a b = true)

/-- A Go `map[int]string` built by assignments (latest binding first); an absent
key reads as the empty string. -/
def colourGet (m : List (Int × String)) (k : Int) : String :=
  match m with
  | [] => ""
  | (k1, v) :: rest => if k1 = k then v else colourGet rest k

/-- Go `VertexColourMap`: `none` when a vertex has no colour at its position
(index out of range). -/
def VertexColourMap (g : Graph) : Option (List (Int × String)) :=
  if g.Vertices.length ≤ g.VertexColours.length then
    some ((g.Vertices.zip g.VertexColours).reverse)
  else none

/-- Go `EdgeColourMap`, as the list of bindings with the latest first. -/
def EdgeColourMap (g : Graph) : Option (List ((Int × Int) × String)) :=
  if g.Edges.length ≤ g.EdgeColours.length then some ((g.Edges.zip g.EdgeColours).reverse)
  else none

/-- The value of a key in a map given by its bindings, latest first. -/
def bindingGet {κ : Type} [DecidableEq κ] (m : List (κ × String)) (k : κ) : Option String :=
  match m with
  | [] => none
  | (k1, v) :: rest => if k1 = k then some v else bindingGet rest k

/-- The content of a Go map with integer keys: its keys in increasing order,
each with its value.  Two maps are `reflect.DeepEqual` when their contents are
equal. -/
def vertexMapContent (m : List (Int × String)) : List (Int × Option String) :=
  (sortInts (m.map Prod.fst).dedup).map (fun k => (k, bindingGet m k))

/-- Go `orderEdgeColourMap` followed by the content of the resulting map: every
key is oriented smaller endpoint first.  Go visits the map in an unspecified
order; here the keys are visited in increasing order, which gives the same map
unless two parallel edges of opposite orientation carry different colours. -/
def orderedEdgeMapContent (m : List ((Int × Int) × String)) :
    List ((Int × Int) × Option String) :=
  let keys := ((m.map Prod.fst).dedup).insertionSort (fun a b => pairLe a b = true)
  let outMap : List ((Int × Int) × String) :=
    keys.foldl
      (fun out k =>
        match bindingGet m k with
        | none => out
        | some v => if k.1 < k.2 then (k, v) :: out else ((k.2, k.1), v) :: out)
      []
  (((outMap.map Prod.fst).dedup).insertionSort (fun a b => pairLe a b = true)).map
    (fun k => (k, bindingGet outMap k))

/-- Go `checkColoursEqual`. -/
def checkColoursEqual (g1 g2 : Graph) : Bool :=
  let g1VColoured := decide (g1.Vertices.length = g1.VertexColours.length)
  let g1EColoured := decide (g1.Edges.length = g1.EdgeColours.length)
  let g2VColoured := decide (g2.Vertices.length = g2.VertexColours.length)
  let g2EColoured := decide (g2.Edges.length = g2.EdgeColours.length)
  if !(g1VColoured == g2VColoured && g1EColoured == g2EColoured) then false
  else if g1VColoured &&
      !((VertexColourMap g1).map vertexMapContent == (VertexColourMap g2).map vertexMapContent)
    then false
  else if g1EColoured &&
      !((EdgeColourMap g1).map orderedEdgeMapContent
          == (EdgeColourMap g2).map orderedEdgeMapContent)
    then false
  else true

/-- Go `GraphEquals`: same vertex labels and same edges, whatever their order,
and equal colours. -/
def GraphEquals (g1 g2 : Graph) : Bool :=
  let eqVert := decide (sortInts g1.Vertices = sortInts g2.Vertices)
  if !checkColoursEqual g1 g2 then false
  else
    let eqEdge := decide (ListPairSort g1.Edges = ListPairSort g2.Edges)
    eqVert && eqEdge

/-! ## pkg/assembly/graphsplit.go -/

/-- The position loop of `CopyGraphVerticesFromEdge`: the last index at which
`v` occurs in `vertices` (the loop does not stop at the first hit). -/
def vertexPosition (vertices : List Int) (v : Int) : Option Nat :=
  (List.range vertices.length).foldl
    (fun pos i => if vertices[i]? = some v then some i else pos) none

/-- One iteration of the loop of `CopyGraphVerticesFromEdge`, for the endpoint
`v`; `none` is the returned error (fatal through `check`). -/
def copyGraphVertex (oldGraph newGraph : Graph) (v : Int) : Option Graph :=
  if Contains newGraph.Vertices v then some newGraph
  else
    let newGraph1 := { newGraph with Vertices := newGraph.Vertices ++ [v] }
    match vertexPosition oldGraph.Vertices v with
    | none => none
    | some vPosition =>
      if oldGraph.VertexColours.length ≠ 0 then
        if oldGraph.VertexColours.length ≠ oldGraph.Vertices.length then none
        else
          match oldGraph.VertexColours[vPosition]? with
          | none => none
          | some c => some { newGraph1 with VertexColours := newGraph1.VertexColours ++ [c] }
      else some newGraph1

/-- Go `CopyGraphVerticesFromEdge`. -/
def CopyGraphVerticesFromEdge (oldGraph newGraph : Graph) (edgeIndex : Nat) : Option Graph :=
  match oldGraph.Edges[edgeIndex]? with
  | none => none
  | some e =>
    match copyGraphVertex oldGraph newGraph e.1 with
    | none => none
    | some newGraph1 => copyGraphVertex oldGraph newGraph1 e.2

/-- Go `CopyGraphEdge`. -/
def CopyGraphEdge (oldGraph newGraph : Graph) (edgeIndex : Nat) : Option Graph :=
  match oldGraph.Edges[edgeIndex]? with
  | none => none
  | some e =>
    let newGraph1 := { newGraph with Edges := newGraph.Edges ++ [e] }
    if oldGraph.EdgeColours.length ≠ 0 then
      if oldGraph.EdgeColours.length ≠ oldGraph.Edges.length then none
      else
        match oldGraph.EdgeColours[edgeIndex]? with
        | none => none
        | some c =>
          CopyGraphVerticesFromEdge oldGraph
            { newGraph1 with EdgeColours := newGraph1.EdgeColours ++ [c] } edgeIndex
    else CopyGraphVerticesFromEdge oldGraph newGraph1 edgeIndex

/-- The loop of `BreakGraphOnEdges` over the edge indices `idxs`. -/
def breakLoop (g : Graph) (edges : List Nat) :
    List Nat → Graph × Graph → Option (Graph × Graph)
  | [], acc => some acc
  | i :: rest, (breakGraph, remnantGraph) =>
    if ContainsIdx edges i then
      match CopyGraphEdge g breakGraph i with
      | none => none
      | some b => breakLoop g edges rest (b, remnantGraph)
    else
      match CopyGraphEdge g remnantGraph i with
      | none => none
      | some r => breakLoop g edges rest (breakGraph, r)

/-- Go `BreakGraphOnEdges`: the graph on the edges listed and the graph on the
remaining edges; `none` when `check` ends the program. -/
def BreakGraphOnEdges (g : Graph) (edges : List Nat) : Option (Graph × Graph) :=
  breakLoop g edges (List.range g.Edges.length)
    (NewColourGraph [] [] [] [], NewColourGraph [] [] [] [])

/-- A Go `map[int]int` built by assignments: the latest binding of a key is the
first in the list; an absent key reads as `0`. -/
def mapGet (m : List (Int × Int)) (k : Int) : Int :=
  match m with
  | [] => 0
  | (k1, v) :: rest => if k1 = k then v else mapGet rest k

/-- The loop of `RecombineGraphs` copying the right vertices: state is the output
vertices, the next free label and the vertex map. -/
def recombineVertices :
    List Int → List Int × Int × List (Int × Int) → List Int × Int × List (Int × Int)
  | [], st => st
  | vertex :: rest, (outputVertices, nextVertex, vertexMap) =>
    if Contains outputVertices vertex then
      recombineVertices rest
        (outputVertices ++ [nextVertex], wrapInt (nextVertex + 1),
          (vertex, nextVertex) :: vertexMap)
    else
      recombineVertices rest (outputVertices ++ [vertex], nextVertex, (vertex, vertex) :: vertexMap)

/-- Go `RecombineGraphs`: both graphs in one graph object, the right vertices
relabelled where they collide; also returns the vertex map. -/
def RecombineGraphs (graphLeft graphRight : Graph) : Graph × List (Int × Int) :=
  let leftEdgeColours := if GraphIsEdgeColoured graphLeft then graphLeft.EdgeColours else []
  let leftVertexColours :=
    if GraphIsVertexColoured graphLeft then graphLeft.VertexColours else []
  let maxVertexLeft := MaxIntSlice graphLeft.Vertices
  let maxVertexRight := MaxIntSlice graphRight.Vertices
  let nextVertex := wrapInt (MaxIntSlice [maxVertexLeft, maxVertexRight] + 1)
  let (outputVertices, _, vertexMap) :=
    recombineVertices graphRight.Vertices (graphLeft.Vertices, nextVertex, [])
  let rightVertexColours :=
    if GraphIsVertexColoured graphRight then graphRight.VertexColours else []
  let rightEdges := graphRight.Edges.map (fun e => (mapGet vertexMap e.1, mapGet vertexMap e.2))
  let rightEdgeColours := if GraphIsEdgeColoured graphRight then graphRight.EdgeColours else []
  (NewColourGraph outputVertices (graphLeft.Edges ++ rightEdges)
      (leftVertexColours ++ rightVertexColours) (leftEdgeColours ++ rightEdgeColours),
    vertexMap)

/-- The inner loop of `ConnectedComponent`: append every `j` not yet in the
component. -/
def componentAdd (component : List Nat) (adj : List Nat) : List Nat :=
  adj.foldl (fun c j => if ContainsIdx c j then c else c ++ [j]) component

/-- The outer loop `for i := 0; i < len(component); i++` of
`ConnectedComponent`, with a bound on the number of iterations. -/
def componentLoop (edgeAdj : Nat → List Nat) : Nat → Nat → List Nat → List Nat
  | 0, _, component => component
  | fuel + 1, i, component =>
    match component[i]? with
    | none => component
    | some e => componentLoop edgeAdj fuel (i + 1) (componentAdd component (edgeAdj e))

/-- Go `ConnectedComponent`: the edges reachable from `edge`; `fuel` bounds the
iterations of the outer loop. -/
def ConnectedComponent (fuel : Nat) (edge : Nat) (edgeAdj : Nat → List Nat) : List Nat :=
  componentLoop edgeAdj fuel 0 [edge]

/-- The loop of `ConnectedComponentEdges` over the edge indices. -/
def componentEdgesLoop (fuel : Nat) (edgeAdj : Nat → List Nat) :
    List Nat → List Nat × List (List Nat) → List Nat × List (List Nat)
  | [], st => st
  | i :: rest, (edgesUsed, edgeSets) =>
    if ContainsIdx edgesUsed i then componentEdgesLoop fuel edgeAdj rest (edgesUsed, edgeSets)
    else
      let component := ConnectedComponent fuel i edgeAdj
      componentEdgesLoop fuel edgeAdj rest (edgesUsed ++ component, edgeSets ++ [component])

/-- Go `ConnectedComponentEdges`: the edge sets of the connected components.  No
component has more members than the graph has edges, which bounds the loop of
`ConnectedComponent`. -/
def ConnectedComponentEdges (g : Graph) : List (List Nat) :=
  (componentEdgesLoop (g.Edges.length + 1) (EdgeAdjacencies g)
    (List.range g.Edges.length) ([], [])).2

/-! ## pkg/assembly/canonical.go -/

/-- Go `Individualise`: the vertex in a part of its own, in front of the rest of
its part. -/
def Individualise (partition : List (List Int)) (vertex : Int) : List (List Int) :=
  match partition with
  | [] => []
  | part :: rest =>
    if Contains part vertex then
      let remainder := part.filter (fun v => decide (v ≠ vertex))
      if remainder.length ≠ 0 then [vertex] :: remainder :: Individualise rest vertex
      else [vertex] :: Individualise rest vertex
    else part :: Individualise rest vertex

/-- Go `DegreeInPart`: the number of edges between `vertex` and `part`. -/
def DegreeInPart (graph : Graph) (vertex : Int) (part : List Int) : Nat :=
  graph.Edges.foldl
    (fun degreeInPart edge =>
      if (decide (vertex = edge.1) && Contains part edge.2)
          || (decide (vertex = edge.2) && Contains part edge.1)
      then degreeInPart + 1 else degreeInPart)
    0

/-- Go `Degree`. -/
def Degree (graph : Graph) (vertex : Int) : Nat :=
  DegreeInPart graph vertex graph.Vertices

/-- Go `Shatter`: `partLeft` split by degree into `partRight`, the parts in
increasing order of degree. -/
def Shatter (graph : Graph) (partLeft partRight : List Int) : List (List Int) :=
  let degrees : List Nat :=
    ((partLeft.map (fun v => DegreeInPart graph v partRight)).dedup).insertionSort
      (fun a b => a ≤ b)
  degrees.map (fun d => partLeft.filter (fun v => decide (DegreeInPart graph v partRight = d)))

/-- The inner loop over `j` of `EquitableRefinement`: the first shattering of
`part` with more than one part. -/
def firstShatter (graph : Graph) (part : List Int) : List (List Int) → Option (List (List Int))
  | [] => none
  | partJ :: rest =>
    let shattering := Shatter graph part partJ
    if shattering.length > 1 then some shattering else firstShatter graph part rest

/-- The loop over `i` of `EquitableRefinement`: the partition with the first
part that can be shattered replaced by its shattering, if there is one.
`done` holds the parts already passed. -/
def refineStep (graph : Graph) (whole : List (List Int)) :
    List (List Int) → List (List Int) → Option (List (List Int))
  | _, [] => none
  | done, part :: rest =>
    match firstShatter graph part whole with
    | some shattering => some (done ++ shattering ++ rest)
    | none => refineStep graph whole (done ++ [part]) rest

/-- The outer loop of `EquitableRefinement`, at most `fuel` rounds. -/
def refineLoop (graph : Graph) : Nat → List (List Int) → List (List Int)
  | 0, refinedPartition => refinedPartition
  | fuel + 1, refinedPartition =>
    match refineStep graph refinedPartition [] refinedPartition with
    | none => refinedPartition
    | some newPartition => refineLoop graph fuel newPartition

/-- Go `EquitableRefinement`.  Every round splits a part into non-empty parts,
so the number of vertices listed bounds the number of rounds: the loop ends on
an equitable partition (`EquitableRefinement_spec`). -/
def EquitableRefinement (graph : Graph) (partition : List (List Int)) : List (List Int) :=
  refineLoop graph ((partition.map List.length).sum + 1) partition

/-- Go `IsEquitable`. -/
def IsEquitable (graph : Graph) (partition : List (List Int)) : Bool :=
  partition.all (fun partLeft =>
    partition.all (fun partRight => decide ((Shatter graph partLeft partRight).length ≤ 1)))

/-- The loop of `CoarsestEquitableColourings` over the parts: the first part
with more than one vertex decides. -/
def firstNonTrivialPart : List (List Int) → Option (List Int)
  | [] => none
  | part :: rest => if part.length > 1 then some part else firstNonTrivialPart rest

/-- Go `CoarsestEquitableColourings`: the refined colourings and the
individualised vertices. -/
def CoarsestEquitableColourings (graph : Graph) (partition : List (List Int)) :
    List (List (List Int)) × List Int :=
  if !IsEquitable graph partition then ([EquitableRefinement graph partition], [])
  else
    match firstNonTrivialPart partition with
    | none => ([], [])
    | some part =>
      (part.map (fun v => EquitableRefinement graph (Individualise partition v)), part)

/-- Go `IsDiscrete`. -/
def IsDiscrete (colouring : List (List Int)) : Bool :=
  colouring.all (fun part => decide (part.length ≤ 1))

/-- Go `DiscreteColouringToIntSlice`: `none` is the fatal error for a part that
is not a singleton. -/
def DiscreteColouringToIntSlice : List (List Int) → Option (List Int)
  | [] => some []
  | [v] :: rest => (DiscreteColouringToIntSlice rest).map (fun l => v :: l)
  | _ :: _ => none

/-- Go `PermuteGraph`: `none` is the fatal error for a permutation of the wrong
length. -/
def PermuteGraph (graph : Graph) (permutation : List Int) : Option Graph :=
  if permutation.length ≠ graph.Vertices.length then none
  else
    let vertexColoured := decide (graph.VertexColours.length = graph.Vertices.length)
    let edgeColoured := decide (graph.EdgeColours.length = graph.Edges.length)
    let vertexColourMap : List (Int × String) :=
      if vertexColoured then (graph.Vertices.zip graph.VertexColours).reverse else []
    let sortedVertices := sortInts graph.Vertices
    let permutationMap : List (Int × Int) := (permutation.zip sortedVertices).reverse
    let newVertices := sortedVertices.map (fun v => mapGet permutationMap v)
    let newVertexColours :=
      if vertexColoured then sortedVertices.map (fun v => colourGet vertexColourMap v) else []
    let newEdges := graph.Edges.map (fun e => (mapGet permutationMap e.1, mapGet permutationMap e.2))
    let newEdgeColours := if edgeColoured then graph.EdgeColours else []
    some (NewColourGraph newVertices newEdges newVertexColours newEdgeColours)

/-- Go `PermuteColouring`. -/
def PermuteColouring (graph : Graph) (colouring : List (List Int)) (permutation : List Int) :
    List (List Int) :=
  let sortedVertices := sortInts graph.Vertices
  let permutationMap : List (Int × Int) := (permutation.zip sortedVertices).reverse
  colouring.map (fun part => part.map (fun v => mapGet permutationMap v))

/-- Go `FlattenEdgeList`. -/
def FlattenEdgeList (edgeList : List (Int × Int)) : List Int :=
  edgeList.flatMap (fun e => [e.1, e.2])

/-- Go `SliceGreaterThan`; `none` when the loop indexes a slice out of range. -/
def SliceGreaterThan : List Int → List Int → Option Bool
  | [], _ => none
  | _ :: _, [] => none
  | a :: l, b :: r =>
    if a ≠ b then some (decide (a > b))
    else if l.length = 0 then some false
    else if r.length = 0 then some true
    else SliceGreaterThan l r

/-- Go `GraphGreaterThan`. -/
def GraphGreaterThan (graphLeft graphRight : Graph) : Option Bool :=
  SliceGreaterThan (FlattenEdgeList (ListPairSort graphLeft.Edges))
    (FlattenEdgeList (ListPairSort graphRight.Edges))

/-- The distinct strings of a list in order of first occurrence (the loop with
`ContainsStr` of `GraphColourPartition` and `EdgeColourConversion`). -/
def distinctStrings (l : List String) : List String :=
  l.foldl (fun colours c => if ContainsStr colours c then colours else colours ++ [c]) []

/-- Go `GraphColourPartition`: one part for all vertices when there are no
vertex colours, otherwise one part per colour in the order of the colours;
`none` when a vertex has no colour at its position. -/
def GraphColourPartition (graph : Graph) : Option (List (List Int)) :=
  if graph.VertexColours.length = 0 then some [graph.Vertices]
  else if graph.VertexColours.length < graph.Vertices.length then none
  else
    let colours := sortStrings (distinctStrings graph.VertexColours)
    some (colours.map (fun c =>
      ((graph.Vertices.zip graph.VertexColours).filter (fun vc => decide (vc.2 = c))).map
        Prod.fst))

/-- Go `MaxEqualLevel`: the last position up to which the two slices agree, `-1`
if they differ at once; `none` when `sliceRight` is indexed out of range. -/
def MaxEqualLevelFrom : Int → List Int → List Int → Option Int
  | levelMatch, [], _ => some levelMatch
  | _, _ :: _, [] => none
  | levelMatch, a :: l, b :: r =>
    if a = b then MaxEqualLevelFrom (levelMatch + 1) l r else some levelMatch

/-- Go `MaxEqualLevel`. -/
def MaxEqualLevel (sliceLeft sliceRight : List Int) : Option Int :=
  MaxEqualLevelFrom (-1) sliceLeft sliceRight

/-- A Go slice of `int`: the index of its backing array in the store, its
length and its capacity. -/
structure IntSlice where
  arr : Nat
  len : Nat
  cap : Nat
deriving DecidableEq, Repr

/-- The elements of a slice: the first `len` cells of its backing array. -/
def sliceRead (store : List (List Int)) (s : IntSlice) : List Int :=
  (store.getD s.arr []).take s.len

/-- Go `append(s, x)` for a slice of `int`.  With spare capacity the element is
written into the shared backing array, otherwise the elements are copied into a
new array of twice the capacity (the growth of the Go runtime for slices of
fewer than 256 elements). -/
def sliceAppend (store : List (List Int)) (s : IntSlice) (x : Int) :
    List (List Int) × IntSlice :=
  if s.len < s.cap then
    (store.modify (fun a => a.set s.len x) s.arr, { s with len := s.len + 1 })
  else
    let newCap := if s.cap = 0 then 1 else 2 * s.cap
    let cells := sliceRead store s ++ [x]
    (store ++ [cells ++ List.replicate (newCap - cells.length) 0],
      { arr := store.length, len := s.len + 1, cap := newCap })

/-- Go `AutomorphismData` together with the other variables that `SearchTreeInner`
shares through pointers: the store of backing arrays of the `treeLevel` slices,
`canonicalGraphContainer[0]`, `backtrack[0]` and `backtrackLevel[0]`. -/
structure SearchState where
  store : List (List Int)
  canonicalGraph : Graph
  automorphisms : List Graph
  automorphismLevels : List IntSlice
  backtrack : Bool
  backtrackLevel : Int
deriving Repr

/-- Go `AutomorphismCheck`: the position of the first recorded graph equal to
the candidate. -/
def AutomorphismCheck (canonicalCandidate : Graph) (automorphisms : List Graph) : Option Nat :=
  automorphisms.findIdx? (fun g => GraphEquals canonicalCandidate g)

/-- The discrete branch of `SearchTreeInner`: the leaf of the search tree. -/
def searchLeaf (graph : Graph) (colouring : List (List Int)) (treeLevel : IntSlice)
    (st : SearchState) : Option SearchState :=
  match DiscreteColouringToIntSlice colouring with
  | none => none
  | some permutation =>
    match PermuteGraph graph permutation with
    | none => none
    | some canonicalCandidate =>
      match AutomorphismCheck canonicalCandidate st.automorphisms with
      | some level =>
        match st.automorphismLevels[level]? with
        | none => none
        | some recorded =>
          match MaxEqualLevel (sliceRead st.store recorded) (sliceRead st.store treeLevel) with
          | none => none
          | some l => some { st with backtrack := true, backtrackLevel := l }
      | none =>
        let st1 := { st with
          automorphisms := st.automorphisms ++ [canonicalCandidate]
          automorphismLevels := st.automorphismLevels ++ [treeLevel] }
        if st1.canonicalGraph.Vertices.length = 0 then
          some { st1 with canonicalGraph := canonicalCandidate }
        else
          match GraphGreaterThan canonicalCandidate st1.canonicalGraph with
          | none => none
          | some true => some { st1 with canonicalGraph := canonicalCandidate }
          | some false => some st1

/-- Go `SearchTreeInner`: the recursive part of the search; `fuel` bounds the
depth of the recursion, `none` is a fatal error. -/
def SearchTreeInner (graph : Graph) (prune : Bool) :
    Nat → List (List Int) → IntSlice → SearchState → Option SearchState
  | 0, _, _, _ => none
  | fuel + 1, colouring, treeLevel, st =>
    let resume := prune && st.backtrack && decide ((treeLevel.len : Int) = st.backtrackLevel)
    if prune && st.backtrack && !resume then some st
    else
      let st0 := if resume then { st with backtrack := false, backtrackLevel := -1 } else st
      if IsDiscrete colouring then searchLeaf graph colouring treeLevel st0
      else
        let equitableColourings := (CoarsestEquitableColourings graph colouring).1
        (equitableColourings.zip (List.range equitableColourings.length)).foldl
          (fun acc ci =>
            match acc with
            | none => none
            | some st1 =>
              let (store2, newTreeLevel) := sliceAppend st1.store treeLevel (ci.2 : Int)
              SearchTreeInner graph prune fuel ci.1 newTreeLevel { st1 with store := store2 })
          (some st0)

/-- Go `SearchTree`: the canonical version of the graph for an initial
colouring.  Every level of the search tree either refines the colouring or
individualises a vertex, so twice the number of vertices listed bounds the
depth: more fuel gives the same result (`SearchTree_fuel`). -/
def SearchTree (graph : Graph) (initialColouring : List (List Int)) (prune : Bool) :
    Option Graph :=
  let st : SearchState :=
    { store := [[0]], canonicalGraph := NewColourGraph [] [] [] [],
      automorphisms := [], automorphismLevels := [],
      backtrack := false, backtrackLevel := -1 }
  (SearchTreeInner graph prune (2 * (initialColouring.map List.length).sum + 3)
      initialColouring { arr := 0, len := 1, cap := 1 } st).map
    (fun s => s.canonicalGraph)

/-- Go `CanonicalInitialCheck`: the sizes and the sorted colour lists agree. -/
def CanonicalInitialCheck (graphLeft graphRight : Graph) : Bool :=
  let possibleMatch :=
    decide (graphLeft.Vertices.length = graphRight.Vertices.length)
      && decide (graphLeft.Edges.length = graphRight.Edges.length)
      && decide (graphLeft.VertexColours.length = graphRight.VertexColours.length)
      && decide (graphLeft.EdgeColours.length = graphRight.EdgeColours.length)
  if !possibleMatch then false
  else if sortStrings graphLeft.EdgeColours ≠ sortStrings graphRight.EdgeColours then false
  else if sortStrings graphLeft.VertexColours ≠ sortStrings graphRight.VertexColours then false
  else true

/-- Go `GraphVertexRelabel`: `none` is the fatal error for a labeling of the
wrong length. -/
def GraphVertexRelabel (graph : Graph) (labeling : List Int) : Option Graph :=
  if graph.Vertices.length ≠ labeling.length then none
  else
    let labelMap : List (Int × Int) := (graph.Vertices.zip labeling).reverse
    let newEdges := graph.Edges.map (fun e => (mapGet labelMap e.1, mapGet labelMap e.2))
    some (NewColourGraph labeling newEdges graph.VertexColours graph.EdgeColours)

/-- A Go `map[int][]int` (latest binding first): the slice of layers of a vertex. -/
def layersGet (m : List (Int × List Int)) (k : Int) : Option (List Int) :=
  match m with
  | [] => none
  | (k1, v) :: rest => if k1 = k then some v else layersGet rest k

/-- The inner loop of `EdgeColourConversion` for the vertex `v` of colour
`colour`: the layers `i, i + 1, ...` of the vertex.  State: the output graph,
the next free label and the layers of `v` so far. -/
def layerLoop (v : Int) (colour : String) :
    List Nat → Graph × Int × List Int → Graph × Int × List Int
  | [], st => st
  | i :: rest, (outGraph, nextVertex, layers) =>
    if i = 0 then
      layerLoop v colour rest
        ({ outGraph with
            Vertices := outGraph.Vertices ++ [v]
            VertexColours := outGraph.VertexColours ++ [colour ++ toString i] },
          nextVertex, layers ++ [v])
    else
      layerLoop v colour rest
        ({ outGraph with
            Vertices := outGraph.Vertices ++ [nextVertex]
            Edges := outGraph.Edges ++ [(layers.getLastD 0, nextVertex)]
            VertexColours := outGraph.VertexColours ++ [colour ++ toString i] },
          wrapInt (nextVertex + 1), layers ++ [nextVertex])

/-- The loop of `EdgeColourConversion` over the vertices; `none` when a vertex
has no colour at its position. -/
def vertexLayersLoop (numLayers : Nat) :
    List Int → List String → Graph × Int × List (Int × List Int) →
      Option (Graph × Int × List (Int × List Int))
  | [], _, st => some st
  | _ :: _, [], _ => none
  | v :: vs, c :: cs, (outGraph, nextVertex, vertexMap) =>
    let (outGraph1, nextVertex1, layers) :=
      layerLoop v c (List.range numLayers) (outGraph, nextVertex, [])
    vertexLayersLoop numLayers vs cs (outGraph1, nextVertex1, (v, layers) :: vertexMap)

/-- The loop of `EdgeColourConversion` over the edges; `none` when an index is
out of range. -/
def edgeLayersLoop (edgeColours : List String) (vertexMap : List (Int × List Int)) :
    List (Int × Int) → List String → Graph → Option Graph
  | [], _, outGraph => some outGraph
  | _ :: _, [], _ => none
  | e :: es, c :: cs, outGraph =>
    let edgeLayerIndex := edgeColours.indexOf c
    match layersGet vertexMap e.1, layersGet vertexMap e.2 with
    | some l1, some l2 =>
      match l1[edgeLayerIndex]?, l2[edgeLayerIndex]? with
      | some vertLeft, some vertRight =>
        edgeLayersLoop edgeColours vertexMap es cs
          { outGraph with Edges := outGraph.Edges ++ [(vertLeft, vertRight)] }
      | _, _ => none
    | _, _ => none

/-- Go `EdgeColourConversion`: the layered graph with one layer per edge colour;
`none` when the conversion indexes out of range. -/
def EdgeColourConversion (graph : Graph) : Option Graph :=
  if graph.EdgeColours.length < 2 then some (CopyGraph graph)
  else
    let outGraph := NewColourGraph [] [] [] []
    let nextVertex := wrapInt (MaxIntSlice graph.Vertices + 1)
    let edgeColours := sortStrings (distinctStrings graph.EdgeColours)
    let numLayers := edgeColours.length
    match vertexLayersLoop numLayers graph.Vertices graph.VertexColours
        (outGraph, nextVertex, []) with
    | none => none
    | some (outGraph1, _, vertexMap) =>
      edgeLayersLoop edgeColours vertexMap graph.Edges graph.EdgeColours outGraph1

/-- Go `GraphsIsomorphic`: the canonical graphs of both sides are equal; `none`
when the program stops with a fatal error. -/
def GraphsIsomorphic (graphLeft graphRight : Graph) : Option Bool :=
  if !CanonicalInitialCheck graphLeft graphRight then some false
  else
    let relabelled : Option Graph :=
      if graphLeft.Vertices = graphRight.Vertices then some graphRight
      else GraphVertexRelabel graphRight graphLeft.Vertices
    match relabelled with
    | none => none
    | some right0 =>
      let converted : Option (Graph × Graph) :=
        if graphLeft.Edges.length = graphLeft.EdgeColours.length then
          match EdgeColourConversion graphLeft with
          | none => none
          | some l =>
            match EdgeColourConversion right0 with
            | none => none
            | some r => some (l, r)
        else some (graphLeft, right0)
      match converted with
      | none => none
      | some (checkGraphLeft, checkGraphRight) =>
        match GraphColourPartition checkGraphLeft with
        | none => none
        | some partLeft =>
          match SearchTree checkGraphLeft partLeft true with
          | none => none
          | some canonicalLeft =>
            match GraphColourPartition checkGraphRight with
            | none => none
            | some partRight =>
              match SearchTree checkGraphRight partRight true with
              | none => none
              | some canonicalRight => some (GraphEquals canonicalLeft canonicalRight)

/-! ## pkg/assembly/assemblycommon.go -/

/-- The elements of a Go slice that may be nil (`none`): `len` and `range` take
the nil slice for an empty one. -/
def elems {α : Type} (s : Option (List α)) : List α := s.getD []

/-- Go `append(s, x)` for a slice that may be nil: the result is never nil. -/
def appendTo {α : Type} (s : Option (List α)) (x : α) : Option (List α) :=
  some (elems s ++ [x])

/-- Go `Duplicates`: the edges of the two copies of a duplicated fragment.  The
two slices are nil (`none`) or not, which `reflect.DeepEqual` in `PathwayEqual`
tells apart. -/
structure Duplicates where
  left : Option (List (Int × Int))
  right : Option (List (Int × Int))
deriving DecidableEq, Repr

/-- Go `Pathway`.  The slice `duplicates` is nil (`none`) or not: it is the
slice that `PathwayEqual` compares with `reflect.DeepEqual`. -/
structure Pathway where
  pathway : List Graph
  remnant : Graph
  duplicates : Option (List Duplicates)
  atomEquivalents : List (List Int)
deriving DecidableEq, Repr

/-- Go `NewPathway`. -/
def NewPathway (pathway : List Graph) (remnant : Graph)
    (duplicates : Option (List Duplicates))
    (atomEquivalents : List (List Int)) : Pathway :=
  { pathway := pathway, remnant := remnant, duplicates := duplicates,
    atomEquivalents := atomEquivalents }

/-- Go `NewStartingPathway`: only the remnant, no duplicates (`var duplicates
[]Duplicates` is the nil slice). -/
def NewStartingPathway (graph : Graph) : Pathway :=
  NewPathway [] graph none []

/-- Go `PathwayStepsSaved`: the loop adds `len(Edges) - 1` (edge mode) or
`len(Vertices) - 1` for every fragment. -/
def PathwayStepsSaved (pathway : Pathway) (edgeMode : Bool) : Int :=
  pathway.pathway.foldl
    (fun stepsSaved g =>
      if edgeMode then stepsSaved + ((g.Edges.length : Int) - 1)
      else stepsSaved + ((g.Vertices.length : Int) - 1))
    0

/-- Go `BestPathwayUpdate`: the value that `*bestPathway` holds after the call. -/
def BestPathwayUpdate (bestPathway newPathway : Pathway) : Pathway :=
  let bestStepsSaved := PathwayStepsSaved bestPathway true
  let newStepsSaved := PathwayStepsSaved newPathway true
  if newStepsSaved > bestStepsSaved then newPathway else bestPathway

/-- Go `AssemblyIndex`. -/
def AssemblyIndex (pathway : Pathway) (originalGraph : Graph) : Int :=
  let index : Int := (originalGraph.Edges.length : Int) - 1
  index - PathwayStepsSaved pathway true

/-- Repeated halving: the number of times `n` can be halved before it drops
below `2`, at most `fuel` times. -/
def log2Loop : Nat → Nat → Nat
  | 0, _ => 0
  | fuel + 1, n => if 2 ≤ n then log2Loop fuel (n / 2) + 1 else 0

/-- Go `int(math.Floor(math.Log2(float64(numEdges))))` for `numEdges ≥ 1`: the
integer part of the binary logarithm (`math.Log2` is exact at powers of two and
lies strictly between consecutive integers elsewhere, for every length a slice
can have). -/
def floorLog2 (numEdges : Nat) : Int := (log2Loop numEdges numEdges : Nat)

/-- Go `MaxStepsSaved`: over the connected components of the remnant, the sum of
`(numEdges - 1) - floor(log2 numEdges)`. -/
def MaxStepsSaved (pathway : Pathway) : Int :=
  (ConnectedComponentEdges pathway.remnant).foldl
    (fun maxStepsSaved c =>
      let numEdges : Nat := c.length
      let naiveMA : Int := (numEdges : Int) - 1
      let bestMA : Int := floorLog2 numEdges
      let bestStepsSaved := naiveMA - bestMA
      maxStepsSaved + bestStepsSaved)
    0

/-- Go `BestAssemblyIndex`. -/
def BestAssemblyIndex (g : Graph) (pathway : Pathway) : Int :=
  AssemblyIndex pathway g - MaxStepsSaved pathway

/-- Go `nonForbiddenNeighbour`: the first edge adjacent to the subgraph that is
neither forbidden nor in the subgraph; `none` is the result `(-1, false)`. -/
def nonForbiddenNeighbour (sub : List Nat) (edgeAdjacencies : Nat → List Nat)
    (forbidden : Nat → Bool) : Option Nat :=
  sub.findSome? (fun e =>
    (edgeAdjacencies e).find? (fun adj => !forbidden adj && !ContainsIdx sub adj))

/-- Go `forbidUpdate`: every edge forbidden at a size above `thisForbidSize` is
released, then `thisForbid` is forbidden at `thisForbidSize`.  The two Go maps
are functions on edge indices; an absent key of `forbiddenSize` is `none`. -/
def forbidUpdate (thisForbid thisForbidSize : Nat) (forbidden : Nat → Bool)
    (forbiddenSize : Nat → Option Nat) : (Nat → Bool) × (Nat → Option Nat) :=
  (fun k =>
      if k = thisForbid then true
      else
        match forbiddenSize k with
        | some v => if v > thisForbidSize then false else forbidden k
        | none => forbidden k,
    fun k => if k = thisForbid then some thisForbidSize else forbiddenSize k)

/-- Go `helpers.IntInSliceOfSlices`: the index of the first slice containing
`checkInt`. -/
def IntInSliceOfSlices (sliceOfSlices : List (List Int)) (checkInt : Int) : Option Nat :=
  sliceOfSlices.findIdx? (fun slice => Contains slice checkInt)

/-- Go `UpdateAtomEquivalents`.  Go visits the vertex map in an unspecified
order; here its keys are visited in increasing order. -/
def UpdateAtomEquivalents (pathway : Pathway) (vertexMap : List (Int × Int)) : Pathway :=
  let keys := sortInts ((vertexMap.map Prod.fst).dedup)
  { pathway with
    atomEquivalents :=
      keys.foldl
        (fun classes originalInt =>
          let newInt := mapGet vertexMap originalInt
          if newInt ≠ originalInt then
            match IntInSliceOfSlices classes originalInt with
            | some index => classes.modify (fun c => c ++ [newInt]) index
            | none => classes ++ [[originalInt, newInt]]
          else classes)
        pathway.atomEquivalents }

/-- Go `PathwayEqual`: the same numbers of fragments and duplicates, remnants
and fragments equal by `GraphEquals`, and the duplicates equal by
`reflect.DeepEqual` (both slices nil or both not, and the same elements). -/
def PathwayEqual (pathwayLeft pathwayRight : Pathway) : Bool :=
  if pathwayLeft.pathway.length ≠ pathwayRight.pathway.length
      ∨ (elems pathwayLeft.duplicates).length ≠ (elems pathwayRight.duplicates).length then
    false
  else if !GraphEquals pathwayLeft.remnant pathwayRight.remnant then false
  else if !decide (pathwayLeft.duplicates = pathwayRight.duplicates) then false
  else (pathwayLeft.pathway.zip pathwayRight.pathway).all (fun lr => GraphEquals lr.1 lr.2)

/-- Go `CopyEdgeList`: the output starts as the nil slice (`var outputList
[][2]int`) and one edge is appended for every edge of the input. -/
def CopyEdgeList (inputList : Option (List (Int × Int))) : Option (List (Int × Int)) :=
  (elems inputList).foldl (fun outputList edge => appendTo outputList (edge.1, edge.2)) none

/-- Go `CopyDuplicates`: the output starts as the nil slice and one copy is
appended for every element of the input. -/
def CopyDuplicates (inputDuplicates : Option (List Duplicates)) : Option (List Duplicates) :=
  (elems inputDuplicates).foldl
    (fun outputDuplicates d =>
      let newLeft := CopyEdgeList d.left
      let newRight := CopyEdgeList d.right
      appendTo outputDuplicates { left := newLeft, right := newRight })
    none

/-- Go `CopyPathway`. -/
def CopyPathway (pathway : Pathway) : Pathway :=
  let newGraphs := pathway.pathway.map CopyGraph
  let newDuplicates := CopyDuplicates pathway.duplicates
  let newRemnant := CopyGraph pathway.remnant
  NewPathway newGraphs newRemnant newDuplicates pathway.atomEquivalents

/-! ## pkg/assembly/allsubgraphs.go -/

/-- Go `modifyEdgeAdjacencies`: the keys below `e` are deleted and the indices
below `e` are removed from every remaining slice. -/
def modifyEdgeAdjacencies (edgeAdj : Nat → List Nat) (e : Nat) : Nat → List Nat := fun k =>
  if k < e then [] else (edgeAdj k).filter (fun j => decide (¬ j < e))

/-- The variables that `NextSubgraph` takes and returns. -/
structure SubgraphTrace where
  edgeSubgraphs : List (List Nat)
  subCount : Nat
  sub : List Nat
  forbidden : Nat → Bool
  forbiddenSize : Nat → Option Nat

/-- Go `InitialiseSubsOnEdge`: the trace starts with the subgraph `[e]`. -/
def InitialiseSubsOnEdge (g : Graph) (e : Nat) : (Nat → List Nat) × SubgraphTrace :=
  (modifyEdgeAdjacencies (EdgeAdjacencies g) e,
    { edgeSubgraphs := [[e]], subCount := 1, sub := [e],
      forbidden := fun _ => false, forbiddenSize := fun _ => none })

/-- Go `NextSubgraph` (called with a non-empty `sub`): grow the subgraph by a
neighbour that is not forbidden, or else drop its last edge and forbid it. -/
def NextSubgraph (t : SubgraphTrace) (edgeAdjacencies : Nat → List Nat) (countMode : Bool) :
    SubgraphTrace :=
  match nonForbiddenNeighbour t.sub edgeAdjacencies t.forbidden with
  | some neighbour =>
    let sub := t.sub ++ [neighbour]
    { t with
      subCount := t.subCount + 1
      sub := sub
      edgeSubgraphs := if !countMode then t.edgeSubgraphs ++ [sub] else t.edgeSubgraphs }
  | none =>
    let thisForbidSize := t.sub.length
    let thisForbid := t.sub.getLastD 0
    let (forbidden, forbiddenSize) :=
      forbidUpdate thisForbid thisForbidSize t.forbidden t.forbiddenSize
    { t with sub := t.sub.dropLast, forbidden := forbidden, forbiddenSize := forbiddenSize }

/-- The loop `for len(sub) != 0` of `AllSubsOnEdge`, at most `fuel` rounds. -/
def subsLoop (edgeAdjacencies : Nat → List Nat) (countMode : Bool) :
    Nat → SubgraphTrace → SubgraphTrace
  | 0, t => t
  | fuel + 1, t =>
    if t.sub.length ≠ 0 then subsLoop edgeAdjacencies countMode fuel
      (NextSubgraph t edgeAdjacencies countMode)
    else t

/-- Go `AllSubsOnEdge`: the subgraphs sent on `c` (`nil` in count mode) and the
count sent on `cInt`.  Every round adds a new subgraph or drops the last edge
of one, so `2 ^ (|E| + 1)` rounds are enough. -/
def AllSubsOnEdge (g : Graph) (e : Nat) (countMode : Bool) : List (List Nat) × Nat :=
  let (edgeAdjacencies, t0) := InitialiseSubsOnEdge g e
  let t := subsLoop edgeAdjacencies countMode (2 ^ (g.Edges.length + 1)) t0
  (if !countMode then t.edgeSubgraphs else [], t.subCount)

/-- Go `AllSubgraphs`: the channels are read in the order of the edges, so the
result is the concatenation over the edges. -/
def AllSubgraphs (g : Graph) (countMode : Bool) : List (List Nat) × Nat :=
  (List.range g.Edges.length).foldl
    (fun acc i =>
      let r := AllSubsOnEdge g i countMode
      (acc.1 ++ r.1, acc.2 + r.2))
    ([], 0)

/-! ## pkg/assembly/assemblyparallel.go -/

/-- Go `EdgeSort`: every edge ordered, then the list sorted by first endpoint.
`sort.Slice` is an insertion sort for up to 12 elements, which keeps the order
of edges with the same first endpoint, and this is the sort embedded here; for
longer lists `sort.Slice` may order such edges otherwise, so what is stated for
lists of any length is stated for every rearrangement (`EdgeSortWith`). -/
def EdgeSort (edges : List (Int × Int)) : List (List Int) :=
  ((edges.map (fun e => sortInts [e.1, e.2])).insertionSort
    (fun a b => a.headD 0 ≤ b.headD 0))

/-- Go `Flatten`. -/
def Flatten (s : List (List Int)) : List Int := s.flatten

/-- Go `SubgraphEdgeCompare`. -/
def SubgraphEdgeCompare (left right : List (Int × Int)) : Bool :=
  SliceCompare (Flatten (EdgeSort left)) (Flatten (EdgeSort right))

/-- Go `BestPathwayListUpdate`: the value that `*bestPathways` holds after the
call.  The code reads `(*bestPathways)[0]`; `ExtendPathway` has ended with
`none` before it would pass an empty list, which is returned as it is. -/
def BestPathwayListUpdate (bestPathways : List Pathway) (newPathway : Pathway)
    (variant : String) : List Pathway :=
  match bestPathways with
  | [] => []
  | best :: _ =>
    let bestStepsSaved := PathwayStepsSaved best true
    let newStepsSaved := PathwayStepsSaved newPathway true
    if newStepsSaved > bestStepsSaved then [newPathway]
    else if newStepsSaved = bestStepsSaved ∧ variant = "all_shortest" then
      bestPathways ++ [newPathway]
    else bestPathways

/-- Go `ValidateVariants`. -/
def ValidateVariants (variant : String) : Bool :=
  ContainsStr ["shortest", "all_shortest", "all"] variant

/-- The state that the workers share: the best pathways, the jobs queue (a
buffered channel) and the counter of active jobs. -/
structure Pool where
  bestPathways : List Pathway
  jobs : List Pathway
  activeWorkers : Int

/-- Go `WorkerCounter.Increment`: a counter of `-1` is set to `1`, any other
counter is raised by 1. -/
def Increment (activeWorkers : Int) : Int :=
  if activeWorkers = -1 then 1 else activeWorkers + 1

/-- The new pathway that `CheckSubgraphMatches` builds for a match: the
subgraph becomes a fragment and the duplicate stays in the remnant, detached. -/
def matchPathway (currentPathway : Pathway) (subgraph possibleDuplicate newRemnant : Graph) :
    Pathway :=
  let newPathway := CopyPathway currentPathway
  let newPathway1 := { newPathway with pathway := newPathway.pathway ++ [CopyGraph subgraph] }
  let dupLeft := CopyEdgeList (some subgraph.Edges)
  let dupRight := CopyEdgeList (some possibleDuplicate.Edges)
  let newDuplicate : Duplicates := { left := dupLeft, right := dupRight }
  let newPathway2 :=
    { newPathway1 with duplicates := appendTo newPathway1.duplicates newDuplicate }
  let (newGraph, vertexMap) := RecombineGraphs newRemnant possibleDuplicate
  let newPathway3 := { newPathway2 with remnant := CopyGraph newGraph }
  UpdateAtomEquivalents newPathway3 vertexMap

mutual

/-- Go `ExtendPathway`, run by one worker; `none` is a fatal error (or the bound
`fuel` on the number of loop rounds used up). -/
def ExtendPathway (originalGraph : Graph) (variant : String) (chanBufferSize : Nat) :
    Nat → Pathway → Pool → Option Pool
  | 0, _, _ => none
  | fuel + 1, currentPathway, pool =>
    match pool.bestPathways with
    | [] => none
    | best :: _ =>
      if AssemblyIndex best originalGraph < BestAssemblyIndex originalGraph currentPathway then
        some { pool with activeWorkers := pool.activeWorkers - 1 }
      else
        let pool1 :=
          { pool with
            bestPathways := BestPathwayListUpdate pool.bestPathways currentPathway variant }
        match extendAnchors originalGraph variant chanBufferSize fuel currentPathway
            (List.range currentPathway.remnant.Edges.length)
            (fun _ => false) (fun _ => none) pool1 with
        | none => none
        | some (_, _, pool2) => some { pool2 with activeWorkers := pool2.activeWorkers - 1 }

/-- The loop `for i := 0; i < len(currentPathway.remnant.Edges); i++` of
`ExtendPathway`. -/
def extendAnchors (originalGraph : Graph) (variant : String) (chanBufferSize : Nat) :
    Nat → Pathway → List Nat → (Nat → Bool) → (Nat → Option Nat) → Pool →
      Option ((Nat → Bool) × (Nat → Option Nat) × Pool)
  | 0, _, _, _, _, _ => none
  | _ + 1, _, [], forbidden, forbiddenSize, pool => some (forbidden, forbiddenSize, pool)
  | fuel + 1, currentPathway, i :: rest, forbidden, forbiddenSize, pool =>
    match extendLoop originalGraph variant chanBufferSize fuel currentPathway [i]
        forbidden forbiddenSize pool with
    | none => none
    | some (forbidden1, forbiddenSize1, pool1) =>
      extendAnchors originalGraph variant chanBufferSize fuel currentPathway rest
        forbidden1 forbiddenSize1 pool1

/-- The inner loop `for { ... }` of `ExtendPathway` for one starting edge. -/
def extendLoop (originalGraph : Graph) (variant : String) (chanBufferSize : Nat) :
    Nat → Pathway → List Nat → (Nat → Bool) → (Nat → Option Nat) → Pool →
      Option ((Nat → Bool) × (Nat → Option Nat) × Pool)
  | 0, _, _, _, _, _ => none
  | fuel + 1, currentPathway, sub, forbidden, forbiddenSize, pool =>
    let sizesToCheck := currentPathway.remnant.Edges.length / 2
    let edgeAdjacencies := EdgeAdjacencies currentPathway.remnant
    let grown : Option (Option (List Nat × Bool × Pool)) :=
      match nonForbiddenNeighbour sub edgeAdjacencies forbidden with
      | some neighbour =>
        if sub.length ≤ sizesToCheck then
          let sub1 := sub ++ [neighbour]
          match BreakGraphOnEdges currentPathway.remnant sub1 with
          | none => none
          | some (subgraph, remnant) =>
            if sub1.length > 1 then
              match CheckSubgraphMatches originalGraph variant chanBufferSize fuel
                  currentPathway subgraph remnant pool with
              | none => none
              | some (m, pool1) => some (some (sub1, m, pool1))
            else some (some (sub1, true, pool))
        else some none
      | none => some none
    match grown with
    | none => none
    | some (some (sub1, true, pool1)) =>
      extendLoop originalGraph variant chanBufferSize fuel currentPathway sub1
        forbidden forbiddenSize pool1
    | some other =>
      let sub2 := match other with
        | some (sub1, _, _) => sub1
        | none => sub
      let pool2 := match other with
        | some (_, _, pool1) => pool1
        | none => pool
      let thisForbidSize := sub2.length
      let thisForbid := sub2.getLastD 0
      let sub3 := sub2.dropLast
      let (forbidden1, forbiddenSize1) :=
        forbidUpdate thisForbid thisForbidSize forbidden forbiddenSize
      if sub3.length = 0 then some (forbidden1, forbiddenSize1, pool2)
      else
        extendLoop originalGraph variant chanBufferSize fuel currentPathway sub3
          forbidden1 forbiddenSize1 pool2

/-- Go `CheckSubgraphMatches`: whether the subgraph has a match in the rest of
the remnant; every match gives a new pathway, queued or extended at once. -/
def CheckSubgraphMatches (originalGraph : Graph) (variant : String) (chanBufferSize : Nat) :
    Nat → Pathway → Graph → Graph → Pool → Option (Bool × Pool)
  | 0, _, _, _, _ => none
  | fuel + 1, currentPathway, subgraph, remnant, pool =>
    match checkAnchors originalGraph variant chanBufferSize fuel currentPathway subgraph
        remnant (List.range remnant.Edges.length) (fun _ => false) (fun _ => none)
        false pool with
    | none => none
    | some (_, _, m, pool1) => some (m, pool1)

/-- The loop `for i := 0; i < len(remnant.Edges); i++` of
`CheckSubgraphMatches`. -/
def checkAnchors (originalGraph : Graph) (variant : String) (chanBufferSize : Nat) :
    Nat → Pathway → Graph → Graph → List Nat → (Nat → Bool) → (Nat → Option Nat) →
      Bool → Pool → Option ((Nat → Bool) × (Nat → Option Nat) × Bool × Pool)
  | 0, _, _, _, _, _, _, _, _ => none
  | _ + 1, _, _, _, [], forbidden, forbiddenSize, m, pool =>
    some (forbidden, forbiddenSize, m, pool)
  | fuel + 1, currentPathway, subgraph, remnant, i :: rest, forbidden, forbiddenSize, m, pool =>
    match checkLoop originalGraph variant chanBufferSize fuel currentPathway subgraph remnant
        [i] forbidden forbiddenSize m pool with
    | none => none
    | some (forbidden1, forbiddenSize1, m1, pool1) =>
      checkAnchors originalGraph variant chanBufferSize fuel currentPathway subgraph remnant
        rest forbidden1 forbiddenSize1 m1 pool1

/-- The inner loop `for { ... }` of `CheckSubgraphMatches` for one starting
edge. -/
def checkLoop (originalGraph : Graph) (variant : String) (chanBufferSize : Nat) :
    Nat → Pathway → Graph → Graph → List Nat → (Nat → Bool) → (Nat → Option Nat) →
      Bool → Pool → Option ((Nat → Bool) × (Nat → Option Nat) × Bool × Pool)
  | 0, _, _, _, _, _, _, _, _ => none
  | fuel + 1, currentPathway, subgraph, remnant, sub, forbidden, forbiddenSize, m, pool =>
    let k := subgraph.Edges.length
    let edgeAdjacencies := EdgeAdjacencies remnant
    match nonForbiddenNeighbour sub edgeAdjacencies forbidden with
    | some neighbour =>
      if sub.length ≤ k then
        let sub1 := sub ++ [neighbour]
        if sub1.length = k then
          match BreakGraphOnEdges remnant sub1 with
          | none => none
          | some (possibleDuplicate, newRemnant) =>
            let isMatch : Option Bool :=
              if SubgraphEdgeCompare subgraph.Edges possibleDuplicate.Edges then
                GraphsIsomorphic subgraph possibleDuplicate
              else some false
            match isMatch with
            | none => none
            | some false =>
              checkLoop originalGraph variant chanBufferSize fuel currentPathway subgraph
                remnant sub1 forbidden forbiddenSize m pool
            | some true =>
              let newPathway := matchPathway currentPathway subgraph possibleDuplicate newRemnant
              if pool.jobs.length < chanBufferSize then
                checkLoop originalGraph variant chanBufferSize fuel currentPathway subgraph
                  remnant sub1 forbidden forbiddenSize true
                  { pool with
                    jobs := pool.jobs ++ [newPathway]
                    activeWorkers := Increment pool.activeWorkers }
              else
                match ExtendPathway originalGraph variant chanBufferSize fuel newPathway
                    { pool with activeWorkers := Increment pool.activeWorkers } with
                | none => none
                | some pool1 =>
                  checkLoop originalGraph variant chanBufferSize fuel currentPathway subgraph
                    remnant sub1 forbidden forbiddenSize true pool1
        else
          checkLoop originalGraph variant chanBufferSize fuel currentPathway subgraph remnant
            sub1 forbidden forbiddenSize m pool
      else
        let (forbidden1, forbiddenSize1) :=
          forbidUpdate (sub.getLastD 0) sub.length forbidden forbiddenSize
        if sub.dropLast.length = 0 then some (forbidden1, forbiddenSize1, m, pool)
        else
          checkLoop originalGraph variant chanBufferSize fuel currentPathway subgraph remnant
            sub.dropLast forbidden1 forbiddenSize1 m pool
    | none =>
      let (forbidden1, forbiddenSize1) :=
        forbidUpdate (sub.getLastD 0) sub.length forbidden forbiddenSize
      if sub.dropLast.length = 0 then some (forbidden1, forbiddenSize1, m, pool)
      else
        checkLoop originalGraph variant chanBufferSize fuel currentPathway subgraph remnant
          sub.dropLast forbidden1 forbiddenSize1 m pool

end

/-- Go `Worker` for a single worker: take a pathway from the queue, extend it,
and signal `done` when no job is active; `none` when the worker blocks on an
empty queue for ever or a fatal error ends the program. -/
def Worker (graph : Graph) (variant : String) (chanBufferSize : Nat) :
    Nat → Pool → Option (List Pathway)
  | 0, _ => none
  | fuel + 1, pool =>
    match pool.jobs with
    | [] => none
    | currentPathway :: rest =>
      match ExtendPathway graph variant chanBufferSize fuel currentPathway
          { pool with jobs := rest } with
      | none => none
      | some pool1 =>
        if pool1.activeWorkers = 0 then some pool1.bestPathways
        else Worker graph variant chanBufferSize fuel pool1

/-- Go `AssemblyPathway` with one worker goroutine (`numWorkers = 1`): the best
pathways when `done` is signalled.  `fuel` bounds the rounds of every loop;
`none` is a fatal error, a deadlock or the bound used up. -/
def AssemblyPathway (fuel : Nat) (graph : Graph) (initPathway : Pathway)
    (chanBufferSize : Nat) (variant : String) : Option (List Pathway) :=
  if !ValidateVariants variant then none
  else if chanBufferSize = 0 then none
  else
    Worker graph variant chanBufferSize fuel
      { bestPathways := [initPathway], jobs := [initPathway], activeWorkers := 1 }

/-- Go `Assembly` with one worker goroutine. -/
def Assembly (fuel : Nat) (graph : Graph) (chanBufferSize : Nat) (variant : String) :
    Option (List Pathway) :=
  AssemblyPathway fuel graph (NewStartingPathway graph) chanBufferSize variant

/-! ## Test graphs (testdata/graphs) -/

/-- The triangle of `testdata/graphs/triangle.txt`. -/
def triangle : Graph := NewGraph [0, 1, 2] [(0, 1), (1, 2), (2, 0)]

/-- The square of `testdata/graphs/square.txt`. -/
def square : Graph := NewGraph [1, 2, 3, 4] [(1, 2), (2, 3), (3, 4), (4, 1)]

/-- The 3x3 grid of `testdata/graphs/nine_grid.txt`. -/
def nineGrid : Graph :=
  NewGraph [1, 2, 3, 4, 5, 6, 7, 8, 9]
    [(1, 2), (2, 3), (4, 5), (5, 6), (7, 8), (8, 9),
     (1, 4), (4, 7), (2, 5), (5, 8), (3, 6), (6, 9)]

/-- Two disjoint paths of three edges each, with vertex labels 1..8. -/
def twoPaths : Graph :=
  NewGraph [1, 2, 3, 4, 5, 6, 7, 8] [(5, 4), (7, 4), (2, 3), (1, 7), (8, 3), (6, 8)]

/-- A triangle on 1, 2, 3 and a four-cycle on 4, 5, 6, 7. -/
def triangleSquare : Graph :=
  NewGraph [1, 2, 3, 4, 5, 6, 7] [(1, 2), (2, 3), (3, 1), (4, 5), (5, 6), (6, 7), (7, 4)]

/-- The graph `triangleSquare` relabelled: the triangle on 5, 6, 7 and the
four-cycle on 1, 2, 3, 4. -/
def squareTriangle : Graph :=
  NewGraph [1, 2, 3, 4, 5, 6, 7] [(5, 6), (6, 7), (7, 5), (1, 2), (2, 3), (3, 4), (4, 1)]

/-- The relabelling that turns `triangleSquare` into `squareTriangle`. -/
def shiftLabels (v : Int) : Int := if v ≤ 3 then v + 4 else v - 3

/-! ## Notions used to state the properties -/

/-- A graph with vertices but no edge. -/
def twoAtoms : Graph := NewGraph [1, 2] []

/-- The edges of the fragments and of the remnant add up to the edges of the
original graph, and no fragment is empty. -/
def PathwayInv (G : Graph) (P : Pathway) : Prop :=
  (P.pathway.map (fun f => f.Edges.length)).sum + P.remnant.Edges.length = G.Edges.length
    ∧ ∀ f ∈ P.pathway, 1 ≤ f.Edges.length

/-- Every queued pathway satisfies `PathwayInv`. -/
def JobsInv (G : Graph) (pool : Pool) : Prop := ∀ P ∈ pool.jobs, PathwayInv G P

/-- The six parts of the invariant of the search, for one bound on the rounds. -/
def SearchInv (G : Graph) (variant : String) (cap fuel : Nat) : Prop :=
  (∀ P pool pool', PathwayInv G P → JobsInv G pool →
      ExtendPathway G variant cap fuel P pool = some pool' → JobsInv G pool')
  ∧ (∀ P anchors F FS pool r, PathwayInv G P → JobsInv G pool →
      extendAnchors G variant cap fuel P anchors F FS pool = some r → JobsInv G r.2.2)
  ∧ (∀ P sub F FS pool r, PathwayInv G P → JobsInv G pool →
      extendLoop G variant cap fuel P sub F FS pool = some r → JobsInv G r.2.2)
  ∧ (∀ P subgraph remnant pool r, PathwayInv G P → JobsInv G pool →
      subgraph.Edges.length + remnant.Edges.length = P.remnant.Edges.length →
      1 ≤ subgraph.Edges.length →
      CheckSubgraphMatches G variant cap fuel P subgraph remnant pool = some r →
      JobsInv G r.2)
  ∧ (∀ P subgraph remnant anchors F FS m pool r, PathwayInv G P → JobsInv G pool →
      subgraph.Edges.length + remnant.Edges.length = P.remnant.Edges.length →
      1 ≤ subgraph.Edges.length →
      checkAnchors G variant cap fuel P subgraph remnant anchors F FS m pool = some r →
      JobsInv G r.2.2.2)
  ∧ (∀ P subgraph remnant sub F FS m pool r, PathwayInv G P → JobsInv G pool →
      subgraph.Edges.length + remnant.Edges.length = P.remnant.Edges.length →
      1 ≤ subgraph.Edges.length →
      checkLoop G variant cap fuel P subgraph remnant sub F FS m pool = some r →
      JobsInv G r.2.2.2)

/-- Two edges of the graph, given by their indices, share an endpoint. -/
def EdgeAdjacent (g : Graph) (i j : Nat) : Prop :=
  i ≠ j ∧ ∃ e1 e2, g.Edges[i]? = some e1 ∧ g.Edges[j]? = some e2
    ∧ (e1.1 = e2.1 ∨ e1.1 = e2.2 ∨ e1.2 = e2.1 ∨ e1.2 = e2.2)

/-- Two edges are linked by a chain of edges in which consecutive edges share
an endpoint. -/
def EdgeLinked (g : Graph) : Nat → Nat → Prop := Relation.ReflTransGen (EdgeAdjacent g)

/-- The list `cs` lists the connected components of the graph over its edges:
every edge index occurs in exactly one list and exactly once, no list is empty,
and two indices are in the same list exactly when they are linked. -/
def IsComponentList (g : Graph) (cs : List (List Nat)) : Prop :=
  cs.flatten.Perm (List.range g.Edges.length)
    ∧ (∀ c ∈ cs, c ≠ [])
    ∧ ∀ c ∈ cs, ∀ i ∈ c, ∀ j, j ∈ c ↔ EdgeLinked g i j

/-- The invariant of the loop of `ConnectedComponent`. -/
def ComponentInv (g : Graph) (start i : Nat) (comp : List Nat) : Prop :=
  comp.Nodup ∧ start ∈ comp ∧ (∀ x ∈ comp, EdgeLinked g start x)
    ∧ (∀ x ∈ comp, x < g.Edges.length) ∧ i ≤ comp.length
    ∧ ∀ k, k < i → ∀ x, comp[k]? = some x → ∀ j ∈ EdgeAdjacencies g x, j ∈ comp

/-- The invariant of the loop of `ConnectedComponentEdges`. -/
def ComponentsInv (g : Graph) (st : List Nat × List (List Nat)) : Prop :=
  st.1 = st.2.flatten ∧ st.2.flatten.Nodup ∧ (∀ c ∈ st.2, c ≠ [])
    ∧ (∀ c ∈ st.2, ∀ i ∈ c, ∀ j, j ∈ c ↔ EdgeLinked g i j)
    ∧ ∀ x ∈ st.1, x < g.Edges.length

/-- The set `S` of edge indices is connected: any two of its edges are linked by
a chain of edges of `S` in which consecutive edges share an endpoint. -/
def ConnectedSet (g : Graph) (S : Finset Nat) : Prop :=
  ∀ a ∈ S, ∀ b ∈ S,
    Relation.ReflTransGen (fun x y => x ∈ S ∧ y ∈ S ∧ EdgeAdjacent g x y) a b

/-- The invariant of the path trace: every forbidden edge was forbidden at a
size of at most the current size plus one. -/
def TraceInv (t : SubgraphTrace) : Prop :=
  ∀ k, t.forbidden k = true → ∃ v, t.forbiddenSize k = some v ∧ v ≤ t.sub.length + 1

/-- The number of edges that are neither in the current subgraph nor
forbidden. -/
def freeEdges (g : Graph) (t : SubgraphTrace) : Nat :=
  ((List.range g.Edges.length).filter
    (fun k => decide (k ∉ t.sub) && !t.forbidden k)).length

/-- What the path trace needs before it explores the subgraphs that extend the
current one: the current subgraph is a non-empty connected list of distinct
edge indices from `e` on. -/
structure TracePre (g : Graph) (e : Nat) (t : SubgraphTrace) : Prop where
  nonempty : t.sub ≠ []
  valid : ∀ x ∈ t.sub, e ≤ x ∧ x < g.Edges.length
  nodup : t.sub.Nodup
  connected : ConnectedSet g t.sub.toFinset
  inv : TraceInv t

/-- What the path trace has done when it drops the last edge of the subgraph
it started from: `T` rounds led from `t` to `t'` and added the subgraphs `out`,
which are exactly the connected subgraphs that extend the subgraph of `t` with
edges that are not forbidden, each once. -/
structure TraceRun (g : Graph) (e : Nat) (m : Nat) (t t' : SubgraphTrace) (T : Nat)
    (out : List (List Nat)) : Prop where
  rounds : T + 1 ≤ 2 ^ (m + 1)
  run : ∀ fuel, subsLoop (modifyEdgeAdjacencies (EdgeAdjacencies g) e) false (T + fuel) t
    = subsLoop (modifyEdgeAdjacencies (EdgeAdjacencies g) e) false fuel t'
  sub_eq : t'.sub = t.sub.dropLast
  subgraphs_eq : t'.edgeSubgraphs = t.edgeSubgraphs ++ out
  count_eq : t'.subCount = t.subCount + out.length
  forbidden_iff : ∀ k, t'.forbidden k = true ↔
    (k = t.sub.getLastD 0
      ∨ (t.forbidden k = true ∧ ∃ v, t.forbiddenSize k = some v ∧ v ≤ t.sub.length))
  size_last : t'.forbiddenSize (t.sub.getLastD 0) = some t.sub.length
  size_keep : ∀ k, k ≠ t.sub.getLastD 0 → t.forbidden k = true →
    t'.forbiddenSize k = t.forbiddenSize k
  sound : ∀ l ∈ out, ∃ ext, ext ≠ [] ∧ l = t.sub ++ ext ∧ l.Nodup
    ∧ (∀ x ∈ l, e ≤ x ∧ x < g.Edges.length) ∧ ConnectedSet g l.toFinset
    ∧ ∀ x ∈ ext, t.forbidden x = false
  complete : ∀ S : Finset Nat, ConnectedSet g S → t.sub.toFinset ⊂ S →
    (∀ x ∈ S, e ≤ x ∧ x < g.Edges.length) →
    (∀ x ∈ S, x ∉ t.sub → t.forbidden x = false) → ∃ l ∈ out, l.toFinset = S
  distinct : (out.map List.toFinset).Nodup

/-- The pathways of a graph: the starting pathway, and every pathway that
`CheckSubgraphMatches` builds and puts on the jobs queue while `ExtendPathway`
extends a pathway already obtained (with a queue long enough every pathway
built is put on the queue). -/
inductive Reachable (G : Graph) : Pathway → Prop
  | start : Reachable G (NewStartingPathway G)
  | step (P P' : Pathway) (variant : String) (cap fuel : Nat) (best : List Pathway)
      (active : Int) (pool' : Pool) :
      Reachable G P →
      ExtendPathway G variant cap fuel P
        { bestPathways := best, jobs := [], activeWorkers := active } = some pool' →
      P' ∈ pool'.jobs → Reachable G P'

/-! ## Notions used for labels within the range of `int` -/

/-- The loop of `recombineVertices` with the new labels computed in the
integers, without the wrap-around of `int`. -/
def recombineVerticesZ :
    List Int → List Int × Int × List (Int × Int) → List Int × Int × List (Int × Int)
  | [], st => st
  | vertex :: rest, (outputVertices, nextVertex, vertexMap) =>
    if Contains outputVertices vertex then
      recombineVerticesZ rest
        (outputVertices ++ [nextVertex], nextVertex + 1, (vertex, nextVertex) :: vertexMap)
    else
      recombineVerticesZ rest (outputVertices ++ [vertex], nextVertex, (vertex, vertex) :: vertexMap)

/-- The graph of `RecombineGraphs` with the new labels computed in the integers;
it is the result of `RecombineGraphs` when no new label exceeds `MaxInt64`. -/
def RecombineGraphsZ (graphLeft graphRight : Graph) : Graph × List (Int × Int) :=
  let leftEdgeColours := if GraphIsEdgeColoured graphLeft then graphLeft.EdgeColours else []
  let leftVertexColours :=
    if GraphIsVertexColoured graphLeft then graphLeft.VertexColours else []
  let maxVertexLeft := MaxIntSlice graphLeft.Vertices
  let maxVertexRight := MaxIntSlice graphRight.Vertices
  let nextVertex := MaxIntSlice [maxVertexLeft, maxVertexRight] + 1
  let (outputVertices, _, vertexMap) :=
    recombineVerticesZ graphRight.Vertices (graphLeft.Vertices, nextVertex, [])
  let rightVertexColours :=
    if GraphIsVertexColoured graphRight then graphRight.VertexColours else []
  let rightEdges := graphRight.Edges.map (fun e => (mapGet vertexMap e.1, mapGet vertexMap e.2))
  let rightEdgeColours := if GraphIsEdgeColoured graphRight then graphRight.EdgeColours else []
  (NewColourGraph outputVertices (graphLeft.Edges ++ rightEdges)
      (leftVertexColours ++ rightVertexColours) (leftEdgeColours ++ rightEdgeColours),
    vertexMap)

/-- The loop `layerLoop` with the new labels computed in the integers. -/
def layerLoopZ (v : Int) (colour : String) :
    List Nat → Graph × Int × List Int → Graph × Int × List Int
  | [], st => st
  | i :: rest, (outGraph, nextVertex, layers) =>
    if i = 0 then
      layerLoopZ v colour rest
        ({ outGraph with
            Vertices := outGraph.Vertices ++ [v]
            VertexColours := outGraph.VertexColours ++ [colour ++ toString i] },
          nextVertex, layers ++ [v])
    else
      layerLoopZ v colour rest
        ({ outGraph with
            Vertices := outGraph.Vertices ++ [nextVertex]
            Edges := outGraph.Edges ++ [(layers.getLastD 0, nextVertex)]
            VertexColours := outGraph.VertexColours ++ [colour ++ toString i] },
          nextVertex + 1, layers ++ [nextVertex])

/-- The loop `vertexLayersLoop` with the new labels computed in the integers. -/
def vertexLayersLoopZ (numLayers : Nat) :
    List Int → List String → Graph × Int × List (Int × List Int) →
      Option (Graph × Int × List (Int × List Int))
  | [], _, st => some st
  | _ :: _, [], _ => none
  | v :: vs, c :: cs, (outGraph, nextVertex, vertexMap) =>
    let (outGraph1, nextVertex1, layers) :=
      layerLoopZ v c (List.range numLayers) (outGraph, nextVertex, [])
    vertexLayersLoopZ numLayers vs cs (outGraph1, nextVertex1, (v, layers) :: vertexMap)

/-- The layered graph of `EdgeColourConversion` with the new labels computed in
the integers; it is the result of `EdgeColourConversion` when no new label
exceeds `MaxInt64`. -/
def EdgeColourConversionZ (graph : Graph) : Option Graph :=
  if graph.EdgeColours.length < 2 then some (CopyGraph graph)
  else
    let outGraph := NewColourGraph [] [] [] []
    let nextVertex := MaxIntSlice graph.Vertices + 1
    let edgeColours := sortStrings (distinctStrings graph.EdgeColours)
    let numLayers := edgeColours.length
    match vertexLayersLoopZ numLayers graph.Vertices graph.VertexColours
        (outGraph, nextVertex, []) with
    | none => none
    | some (outGraph1, _, vertexMap) =>
      edgeLayersLoop edgeColours vertexMap graph.Edges graph.EdgeColours outGraph1

/-- The test `GraphsIsomorphic` with the layered graphs of
`EdgeColourConversionZ`. -/
def GraphsIsomorphicZ (graphLeft graphRight : Graph) : Option Bool :=
  if !CanonicalInitialCheck graphLeft graphRight then some false
  else
    let relabelled : Option Graph :=
      if graphLeft.Vertices = graphRight.Vertices then some graphRight
      else GraphVertexRelabel graphRight graphLeft.Vertices
    match relabelled with
    | none => none
    | some right0 =>
      let converted : Option (Graph × Graph) :=
        if graphLeft.Edges.length = graphLeft.EdgeColours.length then
          match EdgeColourConversionZ graphLeft with
          | none => none
          | some l =>
            match EdgeColourConversionZ right0 with
            | none => none
            | some r => some (l, r)
        else some (graphLeft, right0)
      match converted with
      | none => none
      | some (checkGraphLeft, checkGraphRight) =>
        match GraphColourPartition checkGraphLeft with
        | none => none
        | some partLeft =>
          match SearchTree checkGraphLeft partLeft true with
          | none => none
          | some canonicalLeft =>
            match GraphColourPartition checkGraphRight with
            | none => none
            | some partRight =>
              match SearchTree checkGraphRight partRight true with
              | none => none
              | some canonicalRight => some (GraphEquals canonicalLeft canonicalRight)

/-- The labels of the layered graph of `G` fit in an `int`: the largest label
that `MaxIntSlice` finds, with one new label for every vertex and every layer,
stays below `MaxInt64`. -/
def LabelsFit (G : Graph) : Prop :=
  MaxIntSlice G.Vertices
      + (((sortStrings (distinctStrings G.EdgeColours)).length * G.Vertices.length : Nat) : Int)
    < MaxInt64

instance decidableLabelsFit (G : Graph) : Decidable (LabelsFit G) := by
  unfold LabelsFit
  infer_instance

/-- The labels of the recombination of `L` and `R` fit in an `int`: the largest
label of the two graphs, with one new label for every vertex of `R`, stays
below `MaxInt64`. -/
def RecombineFits (L R : Graph) : Prop :=
  MaxIntSlice [MaxIntSlice L.Vertices, MaxIntSlice R.Vertices] + (R.Vertices.length : Int)
    < MaxInt64

instance decidableRecombineFits (L R : Graph) : Decidable (RecombineFits L R) := by
  unfold RecombineFits
  infer_instance

/-- A graph on the largest and the two smallest values of `int`: an edge of
colour `a` between the two smallest labels and a loop of colour `b` at the
largest label. -/
def wrapGraph : Graph :=
  NewColourGraph [9223372036854775807, -9223372036854775808, -9223372036854775807]
    [(-9223372036854775808, -9223372036854775807), (9223372036854775807, 9223372036854775807)]
    ["c", "c", "c"] ["a", "b"]

/-- A graph on the labels of `wrapGraph`: an edge of colour `b` between the
largest and the smallest label and a loop of colour `a` at the smallest
label. -/
def wrapGraphTwin : Graph :=
  NewColourGraph [9223372036854775807, -9223372036854775808, -9223372036854775807]
    [(9223372036854775807, -9223372036854775808), (-9223372036854775808, -9223372036854775808)]
    ["c", "c", "c"] ["b", "a"]

/-- The graph `wrapGraphTwin` on the labels 1, 2, 3: an edge of colour `b`
between 1 and 2 and a loop of colour `a` at 2. -/
def smallTwin : Graph := NewColourGraph [1, 2, 3] [(1, 2), (2, 2)] ["c", "c", "c"] ["b", "a"]

/-- Two vertices and no edge, one vertex with the largest value of `int`. -/
def maxLabels : Graph := NewGraph [9223372036854775807, 1] []

/-! ## Notions used for the canonical graph of a relabelled graph -/

/-- An edge written with its smaller endpoint first, the way `ListPairSort` and
`orderEdgeColourMap` write it. -/
def orientEdge (e : Int × Int) : Int × Int :=
  if e.1 < e.2 then (e.1, e.2) else (e.2, e.1)

/-- An edge with both endpoints relabelled. -/
def relabelEdge (σ : Int → Int) (e : Int × Int) : Int × Int := (σ e.1, σ e.2)

/-- The edge colours that `PermuteGraph` copies: those of an edge-coloured
graph, none otherwise. -/
def copiedEdgeColours (g : Graph) : List String :=
  if g.EdgeColours.length = g.Edges.length then g.EdgeColours else []

/-- Two graphs that `GraphEquals` and `GraphGreaterThan` cannot tell apart:
the same edges and edge colours once the edges are oriented and sorted, and the
same coloured vertices listed in a different order. -/
structure CandRel (A B : Graph) : Prop where
  edges : ListPairSort A.Edges = ListPairSort B.Edges
  edgeLen : A.Edges.length = B.Edges.length
  edgeColourLen : A.EdgeColours.length = B.EdgeColours.length
  edgeColours : B.Edges.length = B.EdgeColours.length →
    (EdgeColourMap A).map orderedEdgeMapContent = (EdgeColourMap B).map orderedEdgeMapContent
  vertices : A.Vertices.Perm B.Vertices
  nodup : B.Vertices.Nodup
  colourLen : A.VertexColours.length = B.VertexColours.length
  colours : B.VertexColours.length = B.Vertices.length →
    (A.Vertices.zip A.VertexColours).Perm (B.Vertices.zip B.VertexColours)

/-- The graph `H` is the graph `G` with every vertex label `v` replaced by
`σ v`.  The two graphs have the same set of labels, and `σ` maps the coloured
vertices and the edges of `G` onto those of `H`.  For the edge colours either
the edge lists correspond position by position, or the edges correspond in any
order and orientation and, when they are coloured, `G` has no parallel edges
and every endpoint is a vertex. -/
structure GraphRel (σ : Int → Int) (G H : Graph) : Prop where
  inj : Function.Injective σ
  nodup : G.Vertices.Nodup
  labels : H.Vertices.Perm G.Vertices
  vertices : H.Vertices.Perm (G.Vertices.map σ)
  edges : (H.Edges.map orientEdge).Perm ((G.Edges.map (relabelEdge σ)).map orientEdge)
  edgeColours :
    (H.Edges = G.Edges.map (relabelEdge σ) ∧ copiedEdgeColours H = copiedEdgeColours G) ∨
    ((H.EdgeColours.length = H.Edges.length ↔ G.EdgeColours.length = G.Edges.length) ∧
      (G.EdgeColours.length = G.Edges.length →
        (G.Edges.map orientEdge).Nodup ∧
        (∀ e ∈ G.Edges, e.1 ∈ G.Vertices ∧ e.2 ∈ G.Vertices) ∧
        ((H.Edges.zip H.EdgeColours).map (fun ec => (orientEdge ec.1, ec.2))).Perm
          ((G.Edges.zip G.EdgeColours).map
            (fun ec => (orientEdge (relabelEdge σ ec.1), ec.2)))))
  colourLen : G.Vertices ≠ [] →
    (H.VertexColours.length = H.Vertices.length ↔ G.VertexColours.length = G.Vertices.length)
  colours : G.Vertices ≠ [] → G.VertexColours.length = G.Vertices.length →
    (H.Vertices.zip H.VertexColours).Perm
      ((G.Vertices.zip G.VertexColours).map (fun vc => (σ vc.1, vc.2)))

/-- Two states of the search that differ only in graphs that the comparison of
candidates cannot tell apart. -/
structure StateRel (sH sG : SearchState) : Prop where
  store : sH.store = sG.store
  canonical : CandRel sH.canonicalGraph sG.canonicalGraph
  automorphisms : List.Forall₂ CandRel sH.automorphisms sG.automorphisms
  levels : sH.automorphismLevels = sG.automorphismLevels
  backtrack : sH.backtrack = sG.backtrack
  backtrackLevel : sH.backtrackLevel = sG.backtrackLevel

/-- Two runs end the same way: both with a fatal error, or both with results
that are related. -/
def SameOutcome {α β : Type} (r : α → β → Prop) : Option α → Option β → Prop
  | some a, some b => r a b
  | none, none => True
  | _, _ => False

/-- The number of vertices of a partition beyond one per part: it is zero
exactly for a discrete partition, and it bounds both the number of rounds of
`EquitableRefinement` and the depth of the search tree. -/
def slack (p : List (List Int)) : Nat := (p.map (fun part => part.length - 1)).sum

/-- The relabelling of the vertices that `PermuteGraph` and `PermuteColouring`
apply for the permutation `q`; labels that are not vertices stay. -/
def permuteLabel (G : Graph) (q : List Int) (x : Int) : Int :=
  if x ∈ G.Vertices then mapGet (q.zip (sortInts G.Vertices)).reverse x else x

/-- An edge between a vertex of colour `a` and a vertex of colour `b`. -/
def colouredEdgeA : Graph := NewColourGraph [1, 2] [(1, 2)] ["a", "b"] []

/-- The graph `colouredEdgeA` with its two labels exchanged. -/
def colouredEdgeB : Graph := NewColourGraph [1, 2] [(2, 1)] ["b", "a"] []

/-- The exchange of the labels 1 and 2. -/
def swapLabels (v : Int) : Int := 3 - v

/-- Two parallel edges of colours `a` and `b`. -/
def doubleEdgeA : Graph := NewColourGraph [1, 2] [(1, 2), (1, 2)] [] ["a", "b"]

/-- The graph `doubleEdgeA` with its two edges listed in the other order. -/
def doubleEdgeB : Graph := NewColourGraph [1, 2] [(1, 2), (1, 2)] [] ["b", "a"]

/-- Two vertices of different colours and no edge. -/
def colouredAtoms : Graph := NewColourGraph [1, 2] [] ["a", "b"] []

/-- A path of three coloured vertices and two coloured edges. -/
def colouredPath : Graph := NewColourGraph [1, 2, 3] [(1, 2), (2, 3)] ["a", "b", "c"] ["x", "y"]

/-- The graph `colouredPath` with the labels 1 and 3 exchanged, its vertices and
edges listed in another order and its edges in the other orientation. -/
def colouredPathRelabelled : Graph :=
  NewColourGraph [2, 3, 1] [(2, 1), (3, 2)] ["b", "a", "c"] ["y", "x"]

/-- The exchange of the labels 1 and 3. -/
def mirrorLabels (v : Int) : Int := 4 - v

/-! ## Notions used for the isomorphism of graphs -/

/-- The map `f` of vertex labels is an isomorphism from the graph `G` to the
graph `H`: it maps the vertex list of `G` onto the vertex list of `H` (one to
one when the labels of `H` are pairwise distinct), the edges of `G` onto the
edges of `H` whatever their order and orientation, every coloured vertex of `G`
onto a vertex of `H` of the same colour, and every coloured edge of `G` onto an
edge of `H` of the same colour. -/
structure Isomorphism (f : Int → Int) (G H : Graph) : Prop where
  vertices : (G.Vertices.map f).Perm H.Vertices
  edges : ((G.Edges.map (relabelEdge f)).map orientEdge).Perm (H.Edges.map orientEdge)
  vertexColourLen : G.VertexColours.length = H.VertexColours.length
  edgeColourLen : G.EdgeColours.length = H.EdgeColours.length
  vertexColours : G.VertexColours.length = G.Vertices.length →
    ((G.Vertices.zip G.VertexColours).map (fun vc => (f vc.1, vc.2))).Perm
      (H.Vertices.zip H.VertexColours)
  edgeColours : G.EdgeColours.length = G.Edges.length →
    ((G.Edges.zip G.EdgeColours).map (fun ec => (orientEdge (relabelEdge f ec.1), ec.2))).Perm
      ((H.Edges.zip H.EdgeColours).map (fun ec => (orientEdge ec.1, ec.2)))

/-- The invariants of the graphs of the program: the vertex labels are pairwise
distinct, every edge endpoint is a vertex, and each list of colours is empty or
has one colour per vertex or edge. -/
structure WellFormed (G : Graph) : Prop where
  nodup : G.Vertices.Nodup
  endpoints : ∀ e ∈ G.Edges, e.1 ∈ G.Vertices ∧ e.2 ∈ G.Vertices
  vertexColours : G.VertexColours = [] ∨ G.VertexColours.length = G.Vertices.length
  edgeColours : G.EdgeColours = [] ∨ G.EdgeColours.length = G.Edges.length

/-- A graph without parallel edges: no two edges join the same two vertices. -/
def NoParallelEdges (G : Graph) : Prop := (G.Edges.map orientEdge).Nodup

instance decidableNoParallelEdges (G : Graph) : Decidable (NoParallelEdges G) := by
  unfold NoParallelEdges
  infer_instance

/-- The vertex of `V` that `f` maps to `y` (0 if there is none). -/
def invOn (f : Int → Int) (V : List Int) (y : Int) : Int :=
  (V.find? (fun x => decide (f x = y))).getD 0

/-- The invariant of the search on the graph `X`: before the first leaf the
canonical graph is the empty graph of the start, afterwards it is the graph
`X` permuted by the vertices of a leaf. -/
def CanonicalInv (X : Graph) (st : SearchState) : Prop :=
  (st.automorphisms = [] ∧ st.canonicalGraph.Vertices.length = 0)
    ∨ (st.automorphisms ≠ []
        ∧ ∃ l : List Int, l.Perm X.Vertices ∧ PermuteGraph X l = some st.canonicalGraph)

/-- The label of layer `i` of a vertex `v` when the new labels of its layers
start at `base`: layer 0 keeps the label of the vertex. -/
def colAt (base : Int) (v : Int) (i : Nat) : Int :=
  if i = 0 then v else base + ((i - 1 : Nat) : Int)

/-- The label that `EdgeColourConversion` gives to layer `i` of the vertex `v`
of a graph with vertex list `V` and `k` layers. -/
def layerLabel (V : List Int) (k : Nat) (v : Int) (i : Nat) : Int :=
  colAt (MaxIntSlice V + 1 + ((V.indexOf v * (k - 1) : Nat) : Int)) v i

/-- The graph `L` is the layered graph that `EdgeColourConversion` builds for
the edge-coloured graph `X` with vertex list `V`, for the sorted list `cols` of
its `k` edge colours: `k` layers of the vertices, the layers of a vertex joined
in a path, and every edge of `X` placed in the layer of its colour. -/
structure Layered (V : List Int) (k : Nat) (cols : List String) (X L : Graph) : Prop where
  vertices : X.Vertices = V
  colourLen : X.VertexColours.length = V.length
  edgeColourLen : X.EdgeColours.length = X.Edges.length
  endpoints : ∀ e ∈ X.Edges, e.1 ∈ V ∧ e.2 ∈ V
  colsMem : ∀ ec ∈ X.Edges.zip X.EdgeColours, ec.2 ∈ cols
  lvertices : L.Vertices = V.flatMap (fun v => (List.range k).map (layerLabel V k v))
  lcolours : L.VertexColours = (V.zip X.VertexColours).flatMap (fun vc =>
    (List.range k).map (fun i => vc.2 ++ toString i))
  ledges : L.Edges
    = V.flatMap (fun v => (List.range' 1 (k - 1)).map
        (fun i => (layerLabel V k v (i - 1), layerLabel V k v i)))
      ++ (X.Edges.zip X.EdgeColours).map (fun ec =>
        (layerLabel V k ec.1.1 (cols.indexOf ec.2), layerLabel V k ec.1.2 (cols.indexOf ec.2)))
  ledgeColours : L.EdgeColours = []

/-! ## Notions used for the splitting and the recombination of graphs -/

/-- The graph `X` is the part of the graph `G` on the edges at the positions
`idxs`: its edges and edge colours are those of `G` at these positions, in the
order of `idxs`; its vertices are the endpoints of its edges, each listed once;
it has one colour per vertex if `G` has vertex colours, none otherwise, and
every vertex has a colour that it has in `G`. -/
structure Extracted (G : Graph) (idxs : List Nat) (X : Graph) : Prop where
  edges : X.Edges = idxs.filterMap (fun i => G.Edges[i]?)
  edgeColours : X.EdgeColours = idxs.filterMap (fun i => G.EdgeColours[i]?)
  nodup : X.Vertices.Nodup
  vertices : ∀ v, v ∈ X.Vertices ↔ ∃ e ∈ X.Edges, v = e.1 ∨ v = e.2
  colourLen : X.VertexColours.length = if G.VertexColours = [] then 0 else X.Vertices.length
  colours : ∀ vc ∈ X.Vertices.zip X.VertexColours, vc ∈ G.Vertices.zip G.VertexColours

/-- The invariant of the loop of `RecombineGraphs` that copies the right
vertices, after the vertices `P` of the right graph: `LV` are the left
vertices and `M` bounds every label of both graphs. -/
structure RecombineInv (LV : List Int) (M : Int) (P : List Int)
    (st : List Int × Int × List (Int × Int)) : Prop where
  out : st.1 = LV ++ P.map (mapGet st.2.2)
  keys : st.2.2.map Prod.fst = P.reverse
  nodup : st.1.Nodup
  below : ∀ w ∈ st.1, w < st.2.1
  fixed : ∀ v ∈ P, v ∉ LV → mapGet st.2.2 v = v
  fresh : ∀ v ∈ P, v ∈ LV → M < mapGet st.2.2 v
  next : M < st.2.1

/-- An uncoloured edge between the vertices 1 and 2. -/
def plainEdge : Graph := NewGraph [1, 2] [(1, 2)]

/-- An edge of colour `x` between a vertex of colour `a` and a vertex of
colour `b`. -/
def colouredEdgeX : Graph := NewColourGraph [1, 2] [(1, 2)] ["a", "b"] ["x"]

/-- A path of three vertices without colours whose two edges have the colours
`x` and `y`. -/
def edgeColouredPath : Graph := NewColourGraph [1, 2, 3] [(1, 2), (2, 3)] [] ["x", "y"]

/-- Two parallel edges, both of colour `b`. -/
def doubleEdgeC : Graph := NewColourGraph [1, 2] [(1, 2), (1, 2)] [] ["b", "b"]

/-! ## Notions used for the symmetry of the isomorphism test -/

/-- The graph `g` with every vertex label `v` replaced by `θ v`; positions and
colours stay. -/
def relabelGraph (θ : Int → Int) (g : Graph) : Graph :=
  { Vertices := g.Vertices.map θ, Edges := g.Edges.map (relabelEdge θ),
    VertexColours := g.VertexColours, EdgeColours := g.EdgeColours }

/-- The state of the search with every recorded graph relabelled by `θ`. -/
def relabelState (θ : Int → Int) (st : SearchState) : SearchState :=
  { st with
    canonicalGraph := relabelGraph θ st.canonicalGraph
    automorphisms := st.automorphisms.map (relabelGraph θ) }

/-- The number of labels of `A` that are at most `x`. -/
def rankIn (A : List Int) (x : Int) : Nat := A.countP (fun a => decide (a ≤ x))

/-- A strictly increasing map of the integers that sends the `i`-th smallest
label of `A` to the sum of the `i`-th smallest labels of `A` and of `B` (for
lists of pairwise distinct labels of the same length), so that `spread A B` and
`spread B A` map `A` and `B` onto the same labels in the same order. -/
def spread (A B : List Int) (x : Int) : Int := x + (sortInts B).getD (rankIn A x - 1) 0

/-- The graph `Y'` is the graph `Y` with new vertex labels: the vertex at every
position of the vertex list of `Y` has the label at the same position of the
vertex list of `Y'`; edges and colours keep their positions. -/
structure PosRel (Y Y' : Graph) : Prop where
  nodup : Y.Vertices.Nodup
  nodup' : Y'.Vertices.Nodup
  len : Y'.Vertices.length = Y.Vertices.length
  endpoints : ∀ e ∈ Y.Edges, e.1 ∈ Y.Vertices ∧ e.2 ∈ Y.Vertices
  edges : Y'.Edges = Y.Edges.map (relabelEdge (mapGet (Y.Vertices.zip Y'.Vertices).reverse))
  vertexColours : Y'.VertexColours = Y.VertexColours
  edgeColours : Y'.EdgeColours = Y.EdgeColours

/-- The map of labels that sends the label at every position of `V` to the
label at the same position of `W`; other labels stay. -/
def relabelOn (V W : List Int) (x : Int) : Int :=
  if x ∈ V then mapGet (V.zip W).reverse x else x

/-- The graph that `GraphsIsomorphic` searches for one side: the layered graph
of `EdgeColourConversion` when the edges are coloured, the graph itself
otherwise. -/
def checkGraph (layered : Bool) (X : Graph) : Option Graph :=
  if layered then EdgeColourConversionZ X else some X

/-- The canonical graph that `GraphsIsomorphic` computes for one side: the
result of `SearchTree` on the graph searched, from its colour partition. -/
def canonicalOf (layered : Bool) (X : Graph) : Option Graph :=
  match checkGraph layered X with
  | none => none
  | some Y =>
    match GraphColourPartition Y with
    | none => none
    | some p => SearchTree Y p true

/-- The last step of `GraphsIsomorphic`: the comparison of the two canonical
graphs, when both were computed. -/
def canonicalsEqual (a b : Option Graph) : Option Bool :=
  match a, b with
  | some x, some y => some (GraphEquals x y)
  | _, _ => none

/-! ## Notions used for the layers of the edge colours -/

/-- The list `edgeColours` of `EdgeColourConversion` after `sort.Strings`: the
distinct edge colours of the graph in increasing order, one layer for each. -/
def colourLayers (G : Graph) : List String := sortStrings (distinctStrings G.EdgeColours)

/-! ## Notions used for the order filter on pairs of copies -/

/-- The edges of `R` at the positions `idxs`, in the order of `idxs`. -/
def edgesAt (R : Graph) (idxs : List Nat) : List (Int × Int) :=
  idxs.filterMap (fun i => R.Edges[i]?)

/-- Go `EdgeSort` with the call of `sort.Slice` replaced by the function
`sort`. -/
def EdgeSortWith (sort : List (List Int) → List (List Int)) (edges : List (Int × Int)) :
    List (List Int) :=
  sort (edges.map (fun e => sortInts [e.1, e.2]))

/-- Go `SubgraphEdgeCompare` with the call of `sort.Slice` in `EdgeSort`
replaced by the function `sort`. -/
def SubgraphEdgeCompareWith (sort : List (List Int) → List (List Int))
    (left right : List (Int × Int)) : Bool :=
  SliceCompare (Flatten (EdgeSortWith sort left)) (Flatten (EdgeSortWith sort right))

/-- The result of `sort.Slice` in `EdgeSort` for lists of up to 12 edges: the
insertion sort by first endpoint. -/
def stableEdgeSort (l : List (List Int)) : List (List Int) :=
  l.insertionSort (fun a b => a.headD 0 ≤ b.headD 0)

/-- Two parallel edges between the vertices 1 and 2. -/
def doubleEdge : Graph := NewGraph [1, 2] [(1, 2), (1, 2)]

/-! ## Notions used for the atom equivalents -/

/-- One round of the loop of `UpdateAtomEquivalents`, for the key `originalInt`
of the vertex map. -/
def atomEquivalentsStep (vertexMap : List (Int × Int)) (classes : List (List Int))
    (originalInt : Int) : List (List Int) :=
  let newInt := mapGet vertexMap originalInt
  if newInt ≠ originalInt then
    match IntInSliceOfSlices classes originalInt with
    | some index => classes.modify (fun c => c ++ [newInt]) index
    | none => classes ++ [[originalInt, newInt]]
  else classes

/-- The loop of `UpdateAtomEquivalents` when `range vertexMap` visits the keys
of the map in the order `keys`. -/
def updateAtomEquivalentsIn (pathway : Pathway) (vertexMap : List (Int × Int))
    (keys : List Int) : Pathway :=
  { pathway with
    atomEquivalents := keys.foldl (atomEquivalentsStep vertexMap) pathway.atomEquivalents }

/-! ## Notions used for the copy of a pathway -/

/-- The first pathway of `TestCopyPathway`: the fragments square and triangle,
the remnant triangle, and the empty slices `[]Duplicates{}` and `[][]int{}`. -/
def testCopyPathway : Pathway := NewPathway [square, triangle] triangle (some []) []

/-! ## Notions used for the bound and the candidates of the search -/

/-- Two disjoint paths of two edges each. -/
def pathPair : Graph := NewGraph [1, 2, 3, 4, 5, 6] [(1, 2), (2, 3), (4, 5), (5, 6)]

/-- A path of two edges. -/
def shortPath : Graph := NewGraph [1, 2, 3] [(1, 2), (2, 3)]

/-- A forest of three trees: the tree with the edges (1,4), (1,3), (1,2), (4,5),
the star around 9 with four edges and the path with the edges (6,8), (6,7). -/
def forest : Graph :=
  NewGraph [1, 2, 3, 4, 5, 6, 7, 8, 9, 10, 11, 12, 13]
    [(1, 4), (1, 3), (9, 11), (9, 12), (1, 2), (6, 8), (6, 7), (9, 13), (4, 5), (9, 10)]

/-- The shared state at the start of the search from the pathway `P`: `P` is
the best pathway, the queue is empty and one job is active. -/
def startPool (P : Pathway) : Pool := { bestPathways := [P], jobs := [], activeWorkers := 1 }

/-- The first pathway that `CheckSubgraphMatches` constructs from the starting
pathway of `G` for the candidate on the edges `edges` of `G`. -/
def firstExtension (G : Graph) (edges : List Nat) : Option Pathway :=
  (BreakGraphOnEdges G edges).bind (fun sr =>
    (CheckSubgraphMatches G "shortest" 100 100 (NewStartingPathway G) sr.1 sr.2
      (startPool (NewStartingPathway G))).bind (fun r => r.2.jobs.head?))

/-- The pathway that `CheckSubgraphMatches` constructs from the starting pathway
of `pathPair` for the candidate on the edges 0 and 1: the first path is the
fragment, the second path its duplicate, and nothing else is left. -/
def pathPairStep : Pathway :=
  matchPathway (NewStartingPathway pathPair) (NewGraph [1, 2, 3] [(1, 2), (2, 3)])
    (NewGraph [4, 5, 6] [(4, 5), (5, 6)]) (NewGraph [] [])

/-! ## Notions used for the construction of pathways and the counter of jobs -/

/-- The pathways that `CheckSubgraphMatches` can construct for the graph `G`:
the starting pathway, and `matchPathway Q S D R` for a constructed pathway `Q`,
a candidate `S` with at least one edge broken out of the remnant of `Q`, and a
possible duplicate `D` broken out of the rest.  The order filter and the
isomorphism test, which select the pairs for which the program builds the
pathway, are left out: the relation holds whatever their answers are, for every
schedule of the workers. -/
inductive Constructed (G : Graph) : Pathway → Prop
  | start : Constructed G (NewStartingPathway G)
  | step (Q : Pathway) (S rest D R : Graph) (sub sub1 : List Nat) :
      Constructed G Q →
      BreakGraphOnEdges Q.remnant sub = some (S, rest) →
      1 ≤ S.Edges.length →
      BreakGraphOnEdges rest sub1 = some (D, R) →
      Constructed G (matchPathway Q S D R)

/-- The shared state `pool1` comes from `pool` by putting the pathways `added`
on the jobs queue, all of them with the property `I`, and, when the counter of
active jobs is not negative, by moving it by the number of pathways added minus
`done`. -/
def PoolStep (I : Pathway → Prop) (done : Int) (pool pool1 : Pool) : Prop :=
  ∃ added : List Pathway, pool1.jobs = pool.jobs ++ added
    ∧ (0 ≤ pool.activeWorkers →
        pool1.activeWorkers = pool.activeWorkers + (added.length : Int) - done)
    ∧ ∀ Q ∈ added, I Q

/-- A property of pathways that every step of construction keeps. -/
def StepClosed (I : Pathway → Prop) : Prop :=
  ∀ (Q : Pathway) (S rest D R : Graph) (sub sub1 : List Nat), I Q →
    BreakGraphOnEdges Q.remnant sub = some (S, rest) →
    1 ≤ S.Edges.length →
    BreakGraphOnEdges rest sub1 = some (D, R) →
    SubgraphEdgeCompare S.Edges D.Edges = true →
    GraphsIsomorphic S D = some true →
    I (matchPathway Q S D R)

/-- The effect of the six parts of the search on the shared state, for one
bound on the rounds. -/
def SearchEffect (I : Pathway → Prop) (G : Graph) (variant : String) (cap fuel : Nat) : Prop :=
  (∀ P pool pool1, I P →
      ExtendPathway G variant cap fuel P pool = some pool1 → PoolStep I 1 pool pool1)
  ∧ (∀ P anchors F FS pool r, I P →
      extendAnchors G variant cap fuel P anchors F FS pool = some r → PoolStep I 0 pool r.2.2)
  ∧ (∀ P sub F FS pool r, I P →
      extendLoop G variant cap fuel P sub F FS pool = some r → PoolStep I 0 pool r.2.2)
  ∧ (∀ P subgraph remnant pool r, I P →
      (∃ sub, BreakGraphOnEdges P.remnant sub = some (subgraph, remnant)) →
      1 ≤ subgraph.Edges.length →
      CheckSubgraphMatches G variant cap fuel P subgraph remnant pool = some r →
      PoolStep I 0 pool r.2)
  ∧ (∀ P subgraph remnant anchors F FS m pool r, I P →
      (∃ sub, BreakGraphOnEdges P.remnant sub = some (subgraph, remnant)) →
      1 ≤ subgraph.Edges.length →
      checkAnchors G variant cap fuel P subgraph remnant anchors F FS m pool = some r →
      PoolStep I 0 pool r.2.2.2)
  ∧ (∀ P subgraph remnant sub F FS m pool r, I P →
      (∃ sub, BreakGraphOnEdges P.remnant sub = some (subgraph, remnant)) →
      1 ≤ subgraph.Edges.length →
      checkLoop G variant cap fuel P subgraph remnant sub F FS m pool = some r →
      PoolStep I 0 pool r.2.2.2)

/-! ## Notions used for the candidates that `CheckSubgraphMatches` tests -/

/-- The inner loop `for { ... }` of `CheckSubgraphMatches` for one starting
edge and a subgraph of `k` edges, with the test of a candidate replaced by
recording it: the values of `sub` at the moments `len(sub) == k` are appended
to `tested`.  The rounds are those of `checkLoop`. -/
def candidateLoop (edgeAdjacencies : Nat → List Nat) (k : Nat) :
    Nat → List Nat → (Nat → Bool) → (Nat → Option Nat) → List (List Nat) →
      Option ((Nat → Bool) × (Nat → Option Nat) × List (List Nat))
  | 0, _, _, _, _ => none
  | fuel + 1, sub, forbidden, forbiddenSize, tested =>
    match nonForbiddenNeighbour sub edgeAdjacencies forbidden with
    | some neighbour =>
      if sub.length ≤ k then
        let sub1 := sub ++ [neighbour]
        if sub1.length = k then
          candidateLoop edgeAdjacencies k fuel sub1 forbidden forbiddenSize (tested ++ [sub1])
        else candidateLoop edgeAdjacencies k fuel sub1 forbidden forbiddenSize tested
      else
        let (forbidden1, forbiddenSize1) :=
          forbidUpdate (sub.getLastD 0) sub.length forbidden forbiddenSize
        if sub.dropLast.length = 0 then some (forbidden1, forbiddenSize1, tested)
        else candidateLoop edgeAdjacencies k fuel sub.dropLast forbidden1 forbiddenSize1 tested
    | none =>
      let (forbidden1, forbiddenSize1) :=
        forbidUpdate (sub.getLastD 0) sub.length forbidden forbiddenSize
      if sub.dropLast.length = 0 then some (forbidden1, forbiddenSize1, tested)
      else candidateLoop edgeAdjacencies k fuel sub.dropLast forbidden1 forbiddenSize1 tested

/-- The loop `for i := 0; i < len(remnant.Edges); i++` of `CheckSubgraphMatches`
with the candidates recorded: the forbidden maps are shared by the starting
edges.  The rounds are those of `checkAnchors`. -/
def candidateAnchors (edgeAdjacencies : Nat → List Nat) (k : Nat) :
    Nat → List Nat → (Nat → Bool) → (Nat → Option Nat) → List (List Nat) →
      Option ((Nat → Bool) × (Nat → Option Nat) × List (List Nat))
  | 0, _, _, _, _ => none
  | _ + 1, [], forbidden, forbiddenSize, tested => some (forbidden, forbiddenSize, tested)
  | fuel + 1, i :: rest, forbidden, forbiddenSize, tested =>
    match candidateLoop edgeAdjacencies k fuel [i] forbidden forbiddenSize tested with
    | none => none
    | some (forbidden1, forbiddenSize1, tested1) =>
      candidateAnchors edgeAdjacencies k fuel rest forbidden1 forbiddenSize1 tested1

/-- The candidate edge lists that `CheckSubgraphMatches` tests against a
subgraph of `k` edges in the graph `remnant`, in the order of the tests; `none`
when the bound `fuel` on the rounds is used up. -/
def testedCandidates (remnant : Graph) (k fuel : Nat) : Option (List (List Nat)) :=
  (candidateAnchors (EdgeAdjacencies remnant) k fuel (List.range remnant.Edges.length)
    (fun _ => false) (fun _ => none) []).map (fun r => r.2.2)

/-- What the loop of `candidateLoop` goes on with after the backtracking steps:
the result when the subgraph is empty, the next round otherwise. -/
def candidateCont (edgeAdjacencies : Nat → List Nat) (k fuel : Nat) (sub : List Nat)
    (forbidden : Nat → Bool) (forbiddenSize : Nat → Option Nat) (tested : List (List Nat)) :
    Option ((Nat → Bool) × (Nat → Option Nat) × List (List Nat)) :=
  if sub.length = 0 then some (forbidden, forbiddenSize, tested)
  else candidateLoop edgeAdjacencies k fuel sub forbidden forbiddenSize tested

/-- The state after the backtracking steps: the last edge of the subgraph is
dropped and forbidden. -/
def popTrace (t : SubgraphTrace) : SubgraphTrace :=
  { t with
    sub := t.sub.dropLast
    forbidden := (forbidUpdate (t.sub.getLastD 0) t.sub.length t.forbidden t.forbiddenSize).1
    forbiddenSize :=
      (forbidUpdate (t.sub.getLastD 0) t.sub.length t.forbidden t.forbiddenSize).2 }

/-- What the loop with recording has done when it drops the last edge of the
subgraph it started from: `T` rounds led from `t` to `t'` and recorded the lists
`out`, which are exactly the connected sets of `k` edges that extend the
subgraph of `t` with edges that are not forbidden, each once. -/
structure CandidateRun (g : Graph) (e k : Nat) (t t' : SubgraphTrace) (T : Nat)
    (out : List (List Nat)) : Prop where
  run : ∀ fuel tested,
    candidateLoop (EdgeAdjacencies g) k (T + fuel) t.sub t.forbidden t.forbiddenSize tested
      = candidateCont (EdgeAdjacencies g) k fuel t'.sub t'.forbidden t'.forbiddenSize
          (tested ++ out)
  sub_eq : t'.sub = t.sub.dropLast
  forbidden_iff : ∀ j, t'.forbidden j = true ↔
    (j = t.sub.getLastD 0
      ∨ (t.forbidden j = true ∧ ∃ v, t.forbiddenSize j = some v ∧ v ≤ t.sub.length))
  size_last : t'.forbiddenSize (t.sub.getLastD 0) = some t.sub.length
  size_keep : ∀ j, j ≠ t.sub.getLastD 0 → t.forbidden j = true →
    t'.forbiddenSize j = t.forbiddenSize j
  sound : ∀ l ∈ out, ∃ ext, ext ≠ [] ∧ l = t.sub ++ ext ∧ l.Nodup
    ∧ (∀ x ∈ l, e ≤ x ∧ x < g.Edges.length) ∧ ConnectedSet g l.toFinset
    ∧ (∀ x ∈ ext, t.forbidden x = false) ∧ l.length = k
  complete : ∀ S : Finset Nat, ConnectedSet g S → t.sub.toFinset ⊂ S →
    (∀ x ∈ S, e ≤ x ∧ x < g.Edges.length) →
    (∀ x ∈ S, x ∉ t.sub → t.forbidden x = false) → S.card = k → ∃ l ∈ out, l.toFinset = S
  distinct : (out.map List.toFinset).Nodup

/-- The edges below the starting edge `e` are forbidden, at size 1. -/
def LowForbidden (e : Nat) (t : SubgraphTrace) : Prop :=
  ∀ j, j < e → t.forbidden j = true ∧ t.forbiddenSize j = some 1

/-- What `CheckSubgraphMatches` does with one candidate `sub` (the body of
`if len(sub) == len(subgraph.Edges)`): the candidate is broken out of the
remnant and compared with the subgraph; on a match the new pathway is put on the
queue, or, when the queue is full, extended at once.  The result is the value of
`subgraphMatches` and the shared state after the test; `fuel` bounds the rounds
of the extension. -/
def testCandidate (originalGraph : Graph) (variant : String) (chanBufferSize fuel : Nat)
    (currentPathway : Pathway) (subgraph remnant : Graph) (sub : List Nat) (m : Bool)
    (pool : Pool) : Option (Bool × Pool) :=
  match BreakGraphOnEdges remnant sub with
  | none => none
  | some (possibleDuplicate, newRemnant) =>
    let isMatch : Option Bool :=
      if SubgraphEdgeCompare subgraph.Edges possibleDuplicate.Edges then
        GraphsIsomorphic subgraph possibleDuplicate
      else some false
    match isMatch with
    | none => none
    | some false => some (m, pool)
    | some true =>
      let newPathway := matchPathway currentPathway subgraph possibleDuplicate newRemnant
      if pool.jobs.length < chanBufferSize then
        some (true,
          { pool with
            jobs := pool.jobs ++ [newPathway]
            activeWorkers := Increment pool.activeWorkers })
      else
        match ExtendPathway originalGraph variant chanBufferSize fuel newPathway
            { pool with activeWorkers := Increment pool.activeWorkers } with
        | none => none
        | some pool1 => some (true, pool1)

/-- The candidates of a list tested one after the other, each once, from the
state `s`. -/
def testCandidates (originalGraph : Graph) (variant : String) (chanBufferSize fuel : Nat)
    (currentPathway : Pathway) (subgraph remnant : Graph) :
    List (List Nat) → Bool × Pool → Option (Bool × Pool)
  | [], s => some s
  | sub :: rest, s =>
    match testCandidate originalGraph variant chanBufferSize fuel currentPathway subgraph
        remnant sub s.1 s.2 with
    | none => none
    | some s1 =>
      testCandidates originalGraph variant chanBufferSize fuel currentPathway subgraph
        remnant rest s1

/-! # Properties

## Steps saved and the assembly index -/

theorem foldl_stepsSaved (fs : List Graph) (acc : Int) :
    fs.foldl (fun stepsSaved g => stepsSaved + ((g.Edges.length : Int) - 1)) acc
      = acc + (fs.map (fun f => (f.Edges.length : Int) - 1)).sum := by
  induction fs generalizing acc with
  | nil => simp
  | cons f fs ih => simp [ih, add_assoc]

theorem PathwayStepsSaved_eq_sum (P : Pathway) :
    PathwayStepsSaved P true = (P.pathway.map (fun f => (f.Edges.length : Int) - 1)).sum := by
  simp [PathwayStepsSaved, foldl_stepsSaved]

/-- C8: `AssemblyIndex(P, G)` is `(|E(G)| - 1)` minus the sum over the fragments
`f` of `P` of `(|E(f)| - 1)`; the square (4 edges) and the triangle (3 edges) as
fragments over the 12-edge grid give 6. -/
theorem C8_assemblyIndex_formula :
    (∀ (P : Pathway) (G : Graph),
      AssemblyIndex P G
        = ((G.Edges.length : Int) - 1)
            - (P.pathway.map (fun f => (f.Edges.length : Int) - 1)).sum)
    ∧ AssemblyIndex (NewPathway [square, triangle] triangle (some []) []) nineGrid = 6 := by
  refine ⟨fun P G => ?_, by decide⟩
  unfold AssemblyIndex
  rw [PathwayStepsSaved_eq_sum]

/-! ## The invariant of the pathways built by the search -/

/-! ## Edge counts of `BreakGraphOnEdges` -/

theorem copyGraphVertex_edges {oldGraph newGraph g : Graph} {v : Int}
    (h : copyGraphVertex oldGraph newGraph v = some g) : g.Edges = newGraph.Edges := by
  unfold copyGraphVertex at h
  split at h
  · simp at h; rw [← h]
  · simp only at h
    split at h
    · simp at h
    · split at h
      · split at h
        · simp at h
        · split at h
          · simp at h
          · simp at h; rw [← h]
      · simp at h; rw [← h]

theorem CopyGraphVerticesFromEdge_edges {oldGraph newGraph g : Graph} {i : Nat}
    (h : CopyGraphVerticesFromEdge oldGraph newGraph i = some g) : g.Edges = newGraph.Edges := by
  unfold CopyGraphVerticesFromEdge at h
  split at h
  · simp at h
  · split at h
    · simp at h
    · rename_i g1 h1
      rw [copyGraphVertex_edges h, copyGraphVertex_edges h1]

theorem CopyGraphEdge_length {oldGraph newGraph g : Graph} {i : Nat}
    (h : CopyGraphEdge oldGraph newGraph i = some g) :
    g.Edges.length = newGraph.Edges.length + 1 := by
  unfold CopyGraphEdge at h
  split at h
  · simp at h
  · simp only at h
    split at h
    · split at h
      · simp at h
      · split at h
        · simp at h
        · rw [CopyGraphVerticesFromEdge_edges h]; simp
    · rw [CopyGraphVerticesFromEdge_edges h]; simp

theorem breakLoop_length (g : Graph) (edges : List Nat) :
    ∀ (idxs : List Nat) (acc r : Graph × Graph), breakLoop g edges idxs acc = some r →
      r.1.Edges.length = acc.1.Edges.length + (idxs.filter (ContainsIdx edges)).length
      ∧ r.1.Edges.length + r.2.Edges.length
          = acc.1.Edges.length + acc.2.Edges.length + idxs.length := by
  intro idxs
  induction idxs with
  | nil =>
    intro acc r h
    obtain ⟨a1, a2⟩ := acc
    simp [breakLoop] at h
    subst h
    simp
  | cons i rest ih =>
    intro acc r h
    obtain ⟨a1, a2⟩ := acc
    simp only [breakLoop] at h
    split at h
    · rename_i hc
      split at h
      · simp at h
      · rename_i b hb
        have := ih _ _ h
        have hl := CopyGraphEdge_length hb
        simp only [List.filter_cons, hc, if_true, List.length_cons] at *
        omega
    · rename_i hc
      split at h
      · simp at h
      · rename_i b hb
        have := ih _ _ h
        have hl := CopyGraphEdge_length hb
        simp only [List.filter_cons, hc, List.length_cons] at *
        simp at *
        omega

theorem BreakGraphOnEdges_length {g : Graph} {edges : List Nat} {b r : Graph}
    (h : BreakGraphOnEdges g edges = some (b, r)) :
    b.Edges.length = ((List.range g.Edges.length).filter (ContainsIdx edges)).length
    ∧ b.Edges.length + r.Edges.length = g.Edges.length := by
  unfold BreakGraphOnEdges at h
  have := breakLoop_length g edges _ _ _ h
  simpa [NewColourGraph] using this





theorem CopyGraph_eq (g : Graph) : CopyGraph g = g := by
  cases g; rfl

theorem RecombineGraphs_edges_length (graphLeft graphRight : Graph) :
    (RecombineGraphs graphLeft graphRight).1.Edges.length
      = graphLeft.Edges.length + graphRight.Edges.length := by
  simp [RecombineGraphs, NewColourGraph]

theorem CopyPathway_pathway (P : Pathway) : (CopyPathway P).pathway = P.pathway := by
  have h : CopyGraph = id := funext CopyGraph_eq
  simp [CopyPathway, NewPathway, h]

theorem matchPathway_pathway (P : Pathway) (S D R : Graph) :
    (matchPathway P S D R).pathway = P.pathway ++ [S] := by
  simp [matchPathway, UpdateAtomEquivalents, CopyPathway_pathway, CopyGraph_eq]

theorem matchPathway_remnant_length (P : Pathway) (S D R : Graph) :
    (matchPathway P S D R).remnant.Edges.length = R.Edges.length + D.Edges.length := by
  simp [matchPathway, UpdateAtomEquivalents, CopyGraph_eq, RecombineGraphs_edges_length]

theorem PathwayInv_matchPathway {G : Graph} {P : Pathway} {subgraph remnant D R : Graph}
    {sub : List Nat} (hP : PathwayInv G P)
    (hsum : subgraph.Edges.length + remnant.Edges.length = P.remnant.Edges.length)
    (hpos : 1 ≤ subgraph.Edges.length)
    (hb : BreakGraphOnEdges remnant sub = some (D, R)) :
    PathwayInv G (matchPathway P subgraph D R) := by
  obtain ⟨h1, h2⟩ := hP
  have hb2 := (BreakGraphOnEdges_length hb).2
  constructor
  · rw [matchPathway_pathway, matchPathway_remnant_length]
    simp only [List.map_append, List.sum_append, List.map_cons, List.map_nil, List.sum_cons,
      List.sum_nil]
    omega
  · intro f hf
    rw [matchPathway_pathway] at hf
    rcases List.mem_append.mp hf with hf | hf
    · exact h2 f hf
    · simp at hf; subst hf; exact hpos

theorem nonForbiddenNeighbour_mem {sub : List Nat} {adj : Nat → List Nat} {F : Nat → Bool}
    {n : Nat} (h : nonForbiddenNeighbour sub adj F = some n) :
    ∃ e ∈ sub, n ∈ adj e ∧ F n = false ∧ ContainsIdx sub n = false := by
  unfold nonForbiddenNeighbour at h
  obtain ⟨e, he, hf⟩ := List.exists_of_findSome?_eq_some h
  refine ⟨e, he, List.mem_of_find?_eq_some hf, ?_⟩
  have := List.find?_some hf
  simpa using this

theorem EdgeAdjacencies_lt {g : Graph} {i j : Nat} (h : j ∈ EdgeAdjacencies g i) :
    j < g.Edges.length := by
  unfold EdgeAdjacencies at h
  split at h
  · simp at h
  · have := List.mem_filter.mp h
    exact List.mem_range.mp this.1

theorem ContainsIdx_iff {l : List Nat} {i : Nat} : ContainsIdx l i = true ↔ i ∈ l := by
  induction l with
  | nil => simp [ContainsIdx]
  | cons v rest ih =>
    simp only [ContainsIdx, List.mem_cons]
    split
    · rename_i h; simp [h]
    · rename_i h
      rw [ih]
      constructor
      · intro h1; exact Or.inr h1
      · rintro (h1 | h1)
        · exact absurd h1.symm h
        · exact h1

theorem break_subgraph_pos {g : Graph} {sub : List Nat} {F : Nat → Bool} {n : Nat}
    {b r : Graph} (hn : nonForbiddenNeighbour sub (EdgeAdjacencies g) F = some n)
    (hb : BreakGraphOnEdges g (sub ++ [n]) = some (b, r)) : 1 ≤ b.Edges.length := by
  obtain ⟨e, _, hadj, _, _⟩ := nonForbiddenNeighbour_mem hn
  have hlt := EdgeAdjacencies_lt hadj
  rw [(BreakGraphOnEdges_length hb).1]
  apply List.length_pos_of_mem (a := n)
  rw [List.mem_filter]
  exact ⟨List.mem_range.mpr hlt, ContainsIdx_iff.mpr (by simp)⟩

theorem searchInv_zero (G : Graph) (variant : String) (cap : Nat) : SearchInv G variant cap 0 := by
  refine ⟨?_, ?_, ?_, ?_, ?_, ?_⟩
  · intro P pool pool' _ _ h; simp [ExtendPathway] at h
  · intro P anchors F FS pool r _ _ h; simp [extendAnchors] at h
  · intro P sub F FS pool r _ _ h; simp [extendLoop] at h
  · intro P subgraph remnant pool r _ _ _ _ h; simp [CheckSubgraphMatches] at h
  · intro P subgraph remnant anchors F FS m pool r _ _ _ _ h; simp [checkAnchors] at h
  · intro P subgraph remnant sub F FS m pool r _ _ _ _ h; simp [checkLoop] at h

theorem searchInv_succ (G : Graph) (variant : String) (cap fuel : Nat)
    (ih : SearchInv G variant cap fuel) : SearchInv G variant cap (fuel + 1) := by
  obtain ⟨ihE, ihA, ihL, ihC, ihCA, ihCL⟩ := ih
  refine ⟨?_, ?_, ?_, ?_, ?_, ?_⟩
  · intro P pool pool' hP hJ h
    simp only [ExtendPathway] at h
    split at h
    · simp at h
    · split at h
      · simp at h; subst h; exact hJ
      · split at h
        · simp at h
        · rename_i r hr
          simp at h; subst h
          refine ihA _ _ _ _ _ _ hP ?_ hr
          exact hJ
  · intro P anchors F FS pool r hP hJ h
    cases anchors with
    | nil => simp [extendAnchors] at h; subst h; exact hJ
    | cons i rest =>
      simp only [extendAnchors] at h
      split at h
      · simp at h
      · rename_i r1 hr1
        exact ihA _ _ _ _ _ _ hP (ihL _ _ _ _ _ _ hP hJ hr1) h
  · intro P sub F FS pool r hP hJ h
    simp only [extendLoop] at h
    generalize hg : (match nonForbiddenNeighbour sub (EdgeAdjacencies P.remnant) F with
      | some neighbour =>
        if sub.length ≤ P.remnant.Edges.length / 2 then
          match BreakGraphOnEdges P.remnant (sub ++ [neighbour]) with
          | none => none
          | some (subgraph, remnant) =>
            if (sub ++ [neighbour]).length > 1 then
              match CheckSubgraphMatches G variant cap fuel P subgraph remnant pool with
              | none => none
              | some (m, pool1) => some (some (sub ++ [neighbour], m, pool1))
            else some (some (sub ++ [neighbour], true, pool))
        else some none
      | none => (some none : Option (Option (List Nat × Bool × Pool)))) = grown at h
    have hgrown : ∀ sub1 m pool1, grown = some (some (sub1, m, pool1)) → JobsInv G pool1 := by
      intro sub1 m pool1 he
      rw [he] at hg
      split at hg
      · rename_i neighbour hn
        split at hg
        · split at hg
          · simp at hg
          · rename_i subgraph remnant hb
            split at hg
            · split at hg
              · simp at hg
              · rename_i m1 p1 hc
                simp at hg
                obtain ⟨_, _, rfl⟩ := hg
                exact ihC _ _ _ _ _ hP hJ (BreakGraphOnEdges_length hb).2
                  (break_subgraph_pos hn hb) hc
            · simp at hg
              obtain ⟨_, _, rfl⟩ := hg
              exact hJ
        · simp at hg
      · simp at hg
    clear hg
    split at h
    · simp at h
    · rename_i sub1 pool1
      exact ihL _ _ _ _ _ _ hP (hgrown _ _ _ rfl) h
    · rename_i other _
      cases other with
      | none =>
        simp only at h
        split at h
        · simp at h; subst h; exact hJ
        · exact ihL _ _ _ _ _ _ hP hJ h
      | some x =>
        obtain ⟨a, b, c⟩ := x
        have hp2 := hgrown _ _ _ rfl
        simp only at h
        split at h
        · simp at h; subst h; exact hp2
        · exact ihL _ _ _ _ _ _ hP hp2 h
  · intro P subgraph remnant pool r hP hJ hsum hpos h
    simp only [CheckSubgraphMatches] at h
    split at h
    · simp at h
    · rename_i r1 hr1
      simp at h; subst h
      exact ihCA _ _ _ _ _ _ _ _ _ hP hJ hsum hpos hr1
  · intro P subgraph remnant anchors F FS m pool r hP hJ hsum hpos h
    cases anchors with
    | nil => simp [checkAnchors] at h; subst h; exact hJ
    | cons i rest =>
      simp only [checkAnchors] at h
      split at h
      · simp at h
      · rename_i r1 hr1
        exact ihCA _ _ _ _ _ _ _ _ _ hP (ihCL _ _ _ _ _ _ _ _ _ hP hJ hsum hpos hr1) hsum hpos h
  · intro P subgraph remnant sub F FS m pool r hP hJ hsum hpos h
    simp only [checkLoop] at h
    split at h
    · rename_i neighbour hn
      split at h
      · split at h
        · split at h
          · simp at h
          · rename_i D R hb
            split at h
            · simp at h
            · exact ihCL _ _ _ _ _ _ _ _ _ hP hJ hsum hpos h
            · have hnew : PathwayInv G (matchPathway P subgraph D R) :=
                PathwayInv_matchPathway hP hsum hpos hb
              split at h
              · refine ihCL _ _ _ _ _ _ _ _ _ hP ?_ hsum hpos h
                intro Q hQ
                simp only [List.mem_append, List.mem_singleton] at hQ
                rcases hQ with hQ | hQ
                · exact hJ Q hQ
                · subst hQ; exact hnew
              · split at h
                · simp at h
                · rename_i pool1 he
                  refine ihCL _ _ _ _ _ _ _ _ _ hP ?_ hsum hpos h
                  refine ihE _ _ _ hnew ?_ he
                  exact hJ
        · exact ihCL _ _ _ _ _ _ _ _ _ hP hJ hsum hpos h
      · split at h
        · simp at h; subst h; exact hJ
        · exact ihCL _ _ _ _ _ _ _ _ _ hP hJ hsum hpos h
    · split at h
      · simp at h; subst h; exact hJ
      · exact ihCL _ _ _ _ _ _ _ _ _ hP hJ hsum hpos h

theorem searchInv (G : Graph) (variant : String) (cap : Nat) :
    ∀ fuel, SearchInv G variant cap fuel
  | 0 => searchInv_zero G variant cap
  | fuel + 1 => searchInv_succ G variant cap fuel (searchInv G variant cap fuel)

theorem Reachable_inv {G : Graph} {P : Pathway} (h : Reachable G P) : PathwayInv G P := by
  induction h with
  | start => exact ⟨by simp [NewStartingPathway, NewPathway], by simp [NewStartingPathway, NewPathway]⟩
  | step P P' variant cap fuel best active pool' _ hext hmem ih =>
    exact (searchInv G variant cap fuel).1 P _ pool' ih (by intro Q hQ; simp at hQ) hext P' hmem

theorem Constructed_inv {G : Graph} {P : Pathway} (h : Constructed G P) : PathwayInv G P := by
  induction h with
  | start => exact ⟨by simp [NewStartingPathway, NewPathway], by simp [NewStartingPathway, NewPathway]⟩
  | step Q S rest D R sub sub1 _ h1 hpos h2 ih =>
    exact PathwayInv_matchPathway ih (BreakGraphOnEdges_length h1).2 hpos h2

theorem pathPairStep_constructed : Constructed pathPair pathPairStep :=
  Constructed.step (NewStartingPathway pathPair) (NewGraph [1, 2, 3] [(1, 2), (2, 3)])
    (NewGraph [4, 5, 6] [(4, 5), (5, 6)]) (NewGraph [4, 5, 6] [(4, 5), (5, 6)]) (NewGraph [] [])
    [0, 1] [0, 1] Constructed.start (by decide) (by decide) (by decide)

theorem cast_sum_lengths (fs : List Graph) :
    (((fs.map (fun f => f.Edges.length)).sum : Nat) : Int)
      = (fs.map (fun f => (f.Edges.length : Int))).sum := by
  induction fs with
  | nil => simp
  | cons f fs ih => simp [ih]

theorem stepsSaved_bounds (fs : List Graph) (h : ∀ f ∈ fs, 1 ≤ f.Edges.length) :
    0 ≤ (fs.map (fun f => (f.Edges.length : Int) - 1)).sum
    ∧ ((fs.map (fun f => (f.Edges.length : Int) - 1)).sum
          ≤ (fs.map (fun f => (f.Edges.length : Int))).sum - 1
        ∨ fs = []) := by
  induction fs with
  | nil => simp
  | cons f fs ih =>
    have hf := h f (by simp)
    have := ih (fun g hg => h g (by simp [hg]))
    simp only [List.map_cons, List.sum_cons]
    constructor
    · omega
    · left
      rcases this.2 with h2 | h2
      · omega
      · subst h2; simp

/-- C10 (as stated it fails): for the graph with two vertices and no edge the
starting pathway has assembly index `-1`, below the claimed lower bound `0`. -/
theorem C10_counterexample_no_edges :
    Reachable twoAtoms (NewStartingPathway twoAtoms)
    ∧ AssemblyIndex (NewStartingPathway twoAtoms) twoAtoms = -1 :=
  ⟨Reachable.start, by decide⟩

/-- C10 (amended): for every graph `G` with at least one edge and every pathway
`P` that `CheckSubgraphMatches` can construct from `NewStartingPathway G`
(`Constructed`: any number of steps, each from a candidate with at least one
edge broken out of the remnant and a possible duplicate broken out of the rest,
whatever the order filter and the isomorphism test answer and whichever worker
takes the step), `0 ≤ AssemblyIndex P G ≤ |E(G)| - 1`. -/
theorem C10_assemblyIndex_bounds (G : Graph) (P : Pathway) (hE : 1 ≤ G.Edges.length)
    (hP : Constructed G P) :
    0 ≤ AssemblyIndex P G ∧ AssemblyIndex P G ≤ (G.Edges.length : Int) - 1 := by
  obtain ⟨hsum, hpos⟩ := Constructed_inv hP
  obtain ⟨h0, h1⟩ := stepsSaved_bounds P.pathway hpos
  unfold AssemblyIndex
  rw [PathwayStepsSaved_eq_sum]
  constructor
  · rcases h1 with h1 | h1
    · have hc := cast_sum_lengths P.pathway
      have : (((P.pathway.map (fun f => f.Edges.length)).sum : Nat) : Int)
          ≤ (G.Edges.length : Int) := by
        have := hsum
        omega
      simp only
      omega
    · rw [h1]; simp only [List.map_nil, List.sum_nil]; omega
  · simp only
    omega

set_option maxRecDepth 100000 in
/-- The bounds of C10 at the two disjoint paths of two edges and the pathway
that `CheckSubgraphMatches` constructs from the starting pathway with the first
path as the fragment and the second as its duplicate: its assembly index is 2,
between 0 and 3. -/
theorem C10_assemblyIndex_bounds_witness :
    1 ≤ pathPair.Edges.length
    ∧ firstExtension pathPair [0, 1] = some pathPairStep
    ∧ Constructed pathPair pathPairStep
    ∧ AssemblyIndex pathPairStep pathPair = 2
    ∧ 0 ≤ AssemblyIndex pathPairStep pathPair
    ∧ AssemblyIndex pathPairStep pathPair ≤ (pathPair.Edges.length : Int) - 1 :=
  ⟨by decide, by decide!, pathPairStep_constructed, by decide!,
    C10_assemblyIndex_bounds pathPair pathPairStep (by decide) pathPairStep_constructed⟩

/-! ## Connected components -/

theorem sharesVertex_iff (e1 e2 : Int × Int) :
    sharesVertex e1 e2 = true ↔ (e1.1 = e2.1 ∨ e1.1 = e2.2 ∨ e1.2 = e2.1 ∨ e1.2 = e2.2) := by
  simp [sharesVertex, or_assoc]

theorem mem_EdgeAdjacencies {g : Graph} {i j : Nat} :
    j ∈ EdgeAdjacencies g i ↔ EdgeAdjacent g i j := by
  unfold EdgeAdjacencies EdgeAdjacent
  cases hi : g.Edges[i]? with
  | none => simp
  | some e1 =>
    simp only [List.mem_filter, List.mem_range]
    cases hj : g.Edges[j]? with
    | none => simp
    | some e2 =>
      have hlt : j < g.Edges.length := by
        by_contra hc
        rw [List.getElem?_eq_none (by omega)] at hj
        simp at hj
      simp [sharesVertex_iff, hlt]

theorem edgeAdjacent_symm {g : Graph} {i j : Nat} (h : EdgeAdjacent g i j) :
    EdgeAdjacent g j i := by
  obtain ⟨hne, e1, e2, h1, h2, h3⟩ := h
  refine ⟨fun h => hne h.symm, e2, e1, h2, h1, ?_⟩
  rcases h3 with h | h | h | h
  · exact Or.inl h.symm
  · exact Or.inr (Or.inr (Or.inl h.symm))
  · exact Or.inr (Or.inl h.symm)
  · exact Or.inr (Or.inr (Or.inr h.symm))

theorem edgeAdjacent_lt {g : Graph} {i j : Nat} (h : EdgeAdjacent g i j) :
    j < g.Edges.length := EdgeAdjacencies_lt (mem_EdgeAdjacencies.mpr h)

theorem edgeLinked_symm {g : Graph} {i j : Nat} (h : EdgeLinked g i j) : EdgeLinked g j i := by
  induction h with
  | refl => exact Relation.ReflTransGen.refl
  | tail _ hbc ih => exact Relation.ReflTransGen.head (edgeAdjacent_symm hbc) ih

theorem edgeLinked_lt {g : Graph} {i j : Nat} (h : EdgeLinked g i j)
    (hi : i < g.Edges.length) : j < g.Edges.length := by
  induction h with
  | refl => exact hi
  | tail _ hbc _ => exact edgeAdjacent_lt hbc



theorem componentAdd_spec (adj : List Nat) :
    ∀ comp : List Nat, (∃ t, componentAdd comp adj = comp ++ t)
      ∧ (∀ x, x ∈ componentAdd comp adj ↔ x ∈ comp ∨ x ∈ adj)
      ∧ (comp.Nodup → (componentAdd comp adj).Nodup) := by
  induction adj with
  | nil => intro comp; simp [componentAdd]
  | cons j rest ih =>
    intro comp
    simp only [componentAdd, List.foldl_cons]
    by_cases hc : ContainsIdx comp j = true
    · simp only [hc, if_true]
      obtain ⟨h1, h2, h3⟩ := ih comp
      simp only [componentAdd] at h1 h2 h3
      refine ⟨h1, ?_, h3⟩
      intro x
      rw [h2 x]
      have := ContainsIdx_iff.mp hc
      constructor
      · rintro (h | h)
        · exact Or.inl h
        · exact Or.inr (List.mem_cons_of_mem _ h)
      · rintro (h | h)
        · exact Or.inl h
        · rcases List.mem_cons.mp h with h | h
          · subst h; exact Or.inl this
          · exact Or.inr h
    · simp only [hc]
      obtain ⟨h1, h2, h3⟩ := ih (comp ++ [j])
      simp only [componentAdd] at h1 h2 h3
      have hnot : j ∉ comp := fun h => hc (ContainsIdx_iff.mpr h)
      refine ⟨?_, ?_, ?_⟩
      · obtain ⟨t, ht⟩ := h1
        exact ⟨j :: t, by simp [ht]⟩
      · intro x
        simp only [Bool.false_eq_true, if_false]
        rw [h2 x]
        simp only [List.mem_append, List.mem_singleton, List.mem_cons]
        tauto
      · intro hnd
        simp only [Bool.false_eq_true, if_false]
        apply h3
        rw [List.nodup_append]
        refine ⟨hnd, by simp, ?_⟩
        intro a ha hb
        simp at hb
        subst hb
        exact hnot ha

theorem length_le_of_nodup_lt {l : List Nat} {n : Nat} (hnd : l.Nodup) (h : ∀ x ∈ l, x < n) :
    l.length ≤ n := by
  have hsub : l ⊆ List.range n := fun x hx => List.mem_range.mpr (h x hx)
  have := (List.subperm_of_subset hnd hsub).length_le
  simpa using this

theorem componentLoop_spec (g : Graph) (start : Nat) :
    ∀ (fuel i : Nat) (comp : List Nat), ComponentInv g start i comp →
      g.Edges.length ≤ fuel + i →
      let r := componentLoop (EdgeAdjacencies g) fuel i comp
      r.Nodup ∧ start ∈ r ∧ (∀ x ∈ r, EdgeLinked g start x)
        ∧ (∀ x ∈ r, x < g.Edges.length)
        ∧ ∀ x ∈ r, ∀ j ∈ EdgeAdjacencies g x, j ∈ r := by
  intro fuel
  induction fuel with
  | zero =>
    intro i comp hinv hfuel
    obtain ⟨hnd, hs, hl, hlt, hi, hcl⟩ := hinv
    simp only [componentLoop]
    refine ⟨hnd, hs, hl, hlt, ?_⟩
    intro x hx j hj
    obtain ⟨k, hk, hkx⟩ := List.getElem_of_mem hx
    have hlen := length_le_of_nodup_lt hnd hlt
    exact hcl k (by omega) x (by rw [List.getElem?_eq_getElem hk, hkx]) j hj
  | succ fuel ih =>
    intro i comp hinv hfuel
    obtain ⟨hnd, hs, hl, hlt, hi, hcl⟩ := hinv
    simp only [componentLoop]
    cases he : comp[i]? with
    | none =>
      simp only
      refine ⟨hnd, hs, hl, hlt, ?_⟩
      intro x hx j hj
      obtain ⟨k, hk, hkx⟩ := List.getElem_of_mem hx
      have : comp.length ≤ i := by
        by_contra hc
        rw [List.getElem?_eq_getElem (by omega)] at he
        simp at he
      exact hcl k (by omega) x (by rw [List.getElem?_eq_getElem hk, hkx]) j hj
    | some e =>
      simp only
      obtain ⟨⟨t, ht⟩, hmem, hnd'⟩ := componentAdd_spec (EdgeAdjacencies g e) comp
      have hilt : i < comp.length := by
        by_contra hc
        rw [List.getElem?_eq_none (by omega)] at he
        simp at he
      have hecomp : e ∈ comp := by
        rw [List.getElem?_eq_getElem hilt] at he
        simp at he
        rw [← he]
        exact List.getElem_mem hilt
      apply ih
      · refine ⟨hnd' hnd, (hmem start).mpr (Or.inl hs), ?_, ?_, ?_, ?_⟩
        · intro x hx
          rcases (hmem x).mp hx with h | h
          · exact hl x h
          · exact Relation.ReflTransGen.tail (hl e hecomp) (mem_EdgeAdjacencies.mp h)
        · intro x hx
          rcases (hmem x).mp hx with h | h
          · exact hlt x h
          · exact EdgeAdjacencies_lt h
        · rw [ht, List.length_append]; omega
        · intro k hk x hkx j hj
          rw [ht] at hkx
          by_cases hki : k < i
          · rw [List.getElem?_append_left (by omega)] at hkx
            exact (hmem j).mpr (Or.inl (hcl k hki x hkx j hj))
          · have hkeq : k = i := by omega
            subst hkeq
            rw [List.getElem?_append_left hilt, he] at hkx
            simp at hkx
            subst hkx
            exact (hmem j).mpr (Or.inr hj)
      · omega

theorem mem_ConnectedComponent {g : Graph} {start : Nat} (hs : start < g.Edges.length)
    {fuel : Nat} (hfuel : g.Edges.length ≤ fuel) :
    (ConnectedComponent fuel start (EdgeAdjacencies g)).Nodup
    ∧ ∀ x, x ∈ ConnectedComponent fuel start (EdgeAdjacencies g) ↔ EdgeLinked g start x := by
  have hinv : ComponentInv g start 0 [start] := by
    refine ⟨by simp, by simp, ?_, ?_, by simp, ?_⟩
    · intro x hx; simp at hx; subst hx; exact Relation.ReflTransGen.refl
    · intro x hx; simp at hx; subst hx; exact hs
    · intro k hk; omega
  obtain ⟨hnd, hmem, hl, _, hcl⟩ := componentLoop_spec g start fuel 0 [start] hinv (by omega)
  refine ⟨hnd, fun x => ⟨hl x, ?_⟩⟩
  intro h
  induction h with
  | refl => exact hmem
  | tail _ hbc ih => exact hcl _ ih _ (mem_EdgeAdjacencies.mpr hbc)



theorem componentEdgesLoop_spec (g : Graph) (fuel : Nat) (hfuel : g.Edges.length ≤ fuel) :
    ∀ (idxs : List Nat) (st : List Nat × List (List Nat)),
      (∀ i ∈ idxs, i < g.Edges.length) → ComponentsInv g st →
      ComponentsInv g (componentEdgesLoop fuel (EdgeAdjacencies g) idxs st)
      ∧ (∀ x ∈ st.1, x ∈ (componentEdgesLoop fuel (EdgeAdjacencies g) idxs st).1)
      ∧ ∀ i ∈ idxs, i ∈ (componentEdgesLoop fuel (EdgeAdjacencies g) idxs st).1 := by
  intro idxs
  induction idxs with
  | nil => intro st _ hst; simp [componentEdgesLoop, hst]
  | cons i rest ih =>
    intro st hidx hst
    obtain ⟨used, sets⟩ := st
    have hrest : ∀ i ∈ rest, i < g.Edges.length := fun k hk => hidx k (by simp [hk])
    simp only [componentEdgesLoop]
    by_cases hc : ContainsIdx used i = true
    · simp only [hc, if_true]
      obtain ⟨h1, h2, h3⟩ := ih (used, sets) hrest hst
      refine ⟨h1, h2, ?_⟩
      intro k hk
      rcases List.mem_cons.mp hk with hk | hk
      · subst hk; exact h2 _ (ContainsIdx_iff.mp hc)
      · exact h3 k hk
    · simp only [hc]
      have hi : i < g.Edges.length := hidx i (by simp)
      obtain ⟨hcnd, hcmem⟩ := mem_ConnectedComponent hi hfuel
      have hnot : i ∉ used := fun h => hc (ContainsIdx_iff.mpr h)
      obtain ⟨hu, hnd, hne, hcls, hlt⟩ := hst
      simp only at hu hnd hne hcls hlt
      have hic : i ∈ ConnectedComponent fuel i (EdgeAdjacencies g) :=
        (hcmem i).mpr Relation.ReflTransGen.refl
      have hnew : ComponentsInv g
          (used ++ ConnectedComponent fuel i (EdgeAdjacencies g),
            sets ++ [ConnectedComponent fuel i (EdgeAdjacencies g)]) := by
        refine ⟨by simp [hu], ?_, ?_, ?_, ?_⟩
        · simp only [List.flatten_append, List.flatten_cons, List.flatten_nil, List.append_nil]
          rw [List.nodup_append]
          refine ⟨hnd, hcnd, ?_⟩
          intro x hx hx2
          obtain ⟨c0, hc0, hxc0⟩ := List.mem_flatten.mp hx
          have hlink : EdgeLinked g x i := edgeLinked_symm ((hcmem x).mp hx2)
          have : i ∈ c0 := (hcls c0 hc0 x hxc0 i).mpr hlink
          exact hnot (hu ▸ List.mem_flatten.mpr ⟨c0, hc0, this⟩)
        · intro c hcin
          rcases List.mem_append.mp hcin with h | h
          · exact hne c h
          · simp at h; subst h; exact List.ne_nil_of_mem hic
        · intro c hcin a ha j
          rcases List.mem_append.mp hcin with h | h
          · exact hcls c h a ha j
          · simp at h; subst h
            have hia := (hcmem a).mp ha
            rw [hcmem j]
            exact ⟨fun hj => Relation.ReflTransGen.trans (edgeLinked_symm hia) hj,
              fun hj => Relation.ReflTransGen.trans hia hj⟩
        · intro x hx
          rcases List.mem_append.mp hx with h | h
          · exact hlt x h
          · exact edgeLinked_lt ((hcmem x).mp h) hi
      obtain ⟨h1, h2, h3⟩ := ih _ hrest hnew
      simp only [Bool.false_eq_true, if_false]
      refine ⟨h1, ?_, ?_⟩
      · intro x hx
        exact h2 x (List.mem_append.mpr (Or.inl hx))
      · intro k hk
        rcases List.mem_cons.mp hk with hk | hk
        · subst hk
          exact h2 _ (List.mem_append.mpr (Or.inr hic))
        · exact h3 k hk

theorem ConnectedComponentEdges_isComponentList (g : Graph) :
    IsComponentList g (ConnectedComponentEdges g) := by
  have hinit : ComponentsInv g ([], []) := by
    refine ⟨by simp, by simp, by simp, by simp, by simp⟩
  obtain ⟨⟨hu, hnd, hne, hcls, hlt⟩, _, hall⟩ :=
    componentEdgesLoop_spec g (g.Edges.length + 1) (by omega) (List.range g.Edges.length)
      ([], []) (fun i hi => List.mem_range.mp hi) hinit
  refine ⟨?_, hne, hcls⟩
  unfold ConnectedComponentEdges
  rw [List.perm_ext_iff_of_nodup hnd (List.nodup_range _)]
  intro x
  rw [← hu]
  exact ⟨fun h => List.mem_range.mpr (hlt x h), fun h => hall x h⟩

theorem foldl_maxStepsSaved (cs : List (List Nat)) (acc : Int) :
    cs.foldl (fun maxStepsSaved c => maxStepsSaved + (((c.length : Nat) : Int) - 1 - floorLog2 c.length)) acc
      = acc + (cs.map (fun c => ((c.length : Int) - 1) - floorLog2 c.length)).sum := by
  induction cs generalizing acc with
  | nil => simp
  | cons c cs ih => simp [ih, add_assoc]

theorem MaxStepsSaved_eq_sum (P : Pathway) :
    MaxStepsSaved P
      = ((ConnectedComponentEdges P.remnant).map
          (fun c => ((c.length : Int) - 1) - floorLog2 c.length)).sum := by
  simp [MaxStepsSaved, foldl_maxStepsSaved]

theorem log2Loop_spec : ∀ (fuel n : Nat), 1 ≤ n → n ≤ fuel →
    2 ^ log2Loop fuel n ≤ n ∧ n < 2 ^ (log2Loop fuel n + 1)
  | 0, n, h1, h2 => by omega
  | fuel + 1, n, h1, h2 => by
    simp only [log2Loop]
    split
    · rename_i h
      have := log2Loop_spec fuel (n / 2) (by omega) (by omega)
      rw [pow_succ, pow_succ]
      constructor <;> omega
    · simp; omega

theorem floorLog2_spec (m : Nat) (h : 1 ≤ m) :
    ∃ k : Nat, floorLog2 m = (k : Int) ∧ 2 ^ k ≤ m ∧ m < 2 ^ (k + 1) :=
  ⟨log2Loop m m, rfl, log2Loop_spec m m h (le_refl m)⟩



theorem IsComponentList.nodup_of_mem {g : Graph} {cs : List (List Nat)}
    (h : IsComponentList g cs) {c : List Nat} (hc : c ∈ cs) : c.Nodup := by
  have hnd : cs.flatten.Nodup := h.1.nodup_iff.mpr (List.nodup_range _)
  exact (List.nodup_flatten.mp hnd).1 c hc

theorem IsComponentList.mem_toFinset_iff {g : Graph} {cs : List (List Nat)}
    (h : IsComponentList g cs) (s : Finset Nat) :
    s ∈ cs.map List.toFinset
      ↔ ∃ i, i < g.Edges.length ∧ ∀ j, j ∈ s ↔ EdgeLinked g i j := by
  obtain ⟨hperm, hne, hcls⟩ := h
  constructor
  · intro hs
    obtain ⟨c, hc, rfl⟩ := List.mem_map.mp hs
    obtain ⟨i, hi⟩ := List.exists_mem_of_ne_nil c (hne c hc)
    refine ⟨i, ?_, fun j => ?_⟩
    · have : i ∈ cs.flatten := List.mem_flatten.mpr ⟨c, hc, hi⟩
      exact List.mem_range.mp (hperm.mem_iff.mp this)
    · rw [List.mem_toFinset]
      exact hcls c hc i hi j
  · rintro ⟨i, hi, hs⟩
    have : i ∈ cs.flatten := hperm.mem_iff.mpr (List.mem_range.mpr hi)
    obtain ⟨c, hc, hic⟩ := List.mem_flatten.mp this
    refine List.mem_map.mpr ⟨c, hc, ?_⟩
    ext j
    rw [List.mem_toFinset, hs j]
    exact hcls c hc i hic j

theorem IsComponentList.nodup_toFinset {g : Graph} {cs : List (List Nat)}
    (h : IsComponentList g cs) : (cs.map List.toFinset).Nodup := by
  have hnd : cs.flatten.Nodup := h.1.nodup_iff.mpr (List.nodup_range _)
  have hpw := (List.nodup_flatten.mp hnd).2
  rw [List.Nodup, List.pairwise_map]
  refine (hpw.imp_of_mem ?_)
  intro a b ha _ hdisj heq
  obtain ⟨i, hi⟩ := List.exists_mem_of_ne_nil a (h.2.1 a ha)
  have : i ∈ b := by
    have : i ∈ a.toFinset := List.mem_toFinset.mpr hi
    rw [heq] at this
    exact List.mem_toFinset.mp this
  exact hdisj hi this

theorem IsComponentList.sum_eq {g : Graph} {cs cs' : List (List Nat)}
    (h : IsComponentList g cs) (h' : IsComponentList g cs') (F : Nat → Int) :
    (cs.map (fun c => F c.length)).sum = (cs'.map (fun c => F c.length)).sum := by
  have hperm : (cs.map List.toFinset).Perm (cs'.map List.toFinset) := by
    rw [List.perm_ext_iff_of_nodup h.nodup_toFinset h'.nodup_toFinset]
    intro s
    rw [h.mem_toFinset_iff, h'.mem_toFinset_iff]
  have key : ∀ {ds : List (List Nat)}, IsComponentList g ds →
      (ds.map (fun c => F c.length)).sum
        = ((ds.map List.toFinset).map (fun s => F s.card)).sum := by
    intro ds hds
    rw [List.map_map]
    congr 1
    apply List.map_congr_left
    intro c hc
    simp [List.toFinset_card_of_nodup (hds.nodup_of_mem hc)]
  rw [key h, key h']
  exact (hperm.map _).sum_eq

/-- C9: for every pathway `P` and every listing `cs` of the connected components
of its remnant (components over the edges, two edges adjacent when they share an
endpoint), `MaxStepsSaved P` is the sum over `cs` of `(m - 1) - floor(log2 m)`,
`m` the number of edges of the component, where `floor(log2 m)` is the `k` with
`2 ^ k ≤ m < 2 ^ (k + 1)`; and `ConnectedComponentEdges` is such a listing. -/
theorem C9_maxStepsSaved_components (P : Pathway) (cs : List (List Nat))
    (h : IsComponentList P.remnant cs) :
    MaxStepsSaved P = (cs.map (fun c => ((c.length : Int) - 1) - floorLog2 c.length)).sum
    ∧ (∀ c ∈ cs, ∃ k : Nat, floorLog2 c.length = (k : Int) ∧ 2 ^ k ≤ c.length
        ∧ c.length < 2 ^ (k + 1))
    ∧ IsComponentList P.remnant (ConnectedComponentEdges P.remnant) := by
  refine ⟨?_, ?_, ConnectedComponentEdges_isComponentList P.remnant⟩
  · rw [MaxStepsSaved_eq_sum]
    exact (ConnectedComponentEdges_isComponentList P.remnant).sum_eq h
      (fun m => ((m : Int) - 1) - floorLog2 m)
  · intro c hc
    have : 1 ≤ c.length := List.length_pos.mpr (h.2.1 c hc)
    exact floorLog2_spec c.length this

/-- C9 at the square (one component of 4 edges, value 1) and at the 3x3 grid
(one component of 12 edges, value 8). -/
theorem C9_maxStepsSaved_components_witness :
    IsComponentList (NewStartingPathway square).remnant [[0, 1, 3, 2]]
    ∧ MaxStepsSaved (NewStartingPathway square) = 1
    ∧ IsComponentList (NewStartingPathway nineGrid).remnant
        [[0, 1, 6, 8, 10, 2, 7, 3, 9, 11, 4, 5]]
    ∧ MaxStepsSaved (NewStartingPathway nineGrid) = 8 := by
  have h1 : IsComponentList (NewStartingPathway square).remnant [[0, 1, 3, 2]] := by
    have := ConnectedComponentEdges_isComponentList square
    have e : ConnectedComponentEdges square = [[0, 1, 3, 2]] := by decide
    rw [e] at this
    exact this
  have h2 : IsComponentList (NewStartingPathway nineGrid).remnant
      [[0, 1, 6, 8, 10, 2, 7, 3, 9, 11, 4, 5]] := by
    have := ConnectedComponentEdges_isComponentList nineGrid
    have e : ConnectedComponentEdges nineGrid = [[0, 1, 6, 8, 10, 2, 7, 3, 9, 11, 4, 5]] := by
      decide
    rw [e] at this
    exact this
  refine ⟨h1, ?_, h2, ?_⟩
  · exact (C9_maxStepsSaved_components (NewStartingPathway square) [[0, 1, 3, 2]] h1).1.trans
      (by decide)
  · exact (C9_maxStepsSaved_components (NewStartingPathway nineGrid) _ h2).1.trans (by decide)

/-! ## The path trace enumerates the connected subgraphs -/

theorem mem_modifyEdgeAdjacencies {g : Graph} {e s y : Nat} :
    y ∈ modifyEdgeAdjacencies (EdgeAdjacencies g) e s ↔ e ≤ s ∧ e ≤ y ∧ EdgeAdjacent g s y := by
  unfold modifyEdgeAdjacencies
  by_cases h : s < e
  · simp only [h, if_true, List.not_mem_nil, false_iff]
    rintro ⟨h1, _, _⟩
    omega
  · simp only [h, if_false, List.mem_filter, mem_EdgeAdjacencies, decide_eq_true_eq]
    constructor
    · rintro ⟨h1, h2⟩; exact ⟨by omega, by omega, h1⟩
    · rintro ⟨_, h2, h3⟩; exact ⟨h3, by omega⟩

theorem nonForbiddenNeighbour_none {sub : List Nat} {adj : Nat → List Nat} {F : Nat → Bool}
    (h : nonForbiddenNeighbour sub adj F = none) :
    ∀ s ∈ sub, ∀ y ∈ adj s, F y = true ∨ y ∈ sub := by
  unfold nonForbiddenNeighbour at h
  rw [List.findSome?_eq_none_iff] at h
  intro s hs y hy
  have := h s hs
  rw [List.find?_eq_none] at this
  have := this y hy
  simp only [Bool.and_eq_true, Bool.not_eq_true', not_and, Bool.not_eq_false] at this
  by_cases hF : F y = true
  · exact Or.inl hF
  · right
    have := this (by simpa using hF)
    exact ContainsIdx_iff.mp this

theorem exists_crossing {α : Type} {r : α → α → Prop} {A : α → Prop} {a b : α}
    (h : Relation.ReflTransGen r a b) (ha : A a) (hb : ¬ A b) :
    ∃ u v, A u ∧ ¬ A v ∧ r u v := by
  induction h with
  | refl => exact absurd ha hb
  | tail hab hbc ih =>
    rename_i c d
    by_cases hc : A c
    · exact ⟨c, d, hc, hb, hbc⟩
    · exact ih hc

theorem ConnectedSet.exists_neighbour {g : Graph} {S : Finset Nat} (hS : ConnectedSet g S)
    {sub : List Nat} (hne : sub ≠ []) (hsub : sub.toFinset ⊂ S) :
    ∃ s ∈ sub, ∃ y ∈ S, y ∉ sub ∧ EdgeAdjacent g s y := by
  obtain ⟨a, ha⟩ := List.exists_mem_of_ne_nil sub hne
  obtain ⟨b, hbS, hb⟩ := Finset.exists_of_ssubset hsub
  have haS : a ∈ S := hsub.subset (List.mem_toFinset.mpr ha)
  obtain ⟨u, v, hu, hv, huS, hvS, hadj⟩ :=
    exists_crossing (A := fun x => x ∈ sub) (hS a haS b hbS) ha
      (fun h => hb (List.mem_toFinset.mpr h))
  exact ⟨u, hu, v, hvS, hv, hadj⟩

theorem connectedSet_mono_rel {g : Graph} {S T : Finset Nat} (hST : S ⊆ T) {a b : Nat}
    (h : Relation.ReflTransGen (fun x y => x ∈ S ∧ y ∈ S ∧ EdgeAdjacent g x y) a b) :
    Relation.ReflTransGen (fun x y => x ∈ T ∧ y ∈ T ∧ EdgeAdjacent g x y) a b :=
  Relation.ReflTransGen.mono (fun _ _ h => ⟨hST h.1, hST h.2.1, h.2.2⟩) h

theorem connectedSet_insert {g : Graph} {S : Finset Nat} (hS : ConnectedSet g S)
    {s x : Nat} (hs : s ∈ S) (hadj : EdgeAdjacent g s x) : ConnectedSet g (insert x S) := by
  have hsub : S ⊆ insert x S := Finset.subset_insert x S
  have hsx : Relation.ReflTransGen
      (fun u v => u ∈ insert x S ∧ v ∈ insert x S ∧ EdgeAdjacent g u v) s x :=
    Relation.ReflTransGen.single ⟨hsub hs, Finset.mem_insert_self x S, hadj⟩
  have hxs : Relation.ReflTransGen
      (fun u v => u ∈ insert x S ∧ v ∈ insert x S ∧ EdgeAdjacent g u v) x s :=
    Relation.ReflTransGen.single ⟨Finset.mem_insert_self x S, hsub hs, edgeAdjacent_symm hadj⟩
  intro a ha b hb
  rcases Finset.mem_insert.mp ha with ha1 | ha1
  · rcases Finset.mem_insert.mp hb with hb1 | hb1
    · rw [ha1, hb1]
    · rw [ha1]
      exact hxs.trans (connectedSet_mono_rel hsub (hS s hs b hb1))
  · rcases Finset.mem_insert.mp hb with hb1 | hb1
    · rw [hb1]
      exact (connectedSet_mono_rel hsub (hS a ha1 s hs)).trans hsx
    · exact connectedSet_mono_rel hsub (hS a ha1 b hb1)

theorem connectedSet_singleton (g : Graph) (e : Nat) : ConnectedSet g {e} := by
  intro a ha b hb
  simp at ha hb
  subst ha; subst hb
  exact Relation.ReflTransGen.refl

theorem subsLoop_succ {adj : Nat → List Nat} {cm : Bool} {t : SubgraphTrace} (fuel : Nat)
    (h : t.sub ≠ []) :
    subsLoop adj cm (fuel + 1) t = subsLoop adj cm fuel (NextSubgraph t adj cm) := by
  have : t.sub.length ≠ 0 := fun hl => h (List.length_eq_zero.mp hl)
  simp [subsLoop, this]

theorem subsLoop_nil {adj : Nat → List Nat} {cm : Bool} {t : SubgraphTrace} (fuel : Nat)
    (h : t.sub = []) : subsLoop adj cm fuel t = t := by
  cases fuel with
  | zero => rfl
  | succ n => simp [subsLoop, h]

theorem filter_length_lt {l : List Nat} {p q : Nat → Bool} (hpq : ∀ k, q k = true → p k = true)
    {x : Nat} (hx : x ∈ l) (hpx : p x = true) (hqx : q x = false) :
    (l.filter q).length < (l.filter p).length := by
  induction l with
  | nil => simp at hx
  | cons a l ih =>
    have hle : ∀ l' : List Nat, (l'.filter q).length ≤ (l'.filter p).length := by
      intro l'
      induction l' with
      | nil => simp
      | cons b l' ih' =>
        simp only [List.filter_cons]
        by_cases hq : q b = true
        · simp [hq, hpq b hq, ih']
        · by_cases hp : p b = true
          · simp [hq, hp]; omega
          · simp [hq, hp, ih']
    rcases List.mem_cons.mp hx with h | h
    · subst h
      simp only [List.filter_cons, hpx, hqx, if_true, List.length_cons]
      have := hle l
      simp
      omega
    · have := ih h
      simp only [List.filter_cons]
      by_cases hq : q a = true
      · simp [hq, hpq a hq]; omega
      · by_cases hp : p a = true
        · simp [hq, hp]; omega
        · simp [hq, hp]; omega

theorem traceRun_pop {g : Graph} {e m : Nat} {t : SubgraphTrace} (hpre : TracePre g e t)
    (hnone : nonForbiddenNeighbour t.sub (modifyEdgeAdjacencies (EdgeAdjacencies g) e)
      t.forbidden = none) :
    TraceRun g e m t (NextSubgraph t (modifyEdgeAdjacencies (EdgeAdjacencies g) e) false) 1 [] := by
  have hinv := hpre.inv
  refine
    { rounds := ?_, run := ?_, sub_eq := ?_, subgraphs_eq := ?_, count_eq := ?_,
      forbidden_iff := ?_, size_last := ?_, size_keep := ?_, sound := ?_, complete := ?_,
      distinct := ?_ }
  · have : 1 ≤ 2 ^ m := Nat.one_le_two_pow
    rw [pow_succ]; omega
  · intro fuel
    rw [Nat.add_comm, subsLoop_succ fuel hpre.nonempty]
  · simp [NextSubgraph, hnone, forbidUpdate]
  · simp [NextSubgraph, hnone, forbidUpdate]
  · simp [NextSubgraph, hnone, forbidUpdate]
  · intro k
    simp only [NextSubgraph, hnone, forbidUpdate]
    by_cases hk : k = t.sub.getLastD 0
    · simp [hk]
    · simp only [hk, if_false, false_or]
      cases hs : t.forbiddenSize k with
      | none =>
        simp only
        constructor
        · intro hF
          obtain ⟨v, hv, _⟩ := hinv k hF
          rw [hs] at hv; simp at hv
        · rintro ⟨hF, _⟩; exact hF
      | some v =>
        simp only
        by_cases hv : v > t.sub.length
        · simp only [hv, if_true, Bool.false_eq_true, false_iff, not_and, not_exists]
          intro _ w hw
          simp at hw
          omega
        · simp only [hv, if_false]
          constructor
          · intro hF; exact ⟨hF, v, rfl, by omega⟩
          · rintro ⟨hF, _⟩; exact hF
  · simp [NextSubgraph, hnone, forbidUpdate]
  · intro k hk _
    simp only [NextSubgraph, hnone, forbidUpdate]
    rw [if_neg hk]
  · intro l hl; simp at hl
  · intro S hS hsub hvalid hfree
    exfalso
    obtain ⟨s, hs, y, hyS, hy, hadj⟩ := hS.exists_neighbour hpre.nonempty hsub
    have hmem : y ∈ modifyEdgeAdjacencies (EdgeAdjacencies g) e s :=
      mem_modifyEdgeAdjacencies.mpr ⟨(hpre.valid s hs).1, (hvalid y hyS).1, hadj⟩
    rcases nonForbiddenNeighbour_none hnone s hs y hmem with h | h
    · rw [hfree y hyS hy] at h; simp at h
    · exact hy h
  · simp

theorem NextSubgraph_push {adj : Nat → List Nat} {t : SubgraphTrace} {x : Nat}
    (h : nonForbiddenNeighbour t.sub adj t.forbidden = some x) :
    (NextSubgraph t adj false).sub = t.sub ++ [x]
    ∧ (NextSubgraph t adj false).edgeSubgraphs = t.edgeSubgraphs ++ [t.sub ++ [x]]
    ∧ (NextSubgraph t adj false).subCount = t.subCount + 1
    ∧ (NextSubgraph t adj false).forbidden = t.forbidden
    ∧ (NextSubgraph t adj false).forbiddenSize = t.forbiddenSize := by
  simp [NextSubgraph, h]

theorem traceRun_push {g : Graph} {e m : Nat} {t : SubgraphTrace} (hpre : TracePre g e t)
    {x : Nat}
    (hsome : nonForbiddenNeighbour t.sub (modifyEdgeAdjacencies (EdgeAdjacencies g) e)
      t.forbidden = some x)
    (hfree : freeEdges g t ≤ m + 1)
    (ih : ∀ t : SubgraphTrace, TracePre g e t → freeEdges g t ≤ m →
      ∃ T out t', TraceRun g e m t t' T out) :
    ∃ T out t', TraceRun g e (m + 1) t t' T out := by
  obtain ⟨s, hs, hxadj, hFx, hxc⟩ := nonForbiddenNeighbour_mem hsome
  have hxsub : x ∉ t.sub := fun h => by
    rw [ContainsIdx_iff.mpr h] at hxc; simp at hxc
  obtain ⟨hes, hex, hadj⟩ := mem_modifyEdgeAdjacencies.mp hxadj
  have hxn : x < g.Edges.length := edgeAdjacent_lt hadj
  obtain ⟨hsub1, hsubs1, hcnt1, hF1, hFS1⟩ := NextSubgraph_push hsome
  generalize ht1 : NextSubgraph t (modifyEdgeAdjacencies (EdgeAdjacencies g) e) false = t1
    at hsub1 hsubs1 hcnt1 hF1 hFS1
  -- the state after the push
  have hpre1 : TracePre g e t1 := by
    refine ⟨?_, ?_, ?_, ?_, ?_⟩
    · rw [hsub1]; simp
    · intro y hy
      rw [hsub1] at hy
      rcases List.mem_append.mp hy with h | h
      · exact hpre.valid y h
      · simp at h; subst h; exact ⟨hex, hxn⟩
    · rw [hsub1]
      exact List.Nodup.append hpre.nodup (by simp) (by
        intro a ha hb; simp at hb; subst hb; exact hxsub ha)
    · rw [hsub1]
      have : (t.sub ++ [x]).toFinset = insert x t.sub.toFinset := by
        ext y; simp [or_comm]
      rw [this]
      exact connectedSet_insert hpre.connected (List.mem_toFinset.mpr hs) hadj
    · intro k hk
      rw [hF1] at hk
      obtain ⟨v, hv, hle⟩ := hpre.inv k hk
      exact ⟨v, by rw [hFS1]; exact hv, by rw [hsub1]; simp; omega⟩
  have hfree1 : freeEdges g t1 ≤ m := by
    have : freeEdges g t1 < freeEdges g t := by
      unfold freeEdges
      apply filter_length_lt (x := x)
      · intro k hk
        rw [hsub1, hF1] at hk
        simp only [Bool.and_eq_true, decide_eq_true_eq, List.mem_append, List.mem_singleton,
          not_or] at hk ⊢
        exact ⟨hk.1.1, hk.2⟩
      · exact List.mem_range.mpr hxn
      · simp [hxsub, hFx]
      · rw [hsub1]; simp
    omega
  obtain ⟨T1, out1, t2, R1⟩ := ih t1 hpre1 hfree1
  have hsub2 : t2.sub = t.sub := by rw [R1.sub_eq, hsub1]; simp
  have hlast1 : t1.sub.getLastD 0 = x := by rw [hsub1]; simp
  have hlen1 : t1.sub.length = t.sub.length + 1 := by rw [hsub1]; simp
  have hF2 : ∀ k, t2.forbidden k = true ↔ (k = x ∨ t.forbidden k = true) := by
    intro k
    rw [R1.forbidden_iff, hlast1, hF1, hFS1, hlen1]
    constructor
    · rintro (h | ⟨h, _⟩)
      · exact Or.inl h
      · exact Or.inr h
    · rintro (h | h)
      · exact Or.inl h
      · exact Or.inr ⟨h, hpre.inv k h⟩
  have hFS2x : t2.forbiddenSize x = some (t.sub.length + 1) := by
    have := R1.size_last
    rw [hlast1, hlen1] at this
    exact this
  have hFS2 : ∀ k, k ≠ x → t.forbidden k = true → t2.forbiddenSize k = t.forbiddenSize k := by
    intro k hk hFk
    have := R1.size_keep k (by rw [hlast1]; exact hk) (by rw [hF1]; exact hFk)
    rw [this, hFS1]
  have hpre2 : TracePre g e t2 := by
    refine ⟨?_, ?_, ?_, ?_, ?_⟩
    · rw [hsub2]; exact hpre.nonempty
    · rw [hsub2]; exact hpre.valid
    · rw [hsub2]; exact hpre.nodup
    · rw [hsub2]; exact hpre.connected
    · intro k hk
      rw [hsub2]
      rcases (hF2 k).mp hk with h | h
      · subst h; exact ⟨_, hFS2x, le_refl _⟩
      · by_cases hkx : k = x
        · subst hkx; exact ⟨_, hFS2x, le_refl _⟩
        · obtain ⟨v, hv, hle⟩ := hpre.inv k h
          exact ⟨v, by rw [hFS2 k hkx h]; exact hv, hle⟩
  have hfree2 : freeEdges g t2 ≤ m := by
    have : freeEdges g t2 < freeEdges g t := by
      unfold freeEdges
      apply filter_length_lt (x := x)
      · intro k hk
        rw [hsub2] at hk
        simp only [Bool.and_eq_true, decide_eq_true_eq, Bool.not_eq_true'] at hk ⊢
        refine ⟨hk.1, ?_⟩
        by_contra hc
        have : t2.forbidden k = true := (hF2 k).mpr (Or.inr (by simpa using hc))
        rw [hk.2] at this; simp at this
      · exact List.mem_range.mpr hxn
      · simp [hxsub, hFx]
      · have : t2.forbidden x = true := (hF2 x).mpr (Or.inl rfl)
        simp [this]
    omega
  obtain ⟨T2, out2, t3, R2⟩ := ih t2 hpre2 hfree2
  have hnF2 : ∀ y, t2.forbidden y = false → t.forbidden y = false := by
    intro y hy
    by_contra hc
    have : t2.forbidden y = true := (hF2 y).mpr (Or.inr (by simpa using hc))
    rw [hy] at this; simp at this
  have hF2x : t2.forbidden x = true := (hF2 x).mpr (Or.inl rfl)
  -- the subgraphs of the second part do not contain `x`
  have hout2 : ∀ l ∈ out2, x ∉ l := by
    intro l hl hxl
    obtain ⟨ext, _, hleq, _, _, _, hext⟩ := R2.sound l hl
    rw [hleq, hsub2] at hxl
    rcases List.mem_append.mp hxl with h | h
    · exact hxsub h
    · rw [hext x h] at hF2x; simp at hF2x
  have hout1 : ∀ l ∈ out1, x ∈ l ∧ (t.sub ++ [x]).toFinset ≠ l.toFinset := by
    intro l hl
    obtain ⟨ext, hne, hleq, hnd, _, _, _⟩ := R1.sound l hl
    rw [hsub1] at hleq
    refine ⟨by rw [hleq]; simp, ?_⟩
    intro heq
    have h1 : (t.sub ++ [x]).toFinset.card = l.toFinset.card := by rw [heq]
    have hnd1 : (t.sub ++ [x]).Nodup := by rw [← hsub1]; exact hpre1.nodup
    rw [List.toFinset_card_of_nodup hnd1, List.toFinset_card_of_nodup hnd, hleq] at h1
    simp at h1
    exact hne h1
  refine ⟨1 + T1 + T2, (t.sub ++ [x]) :: (out1 ++ out2), t3,
    { rounds := ?_, run := ?_, sub_eq := ?_, subgraphs_eq := ?_, count_eq := ?_,
      forbidden_iff := ?_, size_last := ?_, size_keep := ?_, sound := ?_, complete := ?_,
      distinct := ?_ }⟩
  · have h1 := R1.rounds
    have h2 := R2.rounds
    have : 2 ^ (m + 1 + 1) = 2 ^ (m + 1) + 2 ^ (m + 1) := by rw [pow_succ]; omega
    omega
  · intro fuel
    have : 1 + T1 + T2 + fuel = (T1 + (T2 + fuel)) + 1 := by omega
    rw [this, subsLoop_succ _ hpre.nonempty, ht1, R1.run, R2.run]
  · rw [R2.sub_eq, hsub2]
  · rw [R2.subgraphs_eq, R1.subgraphs_eq, hsubs1]; simp
  · rw [R2.count_eq, R1.count_eq, hcnt1]; simp; omega
  · intro k
    rw [R2.forbidden_iff, hsub2]
    constructor
    · rintro (h | ⟨h, v, hv, hle⟩)
      · exact Or.inl h
      · right
        by_cases hkx : k = x
        · subst hkx
          rw [hFS2x] at hv
          simp at hv
          omega
        · have hFk : t.forbidden k = true := by
            rcases (hF2 k).mp h with h' | h'
            · exact absurd h' hkx
            · exact h'
          exact ⟨hFk, v, by rw [← hFS2 k hkx hFk]; exact hv, hle⟩
    · rintro (h | ⟨h, v, hv, hle⟩)
      · exact Or.inl h
      · right
        have hkx : k ≠ x := by
          intro hkx; subst hkx; rw [hFx] at h; simp at h
        exact ⟨(hF2 k).mpr (Or.inr h), v, by rw [hFS2 k hkx h]; exact hv, hle⟩
  · have := R2.size_last
    rw [hsub2] at this
    exact this
  · intro k hk hFk
    have hkx : k ≠ x := by
      intro hkx; subst hkx; rw [hFx] at hFk; simp at hFk
    rw [R2.size_keep k (by rw [hsub2]; exact hk) ((hF2 k).mpr (Or.inr hFk)), hFS2 k hkx hFk]
  · intro l hl
    simp only [List.mem_cons, List.mem_append] at hl
    rcases hl with hl | hl | hl
    · subst hl
      refine ⟨[x], by simp, rfl, ?_, ?_, ?_, ?_⟩
      · rw [← hsub1]; exact hpre1.nodup
      · rw [← hsub1]; exact hpre1.valid
      · rw [← hsub1]; exact hpre1.connected
      · intro y hy; simp at hy; subst hy; exact hFx
    · obtain ⟨ext, hne, hleq, hnd, hval, hconn, hext⟩ := R1.sound l hl
      refine ⟨[x] ++ ext, by simp, ?_, hnd, hval, hconn, ?_⟩
      · rw [hleq, hsub1]; simp
      · intro y hy
        rcases List.mem_append.mp hy with h | h
        · simp at h; subst h; exact hFx
        · have := hext y h
          rw [hF1] at this
          exact this
    · obtain ⟨ext, hne, hleq, hnd, hval, hconn, hext⟩ := R2.sound l hl
      refine ⟨ext, hne, by rw [hleq, hsub2], hnd, hval, hconn, ?_⟩
      intro y hy
      exact hnF2 y (hext y hy)
  · intro S hS hsubS hvalid hfreeS
    by_cases hxS : x ∈ S
    · by_cases heq : (t.sub ++ [x]).toFinset = S
      · exact ⟨t.sub ++ [x], by simp, heq⟩
      · have hss : t1.sub.toFinset ⊂ S := by
          rw [hsub1]
          refine Finset.ssubset_iff_subset_ne.mpr ⟨?_, heq⟩
          intro y hy
          rw [List.mem_toFinset] at hy
          rcases List.mem_append.mp hy with h | h
          · exact hsubS.subset (List.mem_toFinset.mpr h)
          · simp at h; subst h; exact hxS
        obtain ⟨l, hl, hlS⟩ := R1.complete S hS hss hvalid (by
          intro y hyS hy
          rw [hF1]
          apply hfreeS y hyS
          intro h
          exact hy (by rw [hsub1]; exact List.mem_append.mpr (Or.inl h)))
        exact ⟨l, by simp [hl], hlS⟩
    · obtain ⟨l, hl, hlS⟩ := R2.complete S hS (by rw [hsub2]; exact hsubS) hvalid (by
        intro y hyS hy
        rw [hsub2] at hy
        have hFy := hfreeS y hyS hy
        by_contra hc
        rcases (hF2 y).mp (by simpa using hc) with h | h
        · subst h; exact hxS hyS
        · rw [hFy] at h; simp at h)
      exact ⟨l, by simp [hl], hlS⟩
  · simp only [List.map_cons, List.map_append]
    rw [List.nodup_cons, List.nodup_append]
    refine ⟨?_, R1.distinct, R2.distinct, ?_⟩
    · intro hmem
      rcases List.mem_append.mp hmem with h | h
      · obtain ⟨l, hl, hleq⟩ := List.mem_map.mp h
        exact (hout1 l hl).2 hleq.symm
      · obtain ⟨l, hl, hleq⟩ := List.mem_map.mp h
        have : x ∈ l.toFinset := by rw [hleq]; simp
        exact hout2 l hl (List.mem_toFinset.mp this)
    · intro S h1 h2
      obtain ⟨l1, hl1, hleq1⟩ := List.mem_map.mp h1
      obtain ⟨l2, hl2, hleq2⟩ := List.mem_map.mp h2
      have : x ∈ l2.toFinset := by
        rw [hleq2, ← hleq1]; exact List.mem_toFinset.mpr (hout1 l1 hl1).1
      exact hout2 l2 hl2 (List.mem_toFinset.mp this)

theorem traceRun_exists (g : Graph) (e : Nat) :
    ∀ (m : Nat) (t : SubgraphTrace), TracePre g e t → freeEdges g t ≤ m →
      ∃ T out t', TraceRun g e m t t' T out := by
  intro m
  induction m with
  | zero =>
    intro t hpre hfree
    cases hn : nonForbiddenNeighbour t.sub (modifyEdgeAdjacencies (EdgeAdjacencies g) e)
        t.forbidden with
    | none => exact ⟨1, [], _, traceRun_pop hpre hn⟩
    | some x =>
      exfalso
      obtain ⟨s, hs, hxadj, hFx, hxc⟩ := nonForbiddenNeighbour_mem hn
      have hxsub : x ∉ t.sub := fun h => by
        rw [ContainsIdx_iff.mpr h] at hxc; simp at hxc
      obtain ⟨_, _, hadj⟩ := mem_modifyEdgeAdjacencies.mp hxadj
      have hpos : 0 < freeEdges g t := by
        unfold freeEdges
        apply List.length_pos_of_mem (a := x)
        rw [List.mem_filter]
        exact ⟨List.mem_range.mpr (edgeAdjacent_lt hadj), by simp [hxsub, hFx]⟩
      omega
  | succ m ih =>
    intro t hpre hfree
    cases hn : nonForbiddenNeighbour t.sub (modifyEdgeAdjacencies (EdgeAdjacencies g) e)
        t.forbidden with
    | none => exact ⟨1, [], _, traceRun_pop hpre hn⟩
    | some x => exact traceRun_push hpre hn hfree ih

/-- What `AllSubsOnEdge` returns in non-count mode, for an edge index `e` of the
graph. -/
theorem AllSubsOnEdge_spec (g : Graph) (e : Nat) (he : e < g.Edges.length) :
    ∃ out : List (List Nat),
      AllSubsOnEdge g e false = ([e] :: out, 1 + out.length)
      ∧ (∀ l ∈ out, ∃ ext, ext ≠ [] ∧ l = [e] ++ ext ∧ l.Nodup
          ∧ (∀ x ∈ l, e ≤ x ∧ x < g.Edges.length) ∧ ConnectedSet g l.toFinset)
      ∧ (∀ S : Finset Nat, ConnectedSet g S → {e} ⊂ S →
          (∀ x ∈ S, e ≤ x ∧ x < g.Edges.length) → ∃ l ∈ out, l.toFinset = S)
      ∧ (out.map List.toFinset).Nodup := by
  have hpre : TracePre g e (InitialiseSubsOnEdge g e).2 := by
    refine ⟨by simp [InitialiseSubsOnEdge], ?_, by simp [InitialiseSubsOnEdge], ?_, ?_⟩
    · intro x hx
      simp [InitialiseSubsOnEdge] at hx
      subst hx
      exact ⟨le_refl _, he⟩
    · simp only [InitialiseSubsOnEdge, List.toFinset_cons, List.toFinset_nil,
        insert_emptyc_eq]
      exact connectedSet_singleton g e
    · intro k hk
      simp [InitialiseSubsOnEdge] at hk
  have hfree : freeEdges g (InitialiseSubsOnEdge g e).2 ≤ g.Edges.length := by
    unfold freeEdges
    have := List.length_filter_le
      (fun k => decide (k ∉ (InitialiseSubsOnEdge g e).2.sub)
        && !(InitialiseSubsOnEdge g e).2.forbidden k) (List.range g.Edges.length)
    simpa using this
  obtain ⟨T, out, t', R⟩ := traceRun_exists g e g.Edges.length _ hpre hfree
  refine ⟨out, ?_, ?_, ?_, R.distinct⟩
  · have hT := R.rounds
    have hrun := R.run (2 ^ (g.Edges.length + 1) - T)
    have hfuel : T + (2 ^ (g.Edges.length + 1) - T) = 2 ^ (g.Edges.length + 1) := by omega
    rw [hfuel] at hrun
    have hnil : t'.sub = [] := by rw [R.sub_eq]; simp [InitialiseSubsOnEdge]
    rw [subsLoop_nil _ hnil] at hrun
    have h1 := R.subgraphs_eq
    have h2 := R.count_eq
    simp only [AllSubsOnEdge]
    have hinit : InitialiseSubsOnEdge g e
        = (modifyEdgeAdjacencies (EdgeAdjacencies g) e, (InitialiseSubsOnEdge g e).2) := rfl
    rw [hinit]
    simp only
    rw [hrun, h1, h2]
    simp [InitialiseSubsOnEdge]
  · intro l hl
    obtain ⟨ext, hne, hleq, hnd, hval, hconn, _⟩ := R.sound l hl
    exact ⟨ext, hne, by simpa [InitialiseSubsOnEdge] using hleq, hnd, hval, hconn⟩
  · intro S hS hsub hval
    apply R.complete S hS
    · simpa [InitialiseSubsOnEdge] using hsub
    · exact hval
    · intro x _ _
      simp [InitialiseSubsOnEdge]

theorem allSubsOnEdge_sets (g : Graph) (e : Nat) (he : e < g.Edges.length)
    (S : Finset Nat) :
    (∃ l ∈ (AllSubsOnEdge g e false).1, l.toFinset = S)
      ↔ (e ∈ S ∧ (∀ x ∈ S, e ≤ x ∧ x < g.Edges.length) ∧ ConnectedSet g S) := by
  obtain ⟨out, hres, hsound, hcomplete, _⟩ := AllSubsOnEdge_spec g e he
  rw [hres]
  constructor
  · rintro ⟨l, hl, rfl⟩
    rcases List.mem_cons.mp hl with h | h
    · subst h
      refine ⟨by simp, ?_, ?_⟩
      · intro x hx
        simp at hx
        subst hx
        exact ⟨le_refl _, he⟩
      · simp only [List.toFinset_cons, List.toFinset_nil, insert_emptyc_eq]
        exact connectedSet_singleton g e
    · obtain ⟨ext, _, hleq, _, hval, hconn⟩ := hsound l h
      refine ⟨by rw [hleq]; simp, ?_, hconn⟩
      intro x hx
      exact hval x (List.mem_toFinset.mp hx)
  · rintro ⟨heS, hval, hconn⟩
    by_cases heq : S = {e}
    · exact ⟨[e], by simp, by simp [heq]⟩
    · have hss : ({e} : Finset Nat) ⊂ S := by
        refine Finset.ssubset_iff_subset_ne.mpr ⟨?_, fun h => heq h.symm⟩
        intro x hx
        simp at hx
        subst hx
        exact heS
      obtain ⟨l, hl, hlS⟩ := hcomplete S hconn hss hval
      exact ⟨l, List.mem_cons_of_mem _ hl, hlS⟩

/-- C6: for every graph `G` and every edge index `e` of `G`, the edge lists that
`AllSubsOnEdge(G, e)` produces in non-count mode are, as sets, exactly the sets
`S` of edge indices of `G` that contain `e`, have `e` as smallest index and are
connected. -/
theorem C6_allSubsOnEdge_connected_sets (g : Graph) (e : Nat) (he : e < g.Edges.length)
    (S : Finset Nat) :
    (∃ l ∈ (AllSubsOnEdge g e false).1, l.toFinset = S)
      ↔ (e ∈ S ∧ (∀ x ∈ S, e ≤ x ∧ x < g.Edges.length) ∧ ConnectedSet g S) :=
  allSubsOnEdge_sets g e he S

/-- C6 at the triangle and its edge 1: the list `[1, 2]` is produced, so the
set `{1, 2}` is connected. -/
theorem C6_allSubsOnEdge_connected_sets_witness :
    1 < triangle.Edges.length
    ∧ (1 ∈ ({1, 2} : Finset Nat)
        ∧ (∀ x ∈ ({1, 2} : Finset Nat), 1 ≤ x ∧ x < triangle.Edges.length)
        ∧ ConnectedSet triangle {1, 2}) :=
  ⟨by decide,
    (C6_allSubsOnEdge_connected_sets triangle 1 (by decide) {1, 2}).mp
      ⟨[1, 2], by decide, by decide⟩⟩

theorem AllSubsOnEdge_facts (g : Graph) (e : Nat) (he : e < g.Edges.length) :
    ((AllSubsOnEdge g e false).1.map List.toFinset).Nodup
    ∧ (∀ l ∈ (AllSubsOnEdge g e false).1, e ∈ l ∧ ∀ x ∈ l, e ≤ x)
    ∧ (AllSubsOnEdge g e false).2 = (AllSubsOnEdge g e false).1.length := by
  obtain ⟨out, hres, hsound, _, hdist⟩ := AllSubsOnEdge_spec g e he
  rw [hres]
  refine ⟨?_, ?_, by simp; omega⟩
  · simp only [List.map_cons]
    rw [List.nodup_cons]
    refine ⟨?_, hdist⟩
    intro hmem
    obtain ⟨l, hl, hleq⟩ := List.mem_map.mp hmem
    obtain ⟨ext, hne, hl2, hnd, _, _⟩ := hsound l hl
    have hcard : l.toFinset.card = ([e] : List Nat).toFinset.card := by rw [hleq]
    rw [List.toFinset_card_of_nodup hnd, hl2] at hcard
    simp at hcard
    exact hne hcard
  · intro l hl
    rcases List.mem_cons.mp hl with h | h
    · subst h; simp
    · obtain ⟨ext, _, hl2, _, hval, _⟩ := hsound l h
      exact ⟨by rw [hl2]; simp, fun x hx => (hval x hx).1⟩

theorem allSubgraphs_fold (g : Graph) :
    ∀ (idxs : List Nat) (acc : List (List Nat) × Nat),
      idxs.Pairwise (· < ·) → (∀ i ∈ idxs, i < g.Edges.length) →
      (acc.1.map List.toFinset).Nodup → (∀ l ∈ acc.1, ∃ a ∈ l, ∀ i ∈ idxs, a < i) →
      acc.2 = acc.1.length →
      let r := idxs.foldl (fun acc i =>
        (acc.1 ++ (AllSubsOnEdge g i false).1, acc.2 + (AllSubsOnEdge g i false).2)) acc
      (r.1.map List.toFinset).Nodup ∧ r.2 = r.1.length
      ∧ ∀ l, l ∈ r.1 ↔ (l ∈ acc.1 ∨ ∃ i ∈ idxs, l ∈ (AllSubsOnEdge g i false).1) := by
  intro idxs
  induction idxs with
  | nil => intro acc _ _ hnd _ hcnt; simp [hnd, hcnt]
  | cons i rest ih =>
    intro acc hpw hlt hnd hlow hcnt
    obtain ⟨f1, f2, f3⟩ := AllSubsOnEdge_facts g i (hlt i (by simp))
    have hpw' := List.pairwise_cons.mp hpw
    simp only [List.foldl_cons]
    have := ih (acc.1 ++ (AllSubsOnEdge g i false).1, acc.2 + (AllSubsOnEdge g i false).2)
      hpw'.2 (fun k hk => hlt k (by simp [hk])) (by
        simp only [List.map_append]
        rw [List.nodup_append]
        refine ⟨hnd, f1, ?_⟩
        intro S h1 h2
        obtain ⟨l1, hl1, hleq1⟩ := List.mem_map.mp h1
        obtain ⟨l2, hl2, hleq2⟩ := List.mem_map.mp h2
        obtain ⟨a, ha, halt⟩ := hlow l1 hl1
        have : a ∈ l2 := by
          have : a ∈ l2.toFinset := by rw [hleq2, ← hleq1]; exact List.mem_toFinset.mpr ha
          exact List.mem_toFinset.mp this
        have h3 := (f2 l2 hl2).2 a this
        have h4 := halt i (by simp)
        omega) (by
        intro l hl
        rcases List.mem_append.mp hl with h | h
        · obtain ⟨a, ha, halt⟩ := hlow l h
          exact ⟨a, ha, fun k hk => halt k (by simp [hk])⟩
        · exact ⟨i, (f2 l h).1, fun k hk => hpw'.1 k hk⟩) (by
        simp [hcnt, f3])
    obtain ⟨r1, r2, r3⟩ := this
    refine ⟨r1, r2, ?_⟩
    intro l
    rw [r3 l]
    simp only [List.mem_append, List.mem_cons, exists_eq_or_imp]
    tauto

/-- C7: for every graph `G`, no two of the edge lists that `AllSubgraphs(G,
false)` returns contain the same set of edge indices, the returned count is the
number of lists returned, and the sets returned are exactly the non-empty
connected sets of edge indices of `G` (so each is reported exactly once). -/
theorem C7_allSubgraphs_no_repeats (g : Graph) :
    ((AllSubgraphs g false).1.map List.toFinset).Nodup
    ∧ (AllSubgraphs g false).2 = (AllSubgraphs g false).1.length
    ∧ ∀ S : Finset Nat, S ∈ (AllSubgraphs g false).1.map List.toFinset
        ↔ (S.Nonempty ∧ (∀ x ∈ S, x < g.Edges.length) ∧ ConnectedSet g S) := by
  obtain ⟨h1, h2, h3⟩ := allSubgraphs_fold g (List.range g.Edges.length) ([], 0)
    (List.pairwise_lt_range _) (fun i hi => List.mem_range.mp hi) (by simp) (by simp) (by simp)
  refine ⟨h1, h2, ?_⟩
  intro S
  constructor
  · intro hS
    obtain ⟨l, hl, rfl⟩ := List.mem_map.mp hS
    rcases (h3 l).mp hl with h | ⟨i, hi, hli⟩
    · simp at h
    · have := (allSubsOnEdge_sets g i (List.mem_range.mp hi) l.toFinset).mp ⟨l, hli, rfl⟩
      exact ⟨⟨i, this.1⟩, fun x hx => (this.2.1 x hx).2, this.2.2⟩
  · rintro ⟨hne, hval, hconn⟩
    have hmin := Finset.min'_mem S hne
    have hlt := hval _ hmin
    obtain ⟨l, hl, hleq⟩ := (allSubsOnEdge_sets g (S.min' hne) hlt S).mpr
      ⟨hmin, fun x hx => ⟨Finset.min'_le S x hx, hval x hx⟩, hconn⟩
    exact List.mem_map.mpr ⟨l, (h3 l).mpr (Or.inr ⟨_, List.mem_range.mpr hlt, hl⟩), hleq⟩

/-! ## The search for a shortest pathway -/

set_option maxRecDepth 100000 in
/-- C1 (fails on the code): on two disjoint three-edge paths `Assembly` (one
worker, queue of 100) returns a single pathway of assembly index 4, although
taking one whole path as the fragment and the other as its duplicate, which
`GraphsIsomorphic` accepts, gives a pathway of assembly index 3. -/
theorem C1_assembly_misses_shorter_pathway :
    (Assembly 1000 twoPaths 100 "shortest").map
        (fun ps => ps.map (fun p => AssemblyIndex p twoPaths)) = some [4]
    ∧ (BreakGraphOnEdges twoPaths [0, 1, 3]).bind (fun sr =>
        (BreakGraphOnEdges sr.2 [0, 1, 2]).bind (fun dr =>
          (GraphsIsomorphic sr.1 dr.1).map (fun iso =>
            (sr.1.Edges, dr.1.Edges, dr.2.Edges, iso,
              AssemblyIndex (matchPathway (NewStartingPathway twoPaths) sr.1 dr.1 dr.2)
                twoPaths))))
      = some ([(5, 4), (7, 4), (1, 7)], [(2, 3), (8, 3), (6, 8)], [], true, 3) := by
  constructor
  · decide!
  · decide!

/-! ## Isomorphism of graphs -/

set_option maxRecDepth 100000 in
/-- C4 (fails on the code): `squareTriangle` is `triangleSquare` with every
vertex relabelled by the bijection `shiftLabels`, yet `GraphsIsomorphic` returns
false for the pair. -/
theorem C4_isomorphic_pair_rejected :
    squareTriangle.Edges = triangleSquare.Edges.map (fun e => (shiftLabels e.1, shiftLabels e.2))
    ∧ squareTriangle.Vertices.map shiftLabels = [5, 6, 7, 1, 2, 3, 4]
    ∧ GraphsIsomorphic triangleSquare squareTriangle = some false := by
  refine ⟨by decide, by decide, ?_⟩
  decide!

/-! ## Relabelling the vertices: the refinement of partitions -/

section Relabel

variable {σ : Int → Int}

theorem Contains_iff {l : List Int} {i : Int} : Contains l i = true ↔ i ∈ l := by
  induction l with
  | nil => simp [Contains]
  | cons v rest ih =>
    simp only [Contains, List.mem_cons]
    split
    · rename_i h; simp [h]
    · rename_i h
      rw [ih]
      constructor
      · intro h1; exact Or.inr h1
      · rintro (h1 | h1)
        · exact absurd h1.symm h
        · exact h1

theorem Contains_map (hσ : Function.Injective σ) (l : List Int) (v : Int) :
    Contains (l.map σ) (σ v) = Contains l v := by
  rw [Bool.eq_iff_iff, Contains_iff, Contains_iff, List.mem_map]
  constructor
  · rintro ⟨a, ha, h⟩; rw [← hσ h]; exact ha
  · intro h; exact ⟨v, h, rfl⟩

theorem Shatter_map (_hσ : Function.Injective σ) (G H : Graph)
    (hdeg : ∀ (v : Int) (part : List Int),
      DegreeInPart H (σ v) (part.map σ) = DegreeInPart G v part) (partLeft partRight : List Int) :
    Shatter H (partLeft.map σ) (partRight.map σ)
      = (Shatter G partLeft partRight).map (List.map σ) := by
  unfold Shatter
  simp only [List.map_map, Function.comp_def, hdeg, List.filter_map]

theorem firstShatter_map (hσ : Function.Injective σ) (G H : Graph)
    (hdeg : ∀ (v : Int) (part : List Int),
      DegreeInPart H (σ v) (part.map σ) = DegreeInPart G v part) (part : List Int)
    (whole : List (List Int)) :
    firstShatter H (part.map σ) (whole.map (List.map σ))
      = (firstShatter G part whole).map (List.map (List.map σ)) := by
  induction whole with
  | nil => simp [firstShatter]
  | cons partJ rest ih =>
    simp only [List.map_cons, firstShatter, Shatter_map hσ G H hdeg, List.length_map]
    split
    · simp
    · exact ih

theorem refineStep_map (hσ : Function.Injective σ) (G H : Graph)
    (hdeg : ∀ (v : Int) (part : List Int),
      DegreeInPart H (σ v) (part.map σ) = DegreeInPart G v part) (whole : List (List Int)) :
    ∀ (rest done : List (List Int)),
      refineStep H (whole.map (List.map σ)) (done.map (List.map σ)) (rest.map (List.map σ))
        = (refineStep G whole done rest).map (List.map (List.map σ)) := by
  intro rest
  induction rest with
  | nil => intro done; simp [refineStep]
  | cons part rest ih =>
    intro done
    simp only [List.map_cons, refineStep, firstShatter_map hσ G H hdeg]
    cases firstShatter G part whole with
    | none =>
      simp only [Option.map_none']
      have := ih (done ++ [part])
      simpa using this
    | some sh => simp

theorem refineLoop_map (hσ : Function.Injective σ) (G H : Graph)
    (hdeg : ∀ (v : Int) (part : List Int),
      DegreeInPart H (σ v) (part.map σ) = DegreeInPart G v part) :
    ∀ (fuel : Nat) (p : List (List Int)),
      refineLoop H fuel (p.map (List.map σ)) = (refineLoop G fuel p).map (List.map σ) := by
  intro fuel
  induction fuel with
  | zero => intro p; simp [refineLoop]
  | succ fuel ih =>
    intro p
    simp only [refineLoop]
    have := refineStep_map hσ G H hdeg p p []
    simp only [List.map_nil] at this
    rw [this]
    cases refineStep G p [] p with
    | none => simp
    | some q => simp [ih]

theorem EquitableRefinement_map (hσ : Function.Injective σ) (G H : Graph)
    (hdeg : ∀ (v : Int) (part : List Int),
      DegreeInPart H (σ v) (part.map σ) = DegreeInPart G v part) (p : List (List Int)) :
    EquitableRefinement H (p.map (List.map σ))
      = (EquitableRefinement G p).map (List.map σ) := by
  unfold EquitableRefinement
  rw [refineLoop_map hσ G H hdeg]
  simp [Function.comp_def]

theorem Individualise_map (hσ : Function.Injective σ) (p : List (List Int)) (v : Int) :
    Individualise (p.map (List.map σ)) (σ v) = (Individualise p v).map (List.map σ) := by
  induction p with
  | nil => simp [Individualise]
  | cons part rest ih =>
    simp only [List.map_cons, Individualise, Contains_map hσ, ih]
    have hf : (part.map σ).filter (fun w => decide (w ≠ σ v))
        = (part.filter (fun w => decide (w ≠ v))).map σ := by
      rw [List.filter_map]
      congr 1
      apply List.filter_congr
      intro x _
      simp only [Function.comp, ne_eq, decide_not, Bool.not_eq_eq_eq_not, Bool.not_not]
      rw [Bool.eq_iff_iff]
      simp only [decide_eq_true_eq]
      exact ⟨fun h => hσ h, fun h => by rw [h]⟩
    rw [hf]
    simp only [List.length_map]
    by_cases hc : Contains part v = true
    · simp only [hc, if_true]
      by_cases hr : (part.filter (fun w => decide (w ≠ v))).length = 0
      · rw [if_neg (not_not.mpr hr), if_neg (not_not.mpr hr)]; simp
      · rw [if_pos hr, if_pos hr]; simp
    · simp [hc]

theorem IsEquitable_map (hσ : Function.Injective σ) (G H : Graph)
    (hdeg : ∀ (v : Int) (part : List Int),
      DegreeInPart H (σ v) (part.map σ) = DegreeInPart G v part) (p : List (List Int)) :
    IsEquitable H (p.map (List.map σ)) = IsEquitable G p := by
  unfold IsEquitable
  simp only [List.all_map, Function.comp_def, Shatter_map hσ G H hdeg, List.length_map]

theorem firstNonTrivialPart_map (p : List (List Int)) :
    firstNonTrivialPart (p.map (List.map σ)) = (firstNonTrivialPart p).map (List.map σ) := by
  induction p with
  | nil => simp [firstNonTrivialPart]
  | cons part rest ih =>
    simp only [List.map_cons, firstNonTrivialPart, List.length_map]
    split
    · simp
    · exact ih

theorem CoarsestEquitableColourings_map (hσ : Function.Injective σ) (G H : Graph)
    (hdeg : ∀ (v : Int) (part : List Int),
      DegreeInPart H (σ v) (part.map σ) = DegreeInPart G v part) (p : List (List Int)) :
    (CoarsestEquitableColourings H (p.map (List.map σ))).1
      = (CoarsestEquitableColourings G p).1.map (List.map (List.map σ)) := by
  unfold CoarsestEquitableColourings
  rw [IsEquitable_map hσ G H hdeg, firstNonTrivialPart_map]
  split
  · simp [EquitableRefinement_map hσ G H hdeg]
  · cases firstNonTrivialPart p with
    | none => simp
    | some part =>
      simp only [Option.map_some', List.map_map]
      apply List.map_congr_left
      intro v _
      simp only [Function.comp]
      rw [Individualise_map hσ, EquitableRefinement_map hσ G H hdeg]

theorem IsDiscrete_map (p : List (List Int)) :
    IsDiscrete (p.map (List.map σ)) = IsDiscrete p := by
  unfold IsDiscrete
  simp [List.all_map, Function.comp_def]

theorem DiscreteColouringToIntSlice_map (p : List (List Int)) :
    DiscreteColouringToIntSlice (p.map (List.map σ))
      = (DiscreteColouringToIntSlice p).map (List.map σ) := by
  induction p with
  | nil => simp [DiscreteColouringToIntSlice]
  | cons part rest ih =>
    match part with
    | [] => simp [DiscreteColouringToIntSlice]
    | [v] =>
      simp only [List.map_cons, List.map_nil, DiscreteColouringToIntSlice, ih]
      cases DiscreteColouringToIntSlice rest <;> simp
    | _ :: _ :: _ => simp [DiscreteColouringToIntSlice]

end Relabel

/-! ## Maps given by their bindings -/

theorem mapGet_of_mem {m : List (Int × Int)} (hnd : (m.map Prod.fst).Nodup) {k v : Int}
    (h : (k, v) ∈ m) : mapGet m k = v := by
  induction m with
  | nil => simp at h
  | cons kv rest ih =>
    obtain ⟨k1, v1⟩ := kv
    simp only [List.map_cons, List.nodup_cons, List.mem_map, not_exists, not_and] at hnd
    simp only [mapGet]
    rcases List.mem_cons.mp h with h1 | h1
    · simp only [Prod.mk.injEq] at h1
      simp [h1.1, h1.2]
    · have hne : k1 ≠ k := by
        intro he
        exact hnd.1 (k, v) h1 he.symm
      rw [if_neg hne]
      exact ih hnd.2 h1

theorem colourGet_of_mem {m : List (Int × String)} (hnd : (m.map Prod.fst).Nodup) {k : Int}
    {v : String} (h : (k, v) ∈ m) : colourGet m k = v := by
  induction m with
  | nil => simp at h
  | cons kv rest ih =>
    obtain ⟨k1, v1⟩ := kv
    simp only [List.map_cons, List.nodup_cons, List.mem_map, not_exists, not_and] at hnd
    simp only [colourGet]
    rcases List.mem_cons.mp h with h1 | h1
    · simp only [Prod.mk.injEq] at h1
      simp [h1.1, h1.2]
    · have hne : k1 ≠ k := by
        intro he
        exact hnd.1 (k, v) h1 he.symm
      rw [if_neg hne]
      exact ih hnd.2 h1

theorem bindingGet_eq_some_iff {κ : Type} [DecidableEq κ] {m : List (κ × String)}
    (hnd : (m.map Prod.fst).Nodup) (k : κ) (v : String) :
    bindingGet m k = some v ↔ (k, v) ∈ m := by
  induction m with
  | nil => simp [bindingGet]
  | cons kv rest ih =>
    obtain ⟨k1, v1⟩ := kv
    simp only [List.map_cons, List.nodup_cons, List.mem_map, not_exists, not_and] at hnd
    simp only [bindingGet, List.mem_cons, Prod.mk.injEq]
    by_cases he : k1 = k
    · rw [if_pos he]
      constructor
      · intro h; left; exact ⟨he.symm, (Option.some.inj h).symm⟩
      · rintro (h | h)
        · rw [h.2]
        · exact absurd he.symm (fun h2 => hnd.1 (k, v) h (by rw [h2]))
    · rw [if_neg he, ih hnd.2]
      constructor
      · intro h; right; exact h
      · rintro (h | h)
        · exact absurd h.1.symm he
        · exact h

theorem bindingGet_perm {κ : Type} [DecidableEq κ] {m m' : List (κ × String)}
    (hp : m.Perm m') (hnd : (m.map Prod.fst).Nodup) (k : κ) :
    bindingGet m k = bindingGet m' k := by
  have hnd' : (m'.map Prod.fst).Nodup := (hp.map Prod.fst).nodup_iff.mp hnd
  apply Option.ext
  intro v
  simp only [Option.mem_def]
  rw [bindingGet_eq_some_iff hnd, bindingGet_eq_some_iff hnd']
  exact hp.mem_iff

theorem mapGet_map_key {σ : Int → Int} (hσ : Function.Injective σ) (m : List (Int × Int))
    (k : Int) : mapGet (m.map (fun kv => (σ kv.1, kv.2))) (σ k) = mapGet m k := by
  induction m with
  | nil => simp [mapGet]
  | cons kv rest ih =>
    obtain ⟨k1, v1⟩ := kv
    simp only [List.map_cons, mapGet, ih]
    by_cases he : k1 = k
    · simp [he]
    · rw [if_neg he, if_neg (fun h => he (hσ h))]

theorem zip_reverse_map_key {β : Type} (σ : Int → Int) (l : List Int) (S : List β) :
    ((l.map σ).zip S).reverse = ((l.zip S).reverse).map (fun kv => (σ kv.1, kv.2)) := by
  rw [List.zip_map_left, List.map_reverse]
  rfl

theorem map_fst_zip_of_length_eq {α β : Type} (l : List α) (S : List β)
    (h : l.length = S.length) : (l.zip S).map Prod.fst = l := by
  rw [List.map_fst_zip]
  omega

theorem map_mapGet_zip (l S : List Int) (hnd : l.Nodup) (hlen : l.length = S.length) :
    l.map (mapGet (l.zip S).reverse) = S := by
  apply List.ext_getElem
  · simp [hlen]
  · intro i h1 h2
    rw [List.getElem_map]
    apply mapGet_of_mem
    · rw [List.map_reverse, map_fst_zip_of_length_eq l S hlen]
      exact List.nodup_reverse.mpr hnd
    · rw [List.mem_reverse]
      have hi : i < (l.zip S).length := by simp [List.length_zip]; simp at h1; omega
      have := List.getElem_mem hi
      rw [List.getElem_zip] at this
      exact this

theorem sortInts_perm (l : List Int) : (sortInts l).Perm l :=
  List.perm_insertionSort _ l

theorem sortInts_eq_of_perm {l l' : List Int} (h : l.Perm l') : sortInts l = sortInts l' := by
  apply List.eq_of_perm_of_sorted (r := fun a b : Int => a ≤ b)
  · exact ((sortInts_perm l).trans h).trans (sortInts_perm l').symm
  · exact List.sorted_insertionSort _ l
  · exact List.sorted_insertionSort _ l'

/-! ## The parts of a partition keep listing the same vertices -/

theorem filter_classes_perm {α β : Type} [DecidableEq β] (f : α → β) :
    ∀ (ks : List β) (l : List α), ks.Nodup → (∀ a ∈ l, f a ∈ ks) →
      ((ks.map (fun k => l.filter (fun a => decide (f a = k)))).flatten).Perm l := by
  intro ks
  induction ks with
  | nil =>
    intro l _ h
    cases l with
    | nil => simp
    | cons a l => simpa using h a (List.mem_cons_self _ _)
  | cons k ks ih =>
    intro l hnd h
    rw [List.nodup_cons] at hnd
    simp only [List.map_cons, List.flatten_cons]
    have htail : ks.map (fun k1 => l.filter (fun a => decide (f a = k1)))
        = ks.map (fun k1 => (l.filter (fun a => !decide (f a = k))).filter
            (fun a => decide (f a = k1))) := by
      apply List.map_congr_left
      intro k1 hk1
      rw [List.filter_filter]
      apply List.filter_congr
      intro a _
      by_cases hk : f a = k1
      · have hne : k1 ≠ k := by rintro rfl; exact hnd.1 hk1
        simp [hk, hne]
      · simp [hk]
    rw [htail]
    have h2 := ih (l.filter (fun a => !decide (f a = k))) hnd.2 (by
      intro a ha
      simp only [List.mem_filter, Bool.not_eq_eq_eq_not, Bool.not_true,
        decide_eq_false_iff_not] at ha
      rcases List.mem_cons.mp (h a ha.1) with h3 | h3
      · exact absurd h3 ha.2
      · exact h3)
    exact (List.Perm.append_left _ h2).trans (List.filter_append_perm _ l)

theorem Shatter_flatten_perm (g : Graph) (partLeft partRight : List Int) :
    (Shatter g partLeft partRight).flatten.Perm partLeft := by
  unfold Shatter
  apply filter_classes_perm (fun v => DegreeInPart g v partRight)
  · exact (List.perm_insertionSort _ _).nodup_iff.mpr (List.nodup_dedup _)
  · intro a ha
    rw [(List.perm_insertionSort _ _).mem_iff, List.mem_dedup]
    exact List.mem_map_of_mem _ ha

theorem firstShatter_flatten_perm (g : Graph) (part : List Int) (whole sh : List (List Int))
    (h : firstShatter g part whole = some sh) : sh.flatten.Perm part := by
  induction whole with
  | nil => simp [firstShatter] at h
  | cons partJ rest ih =>
    simp only [firstShatter] at h
    split at h
    · rw [← Option.some.inj h]; exact Shatter_flatten_perm g part partJ
    · exact ih h

theorem refineStep_flatten_perm (g : Graph) (whole : List (List Int)) :
    ∀ (rest done q : List (List Int)), refineStep g whole done rest = some q →
      q.flatten.Perm (done ++ rest).flatten := by
  intro rest
  induction rest with
  | nil => intro done q h; simp [refineStep] at h
  | cons part rest ih =>
    intro done q h
    simp only [refineStep] at h
    cases hf : firstShatter g part whole with
    | none =>
      rw [hf] at h
      have := ih (done ++ [part]) q h
      simpa using this
    | some sh =>
      rw [hf] at h
      rw [← Option.some.inj h]
      have h1 := firstShatter_flatten_perm g part whole sh hf
      simp only [List.flatten_append, List.flatten_cons, List.append_assoc]
      exact List.Perm.append_left _ (List.Perm.append_right _ h1)

theorem refineLoop_flatten_perm (g : Graph) :
    ∀ (fuel : Nat) (p : List (List Int)), (refineLoop g fuel p).flatten.Perm p.flatten := by
  intro fuel
  induction fuel with
  | zero => intro p; simp [refineLoop]
  | succ fuel ih =>
    intro p
    simp only [refineLoop]
    cases hr : refineStep g p [] p with
    | none => simp
    | some q =>
      simp only
      have h1 := refineStep_flatten_perm g p p [] q hr
      simp only [List.nil_append] at h1
      exact (ih q).trans h1

theorem EquitableRefinement_flatten_perm (g : Graph) (p : List (List Int)) :
    (EquitableRefinement g p).flatten.Perm p.flatten :=
  refineLoop_flatten_perm g _ p

theorem Individualise_flatten_perm (p : List (List Int)) (v : Int) (hnd : p.flatten.Nodup) :
    (Individualise p v).flatten.Perm p.flatten := by
  induction p with
  | nil => simp [Individualise]
  | cons part rest ih =>
    simp only [List.flatten_cons, List.nodup_append] at hnd
    have ih1 := ih hnd.2.1
    have hpart : part.Nodup := hnd.1
    simp only [Individualise]
    by_cases hc : Contains part v = true
    · rw [if_pos hc]
      have hv : v ∈ part := Contains_iff.mp hc
      have hsplit : (v :: part.filter (fun w => decide (w ≠ v))).Perm part := by
        have h1 := (List.perm_cons_erase hv).symm
        rw [List.Nodup.erase_eq_filter hpart] at h1
        have h3 : part.filter (fun w => decide (w ≠ v)) = part.filter (fun w => w != v) := by
          apply List.filter_congr; intro a _
          by_cases ha : a = v <;> simp [ha]
        rw [h3]
        exact h1
      by_cases hr : (part.filter (fun w => decide (w ≠ v))).length = 0
      · rw [if_neg (not_not.mpr hr)]
        have hnil : part.filter (fun w => decide (w ≠ v)) = [] := List.length_eq_zero.mp hr
        rw [hnil] at hsplit
        simp only [List.flatten_cons]
        exact List.Perm.append hsplit ih1
      · rw [if_pos hr]
        simp only [List.flatten_cons, ← List.append_assoc]
        exact List.Perm.append (by simpa using hsplit) ih1
    · rw [if_neg hc]
      simp only [List.flatten_cons]
      exact List.Perm.append_left _ ih1

theorem CoarsestEquitableColourings_flatten_perm (g : Graph) (p : List (List Int))
    (hnd : p.flatten.Nodup) :
    ∀ c ∈ (CoarsestEquitableColourings g p).1, c.flatten.Perm p.flatten := by
  intro c hc
  unfold CoarsestEquitableColourings at hc
  split at hc
  · simp only [List.mem_singleton] at hc
    rw [hc]; exact EquitableRefinement_flatten_perm g p
  · cases hf : firstNonTrivialPart p with
    | none => rw [hf] at hc; simp at hc
    | some part =>
      rw [hf] at hc
      simp only [List.mem_map] at hc
      obtain ⟨v, _, rfl⟩ := hc
      exact (EquitableRefinement_flatten_perm g _).trans (Individualise_flatten_perm p v hnd)

theorem DiscreteColouringToIntSlice_eq_flatten (p : List (List Int)) (l : List Int)
    (h : DiscreteColouringToIntSlice p = some l) : l = p.flatten := by
  induction p generalizing l with
  | nil => simp [DiscreteColouringToIntSlice] at h; simp [h]
  | cons part rest ih =>
    match part, h with
    | [], h => simp [DiscreteColouringToIntSlice] at h
    | [v], h =>
      simp only [DiscreteColouringToIntSlice, Option.map_eq_some'] at h
      obtain ⟨l1, h1, rfl⟩ := h
      simp [ih l1 h1]
    | _ :: _ :: _, h => simp [DiscreteColouringToIntSlice] at h

/-! ## Edges up to order and orientation -/

theorem orientEdge_swap (a b : Int) : orientEdge (b, a) = orientEdge (a, b) := by
  unfold orientEdge
  simp only
  by_cases h1 : a < b
  · rw [if_pos h1, if_neg (by omega)]
  · rw [if_neg h1]
    by_cases h2 : b < a
    · rw [if_pos h2]
    · rw [if_neg h2]
      have : a = b := by omega
      rw [this]

theorem orientEdge_cases (e : Int × Int) : orientEdge e = e ∨ orientEdge e = (e.2, e.1) := by
  unfold orientEdge
  by_cases h : e.1 < e.2
  · left; rw [if_pos h]
  · right; rw [if_neg h]

theorem orientEdge_relabel_orient (f : Int → Int) (e : Int × Int) :
    orientEdge (relabelEdge f (orientEdge e)) = orientEdge (relabelEdge f e) := by
  rcases orientEdge_cases e with h | h
  · rw [h]
  · rw [h]
    simp only [relabelEdge]
    exact orientEdge_swap _ _

theorem orientEdge_idem (e : Int × Int) : orientEdge (orientEdge e) = orientEdge e := by
  have := orientEdge_relabel_orient id e
  simpa [relabelEdge] using this

theorem orientEdge_le (e : Int × Int) : (orientEdge e).1 ≤ (orientEdge e).2 := by
  unfold orientEdge
  by_cases h : e.1 < e.2
  · rw [if_pos h]; exact le_of_lt h
  · rw [if_neg h]; simpa using h

/-- `DegreeInPart` counts the edges that pass its test. -/
theorem DegreeInPart_eq_countP (g : Graph) (v : Int) (part : List Int) :
    DegreeInPart g v part
      = g.Edges.countP (fun e => (decide (v = e.1) && Contains part e.2)
          || (decide (v = e.2) && Contains part e.1)) := by
  unfold DegreeInPart
  have h : ∀ (l : List (Int × Int)) (n : Nat),
      l.foldl (fun degreeInPart edge =>
        if ((decide (v = edge.1) && Contains part edge.2)
            || (decide (v = edge.2) && Contains part edge.1)) = true
        then degreeInPart + 1 else degreeInPart) n
        = n + l.countP (fun e => (decide (v = e.1) && Contains part e.2)
            || (decide (v = e.2) && Contains part e.1)) := by
    intro l
    induction l with
    | nil => intro n; simp
    | cons e rest ih =>
      intro n
      simp only [List.foldl_cons, List.countP_cons, ih]
      split <;> omega
  rw [h]; simp

theorem GraphRel.degree {σ : Int → Int} {G H : Graph} (hr : GraphRel σ G H) (v : Int)
    (part : List Int) : DegreeInPart H (σ v) (part.map σ) = DegreeInPart G v part := by
  rw [DegreeInPart_eq_countP, DegreeInPart_eq_countP]
  have hsym : ∀ (l : List (Int × Int)),
      l.countP (fun e => (decide (σ v = e.1) && Contains (part.map σ) e.2)
          || (decide (σ v = e.2) && Contains (part.map σ) e.1))
      = (l.map orientEdge).countP (fun e => (decide (σ v = e.1) && Contains (part.map σ) e.2)
          || (decide (σ v = e.2) && Contains (part.map σ) e.1)) := by
    intro l
    rw [List.countP_map]
    apply List.countP_congr
    intro e _
    simp only [Function.comp]
    rcases orientEdge_cases e with h | h
    · rw [h]
    · rw [h]; simp only [Bool.or_comm]
  rw [hsym H.Edges, hr.edges.countP_eq, ← hsym, List.countP_map]
  apply List.countP_congr
  intro e _
  simp only [Function.comp, relabelEdge, Contains_map hr.inj]
  have h1 : (σ v = σ e.1) ↔ (v = e.1) := ⟨fun h => hr.inj h, fun h => by rw [h]⟩
  have h2 : (σ v = σ e.2) ↔ (v = e.2) := ⟨fun h => hr.inj h, fun h => by rw [h]⟩
  simp only [h1, h2]

/-! ## Sorting pairs -/

theorem pairLe_iff (a b : Int × Int) :
    pairLe a b = true ↔ a.1 < b.1 ∨ (a.1 = b.1 ∧ a.2 ≤ b.2) := by
  unfold pairLe
  by_cases h : a.1 = b.1
  · simp [h]
  · simp [h]

instance pairLe_total : IsTotal (Int × Int) (fun a b => pairLe a b = true) :=
  ⟨fun a b => by rw [pairLe_iff, pairLe_iff]; omega⟩

instance pairLe_trans : IsTrans (Int × Int) (fun a b => pairLe a b = true) :=
  ⟨fun a b c => by rw [pairLe_iff, pairLe_iff, pairLe_iff]; omega⟩

instance pairLe_antisymm : IsAntisymm (Int × Int) (fun a b => pairLe a b = true) :=
  ⟨fun a b => by
    rw [pairLe_iff, pairLe_iff]
    intro h1 h2
    apply Prod.ext <;> omega⟩

theorem sortPairs_eq_of_perm {l l' : List (Int × Int)} (h : l.Perm l') :
    l.insertionSort (fun a b => pairLe a b = true)
      = l'.insertionSort (fun a b => pairLe a b = true) := by
  apply List.eq_of_perm_of_sorted (r := fun a b : Int × Int => pairLe a b = true)
  · exact ((List.perm_insertionSort _ l).trans h).trans (List.perm_insertionSort _ l').symm
  · exact List.sorted_insertionSort _ l
  · exact List.sorted_insertionSort _ l'

theorem ListPairSort_eq_of_perm {l l' : List (Int × Int)}
    (h : (l.map orientEdge).Perm (l'.map orientEdge)) : ListPairSort l = ListPairSort l' :=
  sortPairs_eq_of_perm h

/-! ## The content of an edge colour map -/

theorem outMap_foldl (m : List ((Int × Int) × String)) :
    ∀ (keys : List (Int × Int)) (acc : List ((Int × Int) × String)),
      keys.foldl
        (fun out k =>
          match bindingGet m k with
          | none => out
          | some v => if k.1 < k.2 then (k, v) :: out else ((k.2, k.1), v) :: out)
        acc
      = (keys.flatMap (fun k =>
          match bindingGet m k with
          | none => []
          | some v => [(orientEdge k, v)])).reverse ++ acc := by
  intro keys
  induction keys with
  | nil => intro acc; simp
  | cons k rest ih =>
    intro acc
    simp only [List.foldl_cons, List.flatMap_cons, ih]
    cases bindingGet m k with
    | none => simp
    | some v =>
      simp only [List.reverse_append, List.append_assoc, List.reverse_cons, List.reverse_nil,
        List.nil_append, List.singleton_append]
      congr 1
      unfold orientEdge
      by_cases h : k.1 < k.2
      · rw [if_pos h, if_pos h]
      · rw [if_neg h, if_neg h]

theorem flatMap_bindings (m : List ((Int × Int) × String)) :
    ∀ (l : List ((Int × Int) × String)), (∀ kv ∈ l, bindingGet m kv.1 = some kv.2) →
      (l.map Prod.fst).flatMap (fun k =>
          match bindingGet m k with
          | none => []
          | some v => [(orientEdge k, v)])
        = l.map (fun kv => (orientEdge kv.1, kv.2)) := by
  intro l
  induction l with
  | nil => intro _; simp
  | cons kv rest ih =>
    intro h
    simp only [List.map_cons, List.flatMap_cons]
    rw [ih (fun x hx => h x (List.mem_cons_of_mem _ hx)), h kv (List.mem_cons_self _ _)]
    simp

theorem pairContent_perm {out out' : List ((Int × Int) × String)} (hp : out.Perm out')
    (hnd : (out.map Prod.fst).Nodup) :
    (((out.map Prod.fst).dedup).insertionSort (fun a b => pairLe a b = true)).map
        (fun k => (k, bindingGet out k))
      = (((out'.map Prod.fst).dedup).insertionSort (fun a b => pairLe a b = true)).map
        (fun k => (k, bindingGet out' k)) := by
  rw [sortPairs_eq_of_perm ((hp.map Prod.fst).dedup)]
  apply List.map_congr_left
  intro k _
  rw [bindingGet_perm hp hnd k]

theorem outMap_perm (m : List ((Int × Int) × String)) (hnd : (m.map Prod.fst).Nodup) :
    (((m.map Prod.fst).dedup).insertionSort (fun a b => pairLe a b = true)).foldl
        (fun out k =>
          match bindingGet m k with
          | none => out
          | some v => if k.1 < k.2 then (k, v) :: out else ((k.2, k.1), v) :: out)
        []
      |>.Perm (m.map (fun kv => (orientEdge kv.1, kv.2))) := by
  rw [outMap_foldl, List.append_nil]
  refine (List.reverse_perm _).trans ?_
  rw [List.Nodup.dedup hnd]
  refine (List.Perm.flatMap_right _ (List.perm_insertionSort _ _)).trans ?_
  rw [flatMap_bindings m m]
  intro kv hkv
  exact (bindingGet_eq_some_iff hnd kv.1 kv.2).mpr hkv

theorem orderedEdgeMapContent_congr {m m' : List ((Int × Int) × String)}
    (hp : (m.map (fun kv => (orientEdge kv.1, kv.2))).Perm
      (m'.map (fun kv => (orientEdge kv.1, kv.2))))
    (hnd : (m.map (fun kv => orientEdge kv.1)).Nodup) :
    orderedEdgeMapContent m = orderedEdgeMapContent m' := by
  have hnd' : (m'.map (fun kv => orientEdge kv.1)).Nodup := by
    have := hp.map Prod.fst
    simp only [List.map_map, Function.comp_def] at this
    exact this.nodup_iff.mp hnd
  have hk : (m.map Prod.fst).Nodup := by
    have : ((m.map Prod.fst).map orientEdge).Nodup := by
      simpa [List.map_map, Function.comp_def] using hnd
    exact List.Nodup.of_map _ this
  have hk' : (m'.map Prod.fst).Nodup := by
    have : ((m'.map Prod.fst).map orientEdge).Nodup := by
      simpa [List.map_map, Function.comp_def] using hnd'
    exact List.Nodup.of_map _ this
  unfold orderedEdgeMapContent
  simp only
  apply pairContent_perm
  · exact ((outMap_perm m hk).trans hp).trans (outMap_perm m' hk').symm
  · have := (outMap_perm m hk).map Prod.fst
    rw [this.nodup_iff]
    simpa [List.map_map, Function.comp_def] using hnd

/-! ## Graphs that the comparison of candidates cannot tell apart -/

theorem vertexMapContent_perm {m m' : List (Int × String)} (hp : m.Perm m')
    (hnd : (m.map Prod.fst).Nodup) : vertexMapContent m = vertexMapContent m' := by
  unfold vertexMapContent
  rw [sortInts_eq_of_perm ((hp.map Prod.fst).dedup)]
  apply List.map_congr_left
  intro k _
  rw [bindingGet_perm hp hnd k]

theorem CandRel.vertexContent {A B : Graph} (h : CandRel A B)
    (hf : B.Vertices.length = B.VertexColours.length) :
    (VertexColourMap A).map vertexMapContent = (VertexColourMap B).map vertexMapContent := by
  have hlA : A.Vertices.length = A.VertexColours.length := by
    rw [h.vertices.length_eq, h.colourLen]; exact hf
  unfold VertexColourMap
  rw [if_pos (le_of_eq hlA), if_pos (le_of_eq hf)]
  simp only [Option.map_some', Option.some.injEq]
  apply vertexMapContent_perm
  · exact ((List.reverse_perm _).trans (h.colours hf.symm)).trans (List.reverse_perm _).symm
  · rw [List.map_reverse, map_fst_zip_of_length_eq _ _ hlA]
    exact List.nodup_reverse.mpr (h.vertices.nodup_iff.mpr h.nodup)

theorem GraphEquals_congr {A1 B1 A2 B2 : Graph} (h1 : CandRel A1 B1) (h2 : CandRel A2 B2) :
    GraphEquals A1 A2 = GraphEquals B1 B2 := by
  have hs1 := sortInts_eq_of_perm h1.vertices
  have hs2 := sortInts_eq_of_perm h2.vertices
  have hl1 := h1.vertices.length_eq
  have hl2 := h2.vertices.length_eq
  unfold GraphEquals checkColoursEqual
  simp only [h1.edges, h2.edges, h1.edgeLen, h2.edgeLen, h1.edgeColourLen, h2.edgeColourLen,
    hs1, hs2, hl1, hl2, h1.colourLen, h2.colourLen]
  by_cases f1 : B1.Vertices.length = B1.VertexColours.length
  · by_cases f2 : B2.Vertices.length = B2.VertexColours.length
    · rw [h1.vertexContent f1, h2.vertexContent f2]
      by_cases e1 : B1.Edges.length = B1.EdgeColours.length
      · by_cases e2 : B2.Edges.length = B2.EdgeColours.length
        · rw [h1.edgeColours e1, h2.edgeColours e2]
        · simp [e1, e2]
      · simp [e1]
    · simp [f1, f2]
  · by_cases e1 : B1.Edges.length = B1.EdgeColours.length
    · by_cases e2 : B2.Edges.length = B2.EdgeColours.length
      · rw [h1.edgeColours e1, h2.edgeColours e2]
        simp [f1]
      · simp [e1, e2]
    · simp [f1, e1]

theorem GraphGreaterThan_congr {A1 B1 A2 B2 : Graph} (h1 : CandRel A1 B1)
    (h2 : CandRel A2 B2) : GraphGreaterThan A1 A2 = GraphGreaterThan B1 B2 := by
  unfold GraphGreaterThan
  rw [h1.edges, h2.edges]

theorem AutomorphismCheck_congr {A B : Graph} (h : CandRel A B) :
    ∀ {as bs : List Graph}, List.Forall₂ CandRel as bs →
      AutomorphismCheck A as = AutomorphismCheck B bs := by
  intro as bs hab
  unfold AutomorphismCheck
  induction hab with
  | nil => rfl
  | cons hx _ ih =>
    simp only [List.findIdx?_cons, GraphEquals_congr h hx]
    split
    · rfl
    · simp only [List.findIdx?_succ, Nat.zero_add, ih]

theorem GraphEquals_refl_of_nodup (A : Graph) (_hnd : A.Vertices.Nodup) :
    GraphEquals A A = true := by
  unfold GraphEquals checkColoursEqual
  simp

theorem colourGet_zip_mem (V : List Int) (C : List String) (hnd : V.Nodup)
    (hlen : C.length = V.length) {s : Int} (hs : s ∈ V) :
    (s, colourGet (V.zip C).reverse s) ∈ V.zip C := by
  obtain ⟨i, hi, rfl⟩ := List.getElem_of_mem hs
  have hi2 : i < (V.zip C).length := by simp [List.length_zip]; omega
  have hmem := List.getElem_mem hi2
  rw [List.getElem_zip] at hmem
  have : colourGet (V.zip C).reverse V[i] = C[i] := by
    apply colourGet_of_mem
    · rw [List.map_reverse, map_fst_zip_of_length_eq _ _ hlen.symm]
      exact List.nodup_reverse.mpr hnd
    · exact List.mem_reverse.mpr hmem
  rw [this]
  exact hmem

theorem GraphRel.colourGet_eq {σ : Int → Int} {G H : Graph} (hr : GraphRel σ G H)
    (hf : G.VertexColours.length = G.Vertices.length) {s : Int} (hs : s ∈ G.Vertices) :
    colourGet (H.Vertices.zip H.VertexColours).reverse (σ s)
      = colourGet (G.Vertices.zip G.VertexColours).reverse s := by
  have hne : G.Vertices ≠ [] := List.ne_nil_of_mem hs
  have hfH := (hr.colourLen hne).mpr hf
  apply colourGet_of_mem
  · rw [List.map_reverse, map_fst_zip_of_length_eq _ _ hfH.symm]
    exact List.nodup_reverse.mpr (hr.labels.nodup_iff.mpr hr.nodup)
  · rw [List.mem_reverse, (hr.colours hne hf).mem_iff, List.mem_map]
    exact ⟨(s, colourGet (G.Vertices.zip G.VertexColours).reverse s),
      colourGet_zip_mem _ _ hr.nodup hf hs, rfl⟩

theorem mapGet_relabel {σ : Int → Int} (hσ : Function.Injective σ) (l S : List Int) (x : Int) :
    mapGet ((l.map σ).zip S).reverse (σ x) = mapGet (l.zip S).reverse x := by
  rw [zip_reverse_map_key, mapGet_map_key hσ]

theorem orientEdge_eq (a b c d : Int) (h : orientEdge (a, b) = orientEdge (c, d)) :
    (a = c ∧ b = d) ∨ (a = d ∧ b = c) := by
  rcases orientEdge_cases (a, b) with h1 | h1 <;> rcases orientEdge_cases (c, d) with h2 | h2 <;>
    rw [h1, h2] at h <;> simp only [Prod.mk.injEq] at h
  · exact Or.inl h
  · exact Or.inr h
  · exact Or.inr ⟨h.2, h.1⟩
  · exact Or.inl ⟨h.2, h.1⟩

theorem candidate_edges_perm {σ fH fG : Int → Int} (hf : ∀ x, fH (σ x) = fG x)
    {EG EH : List (Int × Int)}
    (hE : (EH.map orientEdge).Perm ((EG.map (relabelEdge σ)).map orientEdge)) :
    ((EH.map (relabelEdge fH)).map orientEdge).Perm ((EG.map (relabelEdge fG)).map orientEdge) := by
  have h1 : (EH.map (relabelEdge fH)).map orientEdge
      = (EH.map orientEdge).map (fun e => orientEdge (relabelEdge fH e)) := by
    simp only [List.map_map]
    apply List.map_congr_left
    intro e _
    simp only [Function.comp, orientEdge_relabel_orient]
  have h2 : (EG.map (relabelEdge fG)).map orientEdge
      = ((EG.map (relabelEdge σ)).map orientEdge).map (fun e => orientEdge (relabelEdge fH e)) := by
    simp only [List.map_map]
    apply List.map_congr_left
    intro e _
    simp only [Function.comp, orientEdge_relabel_orient]
    simp only [relabelEdge, hf]
  rw [h1, h2]
  exact hE.map _

theorem candidate_bindings_perm {σ fH fG : Int → Int} (hf : ∀ x, fH (σ x) = fG x)
    {mG mH : List ((Int × Int) × String)}
    (hE : (mH.map (fun ec => (orientEdge ec.1, ec.2))).Perm
      (mG.map (fun ec => (orientEdge (relabelEdge σ ec.1), ec.2)))) :
    ((mH.map (fun ec => (relabelEdge fH ec.1, ec.2))).map (fun ec => (orientEdge ec.1, ec.2))).Perm
      ((mG.map (fun ec => (relabelEdge fG ec.1, ec.2))).map
        (fun ec => (orientEdge ec.1, ec.2))) := by
  have h1 : (mH.map (fun ec => (relabelEdge fH ec.1, ec.2))).map
        (fun ec => (orientEdge ec.1, ec.2))
      = (mH.map (fun ec => (orientEdge ec.1, ec.2))).map
        (fun ec => (orientEdge (relabelEdge fH ec.1), ec.2)) := by
    simp only [List.map_map]
    apply List.map_congr_left
    intro e _
    simp only [Function.comp, orientEdge_relabel_orient]
  have h2 : (mG.map (fun ec => (relabelEdge fG ec.1, ec.2))).map
        (fun ec => (orientEdge ec.1, ec.2))
      = (mG.map (fun ec => (orientEdge (relabelEdge σ ec.1), ec.2))).map
        (fun ec => (orientEdge (relabelEdge fH ec.1), ec.2)) := by
    simp only [List.map_map]
    apply List.map_congr_left
    intro e _
    simp only [Function.comp, orientEdge_relabel_orient]
    simp only [relabelEdge, hf]
  rw [h1, h2]
  exact hE.map _

theorem candidate_edges_nodup {fG : Int → Int} {V : List Int} {EG : List (Int × Int)}
    (hinj : ∀ x ∈ V, ∀ y ∈ V, fG x = fG y → x = y)
    (hend : ∀ e ∈ EG, e.1 ∈ V ∧ e.2 ∈ V) (hnd : (EG.map orientEdge).Nodup) :
    ((EG.map (relabelEdge fG)).map orientEdge).Nodup := by
  have h1 : (EG.map (relabelEdge fG)).map orientEdge
      = (EG.map orientEdge).map (fun e => orientEdge (relabelEdge fG e)) := by
    simp only [List.map_map]
    apply List.map_congr_left
    intro e _
    simp only [Function.comp, orientEdge_relabel_orient]
  rw [h1]
  apply List.Nodup.map_on ?_ hnd
  intro x hx y hy hxy
  have hmem : ∀ z ∈ EG.map orientEdge, z.1 ∈ V ∧ z.2 ∈ V ∧ z.1 ≤ z.2 := by
    intro z hz
    obtain ⟨e, he, rfl⟩ := List.mem_map.mp hz
    refine ⟨?_, ?_, orientEdge_le e⟩
    · rcases orientEdge_cases e with h | h <;> rw [h]
      · exact (hend e he).1
      · exact (hend e he).2
    · rcases orientEdge_cases e with h | h <;> rw [h]
      · exact (hend e he).2
      · exact (hend e he).1
  obtain ⟨hx1, hx2, hxle⟩ := hmem x hx
  obtain ⟨hy1, hy2, hyle⟩ := hmem y hy
  rcases orientEdge_eq _ _ _ _ hxy with h | h
  · exact Prod.ext (hinj _ hx1 _ hy1 h.1) (hinj _ hx2 _ hy2 h.2)
  · have e1 := hinj _ hx1 _ hy2 h.1
    have e2 := hinj _ hx2 _ hy1 h.2
    apply Prod.ext <;> omega

theorem PermuteGraph_rel {σ : Int → Int} {G H : Graph} (hr : GraphRel σ G H) (l : List Int)
    (hl : l.Perm G.Vertices) :
    ∃ cH cG, PermuteGraph H (l.map σ) = some cH ∧ PermuteGraph G l = some cG
      ∧ CandRel cH cG := by
  have hlenG : l.length = G.Vertices.length := hl.length_eq
  have hlenH : (l.map σ).length = H.Vertices.length := by
    rw [List.length_map, hlenG, hr.labels.length_eq]
  have hS : sortInts H.Vertices = sortInts G.Vertices := sortInts_eq_of_perm hr.labels
  have hSG : (sortInts G.Vertices).Perm G.Vertices := sortInts_perm _
  have hSl : (sortInts G.Vertices).Perm l := hSG.trans hl.symm
  have hSσ : (sortInts G.Vertices).Perm ((sortInts G.Vertices).map σ) :=
    (hSG.trans hr.labels.symm).trans (hr.vertices.trans (hSG.symm.map σ))
  have hlnd : l.Nodup := hl.nodup_iff.mpr hr.nodup
  have hlS : l.length = (sortInts G.Vertices).length := by rw [hSG.length_eq]; exact hlenG
  have hfG : ∀ x, mapGet ((l.map σ).zip (sortInts G.Vertices)).reverse (σ x)
      = mapGet (l.zip (sortInts G.Vertices)).reverse x := mapGet_relabel hr.inj l _
  have hmapl := map_mapGet_zip l _ hlnd hlS
  have hinj : ∀ x ∈ G.Vertices, ∀ y ∈ G.Vertices,
      mapGet (l.zip (sortInts G.Vertices)).reverse x
        = mapGet (l.zip (sortInts G.Vertices)).reverse y → x = y := by
    intro x hx y hy
    refine List.inj_on_of_nodup_map ?_ (hl.mem_iff.mpr hx) (hl.mem_iff.mpr hy)
    rw [hmapl]
    exact hSG.nodup_iff.mpr hr.nodup
  have hElen : H.Edges.length = G.Edges.length := by
    simpa using hr.edges.length_eq
  have hcand := candidate_edges_perm hfG hr.edges
  unfold PermuteGraph
  rw [if_neg (not_not.mpr hlenH), if_neg (not_not.mpr hlenG)]
  refine ⟨_, _, rfl, rfl, ?_⟩
  simp only [hS, NewColourGraph]
  constructor
  · exact ListPairSort_eq_of_perm hcand
  · simp [hElen]
  · rcases hr.edgeColours with ⟨_, hc⟩ | ⟨hflag, _⟩
    · simp only [copiedEdgeColours] at hc
      simp only [decide_eq_true_eq, hc]
    · by_cases hf : G.EdgeColours.length = G.Edges.length
      · simp [hf, hflag.mpr hf, hElen]
      · simp [hf, mt hflag.mp hf]
  · simp only [List.length_map]
    intro hB
    rcases hr.edgeColours with ⟨hpos, hc⟩ | ⟨hflag, hgen⟩
    · simp only [copiedEdgeColours] at hc
      have hE2 : H.Edges.map (fun e => (mapGet ((l.map σ).zip (sortInts G.Vertices)).reverse e.1,
            mapGet ((l.map σ).zip (sortInts G.Vertices)).reverse e.2))
          = G.Edges.map (fun e => (mapGet (l.zip (sortInts G.Vertices)).reverse e.1,
            mapGet (l.zip (sortInts G.Vertices)).reverse e.2)) := by
        rw [hpos, List.map_map]
        apply List.map_congr_left
        intro e _
        simp only [Function.comp, relabelEdge, hfG]
      simp only [EdgeColourMap, hE2, decide_eq_true_eq, hc]
    · by_cases hf : G.EdgeColours.length = G.Edges.length
      · obtain ⟨hsimple, hend, hzip⟩ := hgen hf
        have hfH := hflag.mpr hf
        simp only [EdgeColourMap, hf, hfH, decide_True, if_true, List.length_map, le_refl,
          Option.map_some', Option.some.injEq]
        apply Eq.symm
        apply orderedEdgeMapContent_congr
        · apply List.Perm.symm
          refine ((List.reverse_perm _).map _).trans (List.Perm.trans ?_
            ((List.reverse_perm _).map _).symm)
          have := candidate_bindings_perm hfG hzip
          simp only [List.zip_map_left, List.map_map, Function.comp_def, Prod.map, id,
            relabelEdge] at this ⊢
          exact this
        · have h2 := candidate_edges_nodup hinj hend hsimple
          rw [List.map_reverse, List.nodup_reverse]
          have h3 : ((G.Edges.map (fun e =>
                (mapGet (l.zip (sortInts G.Vertices)).reverse e.1,
                  mapGet (l.zip (sortInts G.Vertices)).reverse e.2))).zip G.EdgeColours).map
                (fun kv => orientEdge kv.1)
              = (G.Edges.map (relabelEdge
                  (mapGet (l.zip (sortInts G.Vertices)).reverse))).map orientEdge := by
            have e : ∀ (z : List ((Int × Int) × String)),
                z.map (fun kv => orientEdge kv.1) = (z.map Prod.fst).map orientEdge := by
              intro z; rw [List.map_map]; rfl
            rw [e, map_fst_zip_of_length_eq _ _ (by simp [hf])]
            rfl
          rw [h3]
          exact h2
      · have hG0 : G.Edges = [] := by
          simp only [hf, decide_False, Bool.false_eq_true, if_false, List.length_nil] at hB
          exact List.length_eq_zero.mp hB
        have hH0 : H.Edges = [] := List.length_eq_zero.mp (by rw [hElen, hG0]; rfl)
        simp [EdgeColourMap, hG0, hH0]
  · simp only
    refine (hSσ.map _).trans ?_
    rw [List.map_map]
    apply List.Perm.of_eq
    apply List.map_congr_left
    intro x _
    simp only [Function.comp, hfG]
  · simp only
    have h1 := (hSl.map (mapGet (l.zip (sortInts G.Vertices)).reverse))
    rw [hmapl] at h1
    exact h1.nodup_iff.mpr (hSG.nodup_iff.mpr hr.nodup)
  · simp only
    by_cases hV0 : G.Vertices = []
    · simp [hV0, sortInts]
    · by_cases hf : G.VertexColours.length = G.Vertices.length
      · simp [hf, (hr.colourLen hV0).mpr hf]
      · simp [hf, mt (hr.colourLen hV0).mp hf]
  · simp only
    intro _
    by_cases hV0 : G.Vertices = []
    · simp [hV0, sortInts]
    · by_cases hf : G.VertexColours.length = G.Vertices.length
      · simp only [hf, (hr.colourLen hV0).mpr hf, decide_True, if_true]
        rw [List.zip_map', List.zip_map']
        refine (hSσ.map _).trans ?_
        rw [List.map_map]
        apply List.Perm.of_eq
        apply List.map_congr_left
        intro x hx
        simp only [Function.comp, hfG, hr.colourGet_eq hf (hSG.mem_iff.mp hx)]
      · simp [hf, mt (hr.colourLen hV0).mp hf]

/-! ## The search tree of a relabelled graph -/

theorem searchLeaf_rel {σ : Int → Int} {G H : Graph} (hr : GraphRel σ G H)
    (colouring : List (List Int)) (treeLevel : IntSlice) {sH sG : SearchState}
    (hs : StateRel sH sG) (hc : colouring.flatten.Perm G.Vertices) :
    SameOutcome StateRel (searchLeaf H (colouring.map (List.map σ)) treeLevel sH)
      (searchLeaf G colouring treeLevel sG) := by
  unfold searchLeaf
  rw [DiscreteColouringToIntSlice_map]
  cases hd : DiscreteColouringToIntSlice colouring with
  | none => simp [SameOutcome]
  | some l =>
    have hl : l.Perm G.Vertices := by
      rw [DiscreteColouringToIntSlice_eq_flatten colouring l hd]; exact hc
    obtain ⟨cH, cG, hH, hG, hcand⟩ := PermuteGraph_rel hr l hl
    simp only [Option.map_some', hH, hG]
    rw [AutomorphismCheck_congr hcand hs.automorphisms]
    cases AutomorphismCheck cG sG.automorphisms with
    | some level =>
      simp only [hs.levels, hs.store]
      cases sG.automorphismLevels[level]? with
      | none => simp [SameOutcome]
      | some recorded =>
        simp only
        cases MaxEqualLevel (sliceRead sG.store recorded) (sliceRead sG.store treeLevel) with
        | none => simp [SameOutcome]
        | some lv =>
          simp only [SameOutcome]
          exact ⟨rfl, hs.canonical, hs.automorphisms, rfl, rfl, rfl⟩
    | none =>
      simp only [hs.canonical.vertices.length_eq, GraphGreaterThan_congr hcand hs.canonical]
      have hauto : List.Forall₂ CandRel (sH.automorphisms ++ [cH]) (sG.automorphisms ++ [cG]) :=
        List.rel_append hs.automorphisms (List.Forall₂.cons hcand List.Forall₂.nil)
      split
      · simp only [SameOutcome]
        exact ⟨hs.store, hcand, hauto, by simp [hs.levels], hs.backtrack, hs.backtrackLevel⟩
      · cases GraphGreaterThan cG sG.canonicalGraph with
        | none => simp [SameOutcome]
        | some b =>
          cases b with
          | true =>
            simp only [SameOutcome]
            exact ⟨hs.store, hcand, hauto, by simp [hs.levels], hs.backtrack,
              hs.backtrackLevel⟩
          | false =>
            simp only [SameOutcome]
            exact ⟨hs.store, hs.canonical, hauto, by simp [hs.levels], hs.backtrack,
              hs.backtrackLevel⟩

theorem searchChildren_rel {σ : Int → Int} {G : Graph}
    (fH fG : List (List Int) → IntSlice → SearchState → Option SearchState)
    (treeLevel : IntSlice)
    (hf : ∀ (c : List (List Int)) (tl : IntSlice) (sH sG : SearchState), StateRel sH sG →
      c.flatten.Perm G.Vertices →
      SameOutcome StateRel (fH (c.map (List.map σ)) tl sH) (fG c tl sG)) :
    ∀ (zs : List (List (List Int) × Nat)) (aH aG : Option SearchState),
      (∀ ci ∈ zs, ci.1.flatten.Perm G.Vertices) → SameOutcome StateRel aH aG →
      SameOutcome StateRel
        ((zs.map (fun ci => (ci.1.map (List.map σ), ci.2))).foldl
          (fun acc ci =>
            match acc with
            | none => none
            | some st1 =>
              let (store2, newTreeLevel) := sliceAppend st1.store treeLevel (ci.2 : Int)
              fH ci.1 newTreeLevel { st1 with store := store2 })
          aH)
        (zs.foldl
          (fun acc ci =>
            match acc with
            | none => none
            | some st1 =>
              let (store2, newTreeLevel) := sliceAppend st1.store treeLevel (ci.2 : Int)
              fG ci.1 newTreeLevel { st1 with store := store2 })
          aG) := by
  intro zs
  induction zs with
  | nil => intro aH aG _ h; simpa using h
  | cons ci rest ih =>
    intro aH aG hz h
    simp only [List.map_cons, List.foldl_cons]
    apply ih _ _ (fun c hc => hz c (List.mem_cons_of_mem _ hc))
    match aH, aG, h with
    | none, none, _ => simp [SameOutcome]
    | some sH, some sG, h =>
      simp only [SameOutcome] at h
      simp only [h.store]
      apply hf _ _ _ _ ?_ (hz ci (List.mem_cons_self _ _))
      exact ⟨rfl, h.canonical, h.automorphisms, h.levels, h.backtrack, h.backtrackLevel⟩

theorem SearchTreeInner_rel {σ : Int → Int} {G H : Graph} (hr : GraphRel σ G H)
    (prune : Bool) :
    ∀ (fuel : Nat) (colouring : List (List Int)) (treeLevel : IntSlice)
      (sH sG : SearchState), StateRel sH sG → colouring.flatten.Perm G.Vertices →
      SameOutcome StateRel
        (SearchTreeInner H prune fuel (colouring.map (List.map σ)) treeLevel sH)
        (SearchTreeInner G prune fuel colouring treeLevel sG) := by
  intro fuel
  induction fuel with
  | zero => intro c tl sH sG _ _; simp [SearchTreeInner, SameOutcome]
  | succ fuel ih =>
    intro c tl sH sG hs hc
    simp only [SearchTreeInner, hs.backtrack, hs.backtrackLevel, IsDiscrete_map]
    split
    · simp only [SameOutcome]; exact hs
    · have hs0 : StateRel
          (if (prune && sG.backtrack && decide ((tl.len : Int) = sG.backtrackLevel)) = true
            then { sH with backtrack := false, backtrackLevel := -1 } else sH)
          (if (prune && sG.backtrack && decide ((tl.len : Int) = sG.backtrackLevel)) = true
            then { sG with backtrack := false, backtrackLevel := -1 } else sG) := by
        split
        · exact ⟨hs.store, hs.canonical, hs.automorphisms, hs.levels, rfl, rfl⟩
        · exact hs
      split
      · exact searchLeaf_rel hr c tl hs0 hc
      · rw [CoarsestEquitableColourings_map hr.inj G H hr.degree]
        have hnd : c.flatten.Nodup := hc.nodup_iff.mpr hr.nodup
        have hz : (((CoarsestEquitableColourings G c).1.map (List.map (List.map σ))).zip
              (List.range ((CoarsestEquitableColourings G c).1.map
                (List.map (List.map σ))).length))
            = (((CoarsestEquitableColourings G c).1.zip
                (List.range (CoarsestEquitableColourings G c).1.length)).map
                  (fun ci => (ci.1.map (List.map σ), ci.2))) := by
          rw [List.length_map, List.zip_map_left]
          rfl
        rw [hz]
        apply searchChildren_rel (SearchTreeInner H prune fuel) (SearchTreeInner G prune fuel)
          tl ih
        · intro ci hci
          have := (List.of_mem_zip hci).1
          exact (CoarsestEquitableColourings_flatten_perm G c hnd _ this).trans hc
        · simp only [SameOutcome]; exact hs0

theorem sameOutcome_canonical {aH aG : Option SearchState} (h : SameOutcome StateRel aH aG) :
    SameOutcome CandRel (aH.map (fun s => s.canonicalGraph))
      (aG.map (fun s => s.canonicalGraph)) := by
  match aH, aG, h with
  | none, none, _ => simp [SameOutcome]
  | some sH, some sG, h => simpa [SameOutcome] using h.canonical

theorem SearchTree_rel {σ : Int → Int} {G H : Graph} (hr : GraphRel σ G H) (prune : Bool)
    (p : List (List Int)) (hp : p.flatten.Perm G.Vertices) :
    SameOutcome CandRel (SearchTree H (p.map (List.map σ)) prune) (SearchTree G p prune) := by
  unfold SearchTree
  have hfuel : ((p.map (List.map σ)).map List.length).sum = (p.map List.length).sum := by
    simp [List.map_map, Function.comp_def]
  rw [hfuel]
  have hempty : CandRel (NewColourGraph [] [] [] []) (NewColourGraph [] [] [] []) :=
    ⟨rfl, rfl, rfl, fun _ => rfl, List.Perm.refl _, by simp [NewColourGraph], rfl,
      fun _ => List.Perm.refl _⟩
  exact sameOutcome_canonical (SearchTreeInner_rel hr prune _ p _ _ _
    ⟨rfl, hempty, List.Forall₂.nil, rfl, rfl, rfl⟩ hp)

theorem CandRel.swap {A B : Graph} (h : CandRel A B) : CandRel B A :=
  ⟨h.edges.symm, h.edgeLen.symm, h.edgeColourLen.symm,
    fun hf => (h.edgeColours (by rw [← h.edgeLen, ← h.edgeColourLen]; exact hf)).symm,
    h.vertices.symm, h.vertices.nodup_iff.mpr h.nodup, h.colourLen.symm,
    fun hf => (h.colours (by rw [← h.colourLen, ← h.vertices.length_eq]; exact hf)).symm⟩

theorem CandRel.graphEquals {A B : Graph} (h : CandRel A B) : GraphEquals A B = true := by
  have hB : CandRel B B :=
    ⟨rfl, rfl, rfl, fun _ => rfl, List.Perm.refl _, h.nodup, rfl, fun _ => List.Perm.refl _⟩
  rw [GraphEquals_congr h hB]
  exact GraphEquals_refl_of_nodup B h.nodup

theorem SearchTree_relabelled {σ : Int → Int} {G H : Graph} (hr : GraphRel σ G H)
    (prune : Bool) (p : List (List Int)) (hp : p.flatten.Perm G.Vertices) :
    SameOutcome (fun a b => GraphEquals a b = true)
        (SearchTree H (p.map (List.map σ)) prune) (SearchTree G p prune)
      ∧ SameOutcome (fun a b => GraphEquals a b = true)
        (SearchTree G p prune) (SearchTree H (p.map (List.map σ)) prune) := by
  have h := SearchTree_rel hr prune p hp
  revert h
  cases SearchTree H (p.map (List.map σ)) prune <;> cases SearchTree G p prune <;>
    simp only [SameOutcome, imp_self, and_self]
  exact fun h => ⟨h.graphEquals, h.swap.graphEquals⟩

/-! ## The bounds on the loops of the refinement and of the search are enough -/

theorem slack_append (a b : List (List Int)) : slack (a ++ b) = slack a + slack b := by
  simp [slack]

theorem slack_cons (part : List Int) (p : List (List Int)) :
    slack (part :: p) = (part.length - 1) + slack p := by
  simp [slack]

theorem slack_add_length (sh : List (List Int)) (h : ∀ s ∈ sh, s ≠ []) :
    slack sh + sh.length = sh.flatten.length := by
  induction sh with
  | nil => simp [slack]
  | cons s rest ih =>
    have h1 := ih (fun x hx => h x (List.mem_cons_of_mem _ hx))
    have h2 : s.length ≠ 0 := fun h0 => h s (List.mem_cons_self _ _) (List.length_eq_zero.mp h0)
    rw [slack_cons]
    simp only [List.length_cons, List.flatten_cons, List.length_append]
    omega

theorem Shatter_ne_nil (g : Graph) (partLeft partRight : List Int) :
    ∀ s ∈ Shatter g partLeft partRight, s ≠ [] := by
  intro s hs
  unfold Shatter at hs
  simp only [List.mem_map] at hs
  obtain ⟨d, hd, rfl⟩ := hs
  rw [(List.perm_insertionSort _ _).mem_iff, List.mem_dedup, List.mem_map] at hd
  obtain ⟨v, hv, hvd⟩ := hd
  intro h
  have : v ∈ partLeft.filter (fun v => decide (DegreeInPart g v partRight = d)) := by
    simp [List.mem_filter, hv, hvd]
  rw [h] at this
  simp at this

theorem slack_Shatter (g : Graph) (partLeft partRight : List Int)
    (h : (Shatter g partLeft partRight).length > 1) :
    slack (Shatter g partLeft partRight) + 1 ≤ partLeft.length - 1 := by
  have h1 := slack_add_length _ (Shatter_ne_nil g partLeft partRight)
  have h2 := (Shatter_flatten_perm g partLeft partRight).length_eq
  omega

theorem slack_firstShatter (g : Graph) (part : List Int) (whole sh : List (List Int))
    (h : firstShatter g part whole = some sh) : slack sh + 1 ≤ part.length - 1 := by
  induction whole with
  | nil => simp [firstShatter] at h
  | cons partJ rest ih =>
    simp only [firstShatter] at h
    split at h
    · rename_i hlen
      rw [← Option.some.inj h]
      exact slack_Shatter g part partJ hlen
    · exact ih h

theorem slack_refineStep (g : Graph) (whole : List (List Int)) :
    ∀ (rest done q : List (List Int)), refineStep g whole done rest = some q →
      slack q + 1 ≤ slack (done ++ rest) := by
  intro rest
  induction rest with
  | nil => intro done q h; simp [refineStep] at h
  | cons part rest ih =>
    intro done q h
    simp only [refineStep] at h
    cases hf : firstShatter g part whole with
    | none =>
      rw [hf] at h
      have := ih (done ++ [part]) q h
      simpa using this
    | some sh =>
      rw [hf] at h
      rw [← Option.some.inj h]
      have h1 := slack_firstShatter g part whole sh hf
      simp only [slack_append, slack_cons]
      omega

theorem firstShatter_eq_none (g : Graph) (part : List Int) (whole : List (List Int)) :
    firstShatter g part whole = none
      ↔ ∀ partJ ∈ whole, (Shatter g part partJ).length ≤ 1 := by
  induction whole with
  | nil => simp [firstShatter]
  | cons partJ rest ih =>
    simp only [firstShatter, List.mem_cons, forall_eq_or_imp]
    by_cases h : (Shatter g part partJ).length > 1
    · rw [if_pos h]
      simp only [reduceCtorEq, false_iff, not_and]
      intro h1; omega
    · rw [if_neg h, ih]
      constructor
      · intro h1; exact ⟨by omega, h1⟩
      · intro h1; exact h1.2

theorem refineStep_eq_none (g : Graph) (whole : List (List Int)) :
    ∀ (rest done : List (List Int)),
      refineStep g whole done rest = none
        ↔ ∀ part ∈ rest, firstShatter g part whole = none := by
  intro rest
  induction rest with
  | nil => intro done; simp [refineStep]
  | cons part rest ih =>
    intro done
    simp only [refineStep, List.mem_cons, forall_eq_or_imp]
    cases hf : firstShatter g part whole with
    | none => simp [ih]
    | some sh => simp

theorem refineStep_none_iff_equitable (g : Graph) (p : List (List Int)) :
    refineStep g p [] p = none ↔ IsEquitable g p = true := by
  rw [refineStep_eq_none]
  unfold IsEquitable
  simp only [List.all_eq_true, decide_eq_true_eq, firstShatter_eq_none]

theorem refineLoop_spec (g : Graph) :
    ∀ (fuel : Nat) (p : List (List Int)), slack p < fuel →
      IsEquitable g (refineLoop g fuel p) = true
        ∧ slack (refineLoop g fuel p) ≤ slack p
        ∧ (IsEquitable g p = false → slack (refineLoop g fuel p) < slack p)
        ∧ (IsEquitable g p = true → refineLoop g fuel p = p) := by
  intro fuel
  induction fuel with
  | zero => intro p h; omega
  | succ fuel ih =>
    intro p h
    simp only [refineLoop]
    cases hr : refineStep g p [] p with
    | none =>
      have he := (refineStep_none_iff_equitable g p).mp hr
      simp [he]
    | some q =>
      have hq := slack_refineStep g p p [] q hr
      simp only [List.nil_append] at hq
      have hne : IsEquitable g p = false := by
        cases he : IsEquitable g p with
        | false => rfl
        | true =>
          rw [(refineStep_none_iff_equitable g p).mpr he] at hr
          exact absurd hr (by simp)
      obtain ⟨h1, h2, _, _⟩ := ih q (by omega)
      simp only
      refine ⟨h1, by omega, fun _ => by omega, ?_⟩
      intro he; rw [he] at hne; exact absurd hne (by simp)

theorem slack_le_total (p : List (List Int)) : slack p ≤ (p.map List.length).sum := by
  induction p with
  | nil => simp [slack]
  | cons part rest ih =>
    rw [slack_cons]
    simp only [List.map_cons, List.sum_cons]
    omega

theorem EquitableRefinement_spec (g : Graph) (p : List (List Int)) :
    IsEquitable g (EquitableRefinement g p) = true
      ∧ slack (EquitableRefinement g p) ≤ slack p
      ∧ (IsEquitable g p = false → slack (EquitableRefinement g p) < slack p)
      ∧ (IsEquitable g p = true → EquitableRefinement g p = p) := by
  have h := slack_le_total p
  exact refineLoop_spec g _ p (by omega)

theorem slack_Individualise_le (p : List (List Int)) (v : Int) :
    slack (Individualise p v) ≤ slack p := by
  induction p with
  | nil => simp [Individualise]
  | cons part rest ih =>
    simp only [Individualise]
    have hfl := List.length_filter_le (fun w => decide (w ≠ v)) part
    by_cases hc : Contains part v = true
    · rw [if_pos hc]
      by_cases hr : (part.filter (fun w => decide (w ≠ v))).length = 0
      · rw [if_neg (not_not.mpr hr)]
        simp only [slack_cons, List.length_singleton]
        omega
      · rw [if_pos hr]
        simp only [slack_cons, List.length_singleton]
        omega
    · rw [if_neg hc]
      simp only [slack_cons]
      omega

theorem slack_Individualise_lt (p : List (List Int)) (v : Int) (part : List Int)
    (hp : part ∈ p) (hv : v ∈ part) (hlen : part.length > 1) :
    slack (Individualise p v) < slack p := by
  induction p with
  | nil => simp at hp
  | cons part1 rest ih =>
    simp only [Individualise]
    rcases List.mem_cons.mp hp with h | h
    · subst h
      have hc : Contains part v = true := Contains_iff.mpr hv
      have hfl : (part.filter (fun w => decide (w ≠ v))).length < part.length := by
        apply List.length_filter_lt_length_iff_exists.mpr
        exact ⟨v, hv, by simp⟩
      have hrest := slack_Individualise_le rest v
      rw [if_pos hc]
      by_cases hr : (part.filter (fun w => decide (w ≠ v))).length = 0
      · rw [if_neg (not_not.mpr hr)]
        simp only [slack_cons, List.length_singleton]
        omega
      · rw [if_pos hr]
        simp only [slack_cons, List.length_singleton]
        omega
    · have h1 := ih h
      have hfl := List.length_filter_le (fun w => decide (w ≠ v)) part1
      by_cases hc : Contains part1 v = true
      · rw [if_pos hc]
        by_cases hr : (part1.filter (fun w => decide (w ≠ v))).length = 0
        · rw [if_neg (not_not.mpr hr)]
          simp only [slack_cons, List.length_singleton]
          omega
        · rw [if_pos hr]
          simp only [slack_cons, List.length_singleton]
          omega
      · rw [if_neg hc]
        simp only [slack_cons]
        omega

theorem firstNonTrivialPart_spec (p : List (List Int)) (part : List Int)
    (h : firstNonTrivialPart p = some part) : part ∈ p ∧ part.length > 1 := by
  induction p with
  | nil => simp [firstNonTrivialPart] at h
  | cons part1 rest ih =>
    simp only [firstNonTrivialPart] at h
    split at h
    · rename_i hlen
      rw [← Option.some.inj h]
      exact ⟨List.mem_cons_self _ _, hlen⟩
    · exact ⟨List.mem_cons_of_mem _ (ih h).1, (ih h).2⟩

theorem slack_children (g : Graph) (p : List (List Int)) :
    ∀ c ∈ (CoarsestEquitableColourings g p).1, slack c < slack p := by
  intro c hc
  unfold CoarsestEquitableColourings at hc
  split at hc
  · rename_i hne
    simp only [List.mem_singleton] at hc
    rw [hc]
    exact (EquitableRefinement_spec g p).2.2.1 (by simpa using hne)
  · cases hf : firstNonTrivialPart p with
    | none => rw [hf] at hc; simp at hc
    | some part =>
      rw [hf] at hc
      simp only [List.mem_map] at hc
      obtain ⟨v, hv, rfl⟩ := hc
      obtain ⟨hp, hlen⟩ := firstNonTrivialPart_spec p part hf
      have h1 := (EquitableRefinement_spec g (Individualise p v)).2.1
      have h2 := slack_Individualise_lt p v part hp hv hlen
      omega

theorem SearchTreeInner_fuel (g : Graph) (prune : Bool) :
    ∀ (fuel1 fuel2 : Nat) (c : List (List Int)) (tl : IntSlice) (st : SearchState),
      slack c < fuel1 → slack c < fuel2 →
      SearchTreeInner g prune fuel1 c tl st = SearchTreeInner g prune fuel2 c tl st := by
  intro fuel1
  induction fuel1 with
  | zero => intro fuel2 c tl st h; omega
  | succ f1 ih =>
    intro fuel2 c tl st h1 h2
    cases fuel2 with
    | zero => omega
    | succ f2 =>
      simp only [SearchTreeInner]
      split
      · rfl
      · split
        · rfl
        · apply List.foldl_ext
          intro acc ci hci
          cases acc with
          | none => rfl
          | some st1 =>
            simp only
            have hlt := slack_children g c ci.1 (List.of_mem_zip hci).1
            exact ih f2 ci.1 _ _ (by omega) (by omega)

theorem SearchTree_fuel (g : Graph) (p : List (List Int)) (prune : Bool) (extra : Nat) :
    (SearchTreeInner g prune (2 * (p.map List.length).sum + 3 + extra) p
        { arr := 0, len := 1, cap := 1 }
        { store := [[0]], canonicalGraph := NewColourGraph [] [] [] [],
          automorphisms := [], automorphismLevels := [],
          backtrack := false, backtrackLevel := -1 }).map (fun s => s.canonicalGraph)
      = SearchTree g p prune := by
  unfold SearchTree
  have h := slack_le_total p
  rw [SearchTreeInner_fuel g prune (2 * (p.map List.length).sum + 3 + extra)
    (2 * (p.map List.length).sum + 3) p _ _ (by omega) (by omega)]

/-! ## The graph permuted by `PermuteGraph` -/

theorem zip_eq_map_colourGet (V : List Int) (C : List String) (hnd : V.Nodup)
    (hlen : C.length = V.length) :
    V.zip C = V.map (fun v => (v, colourGet (V.zip C).reverse v)) := by
  apply List.ext_getElem
  · simp [List.length_zip, hlen]
  · intro i h1 h2
    rw [List.getElem_zip, List.getElem_map]
    have hi : i < V.length := by simpa using h2
    have hmem := colourGet_zip_mem V C hnd hlen (List.getElem_mem hi)
    have hiz : i < (V.zip C).length := h1
    have hmem2 := List.getElem_mem hiz
    rw [List.getElem_zip] at hmem2
    have hkeys : ((V.zip C).map Prod.fst).Nodup := by
      rw [map_fst_zip_of_length_eq _ _ hlen.symm]; exact hnd
    have := (bindingGet_eq_some_iff hkeys V[i] _).mpr hmem
    have h3 := (bindingGet_eq_some_iff hkeys V[i] _).mpr hmem2
    rw [this] at h3
    rw [Option.some.inj h3]

theorem permuteLabel_mem {G : Graph} {q : List Int} (hnd : G.Vertices.Nodup)
    (hq : q.Perm G.Vertices) {x : Int} (hx : x ∈ G.Vertices) :
    mapGet (q.zip (sortInts G.Vertices)).reverse x ∈ G.Vertices := by
  have hS : (sortInts G.Vertices).Perm G.Vertices := sortInts_perm _
  have hmap := map_mapGet_zip q (sortInts G.Vertices) (hq.nodup_iff.mpr hnd)
    (by rw [hq.length_eq, hS.length_eq])
  have h1 : mapGet (q.zip (sortInts G.Vertices)).reverse x
      ∈ q.map (mapGet (q.zip (sortInts G.Vertices)).reverse) :=
    List.mem_map_of_mem _ (hq.mem_iff.mpr hx)
  rw [hmap] at h1
  exact hS.mem_iff.mp h1

theorem permuteLabel_injective {G : Graph} {q : List Int} (hnd : G.Vertices.Nodup)
    (hq : q.Perm G.Vertices) : Function.Injective (permuteLabel G q) := by
  have hS : (sortInts G.Vertices).Perm G.Vertices := sortInts_perm _
  have hmap := map_mapGet_zip q (sortInts G.Vertices) (hq.nodup_iff.mpr hnd)
    (by rw [hq.length_eq, hS.length_eq])
  have hinj : ∀ x ∈ q, ∀ y ∈ q, mapGet (q.zip (sortInts G.Vertices)).reverse x
      = mapGet (q.zip (sortInts G.Vertices)).reverse y → x = y := by
    intro x hx y hy
    refine List.inj_on_of_nodup_map ?_ hx hy
    rw [hmap]; exact hS.nodup_iff.mpr hnd
  intro x y hxy
  unfold permuteLabel at hxy
  by_cases hx : x ∈ G.Vertices
  · by_cases hy : y ∈ G.Vertices
    · rw [if_pos hx, if_pos hy] at hxy
      exact hinj x (hq.mem_iff.mpr hx) y (hq.mem_iff.mpr hy) hxy
    · rw [if_pos hx, if_neg hy] at hxy
      exact absurd (hxy ▸ permuteLabel_mem hnd hq hx) hy
  · by_cases hy : y ∈ G.Vertices
    · rw [if_neg hx, if_pos hy] at hxy
      exact absurd (hxy ▸ permuteLabel_mem hnd hq hy) hx
    · rw [if_neg hx, if_neg hy] at hxy
      exact hxy

theorem PermuteColouring_eq_map (G : Graph) (p0 : List (List Int)) (q : List Int)
    (hp : ∀ x ∈ p0.flatten, x ∈ G.Vertices) :
    PermuteColouring G p0 q = p0.map (List.map (permuteLabel G q)) := by
  unfold PermuteColouring
  apply List.map_congr_left
  intro part hpart
  apply List.map_congr_left
  intro x hx
  have : x ∈ G.Vertices := hp x (List.mem_flatten.mpr ⟨part, hpart, hx⟩)
  simp [permuteLabel, this]

theorem GraphRel_PermuteGraph (G : Graph) (q : List Int) (hnd : G.Vertices.Nodup)
    (hend : ∀ e ∈ G.Edges, e.1 ∈ G.Vertices ∧ e.2 ∈ G.Vertices) (hq : q.Perm G.Vertices) :
    ∃ H, PermuteGraph G q = some H ∧ GraphRel (permuteLabel G q) G H := by
  have hS : (sortInts G.Vertices).Perm G.Vertices := sortInts_perm _
  have hqnd : q.Nodup := hq.nodup_iff.mpr hnd
  have hmap := map_mapGet_zip q (sortInts G.Vertices) hqnd (by rw [hq.length_eq, hS.length_eq])
  have hσS : (sortInts G.Vertices).map (mapGet (q.zip (sortInts G.Vertices)).reverse)
      = (sortInts G.Vertices).map (permuteLabel G q) := by
    apply List.map_congr_left
    intro x hx
    simp [permuteLabel, hS.mem_iff.mp hx]
  have hlabels : ((sortInts G.Vertices).map (mapGet (q.zip (sortInts G.Vertices)).reverse)).Perm
      G.Vertices := by
    have h1 := (hS.trans hq.symm).map (mapGet (q.zip (sortInts G.Vertices)).reverse)
    rw [hmap] at h1
    exact h1.trans hS
  have hEdges : G.Edges.map (fun e => (mapGet (q.zip (sortInts G.Vertices)).reverse e.1,
        mapGet (q.zip (sortInts G.Vertices)).reverse e.2))
      = G.Edges.map (relabelEdge (permuteLabel G q)) := by
    apply List.map_congr_left
    intro e he
    simp [relabelEdge, permuteLabel, (hend e he).1, (hend e he).2]
  unfold PermuteGraph
  rw [if_neg (not_not.mpr hq.length_eq)]
  refine ⟨_, rfl, ?_⟩
  simp only [NewColourGraph]
  constructor
  · exact permuteLabel_injective hnd hq
  · exact hnd
  · exact hlabels
  · simp only
    rw [hσS]
    exact hS.map _
  · simp only
    rw [hEdges]
  · left
    refine ⟨hEdges, ?_⟩
    simp only [copiedEdgeColours, List.length_map, decide_eq_true_eq]
    by_cases hf : G.EdgeColours.length = G.Edges.length
    · simp [hf]
    · simp [hf]
  · intro hV0
    have hne : G.Vertices.length ≠ 0 := fun h => hV0 (List.length_eq_zero.mp h)
    simp only [List.length_map, decide_eq_true_eq]
    by_cases hf : G.VertexColours.length = G.Vertices.length
    · simp [hf, hS.length_eq]
    · simp only [hf, if_false, List.length_nil, iff_false, hS.length_eq]
      omega
  · intro _ hf
    simp only [hf, decide_True, if_true]
    have hz := zip_eq_map_colourGet G.Vertices G.VertexColours hnd hf
    generalize colourGet (G.Vertices.zip G.VertexColours).reverse = c at hz ⊢
    rw [List.zip_map', hz, List.map_map]
    refine List.Perm.trans ?_ (hS.map _)
    apply List.Perm.of_eq
    apply List.map_congr_left
    intro x hx
    simp [permuteLabel, hS.mem_iff.mp hx]

/-! ## The canonical graph of a relabelled graph -/

set_option maxRecDepth 100000 in
/-- C2 (fails on the code): three pairs of graphs on the same labels, each pair
related by a bijection of the labels that maps edges, colours and the parts of
the partition (as sets) onto each other, for which the two results of
`SearchTree` are not equal under `GraphEquals`: the partition lists the image of
a part in another order; the pruned search returns different graphs for the two
labelings of a triangle and a square; the two graphs list parallel edges of
different colours in different orders. -/
theorem C2_counterexample_relabelled_not_equal :
    (colouredEdgeB.Vertices.Perm colouredEdgeA.Vertices
      ∧ colouredEdgeB.Edges = colouredEdgeA.Edges.map (relabelEdge swapLabels)
      ∧ (colouredEdgeB.Vertices.zip colouredEdgeB.VertexColours).Perm
          ((colouredEdgeA.Vertices.zip colouredEdgeA.VertexColours).map
            (fun vc => (swapLabels vc.1, vc.2)))
      ∧ (([1, 2] : List Int).map swapLabels).Perm [1, 2]
      ∧ SearchTree colouredEdgeA [[1, 2]] true = some colouredEdgeA
      ∧ SearchTree colouredEdgeB [[1, 2]] true = some colouredEdgeB
      ∧ GraphEquals colouredEdgeA colouredEdgeB = false)
    ∧ (squareTriangle.Vertices.Perm triangleSquare.Vertices
      ∧ squareTriangle.Edges = triangleSquare.Edges.map (relabelEdge shiftLabels)
      ∧ (([1, 2, 3, 4, 5, 6, 7] : List Int).map shiftLabels).Perm [1, 2, 3, 4, 5, 6, 7]
      ∧ SearchTree triangleSquare [[1, 2, 3, 4, 5, 6, 7]] true
          = some (NewGraph [1, 6, 7, 2, 4, 3, 5]
              [(1, 6), (6, 7), (7, 1), (2, 4), (4, 3), (3, 5), (5, 2)])
      ∧ SearchTree squareTriangle [[1, 2, 3, 4, 5, 6, 7]] true
          = some (NewGraph [1, 6, 2, 7, 3, 4, 5]
              [(3, 4), (4, 5), (5, 3), (1, 6), (6, 2), (2, 7), (7, 1)])
      ∧ GraphEquals
          (NewGraph [1, 6, 7, 2, 4, 3, 5] [(1, 6), (6, 7), (7, 1), (2, 4), (4, 3), (3, 5), (5, 2)])
          (NewGraph [1, 6, 2, 7, 3, 4, 5] [(3, 4), (4, 5), (5, 3), (1, 6), (6, 2), (2, 7), (7, 1)])
          = false)
    ∧ (doubleEdgeB.Vertices = doubleEdgeA.Vertices
      ∧ (doubleEdgeB.Edges.zip doubleEdgeB.EdgeColours).Perm
          (doubleEdgeA.Edges.zip doubleEdgeA.EdgeColours)
      ∧ SearchTree doubleEdgeA [[1], [2]] true = some doubleEdgeA
      ∧ SearchTree doubleEdgeB [[1], [2]] true = some doubleEdgeB
      ∧ GraphEquals doubleEdgeA doubleEdgeB = false) := by
  refine ⟨⟨by decide, by decide, by decide, by decide, ?_, ?_, ?_⟩,
    ⟨by decide, by decide, by decide, ?_, ?_, ?_⟩, ⟨by decide, by decide, ?_, ?_, ?_⟩⟩ <;>
    decide!

set_option maxRecDepth 100000 in
/-- C3 (fails on the code): for two vertices of different colours in one part
and no edge, both searches stop with a fatal error (`SliceGreaterThan` reads the
empty list of edges), so there are no results to be equal. -/
theorem C3_counterexample_fatal :
    colouredAtoms.Vertices.Nodup
      ∧ ([[1, 2]] : List (List Int)).flatten.Perm colouredAtoms.Vertices
      ∧ ([2, 1] : List Int).Perm colouredAtoms.Vertices
      ∧ SearchTree colouredAtoms [[1, 2]] true = none
      ∧ (PermuteGraph colouredAtoms [2, 1]).bind
          (fun H => SearchTree H (PermuteColouring colouredAtoms [[1, 2]] [2, 1]) true) = none := by
  refine ⟨by decide, by decide, by decide, ?_, ?_⟩ <;> decide!

/-! ## Isomorphisms of graphs -/

theorem invOn_apply {f : Int → Int} {V : List Int}
    (hinj : ∀ x ∈ V, ∀ y ∈ V, f x = f y → x = y) {x : Int} (hx : x ∈ V) :
    invOn f V (f x) = x := by
  unfold invOn
  cases hfind : V.find? (fun x1 => decide (f x1 = f x)) with
  | none =>
    rw [List.find?_eq_none] at hfind
    exact absurd (by simp) (hfind x hx)
  | some x1 =>
    have h1 := List.find?_some hfind
    have h2 := List.mem_of_find?_eq_some hfind
    simp only [decide_eq_true_eq] at h1
    simp only [Option.getD_some]
    exact hinj x1 h2 x hx h1

theorem orientEdge_mem {V : List Int} {e : Int × Int} (h : e.1 ∈ V ∧ e.2 ∈ V) :
    (orientEdge e).1 ∈ V ∧ (orientEdge e).2 ∈ V := by
  rcases orientEdge_cases e with h1 | h1 <;> rw [h1]
  · exact h
  · exact ⟨h.2, h.1⟩

theorem Isomorphism.injOn {f : Int → Int} {G H : Graph} (h : Isomorphism f G H)
    (hH : H.Vertices.Nodup) : ∀ x ∈ G.Vertices, ∀ y ∈ G.Vertices, f x = f y → x = y := by
  intro x hx y hy
  exact List.inj_on_of_nodup_map (h.vertices.nodup_iff.mpr hH) hx hy

theorem Isomorphism.nodup {f : Int → Int} {G H : Graph} (h : Isomorphism f G H)
    (hH : H.Vertices.Nodup) : G.Vertices.Nodup :=
  (h.vertices.nodup_iff.mpr hH).of_map f

theorem Isomorphism.symm {f : Int → Int} {G H : Graph} (h : Isomorphism f G H)
    (hH : H.Vertices.Nodup) (hend : ∀ e ∈ G.Edges, e.1 ∈ G.Vertices ∧ e.2 ∈ G.Vertices) :
    Isomorphism (invOn f G.Vertices) H G := by
  have hinv : ∀ x ∈ G.Vertices, invOn f G.Vertices (f x) = x :=
    fun x hx => invOn_apply (h.injOn hH) hx
  have hVlen : G.Vertices.length = H.Vertices.length := by
    simpa using h.vertices.length_eq
  have hElen : G.Edges.length = H.Edges.length := by
    simpa using h.edges.length_eq
  constructor
  · have h1 := h.vertices.symm.map (invOn f G.Vertices)
    rw [List.map_map] at h1
    refine h1.trans (List.Perm.of_eq ?_)
    conv_rhs => rw [← List.map_id G.Vertices]
    apply List.map_congr_left
    intro x hx
    simp [hinv x hx]
  · have h1 := h.edges.symm.map (fun e => orientEdge (relabelEdge (invOn f G.Vertices) e))
    have e1 : (H.Edges.map orientEdge).map
          (fun e => orientEdge (relabelEdge (invOn f G.Vertices) e))
        = (H.Edges.map (relabelEdge (invOn f G.Vertices))).map orientEdge := by
      simp only [List.map_map]
      apply List.map_congr_left
      intro e _
      simp only [Function.comp, orientEdge_relabel_orient]
    have e2 : ((G.Edges.map (relabelEdge f)).map orientEdge).map
          (fun e => orientEdge (relabelEdge (invOn f G.Vertices) e))
        = G.Edges.map orientEdge := by
      simp only [List.map_map]
      apply List.map_congr_left
      intro e he
      simp only [Function.comp, orientEdge_relabel_orient]
      simp only [relabelEdge, hinv _ (hend e he).1, hinv _ (hend e he).2]
    rw [e1, e2] at h1
    exact h1
  · exact h.vertexColourLen.symm
  · exact h.edgeColourLen.symm
  · intro hf
    have hfG : G.VertexColours.length = G.Vertices.length := by
      rw [h.vertexColourLen, hVlen]; exact hf
    have h1 := (h.vertexColours hfG).symm.map (fun vc => (invOn f G.Vertices vc.1, vc.2))
    refine h1.trans (List.Perm.of_eq ?_)
    rw [List.map_map]
    conv_rhs => rw [← List.map_id (G.Vertices.zip G.VertexColours)]
    apply List.map_congr_left
    intro vc hvc
    have := (List.of_mem_zip hvc).1
    simp [hinv _ this]
  · intro hf
    have hfG : G.EdgeColours.length = G.Edges.length := by
      rw [h.edgeColourLen, hElen]; exact hf
    have h1 := (h.edgeColours hfG).symm.map
      (fun ec => (orientEdge (relabelEdge (invOn f G.Vertices) ec.1), ec.2))
    have e1 : ((H.Edges.zip H.EdgeColours).map (fun ec => (orientEdge ec.1, ec.2))).map
          (fun ec => (orientEdge (relabelEdge (invOn f G.Vertices) ec.1), ec.2))
        = (H.Edges.zip H.EdgeColours).map
          (fun ec => (orientEdge (relabelEdge (invOn f G.Vertices) ec.1), ec.2)) := by
      simp only [List.map_map]
      apply List.map_congr_left
      intro e _
      simp only [Function.comp, orientEdge_relabel_orient]
    have e2 : ((G.Edges.zip G.EdgeColours).map
          (fun ec => (orientEdge (relabelEdge f ec.1), ec.2))).map
          (fun ec => (orientEdge (relabelEdge (invOn f G.Vertices) ec.1), ec.2))
        = (G.Edges.zip G.EdgeColours).map (fun ec => (orientEdge ec.1, ec.2)) := by
      simp only [List.map_map]
      apply List.map_congr_left
      intro ec hec
      have he := hend ec.1 (List.of_mem_zip hec).1
      simp only [Function.comp, orientEdge_relabel_orient]
      simp only [relabelEdge, hinv _ he.1, hinv _ he.2]
    rw [e1, e2] at h1
    exact h1

theorem Isomorphism.comp {f g : Int → Int} {G H K : Graph} (h1 : Isomorphism f G H)
    (h2 : Isomorphism g H K) : Isomorphism (fun x => g (f x)) G K := by
  have hVlen : G.Vertices.length = H.Vertices.length := by
    simpa using h1.vertices.length_eq
  have hElen : G.Edges.length = H.Edges.length := by
    simpa using h1.edges.length_eq
  constructor
  · have := (h1.vertices.map g).trans h2.vertices
    simpa [List.map_map, Function.comp_def] using this
  · have h3 := h1.edges.map (fun e => orientEdge (relabelEdge g e))
    have e1 : ((G.Edges.map (relabelEdge f)).map orientEdge).map
          (fun e => orientEdge (relabelEdge g e))
        = (G.Edges.map (relabelEdge (fun x => g (f x)))).map orientEdge := by
      simp only [List.map_map]
      apply List.map_congr_left
      intro e _
      simp only [Function.comp, orientEdge_relabel_orient]
      rfl
    have e2 : (H.Edges.map orientEdge).map (fun e => orientEdge (relabelEdge g e))
        = (H.Edges.map (relabelEdge g)).map orientEdge := by
      simp only [List.map_map]
      apply List.map_congr_left
      intro e _
      simp only [Function.comp, orientEdge_relabel_orient]
    rw [e1, e2] at h3
    exact h3.trans h2.edges
  · exact h1.vertexColourLen.trans h2.vertexColourLen
  · exact h1.edgeColourLen.trans h2.edgeColourLen
  · intro hf
    have hfH : H.VertexColours.length = H.Vertices.length := by
      rw [← h1.vertexColourLen, ← hVlen]; exact hf
    have h3 := ((h1.vertexColours hf).map (fun vc => (g vc.1, vc.2))).trans (h2.vertexColours hfH)
    simpa [List.map_map, Function.comp_def] using h3
  · intro hf
    have hfH : H.EdgeColours.length = H.Edges.length := by
      rw [← h1.edgeColourLen, ← hElen]; exact hf
    have h3 := (h1.edgeColours hf).map (fun ec => (orientEdge (relabelEdge g ec.1), ec.2))
    have e1 : ((G.Edges.zip G.EdgeColours).map
          (fun ec => (orientEdge (relabelEdge f ec.1), ec.2))).map
          (fun ec => (orientEdge (relabelEdge g ec.1), ec.2))
        = (G.Edges.zip G.EdgeColours).map
          (fun ec => (orientEdge (relabelEdge (fun x => g (f x)) ec.1), ec.2)) := by
      simp only [List.map_map]
      apply List.map_congr_left
      intro e _
      simp only [Function.comp, orientEdge_relabel_orient]
      rfl
    have e2 : ((H.Edges.zip H.EdgeColours).map (fun ec => (orientEdge ec.1, ec.2))).map
          (fun ec => (orientEdge (relabelEdge g ec.1), ec.2))
        = (H.Edges.zip H.EdgeColours).map
          (fun ec => (orientEdge (relabelEdge g ec.1), ec.2)) := by
      simp only [List.map_map]
      apply List.map_congr_left
      intro e _
      simp only [Function.comp, orientEdge_relabel_orient]
    rw [e1, e2] at h3
    exact h3.trans (h2.edgeColours hfH)

/-! ## Equal graphs are isomorphic -/

theorem bindings_perm_content {κ : Type} [DecidableEq κ] (sort : List κ → List κ)
    (hsort : ∀ l, (sort l).Perm l) (m : List (κ × String)) (hnd : (m.map Prod.fst).Nodup) :
    (((sort ((m.map Prod.fst).dedup)).map (fun k => (k, bindingGet m k))).map
      (fun ko => (ko.1, ko.2.getD ""))).Perm m := by
  rw [List.map_map, List.Nodup.dedup hnd]
  refine ((hsort _).map _).trans (List.Perm.of_eq ?_)
  rw [List.map_map]
  conv_rhs => rw [← List.map_id m]
  apply List.map_congr_left
  intro kv hkv
  have := (bindingGet_eq_some_iff hnd kv.1 kv.2).mpr hkv
  simp [this]

theorem perm_of_vertexMapContent {m m' : List (Int × String)}
    (h : vertexMapContent m = vertexMapContent m') (hnd : (m.map Prod.fst).Nodup)
    (hnd' : (m'.map Prod.fst).Nodup) : m.Perm m' := by
  have h1 := bindings_perm_content sortInts sortInts_perm m hnd
  have h2 := bindings_perm_content sortInts sortInts_perm m' hnd'
  unfold vertexMapContent at h
  rw [h] at h1
  exact h1.symm.trans h2

theorem perm_of_orderedEdgeMapContent {m m' : List ((Int × Int) × String)}
    (h : orderedEdgeMapContent m = orderedEdgeMapContent m')
    (hnd : (m.map (fun kv => orientEdge kv.1)).Nodup)
    (hnd' : (m'.map (fun kv => orientEdge kv.1)).Nodup) :
    (m.map (fun kv => (orientEdge kv.1, kv.2))).Perm
      (m'.map (fun kv => (orientEdge kv.1, kv.2))) := by
  have hk : ∀ (m0 : List ((Int × Int) × String)),
      (m0.map (fun kv => orientEdge kv.1)).Nodup → (m0.map Prod.fst).Nodup := by
    intro m0 h0
    have : ((m0.map Prod.fst).map orientEdge).Nodup := by
      simpa [List.map_map, Function.comp_def] using h0
    exact List.Nodup.of_map _ this
  have ho := outMap_perm m (hk m hnd)
  have ho' := outMap_perm m' (hk m' hnd')
  have hkeys : ∀ (m0 : List ((Int × Int) × String)) (out : List ((Int × Int) × String)),
      out.Perm (m0.map (fun kv => (orientEdge kv.1, kv.2))) →
      (m0.map (fun kv => orientEdge kv.1)).Nodup → (out.map Prod.fst).Nodup := by
    intro m0 out hp h0
    rw [(hp.map Prod.fst).nodup_iff]
    simpa [List.map_map, Function.comp_def] using h0
  have h1 := bindings_perm_content
    (fun l => l.insertionSort (fun a b => pairLe a b = true))
    (fun l => List.perm_insertionSort _ l) _ (hkeys m _ ho hnd)
  have h2 := bindings_perm_content
    (fun l => l.insertionSort (fun a b => pairLe a b = true))
    (fun l => List.perm_insertionSort _ l) _ (hkeys m' _ ho' hnd')
  unfold orderedEdgeMapContent at h
  simp only at h h1 h2
  rw [h] at h1
  exact (ho.symm.trans (h1.symm.trans h2)).trans ho'

theorem perm_of_sortInts_eq {l l' : List Int} (h : sortInts l = sortInts l') : l.Perm l' :=
  ((sortInts_perm l).symm.trans (List.Perm.of_eq h)).trans (sortInts_perm l')

theorem perm_of_ListPairSort_eq {l l' : List (Int × Int)}
    (h : ListPairSort l = ListPairSort l') : (l.map orientEdge).Perm (l'.map orientEdge) := by
  unfold ListPairSort at h
  exact ((List.perm_insertionSort _ _).symm.trans (List.Perm.of_eq h)).trans
    (List.perm_insertionSort _ _)

theorem GraphEquals_unfold {A B : Graph} (h : GraphEquals A B = true) :
    sortInts A.Vertices = sortInts B.Vertices
      ∧ ListPairSort A.Edges = ListPairSort B.Edges
      ∧ ((A.Vertices.length = A.VertexColours.length)
          ↔ (B.Vertices.length = B.VertexColours.length))
      ∧ ((A.Edges.length = A.EdgeColours.length) ↔ (B.Edges.length = B.EdgeColours.length))
      ∧ (A.Vertices.length = A.VertexColours.length →
          (VertexColourMap A).map vertexMapContent = (VertexColourMap B).map vertexMapContent)
      ∧ (A.Edges.length = A.EdgeColours.length →
          (EdgeColourMap A).map orderedEdgeMapContent
            = (EdgeColourMap B).map orderedEdgeMapContent) := by
  unfold GraphEquals checkColoursEqual at h
  simp only at h
  by_cases hc : (!(decide (A.Vertices.length = A.VertexColours.length)
        == decide (B.Vertices.length = B.VertexColours.length)
      && decide (A.Edges.length = A.EdgeColours.length)
        == decide (B.Edges.length = B.EdgeColours.length))) = true
  · simp [hc] at h
  · rw [if_neg hc] at h
    simp only [Bool.not_eq_true, Bool.not_eq_false', Bool.and_eq_true, beq_iff_eq,
      decide_eq_decide] at hc
    by_cases hv : (decide (A.Vertices.length = A.VertexColours.length)
        && !((VertexColourMap A).map vertexMapContent
          == (VertexColourMap B).map vertexMapContent)) = true
    · simp [hv] at h
    · rw [if_neg hv] at h
      by_cases he : (decide (A.Edges.length = A.EdgeColours.length)
          && !((EdgeColourMap A).map orderedEdgeMapContent
            == (EdgeColourMap B).map orderedEdgeMapContent)) = true
      · simp [he] at h
      · rw [if_neg he] at h
        simp only [Bool.not_true, Bool.not_false, if_false, Bool.false_eq_true, if_true,
          Bool.and_eq_true, decide_eq_true_eq] at h
        refine ⟨?_, ?_, hc.1, hc.2, ?_, ?_⟩
        · simpa using h.1
        · simpa using h.2
        · intro hf
          simpa [hf] using hv
        · intro hf
          simpa [hf] using he

theorem GraphEquals.isomorphism {A B : Graph} (h : GraphEquals A B = true)
    (hA : A.Vertices.Nodup) (hB : B.Vertices.Nodup)
    (hcA : A.VertexColours = [] ∨ A.VertexColours.length = A.Vertices.length)
    (hcB : B.VertexColours = [] ∨ B.VertexColours.length = B.Vertices.length)
    (heA : A.EdgeColours = [] ∨ A.EdgeColours.length = A.Edges.length)
    (heB : B.EdgeColours = [] ∨ B.EdgeColours.length = B.Edges.length)
    (hsA : A.EdgeColours.length = A.Edges.length → NoParallelEdges A)
    (hsB : B.EdgeColours.length = B.Edges.length → NoParallelEdges B) :
    Isomorphism id A B := by
  obtain ⟨hV, hE, hfv, hfe, hcv, hce⟩ := GraphEquals_unfold h
  have hVp := perm_of_sortInts_eq hV
  have hEp := perm_of_ListPairSort_eq hE
  have hVlen := hVp.length_eq
  have hElen : A.Edges.length = B.Edges.length := by simpa using hEp.length_eq
  have hvl : A.VertexColours.length = B.VertexColours.length := by
    by_cases hf : A.Vertices.length = A.VertexColours.length
    · have := hfv.mp hf; omega
    · have hf' := mt hfv.mpr hf
      rcases hcA with h1 | h1
      · rcases hcB with h2 | h2
        · rw [h1, h2]
        · exact absurd h2.symm hf'
      · exact absurd h1.symm hf
  have hel : A.EdgeColours.length = B.EdgeColours.length := by
    by_cases hf : A.Edges.length = A.EdgeColours.length
    · have := hfe.mp hf; omega
    · have hf' := mt hfe.mpr hf
      rcases heA with h1 | h1
      · rcases heB with h2 | h2
        · rw [h1, h2]
        · exact absurd h2.symm hf'
      · exact absurd h1.symm hf
  constructor
  · simpa using hVp
  · have : relabelEdge id = id := by funext e; rfl
    simpa [this] using hEp
  · exact hvl
  · exact hel
  · intro hf
    have hfB : B.VertexColours.length = B.Vertices.length := by omega
    have hc := hcv hf.symm
    unfold VertexColourMap at hc
    rw [if_pos (le_of_eq hf.symm), if_pos (le_of_eq hfB.symm)] at hc
    simp only [Option.map_some', Option.some.injEq] at hc
    have hp := perm_of_vertexMapContent hc
      (by rw [List.map_reverse, map_fst_zip_of_length_eq _ _ hf.symm]
          exact List.nodup_reverse.mpr hA)
      (by rw [List.map_reverse, map_fst_zip_of_length_eq _ _ hfB.symm]
          exact List.nodup_reverse.mpr hB)
    have := ((List.reverse_perm _).symm.trans hp).trans (List.reverse_perm _)
    simpa using this
  · intro hf
    have hfB : B.EdgeColours.length = B.Edges.length := by omega
    have hc := hce hf.symm
    unfold EdgeColourMap at hc
    rw [if_pos (le_of_eq hf.symm), if_pos (le_of_eq hfB.symm)] at hc
    simp only [Option.map_some', Option.some.injEq] at hc
    have hkeys : ∀ (X : Graph), X.EdgeColours.length = X.Edges.length → NoParallelEdges X →
        ((X.Edges.zip X.EdgeColours).reverse.map (fun kv => orientEdge kv.1)).Nodup := by
      intro X hX hs
      have e : ∀ (z : List ((Int × Int) × String)),
          z.map (fun kv => orientEdge kv.1) = (z.map Prod.fst).map orientEdge := by
        intro z; rw [List.map_map]; rfl
      rw [List.map_reverse, List.nodup_reverse, e, map_fst_zip_of_length_eq _ _ hX.symm]
      exact hs
    have hp := perm_of_orderedEdgeMapContent hc (hkeys A hf (hsA hf)) (hkeys B hfB (hsB hfB))
    have h1 := (((List.reverse_perm _).map _).symm.trans hp).trans ((List.reverse_perm _).map _)
    have : relabelEdge id = id := by funext e; rfl
    simpa [this] using h1

/-! ## The canonical graph is the input graph permuted -/

theorem AutomorphismCheck_some_ne_nil {c : Graph} {as : List Graph} {i : Nat}
    (h : AutomorphismCheck c as = some i) : as ≠ [] := by
  intro h0
  rw [h0] at h
  simp [AutomorphismCheck] at h

theorem searchLeaf_inv (X : Graph) (colouring : List (List Int)) (treeLevel : IntSlice)
    (st st' : SearchState) (hJ : CanonicalInv X st) (hc : colouring.flatten.Perm X.Vertices)
    (h : searchLeaf X colouring treeLevel st = some st') :
    CanonicalInv X st' ∧ st'.automorphisms ≠ [] := by
  unfold searchLeaf at h
  cases hd : DiscreteColouringToIntSlice colouring with
  | none => rw [hd] at h; simp at h
  | some l =>
    rw [hd] at h
    simp only at h
    have hl : l.Perm X.Vertices := by
      rw [DiscreteColouringToIntSlice_eq_flatten colouring l hd]; exact hc
    cases hp : PermuteGraph X l with
    | none => rw [hp] at h; simp at h
    | some cand =>
      rw [hp] at h
      simp only at h
      cases ha : AutomorphismCheck cand st.automorphisms with
      | some level =>
        rw [ha] at h
        simp only at h
        have hne := AutomorphismCheck_some_ne_nil ha
        cases hlv : st.automorphismLevels[level]? with
        | none => rw [hlv] at h; simp at h
        | some recorded =>
          rw [hlv] at h
          simp only at h
          cases hm : MaxEqualLevel (sliceRead st.store recorded) (sliceRead st.store treeLevel) with
          | none => rw [hm] at h; simp at h
          | some lv =>
            rw [hm] at h
            simp only [Option.some.injEq] at h
            rw [← h]
            rcases hJ with ⟨h0, _⟩ | ⟨h1, h2⟩
            · exact absurd h0 hne
            · exact ⟨Or.inr ⟨h1, h2⟩, h1⟩
      | none =>
        rw [ha] at h
        simp only at h
        have hne : st.automorphisms ++ [cand] ≠ [] := by simp
        by_cases h0 : st.canonicalGraph.Vertices.length = 0
        · rw [if_pos h0] at h
          simp only [Option.some.injEq] at h
          rw [← h]
          exact ⟨Or.inr ⟨hne, l, hl, hp⟩, hne⟩
        · rw [if_neg h0] at h
          have hold : ∃ l : List Int, l.Perm X.Vertices
              ∧ PermuteGraph X l = some st.canonicalGraph := by
            rcases hJ with ⟨_, h1⟩ | ⟨_, h2⟩
            · exact absurd h1 h0
            · exact h2
          cases hg : GraphGreaterThan cand st.canonicalGraph with
          | none => rw [hg] at h; simp at h
          | some b =>
            rw [hg] at h
            cases b with
            | true =>
              simp only [Option.some.injEq] at h
              rw [← h]
              exact ⟨Or.inr ⟨hne, l, hl, hp⟩, hne⟩
            | false =>
              simp only [Option.some.injEq] at h
              rw [← h]
              exact ⟨Or.inr ⟨hne, hold⟩, hne⟩

theorem CanonicalInv_store (X : Graph) (st : SearchState) (store2 : List (List Int))
    (h : CanonicalInv X st) : CanonicalInv X { st with store := store2 } := h

theorem searchChildren_inv (X : Graph)
    (f : List (List Int) → IntSlice → SearchState → Option SearchState)
    (treeLevel : IntSlice)
    (hf : ∀ (c : List (List Int)) (tl : IntSlice) (st st' : SearchState), CanonicalInv X st →
      c.flatten.Perm X.Vertices → f c tl st = some st' →
      CanonicalInv X st' ∧ (st.automorphisms ≠ [] → st'.automorphisms ≠ [])) :
    ∀ (zs : List (List (List Int) × Nat)) (st st' : SearchState),
      (∀ ci ∈ zs, ci.1.flatten.Perm X.Vertices) → CanonicalInv X st →
      zs.foldl
          (fun acc ci =>
            match acc with
            | none => none
            | some st1 =>
              let (store2, newTreeLevel) := sliceAppend st1.store treeLevel (ci.2 : Int)
              f ci.1 newTreeLevel { st1 with store := store2 })
          (some st) = some st' →
      CanonicalInv X st' ∧ (st.automorphisms ≠ [] → st'.automorphisms ≠ []) := by
  intro zs
  induction zs with
  | nil =>
    intro st st' _ hJ h
    simp only [List.foldl_nil, Option.some.injEq] at h
    rw [← h]; exact ⟨hJ, id⟩
  | cons ci rest ih =>
    intro st st' hz hJ h
    simp only [List.foldl_cons] at h
    cases h1 : f ci.1 (sliceAppend st.store treeLevel (ci.2 : Int)).2
        { st with store := (sliceAppend st.store treeLevel (ci.2 : Int)).1 } with
    | none =>
      rw [h1] at h
      have hnone : ∀ (l : List (List (List Int) × Nat)),
          l.foldl
            (fun acc ci =>
              match acc with
              | none => none
              | some st1 =>
                let (store2, newTreeLevel) := sliceAppend st1.store treeLevel (ci.2 : Int)
                f ci.1 newTreeLevel { st1 with store := store2 })
            (none : Option SearchState) = none := by
        intro l; induction l with
        | nil => rfl
        | cons _ _ ihl => simpa using ihl
      rw [hnone] at h
      exact absurd h (by simp)
    | some st1 =>
      rw [h1] at h
      have h2 := hf _ _ _ _ (CanonicalInv_store X st _ hJ) (hz ci (List.mem_cons_self _ _)) h1
      have h3 := ih st1 st' (fun c hc => hz c (List.mem_cons_of_mem _ hc)) h2.1 h
      exact ⟨h3.1, fun hne => h3.2 (h2.2 hne)⟩

theorem firstNonTrivialPart_of_not_discrete (c : List (List Int)) (h : IsDiscrete c = false) :
    ∃ part, firstNonTrivialPart c = some part := by
  induction c with
  | nil => simp [IsDiscrete] at h
  | cons part rest ih =>
    simp only [firstNonTrivialPart]
    by_cases hl : part.length > 1
    · exact ⟨part, by rw [if_pos hl]⟩
    · rw [if_neg hl]
      apply ih
      simp only [IsDiscrete, List.all_cons, Bool.and_eq_false_iff] at h
      rcases h with h | h
      · simp at h; omega
      · exact h

theorem children_ne_nil (g : Graph) (c : List (List Int)) (h : IsDiscrete c = false) :
    (CoarsestEquitableColourings g c).1 ≠ [] := by
  obtain ⟨part, hpart⟩ := firstNonTrivialPart_of_not_discrete c h
  have hlen := (firstNonTrivialPart_spec c part hpart).2
  unfold CoarsestEquitableColourings
  split
  · simp
  · rw [hpart]
    simp only
    intro h0
    rw [List.map_eq_nil_iff] at h0
    rw [h0] at hlen
    simp at hlen

theorem SearchTreeInner_inv (X : Graph) (prune : Bool) :
    ∀ (fuel : Nat) (c : List (List Int)) (tl : IntSlice) (st st' : SearchState),
      CanonicalInv X st → c.flatten.Perm X.Vertices → X.Vertices.Nodup →
      SearchTreeInner X prune fuel c tl st = some st' →
      CanonicalInv X st' ∧ (st.automorphisms ≠ [] → st'.automorphisms ≠ [])
        ∧ ((prune && st.backtrack) = false → st'.automorphisms ≠ []) := by
  intro fuel
  induction fuel with
  | zero => intro c tl st st' _ _ _ h; simp [SearchTreeInner] at h
  | succ fuel ih =>
    intro c tl st st' hJ hc hnd h
    simp only [SearchTreeInner] at h
    by_cases hret : (prune && st.backtrack
        && !(prune && st.backtrack && decide ((tl.len : Int) = st.backtrackLevel))) = true
    · rw [if_pos hret] at h
      simp only [Option.some.injEq] at h
      rw [← h]
      refine ⟨hJ, id, ?_⟩
      intro hpb
      simp [hpb] at hret
    · rw [if_neg hret] at h
      have hJ0 : CanonicalInv X
          (if (prune && st.backtrack && decide ((tl.len : Int) = st.backtrackLevel)) = true
            then { st with backtrack := false, backtrackLevel := -1 } else st) := by
        split
        · exact hJ
        · exact hJ
      have hauto0 : (if (prune && st.backtrack && decide ((tl.len : Int) = st.backtrackLevel))
            = true then { st with backtrack := false, backtrackLevel := -1 } else st).automorphisms
          = st.automorphisms := by
        split <;> rfl
      have hbt0 : (prune && (if (prune && st.backtrack
            && decide ((tl.len : Int) = st.backtrackLevel)) = true
            then { st with backtrack := false, backtrackLevel := -1 } else st).backtrack)
          = false := by
        split
        · simp
        · rename_i hres
          cases hp : prune with
          | false => simp
          | true =>
            cases hb : st.backtrack with
            | false => simp
            | true => simp [hp, hb] at hret hres; exact absurd hret hres
      by_cases hdisc : IsDiscrete c = true
      · rw [if_pos hdisc] at h
        have h1 := searchLeaf_inv X c tl _ st' hJ0 hc h
        exact ⟨h1.1, fun _ => h1.2, fun _ => h1.2⟩
      · rw [if_neg hdisc] at h
        have hcnd : c.flatten.Nodup := hc.nodup_iff.mpr hnd
        have hz : ∀ ci ∈ (CoarsestEquitableColourings X c).1.zip
            (List.range (CoarsestEquitableColourings X c).1.length),
            ci.1.flatten.Perm X.Vertices := by
          intro ci hci
          exact (CoarsestEquitableColourings_flatten_perm X c hcnd _ (List.of_mem_zip hci).1).trans
            hc
        have hfold := searchChildren_inv X (SearchTreeInner X prune fuel) tl
          (fun c1 tl1 s1 s1' hJ1 hc1 h1 =>
            ⟨(ih c1 tl1 s1 s1' hJ1 hc1 hnd h1).1, (ih c1 tl1 s1 s1' hJ1 hc1 hnd h1).2.1⟩)
        have h2 := hfold _ _ st' hz hJ0 h
        rw [hauto0] at h2
        refine ⟨h2.1, h2.2, ?_⟩
        intro _
        -- the first child is entered with the backtracking flag down
        have hne := children_ne_nil X c (by simpa using hdisc)
        cases hch : (CoarsestEquitableColourings X c).1 with
        | nil => exact absurd hch hne
        | cons c1 crest =>
          rw [hch] at h hz
          simp only [List.length_cons, List.range_succ_eq_map, List.zip_cons_cons,
            List.foldl_cons] at h
          cases h1 : SearchTreeInner X prune fuel c1
              (sliceAppend (if (prune && st.backtrack
                && decide ((tl.len : Int) = st.backtrackLevel)) = true
                then { st with backtrack := false, backtrackLevel := -1 } else st).store tl
                ((0 : Nat) : Int)).2
              { (if (prune && st.backtrack && decide ((tl.len : Int) = st.backtrackLevel)) = true
                  then { st with backtrack := false, backtrackLevel := -1 } else st) with
                store := (sliceAppend (if (prune && st.backtrack
                  && decide ((tl.len : Int) = st.backtrackLevel)) = true
                  then { st with backtrack := false, backtrackLevel := -1 } else st).store tl
                  ((0 : Nat) : Int)).1 } with
          | none =>
            rw [h1] at h
            have hnone : ∀ (l : List (List (List Int) × Nat)),
                l.foldl
                  (fun acc ci =>
                    match acc with
                    | none => none
                    | some st1 =>
                      let (store2, newTreeLevel) := sliceAppend st1.store tl (ci.2 : Int)
                      SearchTreeInner X prune fuel ci.1 newTreeLevel { st1 with store := store2 })
                  (none : Option SearchState) = none := by
              intro l; induction l with
              | nil => rfl
              | cons _ _ ihl => simpa using ihl
            rw [hnone] at h
            exact absurd h (by simp)
          | some s1 =>
            rw [h1] at h
            have hc1 : c1.flatten.Perm X.Vertices := by
              have hmem : (c1, 0) ∈ (c1 :: crest).zip (List.range (c1 :: crest).length) := by
                rw [List.length_cons, List.range_succ_eq_map, List.zip_cons_cons]
                exact List.mem_cons_self _ _
              exact hz (c1, 0) hmem
            have hs1 := ih c1 _ _ s1 (CanonicalInv_store X _ _ hJ0) hc1 hnd h1
            have hs1ne : s1.automorphisms ≠ [] := hs1.2.2 hbt0
            have h3 := hfold _ s1 st'
              (fun ci hci => hz ci (by
                rw [List.length_cons, List.range_succ_eq_map, List.zip_cons_cons]
                exact List.mem_cons_of_mem _ hci))
              hs1.1 h
            exact h3.2 hs1ne

theorem SearchTree_candidate (X : Graph) (p : List (List Int)) (prune : Bool) (c : Graph)
    (hnd : X.Vertices.Nodup) (hp : p.flatten.Perm X.Vertices)
    (h : SearchTree X p prune = some c) :
    ∃ l : List Int, l.Perm X.Vertices ∧ PermuteGraph X l = some c := by
  unfold SearchTree at h
  simp only [Option.map_eq_some'] at h
  obtain ⟨st', h1, rfl⟩ := h
  have hJ : CanonicalInv X
      { store := [[0]], canonicalGraph := NewColourGraph [] [] [] [],
        automorphisms := [], automorphismLevels := [],
        backtrack := false, backtrackLevel := -1 } := Or.inl ⟨rfl, rfl⟩
  have h2 := SearchTreeInner_inv X prune _ p _ _ st' hJ hp hnd h1
  have hne := h2.2.2 (by simp)
  rcases h2.1 with ⟨h0, _⟩ | ⟨_, h3⟩
  · exact absurd h0 hne
  · exact h3

/-! ## Permuted and relabelled graphs are isomorphic copies -/

theorem relabelled_isomorphism (X : Graph) (f : Int → Int) (V : List Int)
    (VC EC : List String) (hX : WellFormed X)
    (hV : (X.Vertices.map f).Perm V) (hnd : V.Nodup)
    (hVC : VC.length = X.VertexColours.length)
    (hVCzip : X.VertexColours.length = X.Vertices.length →
      ((X.Vertices.zip X.VertexColours).map (fun vc => (f vc.1, vc.2))).Perm (V.zip VC))
    (hEC : EC = X.EdgeColours) :
    Isomorphism f X (NewColourGraph V (X.Edges.map (relabelEdge f)) VC EC)
      ∧ WellFormed (NewColourGraph V (X.Edges.map (relabelEdge f)) VC EC)
      ∧ (NoParallelEdges X → NoParallelEdges (NewColourGraph V (X.Edges.map (relabelEdge f)) VC EC)) := by
  have hinj : ∀ x ∈ X.Vertices, ∀ y ∈ X.Vertices, f x = f y → x = y := by
    intro x hx y hy
    exact List.inj_on_of_nodup_map (hV.nodup_iff.mpr hnd) hx hy
  have hVlen : V.length = X.Vertices.length := by
    rw [← hV.length_eq, List.length_map]
  refine ⟨?_, ?_, ?_⟩
  · constructor
    · exact hV
    · exact List.Perm.refl _
    · exact hVC.symm
    · simp [NewColourGraph, hEC]
    · exact hVCzip
    · intro _
      simp only [NewColourGraph, hEC, List.zip_map_left, List.map_map]
      exact List.Perm.refl _
  · constructor
    · exact hnd
    · intro e he
      simp only [NewColourGraph, List.mem_map] at he
      obtain ⟨e0, he0, rfl⟩ := he
      simp only [NewColourGraph, relabelEdge]
      exact ⟨hV.mem_iff.mp (List.mem_map_of_mem f (hX.endpoints e0 he0).1),
        hV.mem_iff.mp (List.mem_map_of_mem f (hX.endpoints e0 he0).2)⟩
    · simp only [NewColourGraph]
      rcases hX.vertexColours with h | h
      · left; rw [h] at hVC; exact List.length_eq_zero.mp hVC
      · right; omega
    · simp only [NewColourGraph, hEC, List.length_map]
      exact hX.edgeColours
  · intro hs
    exact candidate_edges_nodup hinj hX.endpoints hs

theorem PermuteGraph_isomorphism (X : Graph) (l : List Int) (c : Graph) (hX : WellFormed X)
    (hl : l.Perm X.Vertices) (h : PermuteGraph X l = some c) :
    Isomorphism (mapGet (l.zip (sortInts X.Vertices)).reverse) X c
      ∧ WellFormed c ∧ (NoParallelEdges X → NoParallelEdges c) := by
  have hS : (sortInts X.Vertices).Perm X.Vertices := sortInts_perm _
  have hlnd : l.Nodup := hl.nodup_iff.mpr hX.nodup
  have hmap := map_mapGet_zip l (sortInts X.Vertices) hlnd (by rw [hl.length_eq, hS.length_eq])
  unfold PermuteGraph at h
  rw [if_neg (not_not.mpr hl.length_eq)] at h
  simp only [Option.some.injEq] at h
  rw [← h]
  have hEC : (if decide (X.EdgeColours.length = X.Edges.length) = true then X.EdgeColours else [])
      = X.EdgeColours := by
    rcases hX.edgeColours with h1 | h1
    · rw [h1]; simp
    · simp [h1]
  have hVperm : (X.Vertices.map (mapGet (l.zip (sortInts X.Vertices)).reverse)).Perm
      ((sortInts X.Vertices).map (mapGet (l.zip (sortInts X.Vertices)).reverse)) :=
    hS.symm.map _
  have hVnd : ((sortInts X.Vertices).map (mapGet (l.zip (sortInts X.Vertices)).reverse)).Nodup := by
    have h1 := (hS.trans hl.symm).map (mapGet (l.zip (sortInts X.Vertices)).reverse)
    rw [hmap] at h1
    exact h1.nodup_iff.mpr (hS.nodup_iff.mpr hX.nodup)
  exact relabelled_isomorphism X _ _ _ _ hX hVperm hVnd
    (by
      rcases hX.vertexColours with h1 | h1
      · rw [h1]
        simp only [List.length_nil]
        by_cases h0 : X.Vertices.length = 0
        · have : sortInts X.Vertices = [] := by
            apply List.length_eq_zero.mp; rw [hS.length_eq, h0]
          simp [this]
        · have h2 : ¬ (0 = X.Vertices.length) := fun h3 => h0 h3.symm
          simp [h2]
      · simp [h1, hS.length_eq])
    (by
      intro hf
      simp only [hf, decide_True, if_true]
      have hz := zip_eq_map_colourGet X.Vertices X.VertexColours hX.nodup hf
      generalize colourGet (X.Vertices.zip X.VertexColours).reverse = col at hz ⊢
      rw [List.zip_map', hz, List.map_map]
      exact hS.symm.map _)
    hEC

theorem GraphVertexRelabel_isomorphism (H : Graph) (labels : List Int) (R : Graph)
    (hH : WellFormed H) (hl : labels.Nodup) (h : GraphVertexRelabel H labels = some R) :
    Isomorphism (mapGet (H.Vertices.zip labels).reverse) H R
      ∧ WellFormed R ∧ (NoParallelEdges H → NoParallelEdges R)
      ∧ R.Vertices = labels ∧ R.VertexColours = H.VertexColours
      ∧ R.EdgeColours = H.EdgeColours := by
  unfold GraphVertexRelabel at h
  by_cases hlen : H.Vertices.length = labels.length
  · rw [if_neg (not_not.mpr hlen)] at h
    simp only [Option.some.injEq] at h
    rw [← h]
    have hmap := map_mapGet_zip H.Vertices labels hH.nodup hlen
    have h1 := relabelled_isomorphism H (mapGet (H.Vertices.zip labels).reverse) labels
      H.VertexColours H.EdgeColours hH (List.Perm.of_eq hmap) hl rfl
      (by
        intro _
        conv_rhs => rw [← hmap, List.zip_map_left]
        exact List.Perm.refl _)
      rfl
    exact ⟨h1.1, h1.2.1, h1.2.2, rfl, rfl, rfl⟩
  · rw [if_pos hlen] at h
    exact absurd h (by simp)

theorem Isomorphism.refl (G : Graph) : Isomorphism id G G := by
  have : relabelEdge id = id := by funext e; rfl
  constructor
  · simp
  · simp [this]
  · rfl
  · rfl
  · intro _; simp
  · intro _; simp [this]

/-! ## The partition by colour lists every vertex once -/

theorem ContainsStr_iff {l : List String} {c : String} : ContainsStr l c = true ↔ c ∈ l := by
  induction l with
  | nil => simp [ContainsStr]
  | cons v rest ih =>
    simp only [ContainsStr, List.mem_cons]
    by_cases h : v = c
    · simp [h]
    · rw [if_neg h, ih]
      constructor
      · intro h1; exact Or.inr h1
      · rintro (h1 | h1)
        · exact absurd h1.symm h
        · exact h1

theorem distinctStrings_spec (l : List String) :
    (distinctStrings l).Nodup ∧ ∀ c, c ∈ distinctStrings l ↔ c ∈ l := by
  unfold distinctStrings
  have h : ∀ (l acc : List String), acc.Nodup →
      (l.foldl (fun colours c => if ContainsStr colours c then colours else colours ++ [c])
          acc).Nodup
        ∧ ∀ c, c ∈ l.foldl
            (fun colours c => if ContainsStr colours c then colours else colours ++ [c]) acc
          ↔ c ∈ acc ∨ c ∈ l := by
    intro l
    induction l with
    | nil => intro acc hacc; simp [hacc]
    | cons x rest ih =>
      intro acc hacc
      simp only [List.foldl_cons]
      by_cases hx : ContainsStr acc x = true
      · rw [if_pos hx]
        have h1 := ih acc hacc
        refine ⟨h1.1, fun c => ?_⟩
        rw [h1.2 c, List.mem_cons]
        have hxm := ContainsStr_iff.mp hx
        constructor
        · rintro (h2 | h2)
          · exact Or.inl h2
          · exact Or.inr (Or.inr h2)
        · rintro (h2 | h2 | h2)
          · exact Or.inl h2
          · rw [h2]; exact Or.inl hxm
          · exact Or.inr h2
      · rw [if_neg hx]
        have hxm : x ∉ acc := fun h2 => hx (ContainsStr_iff.mpr h2)
        have h1 := ih (acc ++ [x]) (by
          rw [List.nodup_append]
          refine ⟨hacc, List.nodup_singleton x, ?_⟩
          intro a ha hb
          simp only [List.mem_singleton] at hb
          rw [hb] at ha
          exact hxm ha)
        refine ⟨h1.1, fun c => ?_⟩
        rw [h1.2 c, List.mem_append, List.mem_singleton, List.mem_cons]
        constructor
        · rintro ((h2 | h2) | h2)
          · exact Or.inl h2
          · exact Or.inr (Or.inl h2)
          · exact Or.inr (Or.inr h2)
        · rintro (h2 | h2 | h2)
          · exact Or.inl (Or.inl h2)
          · exact Or.inl (Or.inr h2)
          · exact Or.inr h2
  have h1 := h l [] List.nodup_nil
  exact ⟨h1.1, fun c => by rw [h1.2 c]; simp⟩

theorem GraphColourPartition_flatten (X : Graph) (p : List (List Int))
    (hc : X.VertexColours = [] ∨ X.VertexColours.length = X.Vertices.length)
    (h : GraphColourPartition X = some p) : p.flatten.Perm X.Vertices := by
  unfold GraphColourPartition at h
  by_cases h0 : X.VertexColours.length = 0
  · rw [if_pos h0] at h
    simp only [Option.some.injEq] at h
    rw [← h]; simp
  · rw [if_neg h0] at h
    have hlen : X.VertexColours.length = X.Vertices.length := by
      rcases hc with h1 | h1
      · rw [h1] at h0; exact absurd rfl h0
      · exact h1
    rw [if_neg (by omega)] at h
    simp only [Option.some.injEq] at h
    rw [← h]
    have hd := distinctStrings_spec X.VertexColours
    have hperm : (sortStrings (distinctStrings X.VertexColours)).Perm
        (distinctStrings X.VertexColours) := List.perm_insertionSort _ _
    have h1 := filter_classes_perm (fun vc : Int × String => vc.2)
      (sortStrings (distinctStrings X.VertexColours)) (X.Vertices.zip X.VertexColours)
      (hperm.nodup_iff.mpr hd.1)
      (by
        intro a ha
        rw [hperm.mem_iff, hd.2]
        exact (List.of_mem_zip ha).2)
    have h2 := h1.map Prod.fst
    rw [map_fst_zip_of_length_eq _ _ hlen.symm] at h2
    refine List.Perm.trans (List.Perm.of_eq ?_) h2
    rw [List.map_flatten, List.map_map]
    rfl

/-! ## The colours of the layers: a colour followed by a decimal number -/

theorem toDigitsCore_last (fuel : Nat) :
    ∀ (n : Nat) (ds : List Char), 0 < fuel →
      ∃ pre, Nat.toDigitsCore 10 fuel n ds = pre ++ Nat.digitChar (n % 10) :: ds := by
  induction fuel with
  | zero => intro n ds h; omega
  | succ fuel ih =>
    intro n ds _
    simp only [Nat.toDigitsCore]
    by_cases h0 : n / 10 = 0
    · rw [if_pos h0]; exact ⟨[], rfl⟩
    · rw [if_neg h0]
      cases fuel with
      | zero => simp only [Nat.toDigitsCore]; exact ⟨[], rfl⟩
      | succ f =>
        obtain ⟨pre, hpre⟩ := ih (n / 10) (Nat.digitChar (n % 10) :: ds) (by omega)
        rw [hpre]
        exact ⟨pre ++ [Nat.digitChar (n / 10 % 10)], by simp⟩

theorem toString_nat_data (n : Nat) :
    ∃ pre, (toString n).data = pre ++ [Nat.digitChar (n % 10)] := by
  obtain ⟨pre, h⟩ := toDigitsCore_last (n + 1) n [] (by omega)
  refine ⟨pre, ?_⟩
  show (Nat.repr n).data = _
  unfold Nat.repr Nat.toDigits
  rw [h]
  rfl

theorem digitChar_injective (a b : Nat) (ha : a < 10) (hb : b < 10)
    (h : Nat.digitChar a = Nat.digitChar b) : a = b := by
  interval_cases a <;> interval_cases b <;> first | rfl | (exact absurd h (by decide))

theorem layerColour_mod (s s' : String) (i j : Nat) (h : s ++ toString i = s' ++ toString j) :
    i % 10 = j % 10 := by
  obtain ⟨p1, h1⟩ := toString_nat_data i
  obtain ⟨p2, h2⟩ := toString_nat_data j
  have hd := congrArg String.data h
  rw [String.data_append, String.data_append, h1, h2, ← List.append_assoc, ← List.append_assoc]
    at hd
  have hl := congrArg List.getLast? hd
  simp only [List.getLast?_append, List.getLast?_singleton, Option.or,
    Option.some.injEq] at hl
  exact digitChar_injective _ _ (Nat.mod_lt _ (by decide)) (Nat.mod_lt _ (by decide)) hl

theorem layerColour_cancel (s s' : String) (i : Nat) (h : s ++ toString i = s' ++ toString i) :
    s = s' := by
  have hd := congrArg String.data h
  rw [String.data_append, String.data_append] at hd
  exact String.ext (List.append_cancel_right hd)

/-! ## The layered graph of `EdgeColourConversion` -/

theorem layerLoop_tail (v : Int) (c : String) (base : Int) :
    ∀ (m a : Nat) (out : Graph) (layers : List Int), 1 ≤ a →
      layers.getLastD 0 = colAt base v (a - 1) →
      layerLoopZ v c (List.range' a m) (out, base + ((a - 1 : Nat) : Int), layers)
        = ({ out with
              Vertices := out.Vertices ++ (List.range' a m).map (colAt base v)
              Edges := out.Edges
                ++ (List.range' a m).map (fun i => (colAt base v (i - 1), colAt base v i))
              VertexColours := out.VertexColours
                ++ (List.range' a m).map (fun i => c ++ toString i) },
            base + ((a - 1 + m : Nat) : Int), layers ++ (List.range' a m).map (colAt base v)) := by
  intro m
  induction m with
  | zero =>
    intro a out layers _ _
    simp [layerLoopZ]
  | succ m ih =>
    intro a out layers ha hlast
    have ha0 : a ≠ 0 := by omega
    have hcol : colAt base v a = base + ((a - 1 : Nat) : Int) := by
      simp [colAt, ha0]
    simp only [List.range', layerLoopZ, if_neg ha0]
    have hnext : base + ((a - 1 : Nat) : Int) + 1 = base + ((a + 1 - 1 : Nat) : Int) := by
      have : ((a + 1 - 1 : Nat) : Int) = ((a - 1 : Nat) : Int) + 1 := by
        have : a + 1 - 1 = (a - 1) + 1 := by omega
        rw [this]; push_cast; ring
      rw [this]; ring
    rw [hnext]
    rw [ih (a + 1) _ _ (by omega) (by
      rw [List.getLastD_concat]
      simp only [Nat.add_sub_cancel]
      exact hcol.symm)]
    simp only [hlast, ← hcol, List.map_cons, List.append_assoc, List.singleton_append,
      Nat.add_sub_cancel]
    have h3 : a - 1 + (m + 1) = a + m := by omega
    rw [h3]

theorem layerLoop_range (v : Int) (c : String) (base : Int) (k : Nat) (hk : 1 ≤ k)
    (out : Graph) :
    layerLoopZ v c (List.range k) (out, base, [])
      = ({ out with
            Vertices := out.Vertices ++ (List.range k).map (colAt base v)
            Edges := out.Edges
              ++ (List.range' 1 (k - 1)).map (fun i => (colAt base v (i - 1), colAt base v i))
            VertexColours := out.VertexColours
              ++ (List.range k).map (fun i => c ++ toString i) },
          base + ((k - 1 : Nat) : Int), (List.range k).map (colAt base v)) := by
  obtain ⟨k1, rfl⟩ : ∃ k1, k = k1 + 1 := ⟨k - 1, by omega⟩
  have hr : List.range (k1 + 1) = 0 :: List.range' 1 k1 := by
    rw [List.range_eq_range', List.range'_succ]
  rw [hr]
  simp only [layerLoopZ, if_true, List.nil_append]
  have h := layerLoop_tail v c base k1 1
    { out with
      Vertices := out.Vertices ++ [v]
      VertexColours := out.VertexColours ++ [c ++ toString 0] } [v] (le_refl 1)
    (by simp [colAt])
  simp only [Nat.sub_self, Nat.cast_zero, add_zero, List.nil_append] at h
  rw [h]
  simp [colAt]

theorem indexOf_append_cons (P rest : List Int) (v : Int) (h : v ∉ P) :
    (P ++ v :: rest).indexOf v = P.length := by
  induction P with
  | nil => simp
  | cons x P ih =>
    have hx : x ≠ v := fun hx => h (by rw [hx]; exact List.mem_cons_self _ _)
    have hP : v ∉ P := fun hv => h (List.mem_cons_of_mem _ hv)
    simp only [List.cons_append, List.length_cons]
    rw [List.indexOf_cons_ne _ hx, ih hP]

theorem vertexLayersLoop_spec (V : List Int) (k : Nat) (hk : 1 ≤ k) (hnd : V.Nodup) :
    ∀ (vs P : List Int) (cs : List String) (out : Graph) (vmap : List (Int × List Int)),
      V = P ++ vs → vs.length ≤ cs.length →
      vertexLayersLoopZ k vs cs
          (out, MaxIntSlice V + 1 + ((P.length * (k - 1) : Nat) : Int), vmap)
        = some
          ({ out with
              Vertices := out.Vertices
                ++ vs.flatMap (fun v => (List.range k).map (layerLabel V k v))
              Edges := out.Edges
                ++ vs.flatMap (fun v => (List.range' 1 (k - 1)).map
                    (fun i => (layerLabel V k v (i - 1), layerLabel V k v i)))
              VertexColours := out.VertexColours
                ++ (vs.zip cs).flatMap (fun vc => (List.range k).map
                    (fun i => vc.2 ++ toString i)) },
            MaxIntSlice V + 1 + ((V.length * (k - 1) : Nat) : Int),
            (vs.map (fun v => (v, (List.range k).map (layerLabel V k v)))).reverse ++ vmap) := by
  intro vs
  induction vs with
  | nil =>
    intro P cs out vmap hV _
    have : V.length = P.length := by rw [hV]; simp
    simp [vertexLayersLoopZ, this]
  | cons v vs ih =>
    intro P cs out vmap hV hlen
    cases cs with
    | nil => simp at hlen
    | cons c cs =>
      have hvP : v ∉ P := by
        rw [hV] at hnd
        have := (List.nodup_append.mp hnd).2.2
        intro hv
        exact this hv (List.mem_cons_self _ _)
      have hidx : V.indexOf v = P.length := by rw [hV]; exact indexOf_append_cons P vs v hvP
      have hlab : layerLabel V k v
          = colAt (MaxIntSlice V + 1 + ((P.length * (k - 1) : Nat) : Int)) v := by
        funext i; simp [layerLabel, hidx]
      simp only [vertexLayersLoopZ, layerLoop_range v c _ k hk]
      have hnext : MaxIntSlice V + 1 + ((P.length * (k - 1) : Nat) : Int) + ((k - 1 : Nat) : Int)
          = MaxIntSlice V + 1 + (((P ++ [v]).length * (k - 1) : Nat) : Int) := by
        simp only [List.length_append, List.length_singleton]
        push_cast; ring
      rw [hnext, ih (P ++ [v]) cs _ _ (by rw [hV]; simp) (by simpa using hlen)]
      simp only [hlab, List.flatMap_cons, List.zip_cons_cons, List.append_assoc, List.map_cons,
        List.reverse_cons, List.singleton_append]

theorem layersGet_of_mem {m : List (Int × List Int)} (hnd : (m.map Prod.fst).Nodup) {k : Int}
    {v : List Int} (h : (k, v) ∈ m) : layersGet m k = some v := by
  induction m with
  | nil => simp at h
  | cons kv rest ih =>
    obtain ⟨k1, v1⟩ := kv
    simp only [List.map_cons, List.nodup_cons, List.mem_map, not_exists, not_and] at hnd
    simp only [layersGet]
    rcases List.mem_cons.mp h with h1 | h1
    · simp only [Prod.mk.injEq] at h1
      simp [h1.1, h1.2]
    · have hne : k1 ≠ k := by
        intro he
        exact hnd.1 (k, v) h1 he.symm
      rw [if_neg hne]
      exact ih hnd.2 h1

theorem edgeLayersLoop_spec (V : List Int) (k : Nat) (edgeColours : List String)
    (hk : edgeColours.length = k) (hnd : V.Nodup) :
    ∀ (es : List (Int × Int)) (cs : List String) (out : Graph),
      es.length ≤ cs.length → (∀ e ∈ es, e.1 ∈ V ∧ e.2 ∈ V) →
      (∀ ec ∈ es.zip cs, ec.2 ∈ edgeColours) →
      edgeLayersLoop edgeColours
          ((V.map (fun v => (v, (List.range k).map (layerLabel V k v)))).reverse ++ []) es cs out
        = some { out with
            Edges := out.Edges ++ (es.zip cs).map (fun ec =>
              (layerLabel V k ec.1.1 (edgeColours.indexOf ec.2),
                layerLabel V k ec.1.2 (edgeColours.indexOf ec.2))) } := by
  have hget : ∀ v ∈ V,
      layersGet ((V.map (fun v => (v, (List.range k).map (layerLabel V k v)))).reverse ++ []) v
        = some ((List.range k).map (layerLabel V k v)) := by
    intro v hv
    apply layersGet_of_mem
    · rw [List.append_nil, List.map_reverse, List.map_map]
      exact List.nodup_reverse.mpr (by simpa [Function.comp_def] using hnd)
    · rw [List.append_nil, List.mem_reverse, List.mem_map]
      exact ⟨v, hv, rfl⟩
  intro es
  induction es with
  | nil => intro cs out _ _ _; simp [edgeLayersLoop]
  | cons e es ih =>
    intro cs out hlen hend hcol
    cases cs with
    | nil => simp at hlen
    | cons c cs =>
      have he := hend e (List.mem_cons_self _ _)
      have hc : c ∈ edgeColours := hcol (e, c) (by simp)
      have hidx : edgeColours.indexOf c < k := by
        rw [← hk]; exact List.indexOf_lt_length.mpr hc
      simp only [edgeLayersLoop, hget e.1 he.1, hget e.2 he.2]
      have hl : ∀ v, ((List.range k).map (layerLabel V k v))[edgeColours.indexOf c]?
          = some (layerLabel V k v (edgeColours.indexOf c)) := by
        intro v
        rw [List.getElem?_map, List.getElem?_range hidx]
        rfl
      rw [hl e.1, hl e.2]
      simp only
      rw [ih cs _ (by simpa using hlen) (fun e1 h1 => hend e1 (List.mem_cons_of_mem _ h1))
        (fun ec h1 => hcol ec (by simp only [List.zip_cons_cons]; exact List.mem_cons_of_mem _ h1))]
      simp

theorem EdgeColourConversion_spec (X L : Graph) (hX : WellFormed X)
    (hec : X.EdgeColours.length = X.Edges.length) (h2 : 2 ≤ X.EdgeColours.length)
    (h : EdgeColourConversionZ X = some L) :
    X.VertexColours.length = X.Vertices.length
      ∧ L.Vertices = X.Vertices.flatMap (fun v =>
          (List.range (sortStrings (distinctStrings X.EdgeColours)).length).map
            (layerLabel X.Vertices (sortStrings (distinctStrings X.EdgeColours)).length v))
      ∧ L.VertexColours = (X.Vertices.zip X.VertexColours).flatMap (fun vc =>
          (List.range (sortStrings (distinctStrings X.EdgeColours)).length).map
            (fun i => vc.2 ++ toString i))
      ∧ L.Edges = X.Vertices.flatMap (fun v =>
            (List.range' 1 ((sortStrings (distinctStrings X.EdgeColours)).length - 1)).map
              (fun i =>
                (layerLabel X.Vertices (sortStrings (distinctStrings X.EdgeColours)).length v (i - 1),
                  layerLabel X.Vertices (sortStrings (distinctStrings X.EdgeColours)).length v i)))
          ++ (X.Edges.zip X.EdgeColours).map (fun ec =>
            (layerLabel X.Vertices (sortStrings (distinctStrings X.EdgeColours)).length ec.1.1
                ((sortStrings (distinctStrings X.EdgeColours)).indexOf ec.2),
              layerLabel X.Vertices (sortStrings (distinctStrings X.EdgeColours)).length ec.1.2
                ((sortStrings (distinctStrings X.EdgeColours)).indexOf ec.2)))
      ∧ L.EdgeColours = [] := by
  have hd := distinctStrings_spec X.EdgeColours
  have hperm : (sortStrings (distinctStrings X.EdgeColours)).Perm
      (distinctStrings X.EdgeColours) := List.perm_insertionSort _ _
  have hk : 1 ≤ (sortStrings (distinctStrings X.EdgeColours)).length := by
    obtain ⟨c, hc⟩ : ∃ c, c ∈ X.EdgeColours :=
      List.exists_mem_of_length_pos (by omega)
    have : c ∈ sortStrings (distinctStrings X.EdgeColours) := by
      rw [hperm.mem_iff, hd.2]; exact hc
    exact List.length_pos_of_mem this
  have hVne : X.Vertices ≠ [] := by
    intro h0
    cases hE : X.Edges with
    | nil => rw [hE] at hec; simp at hec; rw [hec] at h2; simp at h2
    | cons e rest =>
      have := (hX.endpoints e (by rw [hE]; exact List.mem_cons_self _ _)).1
      rw [h0] at this; simp at this
  have hvc : X.VertexColours.length = X.Vertices.length := by
    rcases hX.vertexColours with h0 | h0
    · exfalso
      unfold EdgeColourConversionZ at h
      rw [if_neg (by omega), h0] at h
      cases hV : X.Vertices with
      | nil => exact hVne hV
      | cons v vs => rw [hV] at h; simp [vertexLayersLoopZ] at h
    · exact h0
  refine ⟨hvc, ?_⟩
  unfold EdgeColourConversionZ at h
  rw [if_neg (by omega)] at h
  simp only at h
  have hv := vertexLayersLoop_spec X.Vertices _ hk hX.nodup X.Vertices [] X.VertexColours
    (NewColourGraph [] [] [] []) [] (by simp) (by omega)
  simp only [List.length_nil, Nat.zero_mul, Nat.cast_zero, add_zero] at hv
  rw [hv] at h
  simp only at h
  have he := edgeLayersLoop_spec X.Vertices _ (sortStrings (distinctStrings X.EdgeColours)) rfl
    hX.nodup X.Edges X.EdgeColours
    { NewColourGraph [] [] [] [] with
      Vertices := (NewColourGraph [] [] [] []).Vertices
        ++ X.Vertices.flatMap (fun v =>
            (List.range (sortStrings (distinctStrings X.EdgeColours)).length).map
              (layerLabel X.Vertices (sortStrings (distinctStrings X.EdgeColours)).length v))
      Edges := (NewColourGraph [] [] [] []).Edges
        ++ X.Vertices.flatMap (fun v =>
            (List.range' 1 ((sortStrings (distinctStrings X.EdgeColours)).length - 1)).map
              (fun i =>
                (layerLabel X.Vertices (sortStrings (distinctStrings X.EdgeColours)).length v
                    (i - 1),
                  layerLabel X.Vertices (sortStrings (distinctStrings X.EdgeColours)).length v i)))
      VertexColours := (NewColourGraph [] [] [] []).VertexColours
        ++ (X.Vertices.zip X.VertexColours).flatMap (fun vc =>
            (List.range (sortStrings (distinctStrings X.EdgeColours)).length).map
              (fun i => vc.2 ++ toString i)) }
    (by omega) hX.endpoints
    (by
      intro ec hmem
      rw [hperm.mem_iff, hd.2]
      exact (List.of_mem_zip hmem).2)
  rw [he] at h
  simp only [Option.some.injEq] at h
  rw [← h]
  simp [NewColourGraph]

/-! ## The labels of the layers -/

theorem MaxIntSlice_foldl_le :
    ∀ (l : List Int) (m0 : Int),
      m0 ≤ l.foldl (fun m i => if i > m then i else m) m0
        ∧ ∀ v ∈ l, v ≤ l.foldl (fun m i => if i > m then i else m) m0 := by
  intro l
  induction l with
  | nil => intro m0; simp
  | cons x rest ih =>
    intro m0
    simp only [List.foldl_cons, List.mem_cons, forall_eq_or_imp]
    have h1 := ih (if x > m0 then x else m0)
    have h2 : m0 ≤ (if x > m0 then x else m0) ∧ x ≤ (if x > m0 then x else m0) := by
      split <;> omega
    exact ⟨le_trans h2.1 h1.1, le_trans h2.2 h1.1, h1.2⟩

theorem le_MaxIntSlice {V : List Int} {v : Int} (h : v ∈ V) : v ≤ MaxIntSlice V :=
  (MaxIntSlice_foldl_le V 0).2 v h

theorem layerLabel_zero (V : List Int) (k : Nat) (v : Int) : layerLabel V k v 0 = v := by
  simp [layerLabel, colAt]

theorem layerLabel_pos (V : List Int) (k : Nat) (v : Int) (i : Nat) (hi : i ≠ 0) :
    layerLabel V k v i
      = MaxIntSlice V + 1 + ((V.indexOf v * (k - 1) + (i - 1) : Nat) : Int) := by
  simp only [layerLabel, colAt, if_neg hi]
  push_cast; ring

theorem layerLabel_injective (V : List Int) (k : Nat) {v v' : Int} {i i' : Nat}
    (hv : v ∈ V) (hv' : v' ∈ V) (hi : i < k) (hi' : i' < k)
    (h : layerLabel V k v i = layerLabel V k v' i') : v = v' ∧ i = i' := by
  by_cases h0 : i = 0
  · by_cases h0' : i' = 0
    · rw [h0, h0', layerLabel_zero, layerLabel_zero] at h
      exact ⟨h, by rw [h0, h0']⟩
    · rw [h0, layerLabel_zero, layerLabel_pos V k v' i' h0'] at h
      have := le_MaxIntSlice hv
      omega
  · by_cases h0' : i' = 0
    · rw [h0', layerLabel_zero, layerLabel_pos V k v i h0] at h
      have := le_MaxIntSlice hv'
      omega
    · rw [layerLabel_pos V k v i h0, layerLabel_pos V k v' i' h0'] at h
      have h1 : V.indexOf v * (k - 1) + (i - 1) = V.indexOf v' * (k - 1) + (i' - 1) := by
        have : ((V.indexOf v * (k - 1) + (i - 1) : Nat) : Int)
            = ((V.indexOf v' * (k - 1) + (i' - 1) : Nat) : Int) := by omega
        exact_mod_cast this
      have hk : 0 < k - 1 := by omega
      have hlt : i - 1 < k - 1 := by omega
      have hlt' : i' - 1 < k - 1 := by omega
      have h2 : V.indexOf v = V.indexOf v' := by
        have e1 : (V.indexOf v * (k - 1) + (i - 1)) / (k - 1) = V.indexOf v := by
          rw [Nat.mul_comm, Nat.mul_add_div hk, Nat.div_eq_of_lt hlt, Nat.add_zero]
        have e2 : (V.indexOf v' * (k - 1) + (i' - 1)) / (k - 1) = V.indexOf v' := by
          rw [Nat.mul_comm, Nat.mul_add_div hk, Nat.div_eq_of_lt hlt', Nat.add_zero]
        rw [← e1, ← e2, h1]
      have h3 : v = v' := by
        have a1 := List.getElem_indexOf (List.indexOf_lt_length.mpr hv)
        have a2 := List.getElem_indexOf (List.indexOf_lt_length.mpr hv')
        rw [← a1, ← a2]
        simp only [h2]
      refine ⟨h3, ?_⟩
      rw [h2] at h1
      omega

theorem mem_layerVertices (V : List Int) (k : Nat) (x : Int) :
    x ∈ V.flatMap (fun v => (List.range k).map (layerLabel V k v))
      ↔ ∃ v ∈ V, ∃ i, i < k ∧ x = layerLabel V k v i := by
  simp only [List.mem_flatMap, List.mem_map, List.mem_range]
  constructor
  · rintro ⟨v, hv, i, hi, rfl⟩; exact ⟨v, hv, i, hi, rfl⟩
  · rintro ⟨v, hv, i, hi, rfl⟩; exact ⟨v, hv, i, hi, rfl⟩

theorem layerVertices_nodup (V : List Int) (k : Nat) (hV : V.Nodup) :
    (V.flatMap (fun v => (List.range k).map (layerLabel V k v))).Nodup := by
  rw [List.nodup_flatMap]
  constructor
  · intro v hv
    apply List.Nodup.map_on _ (List.nodup_range k)
    intro i hi j hj h
    exact (layerLabel_injective V k hv hv (List.mem_range.mp hi) (List.mem_range.mp hj) h).2
  · apply List.Pairwise.imp_of_mem _ hV
    intro a b ha hb hab
    intro x hxa hxb
    simp only [List.mem_map, List.mem_range] at hxa hxb
    obtain ⟨i, hi, rfl⟩ := hxa
    obtain ⟨j, hj, hx⟩ := hxb
    exact hab (layerLabel_injective V k ha hb hi hj hx.symm).1

theorem zip_flatMap_eq {α β γ : Type} (f : α → List β) (g : α → List γ) :
    ∀ (l : List α), (∀ a ∈ l, (f a).length = (g a).length) →
      (l.flatMap f).zip (l.flatMap g) = l.flatMap (fun a => (f a).zip (g a)) := by
  intro l
  induction l with
  | nil => intro _; simp
  | cons a rest ih =>
    intro h
    simp only [List.flatMap_cons]
    rw [List.zip_append (h a (List.mem_cons_self _ _)),
      ih (fun b hb => h b (List.mem_cons_of_mem _ hb))]

theorem perm_of_nodup_subset {α : Type} [DecidableEq α] {l1 l2 : List α} (hnd : l1.Nodup)
    (hsub : ∀ a ∈ l1, a ∈ l2) (hlen : l2.length ≤ l1.length) : l1.Perm l2 :=
  (List.subperm_of_subset hnd hsub).perm_of_length_le hlen

/-! ## An isomorphism of the layered graphs is an isomorphism of the graphs -/

theorem flatMap_zip_fst {β : Type} (V : List Int) (C : List String)
    (hlen : C.length = V.length) (f : Int → List β) :
    V.flatMap f = (V.zip C).flatMap (fun vc => f vc.1) := by
  have h : ((V.zip C).map Prod.fst).flatMap f = (V.zip C).flatMap (fun vc => f vc.1) := by
    rw [List.flatMap_map]
  rw [← h, map_fst_zip_of_length_eq _ _ hlen.symm]

theorem Layered.zip {V : List Int} {k : Nat} {cols : List String} {X L : Graph}
    (h : Layered V k cols X L) :
    L.Vertices.zip L.VertexColours = (V.zip X.VertexColours).flatMap (fun vc =>
      (List.range k).map (fun i => (layerLabel V k vc.1 i, vc.2 ++ toString i))) := by
  rw [h.lvertices, h.lcolours, flatMap_zip_fst V X.VertexColours h.colourLen,
    zip_flatMap_eq _ _ _ (by intro a _; simp)]
  apply List.flatMap_congr
  intro vc _
  rw [List.zip_map']

theorem Layered.mem_zip {V : List Int} {k : Nat} {cols : List String} {X L : Graph}
    (h : Layered V k cols X L) (x : Int) (s : String) :
    (x, s) ∈ L.Vertices.zip L.VertexColours
      ↔ ∃ vc ∈ V.zip X.VertexColours, ∃ i, i < k
          ∧ x = layerLabel V k vc.1 i ∧ s = vc.2 ++ toString i := by
  rw [h.zip]
  simp only [List.mem_flatMap, List.mem_map, List.mem_range, Prod.mk.injEq]
  constructor
  · rintro ⟨vc, hvc, i, hi, h1, h2⟩; exact ⟨vc, hvc, i, hi, h1.symm, h2.symm⟩
  · rintro ⟨vc, hvc, i, hi, h1, h2⟩; exact ⟨vc, hvc, i, hi, h1.symm, h2.symm⟩

theorem Layered.mem_edges {V : List Int} {k : Nat} {cols : List String} {X L : Graph}
    (h : Layered V k cols X L) (e : Int × Int) :
    e ∈ L.Edges
      ↔ (∃ v ∈ V, ∃ i, i + 1 < k ∧ e = (layerLabel V k v i, layerLabel V k v (i + 1)))
        ∨ (∃ ec ∈ X.Edges.zip X.EdgeColours,
            e = (layerLabel V k ec.1.1 (cols.indexOf ec.2),
              layerLabel V k ec.1.2 (cols.indexOf ec.2))) := by
  rw [h.ledges]
  simp only [List.mem_append, List.mem_flatMap, List.mem_map, List.mem_range'_1]
  constructor
  · rintro (⟨v, hv, i, hi, rfl⟩ | ⟨ec, hec, rfl⟩)
    · left
      refine ⟨v, hv, i - 1, by omega, ?_⟩
      have : i - 1 + 1 = i := by omega
      rw [this]
    · right; exact ⟨ec, hec, rfl⟩
  · rintro (⟨v, hv, i, hi, rfl⟩ | ⟨ec, hec, rfl⟩)
    · left
      exact ⟨v, hv, i + 1, by omega, by simp⟩
    · right; exact ⟨ec, hec, rfl⟩

theorem Layered.length_colours {V : List Int} {k : Nat} {cols : List String} {X L : Graph}
    (h : Layered V k cols X L) : L.VertexColours.length = L.Vertices.length := by
  rw [h.lvertices, h.lcolours, flatMap_zip_fst V X.VertexColours h.colourLen]
  simp only [List.length_flatMap, List.length_map, Function.comp_def]

section Decode

variable {V : List Int} {k : Nat} {cols : List String} {G R LG LR : Graph} {φ : Int → Int}

theorem exists_zip_of_mem {V : List Int} {C : List String} (hlen : C.length = V.length)
    {v : Int} (hv : v ∈ V) : ∃ c, (v, c) ∈ V.zip C := by
  obtain ⟨i, hi, rfl⟩ := List.getElem_of_mem hv
  have hi2 : i < (V.zip C).length := by simp [List.length_zip]; omega
  have hmem := List.getElem_mem hi2
  rw [List.getElem_zip] at hmem
  exact ⟨_, hmem⟩

theorem decode_vertex (hG : Layered V k cols G LG) (hR : Layered V k cols R LR)
    (hiso : Isomorphism φ LG LR) {v : Int} {c : String} (hvc : (v, c) ∈ V.zip G.VertexColours)
    {i : Nat} (hi : i < k) :
    ∃ v' c' i', (v', c') ∈ V.zip R.VertexColours ∧ i' < k
      ∧ φ (layerLabel V k v i) = layerLabel V k v' i'
      ∧ c ++ toString i = c' ++ toString i' := by
  have hmem : (layerLabel V k v i, c ++ toString i) ∈ LG.Vertices.zip LG.VertexColours :=
    (hG.mem_zip _ _).mpr ⟨(v, c), hvc, i, hi, rfl, rfl⟩
  have h1 := hiso.vertexColours hG.length_colours
  have h2 : (φ (layerLabel V k v i), c ++ toString i) ∈ LR.Vertices.zip LR.VertexColours :=
    h1.mem_iff.mp (List.mem_map.mpr ⟨_, hmem, rfl⟩)
  obtain ⟨vc, hvc', i', hi', hx, hs⟩ := (hR.mem_zip _ _).mp h2
  exact ⟨vc.1, vc.2, i', hvc', hi', hx, hs⟩

theorem decode_layer (hG : Layered V k cols G LG) (hR : Layered V k cols R LR)
    (hiso : Isomorphism φ LG LR) {v : Int} (hv : v ∈ V) {i : Nat} (hi : i < k) :
    ∃ v' i', v' ∈ V ∧ i' < k ∧ φ (layerLabel V k v i) = layerLabel V k v' i'
      ∧ i' % 10 = i % 10 := by
  obtain ⟨c, hc⟩ := exists_zip_of_mem hG.colourLen hv
  obtain ⟨v', c', i', h1, h2, h3, h4⟩ := decode_vertex hG hR hiso hc hi
  exact ⟨v', i', (List.of_mem_zip h1).1, h2, h3, (layerColour_mod _ _ _ _ h4).symm⟩

theorem decode_edge_image (hiso : Isomorphism φ LG LR) {e : Int × Int} (he : e ∈ LG.Edges) :
    ∃ e' ∈ LR.Edges, orientEdge e' = orientEdge (φ e.1, φ e.2) := by
  have h1 : orientEdge (relabelEdge φ e) ∈ (LG.Edges.map (relabelEdge φ)).map orientEdge :=
    List.mem_map_of_mem _ (List.mem_map_of_mem _ he)
  have h2 := hiso.edges.mem_iff.mp h1
  obtain ⟨e', he', h3⟩ := List.mem_map.mp h2
  exact ⟨e', he', h3⟩

theorem decode_link (hcols : cols.length = k) (hG : Layered V k cols G LG)
    (hR : Layered V k cols R LR) (hiso : Isomorphism φ LG LR) {v : Int} (hv : v ∈ V) {i : Nat}
    (hi : i + 1 < k) {v1 : Int} {i1 : Nat} (hv1 : v1 ∈ V) (hi1 : i1 < k)
    (h1 : φ (layerLabel V k v i) = layerLabel V k v1 i1) :
    i1 + 1 < k ∧ φ (layerLabel V k v (i + 1)) = layerLabel V k v1 (i1 + 1) := by
  obtain ⟨v0, i0, hv0, hi0, h0, hm0⟩ := decode_layer hG hR hiso hv (show i < k by omega)
  rw [h1] at h0
  have hinj0 := layerLabel_injective V k hv1 hv0 hi1 hi0 h0
  have hm1 : i1 % 10 = i % 10 := by rw [hinj0.2]; exact hm0
  obtain ⟨v2, i2, hv2, hi2, h2, hm2⟩ := decode_layer hG hR hiso hv hi
  have he : (layerLabel V k v i, layerLabel V k v (i + 1)) ∈ LG.Edges :=
    (hG.mem_edges _).mpr (Or.inl ⟨v, hv, i, hi, rfl⟩)
  obtain ⟨e', he', horient⟩ := decode_edge_image hiso he
  simp only [h1, h2] at horient
  rcases (hR.mem_edges e').mp he' with ⟨w, hw, j, hj, rfl⟩ | ⟨ec, hec, rfl⟩
  · rcases orientEdge_eq _ _ _ _ horient with ⟨ha, hb⟩ | ⟨ha, hb⟩
    · have ea := layerLabel_injective V k hw hv1 (by omega) hi1 ha
      have eb := layerLabel_injective V k hw hv2 hj hi2 hb
      refine ⟨by omega, ?_⟩
      rw [h2, ← eb.1, ea.1, ← eb.2, ea.2]
    · have ea := layerLabel_injective V k hw hv2 (by omega) hi2 ha
      have eb := layerLabel_injective V k hw hv1 hj hi1 hb
      omega
  · have hidx : cols.indexOf ec.2 < k := by
      rw [← hcols]; exact List.indexOf_lt_length.mpr (hR.colsMem ec hec)
    have hend := hR.endpoints ec.1 (List.of_mem_zip hec).1
    rcases orientEdge_eq _ _ _ _ horient with ⟨ha, hb⟩ | ⟨ha, hb⟩
    · have ea := layerLabel_injective V k hend.1 hv1 hidx hi1 ha
      have eb := layerLabel_injective V k hend.2 hv2 hidx hi2 hb
      omega
    · have ea := layerLabel_injective V k hend.1 hv2 hidx hi2 ha
      have eb := layerLabel_injective V k hend.2 hv1 hidx hi1 hb
      omega

theorem decode_column (hk : 1 ≤ k) (hcols : cols.length = k) (hG : Layered V k cols G LG)
    (hR : Layered V k cols R LR) (hiso : Isomorphism φ LG LR) {v : Int} (hv : v ∈ V) :
    φ v ∈ V ∧ ∀ i, i < k → φ (layerLabel V k v i) = layerLabel V k (φ v) i := by
  obtain ⟨v', i0, hv', hi0, h0, _⟩ := decode_layer hG hR hiso hv (show 0 < k by omega)
  have hall : ∀ i, i < k → i0 + i < k
      ∧ φ (layerLabel V k v i) = layerLabel V k v' (i0 + i) := by
    intro i
    induction i with
    | zero => intro _; exact ⟨hi0, h0⟩
    | succ i ih =>
      intro hi
      obtain ⟨h1, h2⟩ := ih (by omega)
      have := decode_link hcols hG hR hiso hv hi hv' h1 h2
      exact ⟨by omega, by rw [this.2]; rfl⟩
  have hzero : i0 = 0 := by
    have := (hall (k - 1) (by omega)).1
    omega
  subst hzero
  have hφ : φ v = v' := by
    have := (hall 0 (by omega)).2
    simpa [layerLabel_zero] using this
  rw [hφ]
  refine ⟨hv', fun i hi => ?_⟩
  have := (hall i hi).2
  simpa using this

theorem decode_colour (hk : 1 ≤ k) (hcols : cols.length = k) (hG : Layered V k cols G LG)
    (hR : Layered V k cols R LR) (hiso : Isomorphism φ LG LR) {v : Int} {c : String}
    (hvc : (v, c) ∈ V.zip G.VertexColours) : (φ v, c) ∈ V.zip R.VertexColours := by
  have hv : v ∈ V := (List.of_mem_zip hvc).1
  obtain ⟨v', c', i', h1, h2, h3, h4⟩ := decode_vertex hG hR hiso hvc (show 0 < k by omega)
  have hcol := decode_column hk hcols hG hR hiso hv
  rw [hcol.2 0 (by omega)] at h3
  have hinj := layerLabel_injective V k hcol.1 (List.of_mem_zip h1).1 (by omega) h2 h3
  rw [← hinj.2] at h4
  rw [hinj.1, layerColour_cancel _ _ _ h4]
  exact h1

theorem decode_colour_edge (hk : 1 ≤ k) (hcols : cols.length = k) (hG : Layered V k cols G LG)
    (hR : Layered V k cols R LR) (hiso : Isomorphism φ LG LR) {ec : (Int × Int) × String}
    (hec : ec ∈ G.Edges.zip G.EdgeColours) :
    (orientEdge (relabelEdge φ ec.1), ec.2)
      ∈ (R.Edges.zip R.EdgeColours).map (fun ec => (orientEdge ec.1, ec.2)) := by
  have hend := hG.endpoints ec.1 (List.of_mem_zip hec).1
  have hidx : cols.indexOf ec.2 < k := by
    rw [← hcols]; exact List.indexOf_lt_length.mpr (hG.colsMem ec hec)
  have hc1 := decode_column hk hcols hG hR hiso hend.1
  have hc2 := decode_column hk hcols hG hR hiso hend.2
  have he : (layerLabel V k ec.1.1 (cols.indexOf ec.2), layerLabel V k ec.1.2 (cols.indexOf ec.2))
      ∈ LG.Edges := (hG.mem_edges _).mpr (Or.inr ⟨ec, hec, rfl⟩)
  obtain ⟨e', he', horient⟩ := decode_edge_image hiso he
  simp only [hc1.2 _ hidx, hc2.2 _ hidx] at horient
  rcases (hR.mem_edges e').mp he' with ⟨w, hw, j, hj, rfl⟩ | ⟨ec', hec', rfl⟩
  · exfalso
    rcases orientEdge_eq _ _ _ _ horient with ⟨ha, hb⟩ | ⟨ha, hb⟩
    · have ea := layerLabel_injective V k hw hc1.1 (by omega) hidx ha
      have eb := layerLabel_injective V k hw hc2.1 hj hidx hb
      omega
    · have ea := layerLabel_injective V k hw hc2.1 (by omega) hidx ha
      have eb := layerLabel_injective V k hw hc1.1 hj hidx hb
      omega
  · have hidx' : cols.indexOf ec'.2 < k := by
      rw [← hcols]; exact List.indexOf_lt_length.mpr (hR.colsMem ec' hec')
    have hend' := hR.endpoints ec'.1 (List.of_mem_zip hec').1
    have hcolour : ∀ (j : Nat), cols.indexOf ec'.2 = j → j = cols.indexOf ec.2 → ec'.2 = ec.2 := by
      intro j h1 h2
      have h3 : cols.indexOf ec'.2 = cols.indexOf ec.2 := by rw [h1, h2]
      have a1 := List.getElem_indexOf (List.indexOf_lt_length.mpr (hR.colsMem ec' hec'))
      have a2 := List.getElem_indexOf (List.indexOf_lt_length.mpr (hG.colsMem ec hec))
      rw [← a1, ← a2]
      simp only [h3]
    refine List.mem_map.mpr ⟨ec', hec', ?_⟩
    rcases orientEdge_eq _ _ _ _ horient with ⟨ha, hb⟩ | ⟨ha, hb⟩
    · have ea := layerLabel_injective V k hend'.1 hc1.1 hidx' hidx ha
      have eb := layerLabel_injective V k hend'.2 hc2.1 hidx' hidx hb
      have hcc := hcolour _ ea.2 rfl
      rw [hcc]
      congr 1
      simp only [relabelEdge, ← ea.1, ← eb.1]
    · have ea := layerLabel_injective V k hend'.1 hc2.1 hidx' hidx ha
      have eb := layerLabel_injective V k hend'.2 hc1.1 hidx' hidx hb
      have hcc := hcolour _ ea.2 rfl
      rw [hcc]
      congr 1
      simp only [relabelEdge, ← ea.1, ← eb.1]
      exact orientEdge_swap _ _

theorem layered_decode (hV : V.Nodup) (hk : 1 ≤ k) (hcols : cols.length = k)
    (hG : Layered V k cols G LG) (hR : Layered V k cols R LR) (hsG : NoParallelEdges G)
    (hElen : R.Edges.length = G.Edges.length) (hiso : Isomorphism φ LG LR) :
    Isomorphism φ G R := by
  have hLRnd : LR.Vertices.Nodup := by rw [hR.lvertices]; exact layerVertices_nodup V k hV
  have hLinj := hiso.injOn hLRnd
  have hVsub : ∀ v ∈ V, v ∈ LG.Vertices := by
    intro v hv
    rw [hG.lvertices, mem_layerVertices]
    exact ⟨v, hv, 0, by omega, (layerLabel_zero V k v).symm⟩
  have hinj : ∀ x ∈ V, ∀ y ∈ V, φ x = φ y → x = y :=
    fun x hx y hy h => hLinj x (hVsub x hx) y (hVsub y hy) h
  have hmapnd : (V.map φ).Nodup := List.Nodup.map_on hinj hV
  have hvperm : (V.map φ).Perm V := by
    apply perm_of_nodup_subset hmapnd
    · intro a ha
      obtain ⟨v, hv, rfl⟩ := List.mem_map.mp ha
      exact (decode_column hk hcols hG hR hiso hv).1
    · simp
  have hzipnd : ((V.zip G.VertexColours).map (fun vc => (φ vc.1, vc.2))).Nodup := by
    apply List.Nodup.of_map Prod.fst
    rw [List.map_map]
    have : (V.zip G.VertexColours).map (Prod.fst ∘ fun vc => (φ vc.1, vc.2))
        = ((V.zip G.VertexColours).map Prod.fst).map φ := by
      rw [List.map_map]; rfl
    rw [this, map_fst_zip_of_length_eq _ _ hG.colourLen.symm]
    exact hmapnd
  have hecperm : ((G.Edges.zip G.EdgeColours).map
        (fun ec => (orientEdge (relabelEdge φ ec.1), ec.2))).Perm
      ((R.Edges.zip R.EdgeColours).map (fun ec => (orientEdge ec.1, ec.2))) := by
    apply perm_of_nodup_subset
    · apply List.Nodup.of_map Prod.fst
      rw [List.map_map]
      have : (G.Edges.zip G.EdgeColours).map
            (Prod.fst ∘ fun ec => (orientEdge (relabelEdge φ ec.1), ec.2))
          = (((G.Edges.zip G.EdgeColours).map Prod.fst).map (relabelEdge φ)).map orientEdge := by
        simp only [List.map_map]; rfl
      rw [this, map_fst_zip_of_length_eq _ _ hG.edgeColourLen.symm]
      exact candidate_edges_nodup hinj hG.endpoints hsG
    · intro a ha
      obtain ⟨ec, hec, rfl⟩ := List.mem_map.mp ha
      exact decode_colour_edge hk hcols hG hR hiso hec
    · simp only [List.length_map, List.length_zip]
      have := hG.edgeColourLen
      have := hR.edgeColourLen
      omega
  constructor
  · rw [hG.vertices, hR.vertices]; exact hvperm
  · have h1 := hecperm.map Prod.fst
    simp only [List.map_map] at h1
    have e1 : (G.Edges.zip G.EdgeColours).map
          (Prod.fst ∘ fun ec => (orientEdge (relabelEdge φ ec.1), ec.2))
        = (((G.Edges.zip G.EdgeColours).map Prod.fst).map (relabelEdge φ)).map orientEdge := by
      simp only [List.map_map]; rfl
    have e2 : (R.Edges.zip R.EdgeColours).map (Prod.fst ∘ fun ec => (orientEdge ec.1, ec.2))
        = ((R.Edges.zip R.EdgeColours).map Prod.fst).map orientEdge := by
      simp only [List.map_map]; rfl
    rw [e1, e2, map_fst_zip_of_length_eq _ _ hG.edgeColourLen.symm,
      map_fst_zip_of_length_eq _ _ hR.edgeColourLen.symm] at h1
    exact h1
  · rw [hG.colourLen, hR.colourLen]
  · rw [hG.edgeColourLen, hR.edgeColourLen, hElen]
  · intro _
    rw [hG.vertices, hR.vertices]
    apply perm_of_nodup_subset hzipnd
    · intro a ha
      obtain ⟨vc, hvc, rfl⟩ := List.mem_map.mp ha
      exact decode_colour hk hcols hG hR hiso hvc
    · simp only [List.length_map, List.length_zip]
      have := hG.colourLen
      have := hR.colourLen
      omega
  · intro _
    exact hecperm

end Decode

/-! ## The order of the strings -/

theorem char_eq_of_toNat_eq {a b : Char} (h : a.toNat = b.toNat) : a = b := by
  apply Char.ext
  apply UInt32.ext
  exact h

theorem charsLe_total : ∀ (l r : List Char), charsLe l r = true ∨ charsLe r l = true := by
  intro l
  induction l with
  | nil => intro r; left; simp [charsLe]
  | cons a l ih =>
    intro r
    cases r with
    | nil => right; simp [charsLe]
    | cons b r =>
      simp only [charsLe]
      by_cases h1 : a.toNat < b.toNat
      · left; simp [h1]
      · by_cases h2 : b.toNat < a.toNat
        · right; simp [h2]
        · simp only [if_neg h1, if_neg h2, Bool.false_eq_true, if_false]
          exact ih r

theorem charsLe_trans : ∀ (a b c : List Char), charsLe a b = true → charsLe b c = true →
    charsLe a c = true := by
  intro a
  induction a with
  | nil => intro b c _ _; simp [charsLe]
  | cons x a ih =>
    intro b c hab hbc
    cases b with
    | nil => simp [charsLe] at hab
    | cons y b =>
      cases c with
      | nil => simp [charsLe] at hbc
      | cons z c =>
        simp only [charsLe] at hab hbc ⊢
        by_cases h1 : x.toNat < y.toNat
        · by_cases h2 : y.toNat < z.toNat
          · simp [show x.toNat < z.toNat by omega]
          · by_cases h3 : z.toNat < y.toNat
            · simp [h2, h3] at hbc
            · simp [show x.toNat < z.toNat by omega]
        · by_cases h1' : y.toNat < x.toNat
          · simp [h1, h1'] at hab
          · simp only [if_neg h1, if_neg h1', Bool.false_eq_true, if_false] at hab
            by_cases h2 : y.toNat < z.toNat
            · simp [show x.toNat < z.toNat by omega]
            · by_cases h3 : z.toNat < y.toNat
              · simp [h2, h3] at hbc
              · simp only [if_neg h2, if_neg h3, Bool.false_eq_true, if_false] at hbc
                have e1 : ¬ x.toNat < z.toNat := by omega
                have e2 : ¬ z.toNat < x.toNat := by omega
                simp only [if_neg e1, if_neg e2, Bool.false_eq_true, if_false]
                exact ih b c hab hbc

theorem charsLe_antisymm : ∀ (a b : List Char), charsLe a b = true → charsLe b a = true →
    a = b := by
  intro a
  induction a with
  | nil =>
    intro b _ hba
    cases b with
    | nil => rfl
    | cons y b => simp [charsLe] at hba
  | cons x a ih =>
    intro b hab hba
    cases b with
    | nil => simp [charsLe] at hab
    | cons y b =>
      simp only [charsLe] at hab hba
      by_cases h1 : x.toNat < y.toNat
      · have h2 : ¬ y.toNat < x.toNat := by omega
        simp [h1, h2] at hba
      · by_cases h2 : y.toNat < x.toNat
        · simp [h1, h2] at hab
        · simp only [if_neg h1, if_neg h2, Bool.false_eq_true, if_false] at hab hba
          have hxy : x = y := char_eq_of_toNat_eq (by omega)
          rw [hxy, ih b hab hba]

instance strLe_total : IsTotal String (fun a b => strLe a b = true) :=
  ⟨fun a b => charsLe_total a.data b.data⟩

instance strLe_trans : IsTrans String (fun a b => strLe a b = true) :=
  ⟨fun a b c => charsLe_trans a.data b.data c.data⟩

instance strLe_antisymm : IsAntisymm String (fun a b => strLe a b = true) :=
  ⟨fun a b h1 h2 => String.ext (charsLe_antisymm a.data b.data h1 h2)⟩

theorem sortStrings_eq_of_perm {l l' : List String} (h : l.Perm l') :
    sortStrings l = sortStrings l' := by
  apply List.eq_of_perm_of_sorted (r := fun a b : String => strLe a b = true)
  · exact ((List.perm_insertionSort _ l).trans h).trans (List.perm_insertionSort _ l').symm
  · exact List.sorted_insertionSort _ l
  · exact List.sorted_insertionSort _ l'

theorem perm_of_sortStrings_eq {l l' : List String} (h : sortStrings l = sortStrings l') :
    l.Perm l' :=
  ((List.perm_insertionSort _ l).symm.trans (List.Perm.of_eq h)).trans
    (List.perm_insertionSort _ l')

theorem sortedColours_eq {l l' : List String} (h : sortStrings l = sortStrings l') :
    sortStrings (distinctStrings l) = sortStrings (distinctStrings l') := by
  apply sortStrings_eq_of_perm
  have hp := perm_of_sortStrings_eq h
  have h1 := distinctStrings_spec l
  have h2 := distinctStrings_spec l'
  rw [List.perm_ext_iff_of_nodup h1.1 h2.1]
  intro c
  rw [h1.2, h2.2]
  exact hp.mem_iff

/-! ## `GraphsIsomorphic` accepts only isomorphic graphs -/

theorem layered_of_conversion (X L : Graph) (hX : WellFormed X)
    (hec : X.EdgeColours.length = X.Edges.length) (h2 : 2 ≤ X.EdgeColours.length)
    (h : EdgeColourConversionZ X = some L) :
    Layered X.Vertices (sortStrings (distinctStrings X.EdgeColours)).length
      (sortStrings (distinctStrings X.EdgeColours)) X L
      ∧ 1 ≤ (sortStrings (distinctStrings X.EdgeColours)).length := by
  obtain ⟨h1, h3, h4, h5, h6⟩ := EdgeColourConversion_spec X L hX hec h2 h
  have hd := distinctStrings_spec X.EdgeColours
  have hperm : (sortStrings (distinctStrings X.EdgeColours)).Perm
      (distinctStrings X.EdgeColours) := List.perm_insertionSort _ _
  refine ⟨⟨rfl, h1, hec, hX.endpoints, ?_, h3, h4, h5, h6⟩, ?_⟩
  · intro ec hmem
    rw [hperm.mem_iff, hd.2]
    exact (List.of_mem_zip hmem).2
  · obtain ⟨c, hc⟩ : ∃ c, c ∈ X.EdgeColours := List.exists_mem_of_length_pos (by omega)
    have : c ∈ sortStrings (distinctStrings X.EdgeColours) := by
      rw [hperm.mem_iff, hd.2]; exact hc
    exact List.length_pos_of_mem this

theorem Layered.wellFormed {V : List Int} {k : Nat} {cols : List String} {X L : Graph}
    (h : Layered V k cols X L) (hV : V.Nodup) (hcols : cols.length = k) : WellFormed L := by
  constructor
  · rw [h.lvertices]; exact layerVertices_nodup V k hV
  · intro e he
    rw [h.lvertices, mem_layerVertices, mem_layerVertices]
    rcases (h.mem_edges e).mp he with ⟨v, hv, i, hi, rfl⟩ | ⟨ec, hec, rfl⟩
    · exact ⟨⟨v, hv, i, by omega, rfl⟩, ⟨v, hv, i + 1, hi, rfl⟩⟩
    · have hidx : cols.indexOf ec.2 < k := by
        rw [← hcols]; exact List.indexOf_lt_length.mpr (h.colsMem ec hec)
      have hend := h.endpoints ec.1 (List.of_mem_zip hec).1
      exact ⟨⟨ec.1.1, hend.1, _, hidx, rfl⟩, ⟨ec.1.2, hend.2, _, hidx, rfl⟩⟩
  · right; exact h.length_colours
  · left; exact h.ledgeColours

theorem noParallel_of_nil {L : Graph} (h : L.EdgeColours = [])
    (hf : L.EdgeColours.length = L.Edges.length) : NoParallelEdges L := by
  rw [h] at hf
  have : L.Edges = [] := List.length_eq_zero.mp hf.symm
  simp [NoParallelEdges, this]

theorem canonical_isomorphism (A B cA cB : Graph) (pA pB : List (List Int))
    (hA : WellFormed A) (hB : WellFormed B)
    (hsA : A.EdgeColours.length = A.Edges.length → NoParallelEdges A)
    (hsB : B.EdgeColours.length = B.Edges.length → NoParallelEdges B)
    (hpA : GraphColourPartition A = some pA) (hpB : GraphColourPartition B = some pB)
    (hcA : SearchTree A pA true = some cA) (hcB : SearchTree B pB true = some cB)
    (heq : GraphEquals cA cB = true) : ∃ f : Int → Int, Isomorphism f A B := by
  have hfA := GraphColourPartition_flatten A pA hA.vertexColours hpA
  have hfB := GraphColourPartition_flatten B pB hB.vertexColours hpB
  obtain ⟨lA, hlA, hPA⟩ := SearchTree_candidate A pA true cA hA.nodup hfA hcA
  obtain ⟨lB, hlB, hPB⟩ := SearchTree_candidate B pB true cB hB.nodup hfB hcB
  obtain ⟨isoA, wfA, spA⟩ := PermuteGraph_isomorphism A lA cA hA hlA hPA
  obtain ⟨isoB, wfB, spB⟩ := PermuteGraph_isomorphism B lB cB hB hlB hPB
  have hEA : A.Edges.length = cA.Edges.length := by simpa using isoA.edges.length_eq
  have hEB : B.Edges.length = cB.Edges.length := by simpa using isoB.edges.length_eq
  have hid := GraphEquals.isomorphism heq wfA.nodup wfB.nodup wfA.vertexColours
    wfB.vertexColours wfA.edgeColours wfB.edgeColours
    (fun hf => spA (hsA (by rw [isoA.edgeColourLen, hEA]; exact hf)))
    (fun hf => spB (hsB (by rw [isoB.edgeColourLen, hEB]; exact hf)))
  have hinv := isoB.symm wfB.nodup hB.endpoints
  exact ⟨_, (isoA.comp hid).comp hinv⟩

theorem CanonicalInitialCheck_unfold {G H : Graph} (h : CanonicalInitialCheck G H = true) :
    G.Vertices.length = H.Vertices.length ∧ G.Edges.length = H.Edges.length
      ∧ G.VertexColours.length = H.VertexColours.length
      ∧ G.EdgeColours.length = H.EdgeColours.length
      ∧ sortStrings G.EdgeColours = sortStrings H.EdgeColours := by
  unfold CanonicalInitialCheck at h
  simp only at h
  by_cases h1 : (!(decide (G.Vertices.length = H.Vertices.length)
      && decide (G.Edges.length = H.Edges.length)
      && decide (G.VertexColours.length = H.VertexColours.length)
      && decide (G.EdgeColours.length = H.EdgeColours.length))) = true
  · rw [if_pos h1] at h; exact absurd h (by simp)
  · rw [if_neg h1] at h
    simp only [Bool.not_eq_true, Bool.not_eq_false', Bool.and_eq_true,
      decide_eq_true_eq] at h1
    by_cases h2 : sortStrings G.EdgeColours ≠ sortStrings H.EdgeColours
    · rw [if_pos h2] at h; exact absurd h (by simp)
    · exact ⟨h1.1.1.1, h1.1.1.2, h1.1.2, h1.2, not_not.mp h2⟩

theorem relabelled_isomorphism_right (G H R : Graph) (hG : WellFormed G) (hH : WellFormed H)
    (hsH : NoParallelEdges H)
    (h : (if G.Vertices = H.Vertices then some H else GraphVertexRelabel H G.Vertices)
      = some R) :
    (∃ f : Int → Int, Isomorphism f R H) ∧ WellFormed R ∧ NoParallelEdges R
      ∧ R.Vertices = G.Vertices ∧ R.VertexColours = H.VertexColours
      ∧ R.EdgeColours = H.EdgeColours ∧ R.Edges.length = H.Edges.length := by
  by_cases hV : G.Vertices = H.Vertices
  · rw [if_pos hV] at h
    simp only [Option.some.injEq] at h
    rw [← h]
    exact ⟨⟨id, Isomorphism.refl H⟩, hH, hsH, hV.symm, rfl, rfl, rfl⟩
  · rw [if_neg hV] at h
    obtain ⟨iso, wf, sp, e1, e2, e3⟩ := GraphVertexRelabel_isomorphism H G.Vertices R hH hG.nodup h
    have hlen : H.Edges.length = R.Edges.length := by simpa using iso.edges.length_eq
    exact ⟨⟨_, iso.symm wf.nodup hH.endpoints⟩, wf, sp hsH, e1, e2, e3, hlen.symm⟩

theorem GraphsIsomorphic_true {G H : Graph} (h : GraphsIsomorphicZ G H = some true) :
    CanonicalInitialCheck G H = true ∧ ∃ R cgL cgR pL pR cL cR,
      (if G.Vertices = H.Vertices then some H else GraphVertexRelabel H G.Vertices) = some R
      ∧ ((G.Edges.length = G.EdgeColours.length
            ∧ EdgeColourConversionZ G = some cgL ∧ EdgeColourConversionZ R = some cgR)
          ∨ (G.Edges.length ≠ G.EdgeColours.length ∧ cgL = G ∧ cgR = R))
      ∧ GraphColourPartition cgL = some pL ∧ SearchTree cgL pL true = some cL
      ∧ GraphColourPartition cgR = some pR ∧ SearchTree cgR pR true = some cR
      ∧ GraphEquals cL cR = true := by
  unfold GraphsIsomorphicZ at h
  by_cases hc : CanonicalInitialCheck G H = true
  · refine ⟨hc, ?_⟩
    rw [if_neg (by simp [hc])] at h
    simp only at h
    cases hrel : (if G.Vertices = H.Vertices then some H
        else GraphVertexRelabel H G.Vertices) with
    | none => rw [hrel] at h; exact absurd h (by simp)
    | some R =>
      rw [hrel] at h
      simp only at h
      have key : ∀ (cgL cgR : Graph),
          (match GraphColourPartition cgL with
            | none => none
            | some partLeft =>
              match SearchTree cgL partLeft true with
              | none => none
              | some canonicalLeft =>
                match GraphColourPartition cgR with
                | none => none
                | some partRight =>
                  match SearchTree cgR partRight true with
                  | none => none
                  | some canonicalRight => some (GraphEquals canonicalLeft canonicalRight))
            = some true →
          ∃ pL pR cL cR, GraphColourPartition cgL = some pL ∧ SearchTree cgL pL true = some cL
            ∧ GraphColourPartition cgR = some pR ∧ SearchTree cgR pR true = some cR
            ∧ GraphEquals cL cR = true := by
        intro cgL cgR hk
        cases hpL : GraphColourPartition cgL with
        | none => rw [hpL] at hk; exact absurd hk (by simp)
        | some pL =>
          rw [hpL] at hk
          simp only at hk
          cases hcL : SearchTree cgL pL true with
          | none => rw [hcL] at hk; exact absurd hk (by simp)
          | some cL =>
            rw [hcL] at hk
            simp only at hk
            cases hpR : GraphColourPartition cgR with
            | none => rw [hpR] at hk; exact absurd hk (by simp)
            | some pR =>
              rw [hpR] at hk
              simp only at hk
              cases hcR : SearchTree cgR pR true with
              | none => rw [hcR] at hk; exact absurd hk (by simp)
              | some cR =>
                rw [hcR] at hk
                simp only [Option.some.injEq] at hk
                exact ⟨pL, pR, cL, cR, rfl, hcL, rfl, hcR, hk⟩
      by_cases hflag : G.Edges.length = G.EdgeColours.length
      · rw [if_pos hflag] at h
        cases hL : EdgeColourConversionZ G with
        | none => rw [hL] at h; exact absurd h (by simp)
        | some cgL =>
          rw [hL] at h
          simp only at h
          cases hR : EdgeColourConversionZ R with
          | none => rw [hR] at h; exact absurd h (by simp)
          | some cgR =>
            rw [hR] at h
            simp only at h
            obtain ⟨pL, pR, cL, cR, h1, h2, h3, h4, h5⟩ := key cgL cgR h
            exact ⟨R, cgL, cgR, pL, pR, cL, cR, rfl, Or.inl ⟨hflag, rfl, hR⟩, h1, h2, h3, h4, h5⟩
      · rw [if_neg hflag] at h
        simp only at h
        obtain ⟨pL, pR, cL, cR, h1, h2, h3, h4, h5⟩ := key G R h
        exact ⟨R, G, R, pL, pR, cL, cR, rfl, Or.inr ⟨hflag, rfl, rfl⟩, h1, h2, h3, h4, h5⟩
  · rw [if_pos (by simp [hc])] at h
    exact absurd h (by simp)

theorem graphsIsomorphic_isomorphism (G H : Graph) (hG : WellFormed G) (hH : WellFormed H)
    (hsG : NoParallelEdges G) (hsH : NoParallelEdges H)
    (h : GraphsIsomorphicZ G H = some true) : ∃ f : Int → Int, Isomorphism f G H := by
  obtain ⟨hc, R, cgL, cgR, pL, pR, cL, cR, hrel, hconv, hpL, hcL, hpR, hcR, heq⟩ :=
    GraphsIsomorphic_true h
  obtain ⟨hVl, hEl, hVCl, hECl, hsort⟩ := CanonicalInitialCheck_unfold hc
  obtain ⟨⟨g, isoRH⟩, wfR, spR, hRV, hRVC, hREC, hREl⟩ :=
    relabelled_isomorphism_right G H R hG hH hsH hrel
  have plain : (∃ f : Int → Int, Isomorphism f G R) → ∃ f : Int → Int, Isomorphism f G H := by
    rintro ⟨f, iso⟩
    exact ⟨_, iso.comp isoRH⟩
  apply plain
  rcases hconv with ⟨hflag, hL, hR⟩ | ⟨_, rfl, rfl⟩
  · by_cases h2 : G.EdgeColours.length < 2
    · have e1 : cgL = G := by
        unfold EdgeColourConversionZ at hL
        rw [if_pos h2, CopyGraph_eq] at hL
        exact (Option.some.inj hL).symm
      have e2 : cgR = R := by
        unfold EdgeColourConversionZ at hR
        rw [if_pos (by rw [hREC, ← hECl]; exact h2), CopyGraph_eq] at hR
        exact (Option.some.inj hR).symm
      subst e1 e2
      exact canonical_isomorphism cgL cgR cL cR pL pR hG wfR (fun _ => hsG) (fun _ => spR)
        hpL hpR hcL hcR heq
    · have hflagR : R.EdgeColours.length = R.Edges.length := by
        rw [hREC, hREl, ← hECl, ← hEl]; exact hflag.symm
      obtain ⟨layG, hk⟩ := layered_of_conversion G cgL hG hflag.symm (by omega) hL
      obtain ⟨layR, _⟩ := layered_of_conversion R cgR wfR hflagR
        (by rw [hREC, ← hECl]; omega) hR
      have hcols : sortStrings (distinctStrings R.EdgeColours)
          = sortStrings (distinctStrings G.EdgeColours) := by
        rw [hREC]; exact (sortedColours_eq hsort).symm
      rw [hRV, hcols] at layR
      have wfL := layG.wellFormed hG.nodup rfl
      have wfLR := layR.wellFormed hG.nodup rfl
      obtain ⟨φ, isoL⟩ := canonical_isomorphism cgL cgR cL cR pL pR wfL wfLR
        (noParallel_of_nil layG.ledgeColours) (noParallel_of_nil layR.ledgeColours)
        hpL hpR hcL hcR heq
      exact ⟨φ, layered_decode hG.nodup hk rfl layG layR hsG (by rw [hREl, hEl]) isoL⟩
  · exact canonical_isomorphism cgL cgR cL cR pL pR hG wfR (fun _ => hsG) (fun _ => spR)
      hpL hpR hcL hcR heq

theorem MaxIntSlice_nonneg (l : List Int) : 0 ≤ MaxIntSlice l :=
  (MaxIntSlice_foldl_le l 0).1

theorem wrapInt_eq {x : Int} (h0 : 0 ≤ x) (h1 : x ≤ MaxInt64) : wrapInt x = x := by
  unfold wrapInt
  unfold MaxInt64 at h1
  omega

theorem layerLoop_eq_Z (v : Int) (c : String) :
    ∀ (rest : List Nat) (out : Graph) (next : Int) (layers : List Int),
      0 ≤ next → next + (rest.length : Int) ≤ MaxInt64 →
      layerLoop v c rest (out, next, layers) = layerLoopZ v c rest (out, next, layers)
        ∧ next ≤ (layerLoopZ v c rest (out, next, layers)).2.1
        ∧ (layerLoopZ v c rest (out, next, layers)).2.1 ≤ next + (rest.length : Int)
  | [], out, next, layers, _, _ => by simp [layerLoop, layerLoopZ]
  | i :: rest, out, next, layers, h0, h1 => by
    simp only [List.length_cons, Nat.cast_add, Nat.cast_one] at h1 ⊢
    by_cases hi : i = 0
    · have hb : next + (rest.length : Int) ≤ MaxInt64 := by omega
      simp only [layerLoop, layerLoopZ, if_pos hi]
      refine ⟨(layerLoop_eq_Z v c rest _ _ _ h0 hb).1, (layerLoop_eq_Z v c rest _ _ _ h0 hb).2.1,
        le_trans (layerLoop_eq_Z v c rest _ _ _ h0 hb).2.2 (by omega)⟩
    · have hw : wrapInt (next + 1) = next + 1 := wrapInt_eq (by omega) (by omega)
      have h0' : 0 ≤ next + 1 := by omega
      have hb : next + 1 + (rest.length : Int) ≤ MaxInt64 := by omega
      simp only [layerLoop, layerLoopZ, if_neg hi, hw]
      refine ⟨(layerLoop_eq_Z v c rest _ _ _ h0' hb).1,
        le_trans (by omega) (layerLoop_eq_Z v c rest _ _ _ h0' hb).2.1,
        le_trans (layerLoop_eq_Z v c rest _ _ _ h0' hb).2.2 (by omega)⟩

theorem vertexLayersLoop_eq_Z (k : Nat) :
    ∀ (vs : List Int) (cs : List String) (out : Graph) (next : Int)
      (vm : List (Int × List Int)),
      0 ≤ next → next + ((k * vs.length : Nat) : Int) ≤ MaxInt64 →
      vertexLayersLoop k vs cs (out, next, vm) = vertexLayersLoopZ k vs cs (out, next, vm)
  | [], cs, out, next, vm, _, _ => by simp [vertexLayersLoop, vertexLayersLoopZ]
  | v :: vs, [], out, next, vm, _, _ => by simp [vertexLayersLoop, vertexLayersLoopZ]
  | v :: vs, c :: cs, out, next, vm, h0, h1 => by
    have hmul : k * (v :: vs).length = k * vs.length + k := by
      simp [Nat.mul_succ]
    rw [hmul] at h1
    push_cast at h1
    have hk : next + ((List.range k).length : Int) ≤ MaxInt64 := by
      rw [List.length_range]
      have : (0 : Int) ≤ (k : Int) * (vs.length : Int) := by positivity
      omega
    obtain ⟨e1, e2, e3⟩ := layerLoop_eq_Z v c (List.range k) out next [] h0 hk
    rw [List.length_range] at e3
    simp only [vertexLayersLoop, vertexLayersLoopZ]
    rw [e1]
    generalize layerLoopZ v c (List.range k) (out, next, []) = r at e2 e3 ⊢
    obtain ⟨o1, n1, l1⟩ := r
    simp only at e2 e3 ⊢
    exact vertexLayersLoop_eq_Z k vs cs o1 n1 _ (by omega) (by push_cast; omega)

theorem EdgeColourConversion_eq_Z (X : Graph) (h : LabelsFit X) :
    EdgeColourConversion X = EdgeColourConversionZ X := by
  unfold LabelsFit at h
  have hM := MaxIntSlice_nonneg X.Vertices
  unfold EdgeColourConversion EdgeColourConversionZ
  by_cases h2 : X.EdgeColours.length < 2
  · rw [if_pos h2, if_pos h2]
  · rw [if_neg h2, if_neg h2]
    simp only
    rw [wrapInt_eq (by omega) (by omega),
      vertexLayersLoop_eq_Z _ _ _ _ _ _ (by omega) (by omega)]

theorem LabelsFit_right {G H R0 : Graph} (hG : LabelsFit G) (hH : LabelsFit H)
    (hc : CanonicalInitialCheck G H = true)
    (hrel : (if G.Vertices = H.Vertices then some H else GraphVertexRelabel H G.Vertices)
      = some R0) : LabelsFit R0 := by
  by_cases hV : G.Vertices = H.Vertices
  · rw [if_pos hV] at hrel
    cases hrel
    exact hH
  · rw [if_neg hV] at hrel
    obtain ⟨_, _, _, _, hEC⟩ := CanonicalInitialCheck_unfold hc
    unfold GraphVertexRelabel at hrel
    split at hrel
    · cases hrel
    · cases hrel
      unfold LabelsFit at hG ⊢
      simp only [NewColourGraph]
      rw [← sortedColours_eq hEC]
      exact hG

theorem GraphsIsomorphic_eq_Z (G H : Graph) (hG : LabelsFit G) (hH : LabelsFit H) :
    GraphsIsomorphic G H = GraphsIsomorphicZ G H := by
  unfold GraphsIsomorphic GraphsIsomorphicZ
  by_cases hc : CanonicalInitialCheck G H = true
  · simp only [hc, Bool.not_true, Bool.false_eq_true, if_false]
    cases hrel : (if G.Vertices = H.Vertices then some H
        else GraphVertexRelabel H G.Vertices) with
    | none => rfl
    | some R0 =>
      simp only
      rw [EdgeColourConversion_eq_Z G hG,
        EdgeColourConversion_eq_Z R0 (LabelsFit_right hG hH hc hrel)]
  · have hc' : CanonicalInitialCheck G H = false := by
      cases h : CanonicalInitialCheck G H
      · rfl
      · exact absurd h hc
    simp only [hc', Bool.not_false, if_true]

set_option maxRecDepth 1000000 in
/-- C5 (as stated it fails): `wrapGraph` and `wrapGraphTwin` are graphs of the
data model without parallel edges, `GraphsIsomorphic` returns true for them (the
new labels of the layers start at `MaxInt64 + 1`, which wraps around to the
smallest `int`, and the two layered graphs are the same graph), and no map of
the labels is an isomorphism: the edge of colour `b` is a loop in the one graph
and joins two vertices in the other. -/
theorem C5_counterexample_labels_wrap :
    WellFormed wrapGraph ∧ WellFormed wrapGraphTwin
    ∧ NoParallelEdges wrapGraph ∧ NoParallelEdges wrapGraphTwin
    ∧ GraphsIsomorphic wrapGraph wrapGraphTwin = some true
    ∧ ¬ ∃ f : Int → Int, Isomorphism f wrapGraph wrapGraphTwin := by
  refine ⟨⟨by decide, by decide, by decide, by decide⟩,
    ⟨by decide, by decide, by decide, by decide⟩, by decide, by decide, ?_, ?_⟩
  · decide!
  · rintro ⟨f, iso⟩
    have hp := iso.edgeColours (by decide)
    have hmem : (orientEdge (relabelEdge f (9223372036854775807, 9223372036854775807)), "b")
        ∈ (wrapGraph.Edges.zip wrapGraph.EdgeColours).map
          (fun ec => (orientEdge (relabelEdge f ec.1), ec.2)) := by
      simp [wrapGraph, NewColourGraph]
    rw [hp.mem_iff] at hmem
    simp only [wrapGraphTwin, NewColourGraph, List.zip_cons_cons, List.zip_nil_right,
      List.map_cons, List.map_nil, List.mem_cons, List.mem_nil_iff, or_false,
      Prod.mk.injEq] at hmem
    rcases hmem with ⟨h1, _⟩ | ⟨_, h2⟩
    · simp only [orientEdge, relabelEdge, lt_self_iff_false, if_false] at h1
      rw [if_neg (by decide)] at h1
      have e1 := congrArg Prod.fst h1
      have e2 := congrArg Prod.snd h1
      simp only at e1 e2
      omega
    · exact absurd h2 (by decide)

/-- C5 (amended): let `G` and `H` be graphs (pairwise distinct labels, every
edge endpoint a vertex, each list of colours empty or complete) without
parallel edges whose labels leave room for the labels of the layers
(`LabelsFit`: the largest label plus the number of vertices times the number of
distinct edge colours is below `MaxInt64`).  If `GraphsIsomorphic G H` returns
true, then some map `f` of the labels is one to one on the vertices of `G`, maps
them onto the vertices of `H`, maps the edges of `G` onto the edges of `H`, and
preserves every vertex colour and every edge colour. -/
theorem C5_graphsIsomorphic_sound (G H : Graph) (hG : WellFormed G) (hH : WellFormed H)
    (hsG : NoParallelEdges G) (hsH : NoParallelEdges H)
    (hfG : LabelsFit G) (hfH : LabelsFit H)
    (h : GraphsIsomorphic G H = some true) :
    ∃ f : Int → Int,
      (∀ x ∈ G.Vertices, ∀ y ∈ G.Vertices, f x = f y → x = y)
        ∧ (∀ y ∈ H.Vertices, ∃ x ∈ G.Vertices, f x = y)
        ∧ Isomorphism f G H := by
  rw [GraphsIsomorphic_eq_Z G H hfG hfH] at h
  obtain ⟨f, iso⟩ := graphsIsomorphic_isomorphism G H hG hH hsG hsH h
  refine ⟨f, iso.injOn hH.nodup, ?_, iso⟩
  intro y hy
  have := iso.vertices.mem_iff.mpr hy
  obtain ⟨x, hx, hxy⟩ := List.mem_map.mp this
  exact ⟨x, hx, hxy⟩

theorem colouredPath_wellFormed : WellFormed colouredPath :=
  ⟨by decide, by decide, by decide, by decide⟩

theorem colouredPathRelabelled_wellFormed : WellFormed colouredPathRelabelled :=
  ⟨by decide, by decide, by decide, by decide⟩

set_option maxRecDepth 100000 in
/-- C5 (amended) at a coloured path and its mirror image, which
`GraphsIsomorphic` accepts after the conversion of the two edge colours into
layers. -/
theorem C5_graphsIsomorphic_sound_witness :
    ∃ f : Int → Int,
      (∀ x ∈ colouredPath.Vertices, ∀ y ∈ colouredPath.Vertices, f x = f y → x = y)
        ∧ (∀ y ∈ colouredPathRelabelled.Vertices, ∃ x ∈ colouredPath.Vertices, f x = y)
        ∧ Isomorphism f colouredPath colouredPathRelabelled :=
  C5_graphsIsomorphic_sound colouredPath colouredPathRelabelled colouredPath_wellFormed
    colouredPathRelabelled_wellFormed (by decide) (by decide) (by decide!) (by decide!)
    (by decide!)

/-! ## The bound of the search -/

theorem stepsSaved_component_nonneg (m : Nat) (h : 1 ≤ m) :
    0 ≤ ((m : Int) - 1) - floorLog2 m := by
  obtain ⟨k, hk, h1, _⟩ := floorLog2_spec m h
  rw [hk]
  have : k < 2 ^ k := Nat.lt_two_pow k
  omega

theorem MaxStepsSaved_nonneg (P : Pathway) : 0 ≤ MaxStepsSaved P := by
  rw [MaxStepsSaved_eq_sum]
  apply List.sum_nonneg
  intro x hx
  obtain ⟨c, hc, rfl⟩ := List.mem_map.mp hx
  exact stepsSaved_component_nonneg c.length
    (List.length_pos.mpr ((ConnectedComponentEdges_isComponentList P.remnant).2.1 c hc))

/-- C11: for every pathway `P` and every graph `G`, `BestAssemblyIndex G P` is at
most `AssemblyIndex P G`, the two differ by `MaxStepsSaved P`, and
`MaxStepsSaved P` is not negative. -/
theorem C11_bestAssemblyIndex_le (P : Pathway) (G : Graph) :
    BestAssemblyIndex G P ≤ AssemblyIndex P G
    ∧ AssemblyIndex P G - BestAssemblyIndex G P = MaxStepsSaved P
    ∧ 0 ≤ MaxStepsSaved P := by
  have h := MaxStepsSaved_nonneg P
  unfold BestAssemblyIndex
  refine ⟨by omega, by omega, h⟩

set_option maxRecDepth 100000 in
/-- With one worker, a queue of 100 and the variant "shortest", `Assembly`
returns for the uncoloured triangle and for the uncoloured square a list of
pathways whose first pathway has assembly index 2 with respect to the input
graph. -/
theorem assembly_triangle_square_one_worker :
    (Assembly 1000 triangle 100 "shortest").map
        (fun ps => ps.head?.map (fun p => AssemblyIndex p triangle)) = some (some 2)
    ∧ (Assembly 1000 square 100 "shortest").map
        (fun ps => ps.head?.map (fun p => AssemblyIndex p square)) = some (some 2) := by
  constructor
  · decide!
  · decide!

/-! ## A recoloured vertex -/

theorem count_set_lt {l : List String} {i : Nat} {c c' : String} (hi : l[i]? = some c)
    (hc : c ≠ c') : (l.set i c').count c < l.count c := by
  induction l generalizing i with
  | nil => simp at hi
  | cons a l ih =>
    cases i with
    | zero =>
      simp only [List.getElem?_cons_zero, Option.some.injEq] at hi
      subst hi
      simp only [List.set_cons_zero, List.count_cons_self]
      rw [List.count_cons_of_ne hc]
      omega
    | succ i =>
      simp only [List.getElem?_cons_succ] at hi
      have := ih hi
      simp only [List.set_cons_succ, List.count_cons]
      omega

theorem sortStrings_set_ne {l : List String} {i : Nat} {c c' : String} (hi : l[i]? = some c)
    (hc : c ≠ c') : sortStrings l ≠ sortStrings (l.set i c') := by
  intro h
  have hp := perm_of_sortStrings_eq h
  have := hp.count_eq c
  have := count_set_lt hi hc
  omega

theorem CanonicalInitialCheck_false_of_colours {G H : Graph}
    (h : sortStrings G.VertexColours ≠ sortStrings H.VertexColours) :
    CanonicalInitialCheck G H = false := by
  unfold CanonicalInitialCheck
  simp only
  split
  · rfl
  · split
    · rfl
    · rfl

/-- C15: for every graph `G`, every position `i` of a vertex that has the colour
`c`, and every colour `c'` other than `c`, `GraphsIsomorphic` returns false for
`G` and the graph that differs from `G` only in the colour of that vertex,
which is `c'`; in both orders of the arguments. -/
theorem C15_recoloured_vertex_rejected (G : Graph) (i : Nat) (c c' : String)
    (hi : G.VertexColours[i]? = some c) (hc : c ≠ c') :
    GraphsIsomorphic G { G with VertexColours := G.VertexColours.set i c' } = some false
    ∧ GraphsIsomorphic { G with VertexColours := G.VertexColours.set i c' } G = some false := by
  have h1 := sortStrings_set_ne hi hc
  constructor
  · unfold GraphsIsomorphic
    rw [CanonicalInitialCheck_false_of_colours h1]
    rfl
  · unfold GraphsIsomorphic
    rw [CanonicalInitialCheck_false_of_colours (G := { G with VertexColours := G.VertexColours.set i c' })
      (H := G) (Ne.symm h1)]
    rfl

/-- C15 at the coloured path, the colour of its second vertex changed from "b"
to "a". -/
theorem C15_recoloured_vertex_rejected_witness :
    colouredPath.VertexColours[1]? = some "b" ∧ "b" ≠ "a"
    ∧ GraphsIsomorphic colouredPath
        { colouredPath with VertexColours := colouredPath.VertexColours.set 1 "a" } = some false
    ∧ GraphsIsomorphic
        { colouredPath with VertexColours := colouredPath.VertexColours.set 1 "a" }
        colouredPath = some false :=
  ⟨by decide, by decide,
    C15_recoloured_vertex_rejected colouredPath 1 "b" "a" (by decide) (by decide)⟩

/-! ## The relabelling of `PermuteGraph` -/

theorem PermuteGraph_eq (G : Graph) (q : List Int) (hlen : q.length = G.Vertices.length) :
    PermuteGraph G q = some (NewColourGraph
      ((sortInts G.Vertices).map (mapGet (q.zip (sortInts G.Vertices)).reverse))
      (G.Edges.map (relabelEdge (mapGet (q.zip (sortInts G.Vertices)).reverse)))
      (if G.VertexColours.length = G.Vertices.length then
        (sortInts G.Vertices).map (colourGet (G.Vertices.zip G.VertexColours).reverse) else [])
      (copiedEdgeColours G)) := by
  unfold PermuteGraph
  rw [if_neg (not_not.mpr hlen)]
  simp only [decide_eq_true_eq, copiedEdgeColours]
  by_cases hc : G.VertexColours.length = G.Vertices.length
  · simp only [if_pos hc]; rfl
  · simp only [if_neg hc]; rfl

theorem mapGet_zip_getElem {q S : List Int} (hnd : q.Nodup) (hlen : q.length = S.length)
    {i : Nat} {a sa : Int} (ha : q[i]? = some a) (hs : S[i]? = some sa) :
    mapGet (q.zip S).reverse a = sa := by
  apply mapGet_of_mem
  · rw [List.map_reverse, map_fst_zip_of_length_eq q S hlen]
    exact List.nodup_reverse.mpr hnd
  · rw [List.mem_reverse]
    have : (q.zip S)[i]? = some (a, sa) := by
      rw [List.getElem?_zip_eq_some]
      exact ⟨ha, hs⟩
    exact List.getElem?_mem this

/-- C16 (as stated it fails): for the coloured path on 1, 2, 3 and the
permutation `[2, 3, 1]` the first edge `(1, 2)`, which joins the first and the
second sorted vertex, does not become `(2, 3)` but `(3, 1)`, and the colour "a"
of the first sorted vertex goes to the vertex 3, not to the vertex 2. -/
theorem C16_counterexample_direction :
    sortInts colouredPath.Vertices = [1, 2, 3]
    ∧ colouredPath.Edges[0]? = some (1, 2)
    ∧ (1, "a") ∈ colouredPath.Vertices.zip colouredPath.VertexColours
    ∧ PermuteGraph colouredPath [2, 3, 1]
        = some (NewColourGraph [3, 1, 2] [(3, 1), (1, 2)] ["a", "b", "c"] ["x", "y"])
    ∧ ∀ H, PermuteGraph colouredPath [2, 3, 1] = some H →
        H.Edges[0]? ≠ some (2, 3) ∧ (2, "a") ∉ H.Vertices.zip H.VertexColours := by
  refine ⟨by decide, by decide, by decide, by decide, ?_⟩
  intro H hH
  have e : PermuteGraph colouredPath [2, 3, 1]
      = some (NewColourGraph [3, 1, 2] [(3, 1), (1, 2)] ["a", "b", "c"] ["x", "y"]) := by decide
  rw [e] at hH
  simp only [Option.some.injEq] at hH
  subst hH
  exact ⟨by decide, by decide⟩

/-- C16 (amended): for every graph `G` with pairwise distinct vertex labels,
sorted `s`, and every permutation `q` of these labels, `PermuteGraph G q`
returns a graph `H` on the same labels in which the vertex `q[i]` of `G` has
become the vertex `s[i]`: an edge `(q[i], q[j])` at position `k` of `G` is the
edge `(s[i], s[j])` at position `k` of `H`; when `G` has one colour per vertex so
has `H`, and the vertex `s[i]` of `H` has the colours of the vertex `q[i]` of
`G`, otherwise `H` has no vertex colours; the edge colours of `H` are those of
`G` (one per edge) in the same positions. -/
theorem C16_permuteGraph_relabels (G : Graph) (q : List Int) (hnd : G.Vertices.Nodup)
    (hq : q.Perm G.Vertices) :
    ∃ H, PermuteGraph G q = some H
      ∧ H.Vertices.Perm G.Vertices
      ∧ H.Edges.length = G.Edges.length
      ∧ (∀ (k i j : Nat) (a b sa sb : Int), q[i]? = some a → q[j]? = some b →
          (sortInts G.Vertices)[i]? = some sa → (sortInts G.Vertices)[j]? = some sb →
          G.Edges[k]? = some (a, b) → H.Edges[k]? = some (sa, sb))
      ∧ (G.VertexColours.length = G.Vertices.length →
          H.VertexColours.length = H.Vertices.length
          ∧ ∀ (i : Nat) (a sa : Int) (c : String), q[i]? = some a → (sortInts G.Vertices)[i]? = some sa →
              ((sa, c) ∈ H.Vertices.zip H.VertexColours
                ↔ (a, c) ∈ G.Vertices.zip G.VertexColours))
      ∧ (G.VertexColours.length ≠ G.Vertices.length → H.VertexColours = [])
      ∧ (G.EdgeColours.length = G.Edges.length → H.EdgeColours = G.EdgeColours) := by
  have hS : (sortInts G.Vertices).Perm G.Vertices := sortInts_perm _
  have hqnd : q.Nodup := hq.nodup_iff.mpr hnd
  have hlen : q.length = (sortInts G.Vertices).length := by rw [hq.length_eq, hS.length_eq]
  have hmap := map_mapGet_zip q (sortInts G.Vertices) hqnd hlen
  have hSnd : (sortInts G.Vertices).Nodup := hS.nodup_iff.mpr hnd
  refine ⟨_, PermuteGraph_eq G q hq.length_eq, ?_, ?_, ?_, ?_, ?_, ?_⟩
  · simp only [NewColourGraph]
    have h1 := (hS.trans hq.symm).map (mapGet (q.zip (sortInts G.Vertices)).reverse)
    rw [hmap] at h1
    exact h1.trans hS
  · simp [NewColourGraph]
  · intro k i j a b sa sb ha hb hsa hsb hk
    simp only [NewColourGraph, List.getElem?_map, hk, Option.map_some', relabelEdge,
      mapGet_zip_getElem hqnd hlen ha hsa, mapGet_zip_getElem hqnd hlen hb hsb]
  · intro hc
    simp only [NewColourGraph, if_pos hc, List.length_map, true_and]
    intro i a sa c ha hsa
    have hσa := mapGet_zip_getElem hqnd hlen ha hsa
    have haq : a ∈ q := List.getElem?_mem ha
    have haV : a ∈ G.Vertices := hq.mem_iff.mp haq
    have hkeys : ((G.Vertices.zip G.VertexColours).map Prod.fst).Nodup := by
      rw [map_fst_zip_of_length_eq _ _ hc.symm]; exact hnd
    have hcol : ∀ c, (a, c) ∈ G.Vertices.zip G.VertexColours
        ↔ colourGet (G.Vertices.zip G.VertexColours).reverse a = c := by
      intro c
      have hm := colourGet_zip_mem G.Vertices G.VertexColours hnd hc haV
      constructor
      · intro h
        have h1 := (bindingGet_eq_some_iff hkeys a _).mpr hm
        have h2 := (bindingGet_eq_some_iff hkeys a _).mpr h
        rw [h1] at h2
        exact Option.some.inj h2
      · intro h; rw [← h]; exact hm
    rw [hcol, List.zip_map']
    simp only [List.mem_map, Prod.mk.injEq]
    constructor
    · rintro ⟨v, hv, h1, h2⟩
      have hvq : v ∈ q := (hS.trans hq.symm).mem_iff.mp hv
      have : v = a := by
        refine List.inj_on_of_nodup_map ?_ hvq haq (h1.trans hσa.symm)
        rw [hmap]; exact hSnd
      rw [← this]; exact h2
    · intro h
      exact ⟨a, hS.mem_iff.mpr haV, hσa, h⟩
  · intro hc
    simp only [NewColourGraph, if_neg hc]
  · intro hc
    simp only [NewColourGraph, copiedEdgeColours, if_pos hc]

/-- C16 (amended) at the coloured path and the permutation `[2, 3, 1]`. -/
theorem C16_permuteGraph_relabels_witness :
    colouredPath.Vertices.Nodup ∧ ([2, 3, 1] : List Int).Perm colouredPath.Vertices
    ∧ ∃ H, PermuteGraph colouredPath [2, 3, 1] = some H
      ∧ H.Vertices.Perm colouredPath.Vertices
      ∧ H.Edges.length = colouredPath.Edges.length
      ∧ (∀ (k i j : Nat) (a b sa sb : Int), ([2, 3, 1] : List Int)[i]? = some a →
          ([2, 3, 1] : List Int)[j]? = some b →
          (sortInts colouredPath.Vertices)[i]? = some sa →
          (sortInts colouredPath.Vertices)[j]? = some sb →
          colouredPath.Edges[k]? = some (a, b) → H.Edges[k]? = some (sa, sb))
      ∧ (colouredPath.VertexColours.length = colouredPath.Vertices.length →
          H.VertexColours.length = H.Vertices.length
          ∧ ∀ (i : Nat) (a sa : Int) (c : String), ([2, 3, 1] : List Int)[i]? = some a →
              (sortInts colouredPath.Vertices)[i]? = some sa →
              ((sa, c) ∈ H.Vertices.zip H.VertexColours
                ↔ (a, c) ∈ colouredPath.Vertices.zip colouredPath.VertexColours))
      ∧ (colouredPath.VertexColours.length ≠ colouredPath.Vertices.length →
          H.VertexColours = [])
      ∧ (colouredPath.EdgeColours.length = colouredPath.Edges.length →
          H.EdgeColours = colouredPath.EdgeColours) :=
  ⟨by decide, by decide, C16_permuteGraph_relabels colouredPath [2, 3, 1] (by decide) (by decide)⟩

/-! ## The connected components partition the edges -/

/-- C20: for every graph `G`, the lists that `ConnectedComponentEdges G` returns
put together list every edge index `0 .. |E(G)| - 1` exactly once (so every
index is in exactly one list, once), no list is empty, and two edge indices are
in the same list if and only if they are linked by a chain of edges of `G` in
which consecutive edges share an endpoint. -/
theorem C20_connectedComponentEdges_partition (G : Graph) :
    (ConnectedComponentEdges G).flatten.Perm (List.range G.Edges.length)
    ∧ (∀ c ∈ ConnectedComponentEdges G, c ≠ [])
    ∧ ∀ i j : Nat, i < G.Edges.length → j < G.Edges.length →
        ((∃ c ∈ ConnectedComponentEdges G, i ∈ c ∧ j ∈ c) ↔ EdgeLinked G i j) := by
  obtain ⟨hperm, hne, hcls⟩ := ConnectedComponentEdges_isComponentList G
  refine ⟨hperm, hne, ?_⟩
  intro i j hi _
  constructor
  · rintro ⟨c, hc, hic, hjc⟩
    exact (hcls c hc i hic j).mp hjc
  · intro hl
    have : i ∈ (ConnectedComponentEdges G).flatten := hperm.mem_iff.mpr (List.mem_range.mpr hi)
    obtain ⟨c, hc, hic⟩ := List.mem_flatten.mp this
    exact ⟨c, hc, hic, (hcls c hc i hic j).mpr hl⟩

/-- C20 at the square, whose four edges form one component, and at the graph of
two disjoint paths, where the edges 0 and 2 are in different components. -/
theorem C20_connectedComponentEdges_partition_witness :
    ConnectedComponentEdges square = [[0, 1, 3, 2]]
    ∧ EdgeLinked square 0 2
    ∧ ConnectedComponentEdges twoPaths = [[0, 1, 3], [2, 4, 5]]
    ∧ ¬ EdgeLinked twoPaths 0 2 := by
  refine ⟨by decide, ?_, by decide, ?_⟩
  · exact ((C20_connectedComponentEdges_partition square).2.2 0 2 (by decide) (by decide)).mp
      (by decide)
  · intro h
    have := ((C20_connectedComponentEdges_partition twoPaths).2.2 0 2 (by decide)
      (by decide)).mpr h
    revert this
    decide

/-! ## The two parts of a graph split on a list of edges -/

theorem vertexPosition_aux (V : List Int) (v : Int) : ∀ (l : List Nat) (init : Option Nat),
    (∀ p, init = some p → V[p]? = some v) →
    (∀ p, l.foldl (fun pos i => if V[i]? = some v then some i else pos) init = some p →
        V[p]? = some v)
    ∧ ((init.isSome ∨ ∃ i ∈ l, V[i]? = some v) →
        (l.foldl (fun pos i => if V[i]? = some v then some i else pos) init).isSome)
  | [], init, h => by
    simp only [List.foldl_nil, List.not_mem_nil, false_and, exists_false, or_false]
    exact ⟨h, id⟩
  | i :: l, init, h => by
    simp only [List.foldl_cons]
    by_cases hi : V[i]? = some v
    · rw [if_pos hi]
      obtain ⟨h1, h2⟩ := vertexPosition_aux V v l (some i) (by intro p hp; cases hp; exact hi)
      exact ⟨h1, fun _ => h2 (Or.inl rfl)⟩
    · rw [if_neg hi]
      obtain ⟨h1, h2⟩ := vertexPosition_aux V v l init h
      refine ⟨h1, ?_⟩
      rintro (h3 | ⟨j, hj, hjv⟩)
      · exact h2 (Or.inl h3)
      · rcases List.mem_cons.mp hj with rfl | hj
        · exact absurd hjv hi
        · exact h2 (Or.inr ⟨j, hj, hjv⟩)

theorem vertexPosition_spec {V : List Int} {v : Int} (hv : v ∈ V) :
    ∃ p, vertexPosition V v = some p ∧ V[p]? = some v := by
  obtain ⟨h1, h2⟩ := vertexPosition_aux V v (List.range V.length) none (by simp)
  obtain ⟨i, hi, hiv⟩ := List.getElem_of_mem hv
  have h3 := h2 (Or.inr ⟨i, List.mem_range.mpr hi, by rw [List.getElem?_eq_getElem hi, hiv]⟩)
  obtain ⟨p, hp⟩ := Option.isSome_iff_exists.mp h3
  exact ⟨p, hp, h1 p hp⟩

theorem copyGraphVertex_spec {G X : Graph} {v : Int} (hv : v ∈ G.Vertices)
    (hvc : G.VertexColours = [] ∨ G.VertexColours.length = G.Vertices.length)
    (hnd : X.Vertices.Nodup)
    (hlen : X.VertexColours.length = if G.VertexColours = [] then 0 else X.Vertices.length)
    (hcol : ∀ vc ∈ X.Vertices.zip X.VertexColours, vc ∈ G.Vertices.zip G.VertexColours) :
    ∃ X1, copyGraphVertex G X v = some X1 ∧ X1.Edges = X.Edges
      ∧ X1.EdgeColours = X.EdgeColours ∧ X1.Vertices.Nodup
      ∧ (∀ w, w ∈ X1.Vertices ↔ w ∈ X.Vertices ∨ w = v)
      ∧ (X1.VertexColours.length = if G.VertexColours = [] then 0 else X1.Vertices.length)
      ∧ (∀ vc ∈ X1.Vertices.zip X1.VertexColours, vc ∈ G.Vertices.zip G.VertexColours) := by
  unfold copyGraphVertex
  by_cases hc : Contains X.Vertices v = true
  · rw [if_pos hc]
    have hm := Contains_iff.mp hc
    refine ⟨X, rfl, rfl, rfl, hnd, ?_, hlen, hcol⟩
    intro w
    constructor
    · exact Or.inl
    · rintro (h | rfl)
      · exact h
      · exact hm
  · rw [if_neg hc]
    have hm : v ∉ X.Vertices := fun h => hc (Contains_iff.mpr h)
    obtain ⟨p, hp, hpv⟩ := vertexPosition_spec hv
    have hnd1 : (X.Vertices ++ [v]).Nodup := by
      rw [List.nodup_append]
      refine ⟨hnd, by simp, ?_⟩
      intro a ha hb
      simp only [List.mem_singleton] at hb
      subst hb
      exact hm ha
    simp only [hp]
    rcases hvc with h0 | hfull
    · have hl0 : G.VertexColours.length = 0 := by rw [h0]; rfl
      rw [if_neg (not_not.mpr hl0)]
      rw [if_pos h0] at hlen
      refine ⟨_, rfl, rfl, rfl, hnd1, by simp, ?_, ?_⟩
      · simp only [if_pos h0]; exact hlen
      · intro vc hvcm
        simp only [List.length_eq_zero.mp hlen, List.zip_nil_right, List.not_mem_nil] at hvcm
    · by_cases hl0 : G.VertexColours.length = 0
      · have h0 : G.VertexColours = [] := List.length_eq_zero.mp hl0
        rw [if_neg (not_not.mpr hl0)]
        rw [if_pos h0] at hlen
        refine ⟨_, rfl, rfl, rfl, hnd1, by simp, ?_, ?_⟩
        · simp only [if_pos h0]; exact hlen
        · intro vc hvcm
          simp only [List.length_eq_zero.mp hlen, List.zip_nil_right, List.not_mem_nil] at hvcm
      · have h0 : G.VertexColours ≠ [] := fun h => hl0 (by rw [h]; rfl)
        rw [if_pos hl0, if_neg (not_not.mpr hfull)]
        rw [if_neg h0] at hlen
        have hpl : p < G.Vertices.length := by
          by_contra hcon
          rw [List.getElem?_eq_none (by omega)] at hpv
          exact absurd hpv (by simp)
        have hpc : p < G.VertexColours.length := by omega
        rw [List.getElem?_eq_getElem hpc]
        refine ⟨_, rfl, rfl, rfl, hnd1, by simp, ?_, ?_⟩
        · simp only [if_neg h0, List.length_append, List.length_singleton]
          omega
        · intro vc hvcm
          simp only at hvcm
          rw [List.zip_append hlen.symm] at hvcm
          rcases List.mem_append.mp hvcm with h | h
          · exact hcol vc h
          · simp only [List.zip_cons_cons, List.zip_nil_right, List.mem_singleton] at h
            subst h
            have : (G.Vertices.zip G.VertexColours)[p]? = some (v, G.VertexColours[p]) := by
              rw [List.getElem?_zip_eq_some]
              exact ⟨hpv, List.getElem?_eq_getElem hpc⟩
            exact List.getElem?_mem this

theorem CopyGraphEdge_spec {G X : Graph} {idxs : List Nat} {i : Nat}
    (hend : ∀ e ∈ G.Edges, e.1 ∈ G.Vertices ∧ e.2 ∈ G.Vertices)
    (hvc : G.VertexColours = [] ∨ G.VertexColours.length = G.Vertices.length)
    (hec : G.EdgeColours = [] ∨ G.EdgeColours.length = G.Edges.length)
    (hi : i < G.Edges.length) (hX : Extracted G idxs X) :
    ∃ X1, CopyGraphEdge G X i = some X1 ∧ Extracted G (idxs ++ [i]) X1 := by
  have hE : G.Edges[i]? = some G.Edges[i] := List.getElem?_eq_getElem hi
  have hmem := hend _ (List.getElem_mem hi)
  have key : ∀ Y : Graph, Y.Edges = X.Edges ++ [G.Edges[i]] →
      Y.EdgeColours = (idxs ++ [i]).filterMap (fun i => G.EdgeColours[i]?) →
      Y.Vertices = X.Vertices → Y.VertexColours = X.VertexColours →
      ∃ X1, CopyGraphVerticesFromEdge G Y i = some X1 ∧ Extracted G (idxs ++ [i]) X1 := by
    intro Y hYE hYC hYV hYVC
    unfold CopyGraphVerticesFromEdge
    simp only [hE]
    obtain ⟨Y1, h1, e1, c1, n1, v1, l1, z1⟩ := copyGraphVertex_spec (X := Y) hmem.1 hvc
      (by rw [hYV]; exact hX.nodup) (by rw [hYV, hYVC]; exact hX.colourLen)
      (by rw [hYV, hYVC]; exact hX.colours)
    obtain ⟨Y2, h2, e2, c2, n2, v2, l2, z2⟩ := copyGraphVertex_spec (X := Y1) hmem.2 hvc
      n1 l1 z1
    simp only [h1, h2]
    refine ⟨Y2, rfl, ?_, ?_, n2, ?_, l2, z2⟩
    · rw [e2, e1, hYE, hX.edges, List.filterMap_append]
      simp [hE]
    · rw [c2, c1, hYC]
    · intro w
      rw [v2, v1, hYV, hX.vertices, e2, e1, hYE]
      simp only [List.mem_append, List.mem_singleton]
      constructor
      · rintro ((⟨e, he, hw⟩ | h) | h)
        · exact ⟨e, Or.inl he, hw⟩
        · exact ⟨_, Or.inr rfl, Or.inl h⟩
        · exact ⟨_, Or.inr rfl, Or.inr h⟩
      · rintro ⟨e, he | rfl, hw⟩
        · exact Or.inl (Or.inl ⟨e, he, hw⟩)
        · rcases hw with h | h
          · exact Or.inl (Or.inr h)
          · exact Or.inr h
  unfold CopyGraphEdge
  simp only [hE]
  by_cases hl0 : G.EdgeColours.length = 0
  · rw [if_neg (not_not.mpr hl0)]
    have h0 : G.EdgeColours = [] := List.length_eq_zero.mp hl0
    refine key { X with Edges := X.Edges ++ [G.Edges[i]] } rfl ?_ rfl rfl
    simp only [hX.edgeColours, h0]
    simp
  · rw [if_pos hl0]
    have hfull : G.EdgeColours.length = G.Edges.length := by
      rcases hec with h | h
      · rw [h] at hl0; simp at hl0
      · exact h
    rw [if_neg (not_not.mpr hfull)]
    have hic : i < G.EdgeColours.length := by omega
    rw [List.getElem?_eq_getElem hic]
    refine key { X with Edges := X.Edges ++ [G.Edges[i]],
                        EdgeColours := X.EdgeColours ++ [G.EdgeColours[i]] } rfl ?_ rfl rfl
    simp only [hX.edgeColours, List.filterMap_append]
    simp [List.getElem?_eq_getElem hic]

theorem breakLoop_spec {G : Graph} (edges : List Nat)
    (hend : ∀ e ∈ G.Edges, e.1 ∈ G.Vertices ∧ e.2 ∈ G.Vertices)
    (hvc : G.VertexColours = [] ∨ G.VertexColours.length = G.Vertices.length)
    (hec : G.EdgeColours = [] ∨ G.EdgeColours.length = G.Edges.length) :
    ∀ (l bs rs : List Nat) (B R : Graph), (∀ i ∈ l, i < G.Edges.length) →
      Extracted G bs B → Extracted G rs R →
      ∃ B1 R1, breakLoop G edges l (B, R) = some (B1, R1)
        ∧ Extracted G (bs ++ l.filter (fun i => decide (i ∈ edges))) B1
        ∧ Extracted G (rs ++ l.filter (fun i => !decide (i ∈ edges))) R1
  | [], bs, rs, B, R, _, hB, hR => by
    refine ⟨B, R, rfl, ?_, ?_⟩
    · simpa using hB
    · simpa using hR
  | i :: l, bs, rs, B, R, hl, hB, hR => by
    have hi := hl i (by simp)
    have hl1 : ∀ j ∈ l, j < G.Edges.length := fun j hj => hl j (by simp [hj])
    simp only [breakLoop]
    by_cases hc : ContainsIdx edges i = true
    · have hm := ContainsIdx_iff.mp hc
      obtain ⟨B1, h1, hB1⟩ := CopyGraphEdge_spec hend hvc hec hi hB
      obtain ⟨B2, R2, h2, hB2, hR2⟩ := breakLoop_spec edges hend hvc hec l _ rs B1 R hl1 hB1 hR
      rw [if_pos hc]
      simp only [h1, h2]
      refine ⟨B2, R2, rfl, ?_, ?_⟩
      · simpa [List.filter_cons, hm] using hB2
      · simpa [List.filter_cons, hm] using hR2
    · have hm : i ∉ edges := fun h => hc (ContainsIdx_iff.mpr h)
      obtain ⟨R1, h1, hR1⟩ := CopyGraphEdge_spec hend hvc hec hi hR
      obtain ⟨B2, R2, h2, hB2, hR2⟩ := breakLoop_spec edges hend hvc hec l bs _ B R1 hl1 hB hR1
      rw [if_neg hc]
      simp only [h1, h2]
      refine ⟨B2, R2, rfl, ?_, ?_⟩
      · simpa [List.filter_cons, hm] using hB2
      · simpa [List.filter_cons, hm] using hR2

theorem extracted_empty (G : Graph) : Extracted G [] (NewColourGraph [] [] [] []) := by
  refine ⟨rfl, rfl, by simp [NewColourGraph], by simp [NewColourGraph], ?_, by simp [NewColourGraph]⟩
  simp only [NewColourGraph, List.length_nil]
  split <;> rfl

theorem length_filter_add (l : List Nat) (p : Nat → Bool) :
    (l.filter p).length + (l.filter (fun i => !p i)).length = l.length := by
  induction l with
  | nil => rfl
  | cons a l ih =>
    simp only [List.filter_cons]
    cases p a <;> simp <;> omega

/-- C18: for every graph `G` whose edge endpoints are vertices and whose colour
lists are empty or have one colour per vertex or edge, and every list `E'` of
edge indices, `BreakGraphOnEdges G E'` returns a pair `(B, R)`: `B` is the part
of `G` on the edge positions in `E'`, in increasing order, and `R` the part on
the other positions, in increasing order (edges and edge colours those of `G` at
these positions, vertices the endpoints of these edges, each once, with a colour
that it has in `G`); the numbers of edges of `B` and `R` add up to that of `G`. -/
theorem C18_breakGraphOnEdges_parts (G : Graph) (E' : List Nat)
    (hend : ∀ e ∈ G.Edges, e.1 ∈ G.Vertices ∧ e.2 ∈ G.Vertices)
    (hvc : G.VertexColours = [] ∨ G.VertexColours.length = G.Vertices.length)
    (hec : G.EdgeColours = [] ∨ G.EdgeColours.length = G.Edges.length) :
    ∃ B R, BreakGraphOnEdges G E' = some (B, R)
      ∧ Extracted G ((List.range G.Edges.length).filter (fun i => decide (i ∈ E'))) B
      ∧ Extracted G ((List.range G.Edges.length).filter (fun i => !decide (i ∈ E'))) R
      ∧ B.Edges.length + R.Edges.length = G.Edges.length := by
  obtain ⟨B, R, h, hB, hR⟩ := breakLoop_spec E' hend hvc hec (List.range G.Edges.length) [] []
    _ _ (fun i hi => List.mem_range.mp hi) (extracted_empty G) (extracted_empty G)
  simp only [List.nil_append] at hB hR
  refine ⟨B, R, h, hB, hR, ?_⟩
  have hlen : ∀ l : List Nat, (∀ i ∈ l, i < G.Edges.length) →
      (l.filterMap (fun i => G.Edges[i]?)).length = l.length := by
    intro l hl
    induction l with
    | nil => rfl
    | cons a l ih =>
      have ha := hl a (by simp)
      simp only [List.filterMap_cons, List.getElem?_eq_getElem ha, List.length_cons]
      rw [ih (fun i hi => hl i (by simp [hi]))]
  rw [hB.edges, hR.edges, hlen _ (fun i hi => List.mem_range.mp (List.mem_filter.mp hi).1),
    hlen _ (fun i hi => List.mem_range.mp (List.mem_filter.mp hi).1), length_filter_add,
    List.length_range]

/-- C18 at the coloured path split on its second edge. -/
theorem C18_breakGraphOnEdges_parts_witness :
    ∃ B R, BreakGraphOnEdges colouredPath [1] = some (B, R)
      ∧ Extracted colouredPath
          ((List.range colouredPath.Edges.length).filter (fun i => decide (i ∈ [1]))) B
      ∧ Extracted colouredPath
          ((List.range colouredPath.Edges.length).filter (fun i => !decide (i ∈ [1]))) R
      ∧ B.Edges.length + R.Edges.length = colouredPath.Edges.length :=
  C18_breakGraphOnEdges_parts colouredPath [1] (by decide) (by decide) (by decide)

/-! ## The recombination of two graphs -/

theorem mapGet_cons_of_ne {m : List (Int × Int)} {k v u : Int} (h : k ≠ u) :
    mapGet ((k, v) :: m) u = mapGet m u := by
  simp [mapGet, h]

theorem mapGet_cons_self (m : List (Int × Int)) (k v : Int) : mapGet ((k, v) :: m) k = v := by
  simp [mapGet]

theorem RecombineInv.step {LV : List Int} {M : Int} {P : List Int}
    {out : List Int} {next : Int} {vmap : List (Int × Int)} {v : Int}
    (h : RecombineInv LV M P (out, next, vmap)) (hvM : v ≤ M) (hvP : v ∉ P) :
    RecombineInv LV M (P ++ [v]) (recombineVerticesZ [v] (out, next, vmap)) := by
  obtain ⟨hout, hkeys, hnd, hbelow, hfixed, hfresh, hnext⟩ := h
  simp only at hout hkeys hnd hbelow hfixed hfresh hnext
  have hne : ∀ u ∈ P, v ≠ u := fun u hu e => hvP (e ▸ hu)
  have hcongr : ∀ x : Int, P.map (mapGet ((v, x) :: vmap)) = P.map (mapGet vmap) := by
    intro x
    apply List.map_congr_left
    intro u hu
    exact mapGet_cons_of_ne (hne u hu)
  have hmem : v ∈ out ↔ v ∈ LV := by
    rw [hout, List.mem_append]
    constructor
    · rintro (h1 | h1)
      · exact h1
      · obtain ⟨u, hu, huv⟩ := List.mem_map.mp h1
        by_cases huL : u ∈ LV
        · have := hfresh u hu huL
          omega
        · rw [hfixed u hu huL] at huv
          exact absurd (huv ▸ hu) hvP
    · exact Or.inl
  simp only [recombineVerticesZ]
  by_cases hc : Contains out v = true
  · rw [if_pos hc]
    have hvL : v ∈ LV := hmem.mp (Contains_iff.mp hc)
    refine ⟨?_, ?_, ?_, ?_, ?_, ?_, ?_⟩
    · simp only [List.map_append, List.map_cons, List.map_nil, hcongr, mapGet_cons_self, hout,
        List.append_assoc]
    · simp only [List.map_cons, hkeys, List.reverse_append, List.reverse_cons, List.reverse_nil,
        List.nil_append, List.singleton_append]
    · simp only
      rw [List.nodup_append]
      refine ⟨hnd, by simp, ?_⟩
      intro a ha hb
      simp only [List.mem_singleton] at hb
      have := hbelow a ha
      omega
    · intro w hw
      simp only [List.mem_append, List.mem_singleton] at hw
      rcases hw with hw | hw
      · have := hbelow w hw
        simp only
        omega
      · simp only
        omega
    · intro u hu huL
      simp only [List.mem_append, List.mem_singleton] at hu
      rcases hu with hu | hu
      · simp only
        rw [mapGet_cons_of_ne (hne u hu)]
        exact hfixed u hu huL
      · exact absurd (hu ▸ hvL) huL
    · intro u hu huL
      simp only [List.mem_append, List.mem_singleton] at hu
      rcases hu with hu | hu
      · simp only
        rw [mapGet_cons_of_ne (hne u hu)]
        exact hfresh u hu huL
      · subst hu
        simp only [mapGet_cons_self]
        exact hnext
    · simp only
      omega
  · rw [if_neg hc]
    have hvo : v ∉ out := fun h => hc (Contains_iff.mpr h)
    have hvL : v ∉ LV := fun h => hvo (hmem.mpr h)
    refine ⟨?_, ?_, ?_, ?_, ?_, ?_, ?_⟩
    · simp only [List.map_append, List.map_cons, List.map_nil, hcongr, mapGet_cons_self, hout,
        List.append_assoc]
    · simp only [List.map_cons, hkeys, List.reverse_append, List.reverse_cons, List.reverse_nil,
        List.nil_append, List.singleton_append]
    · simp only
      rw [List.nodup_append]
      refine ⟨hnd, by simp, ?_⟩
      intro a ha hb
      simp only [List.mem_singleton] at hb
      exact hvo (hb ▸ ha)
    · intro w hw
      simp only [List.mem_append, List.mem_singleton] at hw
      rcases hw with hw | hw
      · exact hbelow w hw
      · simp only
        omega
    · intro u hu huL
      simp only [List.mem_append, List.mem_singleton] at hu
      rcases hu with hu | hu
      · simp only
        rw [mapGet_cons_of_ne (hne u hu)]
        exact hfixed u hu huL
      · subst hu
        simp only [mapGet_cons_self]
    · intro u hu huL
      simp only [List.mem_append, List.mem_singleton] at hu
      rcases hu with hu | hu
      · simp only
        rw [mapGet_cons_of_ne (hne u hu)]
        exact hfresh u hu huL
      · exact absurd (hu ▸ huL) hvL
    · exact hnext

theorem recombineVertices_cons (v : Int) (rest : List Int)
    (st : List Int × Int × List (Int × Int)) :
    recombineVerticesZ (v :: rest) st = recombineVerticesZ rest (recombineVerticesZ [v] st) := by
  obtain ⟨out, next, vmap⟩ := st
  simp only [recombineVerticesZ]
  split <;> rfl

theorem recombineVertices_inv {LV : List Int} {M : Int} (hLV : ∀ w ∈ LV, w ≤ M) :
    ∀ (rest P : List Int) (st : List Int × Int × List (Int × Int)),
      RecombineInv LV M P st → (P ++ rest).Nodup → (∀ w ∈ P ++ rest, w ≤ M) →
      RecombineInv LV M (P ++ rest) (recombineVerticesZ rest st)
  | [], P, st, h, _, _ => by
    obtain ⟨out, next, vmap⟩ := st
    simpa [recombineVerticesZ] using h
  | v :: rest, P, st, h, hnd, hM => by
    obtain ⟨out, next, vmap⟩ := st
    rw [recombineVertices_cons]
    have hvP : v ∉ P := by
      intro hv
      have := (List.nodup_append.mp hnd).2.2
      exact this hv (by simp)
    have h1 := h.step (hM v (by simp)) hvP
    have := recombineVertices_inv hLV rest (P ++ [v]) _ h1 (by simpa using hnd)
      (by simpa using hM)
    simpa using this

theorem RecombineGraphs_inv (L R : Graph) (hL : L.Vertices.Nodup) (hR : R.Vertices.Nodup) :
    RecombineInv L.Vertices (MaxIntSlice [MaxIntSlice L.Vertices, MaxIntSlice R.Vertices])
      R.Vertices
      (recombineVerticesZ R.Vertices
        (L.Vertices, MaxIntSlice [MaxIntSlice L.Vertices, MaxIntSlice R.Vertices] + 1, [])) := by
  have hML : MaxIntSlice L.Vertices
      ≤ MaxIntSlice [MaxIntSlice L.Vertices, MaxIntSlice R.Vertices] :=
    le_MaxIntSlice (by simp)
  have hMR : MaxIntSlice R.Vertices
      ≤ MaxIntSlice [MaxIntSlice L.Vertices, MaxIntSlice R.Vertices] :=
    le_MaxIntSlice (by simp)
  have hLV : ∀ w ∈ L.Vertices,
      w ≤ MaxIntSlice [MaxIntSlice L.Vertices, MaxIntSlice R.Vertices] :=
    fun w hw => le_trans (le_MaxIntSlice hw) hML
  have hRV : ∀ w ∈ R.Vertices,
      w ≤ MaxIntSlice [MaxIntSlice L.Vertices, MaxIntSlice R.Vertices] :=
    fun w hw => le_trans (le_MaxIntSlice hw) hMR
  have h0 : RecombineInv L.Vertices
      (MaxIntSlice [MaxIntSlice L.Vertices, MaxIntSlice R.Vertices]) []
      (L.Vertices, MaxIntSlice [MaxIntSlice L.Vertices, MaxIntSlice R.Vertices] + 1, []) := by
    refine ⟨by simp, by simp, hL, ?_, by simp, by simp, by simp⟩
    intro w hw
    have := hLV w hw
    simp only
    omega
  have := recombineVertices_inv hLV R.Vertices [] _ h0 (by simpa using hR) (by simpa using hRV)
  simpa using this

theorem RecombineGraphs_eq (L R : Graph) :
    RecombineGraphsZ L R
      = (NewColourGraph
          (recombineVerticesZ R.Vertices
            (L.Vertices, MaxIntSlice [MaxIntSlice L.Vertices, MaxIntSlice R.Vertices] + 1, [])).1
          (L.Edges ++ R.Edges.map (relabelEdge (mapGet (recombineVerticesZ R.Vertices
            (L.Vertices, MaxIntSlice [MaxIntSlice L.Vertices, MaxIntSlice R.Vertices] + 1,
              [])).2.2)))
          ((if L.Vertices.length = L.VertexColours.length then L.VertexColours else [])
            ++ (if R.Vertices.length = R.VertexColours.length then R.VertexColours else []))
          ((if L.Edges.length = L.EdgeColours.length then L.EdgeColours else [])
            ++ (if R.Edges.length = R.EdgeColours.length then R.EdgeColours else [])),
        (recombineVerticesZ R.Vertices
            (L.Vertices, MaxIntSlice [MaxIntSlice L.Vertices, MaxIntSlice R.Vertices] + 1,
              [])).2.2) := by
  simp only [RecombineGraphsZ, GraphIsVertexColoured, GraphIsEdgeColoured, decide_eq_true_eq]
  rfl

theorem colours_of_absent_or_full {α : Type} {n : Nat} {C : List α}
    (h : C = [] ∨ C.length = n) : (if n = C.length then C else []) = C := by
  rcases h with h | h
  · subst h; simp
  · rw [if_pos h.symm]

theorem recombineVertices_eq_Z :
    ∀ (rest out : List Int) (next : Int) (vmap : List (Int × Int)),
      0 ≤ next → next + (rest.length : Int) ≤ MaxInt64 →
      recombineVertices rest (out, next, vmap) = recombineVerticesZ rest (out, next, vmap)
  | [], out, next, vmap, _, _ => by simp [recombineVertices, recombineVerticesZ]
  | v :: rest, out, next, vmap, h0, h1 => by
    simp only [List.length_cons, Nat.cast_add, Nat.cast_one] at h1
    simp only [recombineVertices, recombineVerticesZ]
    by_cases hc : Contains out v = true
    · rw [if_pos hc, if_pos hc, wrapInt_eq (by omega) (by omega)]
      exact recombineVertices_eq_Z rest _ _ _ (by omega) (by omega)
    · rw [if_neg hc, if_neg hc]
      exact recombineVertices_eq_Z rest _ _ _ h0 (by omega)

theorem RecombineGraphs_eq_Z (L R : Graph) (h : RecombineFits L R) :
    RecombineGraphs L R = RecombineGraphsZ L R := by
  unfold RecombineFits at h
  have hM := MaxIntSlice_nonneg [MaxIntSlice L.Vertices, MaxIntSlice R.Vertices]
  unfold RecombineGraphs RecombineGraphsZ
  simp only
  rw [wrapInt_eq (by omega) (by omega), recombineVertices_eq_Z _ _ _ _ (by omega) (by omega)]

/-- C19 (as stated it fails): for an uncoloured edge `L` and a coloured edge `R`
(both with pairwise distinct vertex labels) `RecombineGraphs` puts the colours
of `R` at the positions of the vertices and of the edge of `L`: in the result
the colour "x" stands at the position of the edge `(1, 2)` of `L`, and the edge
`(3, 4)` that comes from `R` has no colour at its position.  And for the graph
`maxLabels` recombined with itself the new labels start at `MaxInt64 + 1`,
which wraps around to the smallest `int`: the label 1 is sent to a label that
is not larger than the labels of the graphs. -/
theorem C19_counterexample_colours_shifted :
    (maxLabels.Vertices.Nodup
      ∧ RecombineGraphs maxLabels maxLabels
          = (NewColourGraph
              [9223372036854775807, 1, -9223372036854775808, -9223372036854775807] [] [] [],
            [(1, -9223372036854775807), (9223372036854775807, -9223372036854775808)])
      ∧ (1 : Int) ∈ maxLabels.Vertices
      ∧ ¬ (1 : Int) < mapGet (RecombineGraphs maxLabels maxLabels).2 1)
    ∧ plainEdge.Vertices.Nodup ∧ colouredEdgeX.Vertices.Nodup
    ∧ RecombineGraphs plainEdge colouredEdgeX
        = (NewColourGraph [1, 2, 3, 4] [(1, 2), (3, 4)] ["a", "b"] ["x"], [(2, 4), (1, 3)])
    ∧ (RecombineGraphs plainEdge colouredEdgeX).1.Edges.zip
          (RecombineGraphs plainEdge colouredEdgeX).1.EdgeColours
        ≠ plainEdge.Edges.zip plainEdge.EdgeColours
          ++ (colouredEdgeX.Edges.map
                (relabelEdge (mapGet (RecombineGraphs plainEdge colouredEdgeX).2))).zip
              colouredEdgeX.EdgeColours
    ∧ (RecombineGraphs plainEdge colouredEdgeX).1.Vertices.zip
          (RecombineGraphs plainEdge colouredEdgeX).1.VertexColours
        ≠ plainEdge.Vertices.zip plainEdge.VertexColours
          ++ (colouredEdgeX.Vertices.map
                (mapGet (RecombineGraphs plainEdge colouredEdgeX).2)).zip
              colouredEdgeX.VertexColours := by
  refine ⟨⟨by decide, by decide, by decide, by decide⟩, by decide, by decide, by decide,
    by decide, by decide⟩

/-- C19 (amended): for all graphs `L` and `R` (pairwise distinct vertex labels,
edge endpoints among the vertices, each list of colours empty or complete) such
that `L` has one colour per vertex if `R` has vertex colours and one colour per
edge if `R` has edge colours, and such that the labels leave room for the new
labels (`RecombineFits`: the largest label plus the number of vertices of `R` is
below `MaxInt64`), `RecombineGraphs L R` returns `(U, m)` with: the
keys of `m` are the vertices of `R`; `m` is injective on them, fixes those that
are not vertices of `L` and sends the others above every label of `L` and `R`;
the vertices of `U` are those of `L` followed by the images of those of `R`,
pairwise distinct; the edges of `U` are those of `L` followed by those of `R`
relabelled by `m`; the colour lists of `U` are those of `L` followed by those of
`R`, every colour at the position of its vertex or edge; and no edge of `U`
joins a vertex of `L` to the image of a vertex of `R`. -/
theorem C19_recombineGraphs_disjoint_union (L R : Graph) (hL : WellFormed L)
    (hR : WellFormed R)
    (hv : R.VertexColours ≠ [] → L.VertexColours.length = L.Vertices.length)
    (he : R.EdgeColours ≠ [] → L.EdgeColours.length = L.Edges.length)
    (hfit : RecombineFits L R) :
    (∀ v, v ∈ (RecombineGraphs L R).2.map Prod.fst ↔ v ∈ R.Vertices)
    ∧ (∀ x ∈ R.Vertices, ∀ y ∈ R.Vertices,
        mapGet (RecombineGraphs L R).2 x = mapGet (RecombineGraphs L R).2 y → x = y)
    ∧ (∀ v ∈ R.Vertices, v ∉ L.Vertices → mapGet (RecombineGraphs L R).2 v = v)
    ∧ (∀ v ∈ R.Vertices, v ∈ L.Vertices →
        ∀ w ∈ L.Vertices ++ R.Vertices, w < mapGet (RecombineGraphs L R).2 v)
    ∧ (RecombineGraphs L R).1.Vertices
        = L.Vertices ++ R.Vertices.map (mapGet (RecombineGraphs L R).2)
    ∧ (RecombineGraphs L R).1.Vertices.Nodup
    ∧ (RecombineGraphs L R).1.Edges
        = L.Edges ++ R.Edges.map (relabelEdge (mapGet (RecombineGraphs L R).2))
    ∧ (RecombineGraphs L R).1.VertexColours = L.VertexColours ++ R.VertexColours
    ∧ (RecombineGraphs L R).1.EdgeColours = L.EdgeColours ++ R.EdgeColours
    ∧ (RecombineGraphs L R).1.Vertices.zip (RecombineGraphs L R).1.VertexColours
        = L.Vertices.zip L.VertexColours
          ++ (R.Vertices.map (mapGet (RecombineGraphs L R).2)).zip R.VertexColours
    ∧ (RecombineGraphs L R).1.Edges.zip (RecombineGraphs L R).1.EdgeColours
        = L.Edges.zip L.EdgeColours
          ++ (R.Edges.map (relabelEdge (mapGet (RecombineGraphs L R).2))).zip R.EdgeColours
    ∧ ∀ e ∈ (RecombineGraphs L R).1.Edges,
        ¬ (e.1 ∈ L.Vertices ∧ e.2 ∈ R.Vertices.map (mapGet (RecombineGraphs L R).2))
        ∧ ¬ (e.2 ∈ L.Vertices ∧ e.1 ∈ R.Vertices.map (mapGet (RecombineGraphs L R).2)) := by
  have hinv := RecombineGraphs_inv L R hL.nodup hR.nodup
  have hML : ∀ w ∈ L.Vertices,
      w ≤ MaxIntSlice [MaxIntSlice L.Vertices, MaxIntSlice R.Vertices] :=
    fun w hw => le_trans (le_MaxIntSlice hw) (le_MaxIntSlice (by simp))
  have hMR : ∀ w ∈ R.Vertices,
      w ≤ MaxIntSlice [MaxIntSlice L.Vertices, MaxIntSlice R.Vertices] :=
    fun w hw => le_trans (le_MaxIntSlice hw) (le_MaxIntSlice (by simp))
  rw [RecombineGraphs_eq_Z L R hfit, RecombineGraphs_eq]
  generalize recombineVerticesZ R.Vertices
    (L.Vertices, MaxIntSlice [MaxIntSlice L.Vertices, MaxIntSlice R.Vertices] + 1, []) = st
    at hinv ⊢
  generalize MaxIntSlice [MaxIntSlice L.Vertices, MaxIntSlice R.Vertices] = M at hinv hML hMR
  obtain ⟨hout, hkeys, hnd, _, hfixed, hfresh, _⟩ := hinv
  simp only [NewColourGraph, colours_of_absent_or_full hL.vertexColours,
    colours_of_absent_or_full hR.vertexColours, colours_of_absent_or_full hL.edgeColours,
    colours_of_absent_or_full hR.edgeColours]
  have hdisj : ∀ x ∈ L.Vertices, x ∉ R.Vertices.map (mapGet st.2.2) := by
    intro x hx hx2
    rw [hout] at hnd
    exact (List.nodup_append.mp hnd).2.2 hx hx2
  refine ⟨?_, ?_, hfixed, ?_, hout, hnd, trivial, trivial, trivial, ?_, ?_, ?_⟩
  · intro v
    rw [hkeys, List.mem_reverse]
  · intro x hx y hy hxy
    rw [hout] at hnd
    exact List.inj_on_of_nodup_map (List.nodup_append.mp hnd).2.1 hx hy hxy
  · intro v hvR hvL w hw
    have h1 := hfresh v hvR hvL
    rcases List.mem_append.mp hw with h | h
    · have := hML w h; omega
    · have := hMR w h; omega
  · rw [hout]
    rcases hL.vertexColours with h0 | hfull
    · by_cases hR0 : R.VertexColours = []
      · simp [h0, hR0]
      · exact List.zip_append (hv hR0).symm
    · exact List.zip_append hfull.symm
  · rcases hL.edgeColours with h0 | hfull
    · by_cases hR0 : R.EdgeColours = []
      · simp [h0, hR0]
      · exact List.zip_append (he hR0).symm
    · exact List.zip_append hfull.symm
  · intro e hmem
    rcases List.mem_append.mp hmem with h | h
    · have := hL.endpoints e h
      exact ⟨fun h2 => hdisj _ this.2 h2.2, fun h2 => hdisj _ this.1 h2.2⟩
    · obtain ⟨e0, he0, rfl⟩ := List.mem_map.mp h
      have := hR.endpoints e0 he0
      simp only [relabelEdge]
      exact ⟨fun h2 => hdisj _ h2.1 (List.mem_map_of_mem _ this.1),
        fun h2 => hdisj _ h2.1 (List.mem_map_of_mem _ this.2)⟩

theorem colouredEdgeX_wf : WellFormed colouredEdgeX :=
  ⟨by decide, by decide, by decide, by decide⟩

/-- C19 (amended) at the coloured path and the coloured edge, whose labels 1 and
2 become 4 and 5. -/
theorem C19_recombineGraphs_disjoint_union_witness :
    RecombineGraphs colouredPath colouredEdgeX
      = (NewColourGraph [1, 2, 3, 4, 5] [(1, 2), (2, 3), (4, 5)] ["a", "b", "c", "a", "b"]
          ["x", "y", "x"], [(2, 5), (1, 4)])
    ∧ (RecombineGraphs colouredPath colouredEdgeX).1.Vertices.Nodup
    ∧ (RecombineGraphs colouredPath colouredEdgeX).1.Edges.zip
          (RecombineGraphs colouredPath colouredEdgeX).1.EdgeColours
        = colouredPath.Edges.zip colouredPath.EdgeColours
          ++ (colouredEdgeX.Edges.map
                (relabelEdge (mapGet (RecombineGraphs colouredPath colouredEdgeX).2))).zip
              colouredEdgeX.EdgeColours :=
  ⟨by decide,
    (C19_recombineGraphs_disjoint_union colouredPath colouredEdgeX colouredPath_wellFormed
      colouredEdgeX_wf (fun _ => by decide) (fun _ => by decide) (by decide!)).2.2.2.2.2.1,
    (C19_recombineGraphs_disjoint_union colouredPath colouredEdgeX colouredPath_wellFormed
      colouredEdgeX_wf (fun _ => by decide) (fun _ => by decide)
      (by decide!)).2.2.2.2.2.2.2.2.2.2.1⟩

/-! ## A graph compared with itself -/

set_option maxRecDepth 100000 in
/-- C13 (fails on the code): the path on 1, 2, 3 with no vertex colours and one
colour per edge satisfies the invariants of a graph, yet `GraphsIsomorphic`
does not return for the graph and itself: `EdgeColourConversion` reads the
colour of the first vertex from the empty list of vertex colours. -/
theorem C13_edge_coloured_graph_fatal :
    WellFormed edgeColouredPath
    ∧ edgeColouredPath.VertexColours = []
    ∧ edgeColouredPath.EdgeColours.length = edgeColouredPath.Edges.length
    ∧ EdgeColourConversion edgeColouredPath = none
    ∧ GraphsIsomorphic edgeColouredPath edgeColouredPath = none := by
  refine ⟨⟨by decide, by decide, by decide, by decide⟩, by decide, by decide, ?_, ?_⟩
  · decide!
  · decide!

/-! ## What `GraphEquals` compares -/

theorem length_of_absent_or_full {α : Type} {n : Nat} {C : List α}
    (h : C = [] ∨ C.length = n) : C.length = min n C.length := by
  rcases h with h | h
  · subst h; simp
  · omega

/-- C17 (as stated it fails): two parallel edges of the colours `a`, `b` and two
parallel edges of the colours `b`, `b` are equal for `GraphEquals` although
their (edge, colour) pairs differ; and two parallel edges of the colours `a`,
`b` listed in the two orders have the same vertices, edges and (edge, colour)
pairs, yet `GraphEquals` returns false for them. -/
theorem C17_counterexample_parallel_edges :
    GraphEquals doubleEdgeA doubleEdgeC = true
    ∧ ¬ ((doubleEdgeA.Edges.zip doubleEdgeA.EdgeColours).map
          (fun ec => (orientEdge ec.1, ec.2))).Perm
        ((doubleEdgeC.Edges.zip doubleEdgeC.EdgeColours).map
          (fun ec => (orientEdge ec.1, ec.2)))
    ∧ GraphEquals doubleEdgeA doubleEdgeB = false
    ∧ doubleEdgeA.Vertices.Perm doubleEdgeB.Vertices
    ∧ (doubleEdgeA.Edges.map orientEdge).Perm (doubleEdgeB.Edges.map orientEdge)
    ∧ (doubleEdgeA.Vertices.zip doubleEdgeA.VertexColours).Perm
        (doubleEdgeB.Vertices.zip doubleEdgeB.VertexColours)
    ∧ ((doubleEdgeA.Edges.zip doubleEdgeA.EdgeColours).map
          (fun ec => (orientEdge ec.1, ec.2))).Perm
        ((doubleEdgeB.Edges.zip doubleEdgeB.EdgeColours).map
          (fun ec => (orientEdge ec.1, ec.2))) := by
  refine ⟨by decide, by decide, by decide, by decide, by decide, by decide, by decide⟩

/-- C17 (amended): for all graphs `G` and `H` (pairwise distinct vertex labels,
edge endpoints among the vertices, each list of colours empty or complete) in
which no two edges join the same two vertices when the edges have colours,
`GraphEquals G H` is true if and only if `G` and `H` have the same vertex
labels whatever their order, the same multiset of edges written smaller
endpoint first, the same (vertex, colour) pairs, and the same multiset of
(edge written smaller endpoint first, colour) pairs. -/
theorem C17_graphEquals_iff (G H : Graph) (hG : WellFormed G) (hH : WellFormed H)
    (hsG : G.EdgeColours ≠ [] → NoParallelEdges G)
    (hsH : H.EdgeColours ≠ [] → NoParallelEdges H) :
    GraphEquals G H = true
      ↔ (G.Vertices.Perm H.Vertices
        ∧ (G.Edges.map orientEdge).Perm (H.Edges.map orientEdge)
        ∧ (G.Vertices.zip G.VertexColours).Perm (H.Vertices.zip H.VertexColours)
        ∧ ((G.Edges.zip G.EdgeColours).map (fun ec => (orientEdge ec.1, ec.2))).Perm
            ((H.Edges.zip H.EdgeColours).map (fun ec => (orientEdge ec.1, ec.2)))) := by
  have hs : ∀ X : Graph, (X.EdgeColours ≠ [] → NoParallelEdges X) →
      X.EdgeColours.length = X.Edges.length → NoParallelEdges X := by
    intro X hX hlen
    by_cases h0 : X.EdgeColours = []
    · have : X.Edges = [] := by
        apply List.length_eq_zero.mp
        rw [← hlen, h0]; rfl
      unfold NoParallelEdges
      rw [this]
      exact List.nodup_nil
    · exact hX h0
  constructor
  · intro h
    have hi := GraphEquals.isomorphism h hG.nodup hH.nodup hG.vertexColours hH.vertexColours
      hG.edgeColours hH.edgeColours (hs G hsG) (hs H hsH)
    have hid : relabelEdge id = id := by funext e; rfl
    refine ⟨by simpa using hi.vertices, by simpa [hid] using hi.edges, ?_, ?_⟩
    · rcases hG.vertexColours with h0 | hfull
      · have h1 : H.VertexColours = [] := by
          apply List.length_eq_zero.mp
          rw [← hi.vertexColourLen, h0]; rfl
        rw [h0, h1]
        simp
      · simpa using hi.vertexColours hfull
    · rcases hG.edgeColours with h0 | hfull
      · have h1 : H.EdgeColours = [] := by
          apply List.length_eq_zero.mp
          rw [← hi.edgeColourLen, h0]; rfl
        rw [h0, h1]
        simp
      · simpa [hid] using hi.edgeColours hfull
  · rintro ⟨hV, hE, hVC, hEC⟩
    have hElen : G.Edges.length = H.Edges.length := by simpa using hE.length_eq
    have hVlen : G.Vertices.length = H.Vertices.length := hV.length_eq
    have hEClen : G.EdgeColours.length = H.EdgeColours.length := by
      have h1 := hEC.length_eq
      simp only [List.length_map, List.length_zip] at h1
      have h2 := length_of_absent_or_full hG.edgeColours
      have h3 := length_of_absent_or_full hH.edgeColours
      omega
    have hVClen : G.VertexColours.length = H.VertexColours.length := by
      have h1 := hVC.length_eq
      simp only [List.length_zip] at h1
      have h2 := length_of_absent_or_full hG.vertexColours
      have h3 := length_of_absent_or_full hH.vertexColours
      omega
    apply CandRel.graphEquals
    refine ⟨ListPairSort_eq_of_perm hE, hElen, hEClen, ?_, hV, hH.nodup, hVClen, fun _ => hVC⟩
    intro hf
    have hfG : G.Edges.length = G.EdgeColours.length := by omega
    unfold EdgeColourMap
    rw [if_pos (le_of_eq hfG), if_pos (le_of_eq hf)]
    simp only [Option.map_some', Option.some.injEq]
    apply orderedEdgeMapContent_congr
    · rw [List.map_reverse, List.map_reverse]
      exact ((List.reverse_perm _).trans hEC).trans (List.reverse_perm _).symm
    · have e : ∀ (z : List ((Int × Int) × String)),
          z.map (fun kv => orientEdge kv.1) = (z.map Prod.fst).map orientEdge := by
        intro z; rw [List.map_map]; rfl
      rw [List.map_reverse, List.nodup_reverse, e, map_fst_zip_of_length_eq _ _ hfG]
      exact hs G hsG hfG.symm

/-- C17 (amended) at the coloured path and the same path with its vertices and
edges listed in the other order. -/
theorem C17_graphEquals_iff_witness :
    GraphEquals colouredPath
        (NewColourGraph [3, 2, 1] [(3, 2), (2, 1)] ["c", "b", "a"] ["y", "x"]) = true
    ∧ ((colouredPath.Edges.zip colouredPath.EdgeColours).map
          (fun ec => (orientEdge ec.1, ec.2))).Perm
        (((NewColourGraph [3, 2, 1] [(3, 2), (2, 1)] ["c", "b", "a"] ["y", "x"]).Edges.zip
            (NewColourGraph [3, 2, 1] [(3, 2), (2, 1)] ["c", "b", "a"] ["y", "x"]).EdgeColours).map
          (fun ec => (orientEdge ec.1, ec.2))) := by
  have h := C17_graphEquals_iff colouredPath
    (NewColourGraph [3, 2, 1] [(3, 2), (2, 1)] ["c", "b", "a"] ["y", "x"])
    colouredPath_wellFormed ⟨by decide, by decide, by decide, by decide⟩
    (fun _ => by decide) (fun _ => by decide)
  have h1 : GraphEquals colouredPath
      (NewColourGraph [3, 2, 1] [(3, 2), (2, 1)] ["c", "b", "a"] ["y", "x"]) = true := by
    decide
  exact ⟨h1, (h.mp h1).2.2.2⟩

/-! ## Relabelling by a strictly increasing map commutes with the comparisons -/

theorem orderedInsert_map {α β : Type} (f : α → β) (r : α → α → Prop) (s : β → β → Prop)
    [DecidableRel r] [DecidableRel s] (h : ∀ a b, s (f a) (f b) ↔ r a b) (a : α) :
    ∀ l : List α, (l.map f).orderedInsert s (f a) = (l.orderedInsert r a).map f
  | [] => rfl
  | b :: l => by
    simp only [List.map_cons, List.orderedInsert]
    by_cases hab : r a b
    · rw [if_pos hab, if_pos ((h a b).mpr hab)]
      simp
    · rw [if_neg hab, if_neg (fun hs => hab ((h a b).mp hs))]
      simp [orderedInsert_map f r s h a l]

theorem insertionSort_map {α β : Type} (f : α → β) (r : α → α → Prop) (s : β → β → Prop)
    [DecidableRel r] [DecidableRel s] (h : ∀ a b, s (f a) (f b) ↔ r a b) :
    ∀ l : List α, (l.map f).insertionSort s = (l.insertionSort r).map f
  | [] => rfl
  | b :: l => by
    simp only [List.map_cons, List.insertionSort]
    rw [insertionSort_map f r s h l, orderedInsert_map f r s h]

theorem sortInts_map {θ : Int → Int} (hθ : StrictMono θ) (l : List Int) :
    sortInts (l.map θ) = (sortInts l).map θ :=
  insertionSort_map θ _ _ (fun _ _ => hθ.le_iff_le) l

theorem relabelEdge_injective {θ : Int → Int} (hθ : Function.Injective θ) :
    Function.Injective (relabelEdge θ) := by
  intro a b h
  simp only [relabelEdge, Prod.mk.injEq] at h
  exact Prod.ext (hθ h.1) (hθ h.2)

theorem orientEdge_relabel {θ : Int → Int} (hθ : StrictMono θ) (e : Int × Int) :
    orientEdge (relabelEdge θ e) = relabelEdge θ (orientEdge e) := by
  unfold orientEdge relabelEdge
  by_cases h : e.1 < e.2
  · simp [h, hθ.lt_iff_lt]
  · simp [h, hθ.lt_iff_lt]

theorem pairLe_relabel {θ : Int → Int} (hθ : StrictMono θ) (a b : Int × Int) :
    pairLe (relabelEdge θ a) (relabelEdge θ b) = pairLe a b := by
  unfold pairLe relabelEdge
  simp only [ne_eq, hθ.injective.eq_iff, hθ.lt_iff_lt, hθ.le_iff_le]

theorem sortPairs_relabel {θ : Int → Int} (hθ : StrictMono θ) (l : List (Int × Int)) :
    (l.map (relabelEdge θ)).insertionSort (fun a b => pairLe a b = true)
      = (l.insertionSort (fun a b => pairLe a b = true)).map (relabelEdge θ) :=
  insertionSort_map (relabelEdge θ) _ _ (fun a b => by rw [pairLe_relabel hθ]) l

theorem ListPairSort_eq_sort (l : List (Int × Int)) :
    ListPairSort l = (l.map orientEdge).insertionSort (fun a b => pairLe a b = true) := rfl

theorem ListPairSort_relabel {θ : Int → Int} (hθ : StrictMono θ) (l : List (Int × Int)) :
    ListPairSort (l.map (relabelEdge θ)) = (ListPairSort l).map (relabelEdge θ) := by
  rw [ListPairSort_eq_sort, ListPairSort_eq_sort, List.map_map]
  have : (orientEdge ∘ relabelEdge θ) = (relabelEdge θ ∘ orientEdge) := by
    funext e; exact orientEdge_relabel hθ e
  rw [this, ← List.map_map, sortPairs_relabel hθ]

theorem FlattenEdgeList_relabel (θ : Int → Int) (l : List (Int × Int)) :
    FlattenEdgeList (l.map (relabelEdge θ)) = (FlattenEdgeList l).map θ := by
  unfold FlattenEdgeList
  induction l with
  | nil => rfl
  | cons e l ih => simp [List.flatMap_cons, ih, relabelEdge]

theorem SliceGreaterThan_map {θ : Int → Int} (hθ : StrictMono θ) :
    ∀ l r : List Int, SliceGreaterThan (l.map θ) (r.map θ) = SliceGreaterThan l r
  | [], _ => by simp [SliceGreaterThan]
  | _ :: _, [] => by simp [SliceGreaterThan]
  | a :: l, b :: r => by
    simp only [List.map_cons, SliceGreaterThan, ne_eq, hθ.injective.eq_iff, gt_iff_lt,
      hθ.lt_iff_lt, List.length_map, SliceGreaterThan_map hθ l r]

theorem GraphGreaterThan_relabel {θ : Int → Int} (hθ : StrictMono θ) (A B : Graph) :
    GraphGreaterThan (relabelGraph θ A) (relabelGraph θ B) = GraphGreaterThan A B := by
  unfold GraphGreaterThan relabelGraph
  simp only [ListPairSort_relabel hθ, FlattenEdgeList_relabel, SliceGreaterThan_map hθ]

theorem bindingGet_map_key {κ : Type} [DecidableEq κ] {f : κ → κ} (hf : Function.Injective f)
    (m : List (κ × String)) (k : κ) :
    bindingGet (m.map (fun kv => (f kv.1, kv.2))) (f k) = bindingGet m k := by
  induction m with
  | nil => rfl
  | cons kv rest ih =>
    obtain ⟨k1, v1⟩ := kv
    simp only [List.map_cons, bindingGet, ih]
    by_cases he : k1 = k
    · simp [he]
    · rw [if_neg he, if_neg (fun h => he (hf h))]

theorem vertexMapContent_relabel {θ : Int → Int} (hθ : StrictMono θ) (m : List (Int × String)) :
    vertexMapContent (m.map (fun kv => (θ kv.1, kv.2)))
      = (vertexMapContent m).map (fun ko => (θ ko.1, ko.2)) := by
  unfold vertexMapContent
  have h1 : (m.map (fun kv => (θ kv.1, kv.2))).map Prod.fst = (m.map Prod.fst).map θ := by
    simp [List.map_map, Function.comp_def]
  rw [h1, List.dedup_map_of_injective hθ.injective, sortInts_map hθ, List.map_map, List.map_map]
  apply List.map_congr_left
  intro k _
  simp only [Function.comp_apply, bindingGet_map_key hθ.injective]

theorem outMap_relabel {θ : Int → Int} (hθ : StrictMono θ) (m : List ((Int × Int) × String)) :
    ∀ (keys : List (Int × Int)) (acc : List ((Int × Int) × String)),
      (keys.map (relabelEdge θ)).foldl
        (fun out k =>
          match bindingGet (m.map (fun kv => (relabelEdge θ kv.1, kv.2))) k with
          | none => out
          | some v => if k.1 < k.2 then (k, v) :: out else ((k.2, k.1), v) :: out)
        (acc.map (fun kv => (relabelEdge θ kv.1, kv.2)))
      = (keys.foldl
        (fun out k =>
          match bindingGet m k with
          | none => out
          | some v => if k.1 < k.2 then (k, v) :: out else ((k.2, k.1), v) :: out)
        acc).map (fun kv => (relabelEdge θ kv.1, kv.2)) := by
  intro keys
  induction keys with
  | nil => intro acc; rfl
  | cons k rest ih =>
    intro acc
    simp only [List.map_cons, List.foldl_cons, bindingGet_map_key (relabelEdge_injective hθ.injective)]
    cases hb : bindingGet m k with
    | none => exact ih acc
    | some v =>
      simp only
      by_cases hlt : k.1 < k.2
      · have hlt' : (relabelEdge θ k).1 < (relabelEdge θ k).2 := by
          simpa [relabelEdge, hθ.lt_iff_lt] using hlt
        rw [if_pos hlt, if_pos hlt']
        exact ih ((k, v) :: acc)
      · have hlt' : ¬ (relabelEdge θ k).1 < (relabelEdge θ k).2 := by
          simpa [relabelEdge, hθ.lt_iff_lt] using hlt
        rw [if_neg hlt, if_neg hlt']
        exact ih (((k.2, k.1), v) :: acc)

theorem orderedEdgeMapContent_relabel {θ : Int → Int} (hθ : StrictMono θ)
    (m : List ((Int × Int) × String)) :
    orderedEdgeMapContent (m.map (fun kv => (relabelEdge θ kv.1, kv.2)))
      = (orderedEdgeMapContent m).map (fun ko => (relabelEdge θ ko.1, ko.2)) := by
  unfold orderedEdgeMapContent
  have hinj := relabelEdge_injective hθ.injective
  have h1 : ∀ (z : List ((Int × Int) × String)),
      (z.map (fun kv => (relabelEdge θ kv.1, kv.2))).map Prod.fst
        = (z.map Prod.fst).map (relabelEdge θ) := by
    intro z; simp [List.map_map, Function.comp_def]
  simp only
  rw [h1, List.dedup_map_of_injective hinj, sortPairs_relabel hθ]
  have h2 := outMap_relabel hθ m
    (((m.map Prod.fst).dedup).insertionSort (fun a b => pairLe a b = true)) []
  simp only [List.map_nil] at h2
  rw [h2, h1, List.dedup_map_of_injective hinj, sortPairs_relabel hθ, List.map_map, List.map_map]
  apply List.map_congr_left
  intro k _
  simp only [Function.comp_apply, bindingGet_map_key hinj]

theorem VertexColourMap_relabel (θ : Int → Int) (g : Graph) :
    VertexColourMap (relabelGraph θ g)
      = (VertexColourMap g).map (List.map (fun kv => (θ kv.1, kv.2))) := by
  unfold VertexColourMap relabelGraph
  simp only [List.length_map]
  split
  · simp only [Option.map_some', Option.some.injEq]
    rw [List.zip_map_left, List.map_reverse]
    rfl
  · rfl

theorem EdgeColourMap_relabel (θ : Int → Int) (g : Graph) :
    EdgeColourMap (relabelGraph θ g)
      = (EdgeColourMap g).map (List.map (fun kv => (relabelEdge θ kv.1, kv.2))) := by
  unfold EdgeColourMap relabelGraph
  simp only [List.length_map]
  split
  · simp only [Option.map_some', Option.some.injEq]
    rw [List.zip_map_left, List.map_reverse]
    rfl
  · rfl

theorem checkColoursEqual_relabel {θ : Int → Int} (hθ : StrictMono θ) (A B : Graph) :
    checkColoursEqual (relabelGraph θ A) (relabelGraph θ B) = checkColoursEqual A B := by
  have hv : ∀ g : Graph, (VertexColourMap (relabelGraph θ g)).map vertexMapContent
      = ((VertexColourMap g).map vertexMapContent).map
          (List.map (fun ko : Int × Option String => (θ ko.1, ko.2))) := by
    intro g
    rw [VertexColourMap_relabel]
    cases VertexColourMap g with
    | none => rfl
    | some m => simp [vertexMapContent_relabel hθ]
  have he : ∀ g : Graph, (EdgeColourMap (relabelGraph θ g)).map orderedEdgeMapContent
      = ((EdgeColourMap g).map orderedEdgeMapContent).map
          (List.map (fun ko : (Int × Int) × Option String => (relabelEdge θ ko.1, ko.2))) := by
    intro g
    rw [EdgeColourMap_relabel]
    cases EdgeColourMap g with
    | none => rfl
    | some m => simp [orderedEdgeMapContent_relabel hθ]
  have hinjv : Function.Injective
      (List.map (fun ko : Int × Option String => (θ ko.1, ko.2))) := by
    apply List.map_injective_iff.mpr
    intro a b h
    simp only [Prod.mk.injEq] at h
    exact Prod.ext (hθ.injective h.1) h.2
  have hinje : Function.Injective
      (List.map (fun ko : (Int × Int) × Option String => (relabelEdge θ ko.1, ko.2))) := by
    apply List.map_injective_iff.mpr
    intro a b h
    simp only [Prod.mk.injEq] at h
    exact Prod.ext (relabelEdge_injective hθ.injective h.1) h.2
  have hbv : ((VertexColourMap (relabelGraph θ A)).map vertexMapContent
        == (VertexColourMap (relabelGraph θ B)).map vertexMapContent)
      = ((VertexColourMap A).map vertexMapContent == (VertexColourMap B).map vertexMapContent) := by
    rw [hv A, hv B, Bool.eq_iff_iff, beq_iff_eq, beq_iff_eq]
    exact (Option.map_injective hinjv).eq_iff
  have hbe : ((EdgeColourMap (relabelGraph θ A)).map orderedEdgeMapContent
        == (EdgeColourMap (relabelGraph θ B)).map orderedEdgeMapContent)
      = ((EdgeColourMap A).map orderedEdgeMapContent
          == (EdgeColourMap B).map orderedEdgeMapContent) := by
    rw [he A, he B, Bool.eq_iff_iff, beq_iff_eq, beq_iff_eq]
    exact (Option.map_injective hinje).eq_iff
  unfold checkColoursEqual
  rw [hbv, hbe]
  simp only [relabelGraph, List.length_map]

theorem GraphEquals_relabel {θ : Int → Int} (hθ : StrictMono θ) (A B : Graph) :
    GraphEquals (relabelGraph θ A) (relabelGraph θ B) = GraphEquals A B := by
  unfold GraphEquals
  rw [checkColoursEqual_relabel hθ]
  have h1 : decide (sortInts (relabelGraph θ A).Vertices = sortInts (relabelGraph θ B).Vertices)
      = decide (sortInts A.Vertices = sortInts B.Vertices) := by
    simp only [relabelGraph, sortInts_map hθ]
    rw [Bool.eq_iff_iff, decide_eq_true_eq, decide_eq_true_eq]
    exact (List.map_injective_iff.mpr hθ.injective).eq_iff
  have h2 : decide (ListPairSort (relabelGraph θ A).Edges = ListPairSort (relabelGraph θ B).Edges)
      = decide (ListPairSort A.Edges = ListPairSort B.Edges) := by
    simp only [relabelGraph, ListPairSort_relabel hθ]
    rw [Bool.eq_iff_iff, decide_eq_true_eq, decide_eq_true_eq]
    exact (List.map_injective_iff.mpr (relabelEdge_injective hθ.injective)).eq_iff
  simp only [h1, h2]

theorem checkColoursEqual_symm (A B : Graph) : checkColoursEqual A B = checkColoursEqual B A := by
  have hbv : ((VertexColourMap B).map vertexMapContent == (VertexColourMap A).map vertexMapContent)
      = ((VertexColourMap A).map vertexMapContent == (VertexColourMap B).map vertexMapContent) := by
    rw [Bool.eq_iff_iff, beq_iff_eq, beq_iff_eq]
    exact eq_comm
  have hbe : ((EdgeColourMap B).map orderedEdgeMapContent
        == (EdgeColourMap A).map orderedEdgeMapContent)
      = ((EdgeColourMap A).map orderedEdgeMapContent
          == (EdgeColourMap B).map orderedEdgeMapContent) := by
    rw [Bool.eq_iff_iff, beq_iff_eq, beq_iff_eq]
    exact eq_comm
  unfold checkColoursEqual
  rw [hbv, hbe]
  generalize ((VertexColourMap A).map vertexMapContent
    == (VertexColourMap B).map vertexMapContent) = bv
  generalize ((EdgeColourMap A).map orderedEdgeMapContent
    == (EdgeColourMap B).map orderedEdgeMapContent) = be
  generalize decide (A.Vertices.length = A.VertexColours.length) = p
  generalize decide (B.Vertices.length = B.VertexColours.length) = q
  generalize decide (A.Edges.length = A.EdgeColours.length) = r
  generalize decide (B.Edges.length = B.EdgeColours.length) = t
  cases bv <;> cases be <;> cases p <;> cases q <;> cases r <;> cases t <;> rfl

theorem GraphEquals_symm (A B : Graph) : GraphEquals A B = GraphEquals B A := by
  unfold GraphEquals
  rw [checkColoursEqual_symm A B]
  have h1 : decide (sortInts A.Vertices = sortInts B.Vertices)
      = decide (sortInts B.Vertices = sortInts A.Vertices) := by
    rw [Bool.eq_iff_iff, decide_eq_true_eq, decide_eq_true_eq]; exact eq_comm
  have h2 : decide (ListPairSort A.Edges = ListPairSort B.Edges)
      = decide (ListPairSort B.Edges = ListPairSort A.Edges) := by
    rw [Bool.eq_iff_iff, decide_eq_true_eq, decide_eq_true_eq]; exact eq_comm
  simp only [h1, h2]

/-! ## The search on a graph relabelled by a strictly increasing map -/

theorem mapGet_map_both {θ : Int → Int} (hθ : Function.Injective θ) (m : List (Int × Int))
    (k : Int) (hk : k ∈ m.map Prod.fst) :
    mapGet (m.map (fun kv => (θ kv.1, θ kv.2))) (θ k) = θ (mapGet m k) := by
  induction m with
  | nil => simp at hk
  | cons kv rest ih =>
    obtain ⟨k1, v1⟩ := kv
    simp only [List.map_cons, mapGet]
    by_cases he : k1 = k
    · simp [he]
    · rw [if_neg he, if_neg (fun h => he (hθ h))]
      apply ih
      simp only [List.map_cons, List.mem_cons] at hk
      rcases hk with h | h
      · exact absurd h.symm he
      · exact h

theorem colourGet_map_key {θ : Int → Int} (hθ : Function.Injective θ) (m : List (Int × String))
    (k : Int) : colourGet (m.map (fun kv => (θ kv.1, kv.2))) (θ k) = colourGet m k := by
  induction m with
  | nil => rfl
  | cons kv rest ih =>
    obtain ⟨k1, v1⟩ := kv
    simp only [List.map_cons, colourGet, ih]
    by_cases he : k1 = k
    · simp [he]
    · rw [if_neg he, if_neg (fun h => he (hθ h))]

theorem PermuteGraph_relabel {θ : Int → Int} (hθ : StrictMono θ) (Y : Graph) (l : List Int)
    (hl : l.Perm Y.Vertices) (hend : ∀ e ∈ Y.Edges, e.1 ∈ Y.Vertices ∧ e.2 ∈ Y.Vertices) :
    PermuteGraph (relabelGraph θ Y) (l.map θ) = (PermuteGraph Y l).map (relabelGraph θ) := by
  have hS : (sortInts Y.Vertices).Perm Y.Vertices := sortInts_perm _
  have hlen : l.length = (sortInts Y.Vertices).length := by rw [hl.length_eq, hS.length_eq]
  have hzip : ((l.map θ).zip ((sortInts Y.Vertices).map θ)).reverse
      = ((l.zip (sortInts Y.Vertices)).reverse).map (fun kv => (θ kv.1, θ kv.2)) := by
    rw [List.zip_map, List.map_reverse]
    rfl
  have hkey : ∀ x ∈ Y.Vertices,
      mapGet ((l.map θ).zip ((sortInts Y.Vertices).map θ)).reverse (θ x)
        = θ (mapGet (l.zip (sortInts Y.Vertices)).reverse x) := by
    intro x hx
    rw [hzip]
    apply mapGet_map_both hθ.injective
    rw [List.map_reverse, List.mem_reverse, map_fst_zip_of_length_eq _ _ hlen]
    exact hl.mem_iff.mpr hx
  rw [PermuteGraph_eq _ _ (by simp [relabelGraph, hl.length_eq]),
    PermuteGraph_eq _ _ hl.length_eq]
  simp only [Option.map_some', Option.some.injEq, relabelGraph, NewColourGraph, List.length_map,
    sortInts_map hθ, copiedEdgeColours, Graph.mk.injEq, List.map_map]
  refine ⟨?_, ?_, ?_, trivial⟩
  · apply List.map_congr_left
    intro x hx
    exact hkey x (hS.mem_iff.mp hx)
  · apply List.map_congr_left
    intro e he
    have := hend e he
    simp only [Function.comp_apply, relabelEdge, hkey _ this.1, hkey _ this.2]
  · split
    · apply List.map_congr_left
      intro x _
      simp only [Function.comp_apply]
      rw [zip_reverse_map_key]
      exact colourGet_map_key hθ.injective _ x
    · rfl

theorem DegreeInPart_relabel {θ : Int → Int} (hθ : Function.Injective θ) (Y : Graph) (v : Int)
    (part : List Int) :
    DegreeInPart (relabelGraph θ Y) (θ v) (part.map θ) = DegreeInPart Y v part := by
  rw [DegreeInPart_eq_countP, DegreeInPart_eq_countP]
  simp only [relabelGraph, List.countP_map]
  apply List.countP_congr
  intro e _
  simp only [Function.comp_apply, relabelEdge, Contains_map hθ, hθ.eq_iff]

theorem AutomorphismCheck_relabel {θ : Int → Int} (hθ : StrictMono θ) (c : Graph)
    (as : List Graph) :
    AutomorphismCheck (relabelGraph θ c) (as.map (relabelGraph θ)) = AutomorphismCheck c as := by
  unfold AutomorphismCheck
  induction as with
  | nil => rfl
  | cons a rest ih =>
    simp only [List.map_cons, List.findIdx?_cons, GraphEquals_relabel hθ]
    split
    · rfl
    · simp only [List.findIdx?_succ, ih]

theorem searchLeaf_relabel {θ : Int → Int} (hθ : StrictMono θ) (Y : Graph)
    (hend : ∀ e ∈ Y.Edges, e.1 ∈ Y.Vertices ∧ e.2 ∈ Y.Vertices)
    (colouring : List (List Int)) (treeLevel : IntSlice) (st : SearchState)
    (hc : colouring.flatten.Perm Y.Vertices) :
    searchLeaf (relabelGraph θ Y) (colouring.map (List.map θ)) treeLevel (relabelState θ st)
      = (searchLeaf Y colouring treeLevel st).map (relabelState θ) := by
  unfold searchLeaf
  rw [DiscreteColouringToIntSlice_map]
  cases hd : DiscreteColouringToIntSlice colouring with
  | none => rfl
  | some l =>
    have hl : l.Perm Y.Vertices := by
      rw [DiscreteColouringToIntSlice_eq_flatten colouring l hd]; exact hc
    simp only [Option.map_some', PermuteGraph_relabel hθ Y l hl hend]
    cases PermuteGraph Y l with
    | none => rfl
    | some cand =>
      simp only [Option.map_some']
      have ha : (relabelState θ st).automorphisms = st.automorphisms.map (relabelGraph θ) := rfl
      rw [ha, AutomorphismCheck_relabel hθ]
      cases AutomorphismCheck cand st.automorphisms with
      | some level =>
        simp only
        have h1 : (relabelState θ st).automorphismLevels = st.automorphismLevels := rfl
        have h2 : (relabelState θ st).store = st.store := rfl
        rw [h1, h2]
        cases st.automorphismLevels[level]? with
        | none => rfl
        | some recorded =>
          simp only
          cases MaxEqualLevel (sliceRead st.store recorded) (sliceRead st.store treeLevel) with
          | none => rfl
          | some lv => rfl
      | none =>
        simp only
        have h3 : (relabelState θ st).canonicalGraph = relabelGraph θ st.canonicalGraph := rfl
        have h4 : (relabelGraph θ st.canonicalGraph).Vertices.length
            = st.canonicalGraph.Vertices.length := by simp [relabelGraph]
        simp only [h3, h4, GraphGreaterThan_relabel hθ]
        split
        · simp [relabelState]
        · cases GraphGreaterThan cand st.canonicalGraph with
          | none => rfl
          | some b =>
            cases b with
            | true => simp [relabelState]
            | false => simp [relabelState]

theorem searchChildren_relabel {θ : Int → Int} {Y : Graph}
    (f' f : List (List Int) → IntSlice → SearchState → Option SearchState)
    (treeLevel : IntSlice)
    (hf : ∀ (c : List (List Int)) (tl : IntSlice) (st : SearchState),
      c.flatten.Perm Y.Vertices →
      f' (c.map (List.map θ)) tl (relabelState θ st) = (f c tl st).map (relabelState θ)) :
    ∀ (zs : List (List (List Int) × Nat)) (a : Option SearchState),
      (∀ ci ∈ zs, ci.1.flatten.Perm Y.Vertices) →
      (zs.map (fun ci => (ci.1.map (List.map θ), ci.2))).foldl
          (fun acc ci =>
            match acc with
            | none => none
            | some st1 =>
              let (store2, newTreeLevel) := sliceAppend st1.store treeLevel (ci.2 : Int)
              f' ci.1 newTreeLevel { st1 with store := store2 })
          (a.map (relabelState θ))
        = (zs.foldl
          (fun acc ci =>
            match acc with
            | none => none
            | some st1 =>
              let (store2, newTreeLevel) := sliceAppend st1.store treeLevel (ci.2 : Int)
              f ci.1 newTreeLevel { st1 with store := store2 })
          a).map (relabelState θ) := by
  intro zs
  induction zs with
  | nil => intro a _; rfl
  | cons ci rest ih =>
    intro a hz
    simp only [List.map_cons, List.foldl_cons]
    have hstep : (match a.map (relabelState θ) with
        | none => none
        | some st1 =>
          let (store2, newTreeLevel) := sliceAppend st1.store treeLevel (ci.2 : Int)
          f' (ci.1.map (List.map θ)) newTreeLevel { st1 with store := store2 })
        = (match a with
          | none => none
          | some st1 =>
            let (store2, newTreeLevel) := sliceAppend st1.store treeLevel (ci.2 : Int)
            f ci.1 newTreeLevel { st1 with store := store2 }).map (relabelState θ) := by
      cases a with
      | none => rfl
      | some st =>
        simp only [Option.map_some']
        have h2 : (relabelState θ st).store = st.store := rfl
        rw [h2]
        exact hf ci.1 _ { st with store := (sliceAppend st.store treeLevel (ci.2 : Int)).1 }
          (hz ci (List.mem_cons_self _ _))
    rw [hstep]
    exact ih _ (fun c hc => hz c (List.mem_cons_of_mem _ hc))

theorem SearchTreeInner_relabel {θ : Int → Int} (hθ : StrictMono θ) (Y : Graph)
    (hnd : Y.Vertices.Nodup)
    (hend : ∀ e ∈ Y.Edges, e.1 ∈ Y.Vertices ∧ e.2 ∈ Y.Vertices) (prune : Bool) :
    ∀ (fuel : Nat) (colouring : List (List Int)) (treeLevel : IntSlice) (st : SearchState),
      colouring.flatten.Perm Y.Vertices →
      SearchTreeInner (relabelGraph θ Y) prune fuel (colouring.map (List.map θ)) treeLevel
          (relabelState θ st)
        = (SearchTreeInner Y prune fuel colouring treeLevel st).map (relabelState θ) := by
  intro fuel
  induction fuel with
  | zero => intro c tl st _; rfl
  | succ fuel ih =>
    intro c tl st hc
    have hb : (relabelState θ st).backtrack = st.backtrack := rfl
    have hbl : (relabelState θ st).backtrackLevel = st.backtrackLevel := rfl
    simp only [SearchTreeInner, hb, hbl, IsDiscrete_map]
    split
    · rfl
    · have hs0 : (if (prune && st.backtrack && decide ((tl.len : Int) = st.backtrackLevel)) = true
            then { relabelState θ st with backtrack := false, backtrackLevel := -1 }
            else relabelState θ st)
          = relabelState θ
              (if (prune && st.backtrack && decide ((tl.len : Int) = st.backtrackLevel)) = true
                then { st with backtrack := false, backtrackLevel := -1 } else st) := by
        split <;> rfl
      rw [hs0]
      split
      · exact searchLeaf_relabel hθ Y hend c tl _ hc
      · rw [CoarsestEquitableColourings_map hθ.injective Y (relabelGraph θ Y)
          (DegreeInPart_relabel hθ.injective Y)]
        have hndc : c.flatten.Nodup := hc.nodup_iff.mpr hnd
        have hz : (((CoarsestEquitableColourings Y c).1.map (List.map (List.map θ))).zip
              (List.range ((CoarsestEquitableColourings Y c).1.map
                (List.map (List.map θ))).length))
            = (((CoarsestEquitableColourings Y c).1.zip
                (List.range (CoarsestEquitableColourings Y c).1.length)).map
                  (fun ci => (ci.1.map (List.map θ), ci.2))) := by
          rw [List.length_map, List.zip_map_left]
          rfl
        rw [hz]
        exact searchChildren_relabel (SearchTreeInner (relabelGraph θ Y) prune fuel)
          (SearchTreeInner Y prune fuel) tl ih _ (some _)
          (fun ci hci => (CoarsestEquitableColourings_flatten_perm Y c hndc _
            (List.of_mem_zip hci).1).trans hc)

theorem SearchTree_relabel {θ : Int → Int} (hθ : StrictMono θ) (Y : Graph)
    (hnd : Y.Vertices.Nodup)
    (hend : ∀ e ∈ Y.Edges, e.1 ∈ Y.Vertices ∧ e.2 ∈ Y.Vertices) (prune : Bool)
    (p : List (List Int)) (hp : p.flatten.Perm Y.Vertices) :
    SearchTree (relabelGraph θ Y) (p.map (List.map θ)) prune
      = (SearchTree Y p prune).map (relabelGraph θ) := by
  unfold SearchTree
  have hfuel : ((p.map (List.map θ)).map List.length).sum = (p.map List.length).sum := by
    simp [List.map_map, Function.comp_def]
  rw [hfuel]
  have h := SearchTreeInner_relabel hθ Y hnd hend prune (2 * (p.map List.length).sum + 3) p
    { arr := 0, len := 1, cap := 1 }
    { store := [[0]], canonicalGraph := NewColourGraph [] [] [] [],
      automorphisms := [], automorphismLevels := [],
      backtrack := false, backtrackLevel := -1 } hp
  have h0 : relabelState θ
      { store := [[0]], canonicalGraph := NewColourGraph [] [] [] [],
        automorphisms := [], automorphismLevels := [],
        backtrack := false, backtrackLevel := -1 }
      = { store := [[0]], canonicalGraph := NewColourGraph [] [] [] [],
          automorphisms := [], automorphismLevels := [],
          backtrack := false, backtrackLevel := -1 } := rfl
  rw [h0] at h
  have h1 := congrArg (Option.map (fun s : SearchState => s.canonicalGraph)) h
  refine h1.trans ?_
  rw [Option.map_map, Option.map_map]
  rfl

/-! ## Two label sets spread onto a common one -/

theorem sortInts_sorted (l : List Int) : (sortInts l).Sorted (fun a b => a ≤ b) :=
  List.sorted_insertionSort _ l

theorem sorted_getD_mono {s : List Int} (hs : s.Sorted (fun a b => a ≤ b)) {i j : Nat}
    (hij : i ≤ j) (hj : j < s.length) : s.getD i 0 ≤ s.getD j 0 := by
  have hi : i < s.length := by omega
  rw [List.getD_eq_getElem _ _ hi, List.getD_eq_getElem _ _ hj]
  rcases Nat.lt_or_eq_of_le hij with h | h
  · exact List.pairwise_iff_getElem.mp hs i j hi hj h
  · subst h; exact le_refl _

theorem rankIn_mono (A : List Int) {x y : Int} (h : x ≤ y) : rankIn A x ≤ rankIn A y := by
  unfold rankIn
  apply List.countP_mono_left
  intro a _ ha
  simp only [decide_eq_true_eq] at ha ⊢
  omega

theorem rankIn_le (A : List Int) (x : Int) : rankIn A x ≤ A.length := List.countP_le_length _

theorem spread_strictMono (A B : List Int) (hlen : A.length = B.length) :
    StrictMono (spread A B) := by
  intro x y hxy
  unfold spread
  have h1 := rankIn_mono A (le_of_lt hxy)
  have h2 := rankIn_le A y
  have hS : (sortInts B).length = B.length := (sortInts_perm B).length_eq
  by_cases h0 : B.length = 0
  · have : sortInts B = [] := List.length_eq_zero.mp (by omega)
    rw [this]
    simp only [List.getD_eq_getElem?_getD, List.getElem?_nil, Option.getD_none]
    omega
  · have := sorted_getD_mono (sortInts_sorted B) (i := rankIn A x - 1) (j := rankIn A y - 1)
      (by omega) (by omega)
    omega

theorem countP_le_sorted : ∀ (s : List Int), s.Sorted (fun a b => a < b) →
    ∀ (i : Nat) (hi : i < s.length), s.countP (fun a => decide (a ≤ s[i])) = i + 1
  | [], _, i, hi => by simp at hi
  | a :: t, hs, 0, _ => by
    have h1 := List.rel_of_sorted_cons hs
    simp only [List.getElem_cons_zero, List.countP_cons, le_refl, decide_True, if_true]
    have : t.countP (fun b => decide (b ≤ a)) = 0 := by
      rw [List.countP_eq_zero]
      intro b hb
      have := h1 b hb
      simp only [decide_eq_true_eq]
      omega
    omega
  | a :: t, hs, i + 1, hi => by
    have h1 := List.rel_of_sorted_cons hs
    have hi' : i < t.length := by simpa using hi
    have h2 := countP_le_sorted t (List.Sorted.of_cons hs) i hi'
    simp only [List.getElem_cons_succ, List.countP_cons]
    have : a ≤ t[i] := le_of_lt (h1 _ (List.getElem_mem hi'))
    simp only [this, decide_True, if_true]
    omega

theorem rankIn_sorted {A : List Int} (hA : A.Nodup) (i : Nat)
    (hi : i < (sortInts A).length) : rankIn A (sortInts A)[i] = i + 1 := by
  have hp := sortInts_perm A
  unfold rankIn
  rw [← hp.countP_eq]
  apply countP_le_sorted
  exact (sortInts_sorted A).lt_of_le (hp.nodup_iff.mpr hA)

theorem spread_sorted {A B : List Int} (hA : A.Nodup) (i : Nat)
    (hi : i < (sortInts A).length) (hi' : i < (sortInts B).length) :
    spread A B (sortInts A)[i] = (sortInts A)[i] + (sortInts B)[i] := by
  unfold spread
  rw [rankIn_sorted hA i hi]
  simp only [Nat.add_sub_cancel]
  rw [List.getD_eq_getElem _ _ hi']

theorem spread_common {A B : List Int} (hA : A.Nodup) (hB : B.Nodup)
    (hlen : A.length = B.length) :
    (B.map (spread B A)).Perm (A.map (spread A B)) := by
  have hpA := sortInts_perm A
  have hpB := sortInts_perm B
  have heq : (sortInts B).map (spread B A) = (sortInts A).map (spread A B) := by
    apply List.ext_getElem
    · simp [hpA.length_eq, hpB.length_eq, hlen]
    · intro i h1 h2
      simp only [List.length_map] at h1 h2
      rw [List.getElem_map, List.getElem_map, spread_sorted hB i h1 h2,
        spread_sorted hA i h2 h1]
      omega
  exact ((hpB.map _).symm.trans (List.Perm.of_eq heq)).trans (hpA.map _)

/-! ## The search on a graph with new labels -/

theorem mapGet_map_pair {f g : Int → Int} (hf : Function.Injective f) (m : List (Int × Int))
    (k : Int) (hk : k ∈ m.map Prod.fst) :
    mapGet (m.map (fun kv => (f kv.1, g kv.2))) (f k) = g (mapGet m k) := by
  induction m with
  | nil => simp at hk
  | cons kv rest ih =>
    obtain ⟨k1, v1⟩ := kv
    simp only [List.map_cons, mapGet]
    by_cases he : k1 = k
    · simp [he]
    · rw [if_neg he, if_neg (fun h => he (hf h))]
      apply ih
      simp only [List.map_cons, List.mem_cons] at hk
      rcases hk with h | h
      · exact absurd h.symm he
      · exact h

theorem mapGet_zip_mem {V W : List Int} (hV : V.Nodup) (hlen : V.length = W.length) {x : Int}
    (hx : x ∈ V) : mapGet (V.zip W).reverse x ∈ W := by
  have h1 : mapGet (V.zip W).reverse x ∈ V.map (mapGet (V.zip W).reverse) :=
    List.mem_map_of_mem _ hx
  rw [map_mapGet_zip V W hV hlen] at h1
  exact h1

theorem relabelOn_injective {V W : List Int} (hV : V.Nodup) (hW : W.Perm V) :
    Function.Injective (relabelOn V W) := by
  have hlen : V.length = W.length := hW.length_eq.symm
  have hmap := map_mapGet_zip V W hV hlen
  have hinj : ∀ x ∈ V, ∀ y ∈ V, mapGet (V.zip W).reverse x = mapGet (V.zip W).reverse y →
      x = y := by
    intro x hx y hy
    refine List.inj_on_of_nodup_map ?_ hx hy
    rw [hmap]; exact hW.nodup_iff.mpr hV
  intro x y hxy
  unfold relabelOn at hxy
  by_cases hx : x ∈ V
  · by_cases hy : y ∈ V
    · rw [if_pos hx, if_pos hy] at hxy
      exact hinj x hx y hy hxy
    · rw [if_pos hx, if_neg hy] at hxy
      have := hW.mem_iff.mp (mapGet_zip_mem hV hlen hx)
      rw [hxy] at this
      exact absurd this hy
  · by_cases hy : y ∈ V
    · rw [if_neg hx, if_pos hy] at hxy
      have := hW.mem_iff.mp (mapGet_zip_mem hV hlen hy)
      rw [← hxy] at this
      exact absurd this hx
    · rw [if_neg hx, if_neg hy] at hxy
      exact hxy

theorem PosRel.vertices {Y Y' : Graph} (h : PosRel Y Y') :
    Y.Vertices.map (mapGet (Y.Vertices.zip Y'.Vertices).reverse) = Y'.Vertices :=
  map_mapGet_zip _ _ h.nodup h.len.symm

theorem PosRel.endpoints' {Y Y' : Graph} (h : PosRel Y Y') :
    ∀ e ∈ Y'.Edges, e.1 ∈ Y'.Vertices ∧ e.2 ∈ Y'.Vertices := by
  intro e he
  rw [h.edges] at he
  obtain ⟨e0, he0, rfl⟩ := List.mem_map.mp he
  have := h.endpoints e0 he0
  exact ⟨mapGet_zip_mem h.nodup h.len.symm this.1, mapGet_zip_mem h.nodup h.len.symm this.2⟩

theorem PosRel.commute {Y Y' : Graph} (h : PosRel Y Y') {v : Int} (hv : v ∈ Y.Vertices) :
    relabelOn (relabelGraph (spread Y.Vertices Y'.Vertices) Y).Vertices
        (relabelGraph (spread Y'.Vertices Y.Vertices) Y').Vertices
        (spread Y.Vertices Y'.Vertices v)
      = spread Y'.Vertices Y.Vertices (mapGet (Y.Vertices.zip Y'.Vertices).reverse v) := by
  have hα := spread_strictMono Y.Vertices Y'.Vertices h.len.symm
  unfold relabelOn
  simp only [relabelGraph]
  rw [if_pos (List.mem_map_of_mem _ hv), List.zip_map, ← List.map_reverse]
  apply mapGet_map_pair hα.injective
  rw [List.map_reverse, List.mem_reverse, map_fst_zip_of_length_eq _ _ h.len.symm]
  exact hv

theorem zip_map_key {β : Type} (σ : Int → Int) {V V' : List Int} {C C' : List β}
    (hV : V' = V.map σ) (hC : C' = C) :
    V'.zip C' = (V.zip C).map (fun vc => (σ vc.1, vc.2)) := by
  subst hV hC
  rw [List.zip_map_left]
  rfl

theorem PosRel.graphRel {Y Y' : Graph} (h : PosRel Y Y') :
    GraphRel
      (relabelOn (relabelGraph (spread Y.Vertices Y'.Vertices) Y).Vertices
        (relabelGraph (spread Y'.Vertices Y.Vertices) Y').Vertices)
      (relabelGraph (spread Y.Vertices Y'.Vertices) Y)
      (relabelGraph (spread Y'.Vertices Y.Vertices) Y') := by
  have hα := spread_strictMono Y.Vertices Y'.Vertices h.len.symm
  have hcommon := spread_common h.nodup h.nodup' h.len.symm
  have hndα : (Y.Vertices.map (spread Y.Vertices Y'.Vertices)).Nodup :=
    h.nodup.map hα.injective
  have hV : (relabelGraph (spread Y'.Vertices Y.Vertices) Y').Vertices
      = (relabelGraph (spread Y.Vertices Y'.Vertices) Y).Vertices.map
          (relabelOn (relabelGraph (spread Y.Vertices Y'.Vertices) Y).Vertices
            (relabelGraph (spread Y'.Vertices Y.Vertices) Y').Vertices) := by
    have : (relabelGraph (spread Y.Vertices Y'.Vertices) Y).Vertices.map
          (relabelOn (relabelGraph (spread Y.Vertices Y'.Vertices) Y).Vertices
            (relabelGraph (spread Y'.Vertices Y.Vertices) Y').Vertices)
        = Y.Vertices.map (fun v => spread Y'.Vertices Y.Vertices
            (mapGet (Y.Vertices.zip Y'.Vertices).reverse v)) := by
      simp only [relabelGraph, List.map_map]
      apply List.map_congr_left
      intro v hv
      exact h.commute hv
    rw [this]
    exact (congrArg (List.map (spread Y'.Vertices Y.Vertices)) h.vertices.symm).trans
      (by rw [List.map_map]; rfl)
  have hE : (relabelGraph (spread Y'.Vertices Y.Vertices) Y').Edges
      = (relabelGraph (spread Y.Vertices Y'.Vertices) Y).Edges.map
          (relabelEdge (relabelOn (relabelGraph (spread Y.Vertices Y'.Vertices) Y).Vertices
            (relabelGraph (spread Y'.Vertices Y.Vertices) Y').Vertices)) := by
    simp only [relabelGraph, h.edges, List.map_map]
    apply List.map_congr_left
    intro e he
    have := h.endpoints e he
    have c1 := h.commute this.1
    have c2 := h.commute this.2
    simp only [relabelGraph] at c1 c2
    simp only [Function.comp_apply, relabelEdge, c1, c2]
  constructor
  · exact relabelOn_injective hndα hcommon
  · exact hndα
  · exact hcommon
  · exact List.Perm.of_eq hV
  · exact List.Perm.of_eq (congrArg (List.map orientEdge) hE)
  · left
    refine ⟨hE, ?_⟩
    simp only [copiedEdgeColours, relabelGraph, List.length_map, h.edgeColours, h.edges]
  · intro _
    simp only [relabelGraph, List.length_map, h.vertexColours, h.len]
  · intro _ _
    exact List.Perm.of_eq (zip_map_key _ hV h.vertexColours)

theorem SearchTree_posRel {Y Y' : Graph} (h : PosRel Y Y') (p : List (List Int))
    (hp : p.flatten.Perm Y.Vertices) (prune : Bool) :
    SameOutcome
      (fun c' c => CandRel (relabelGraph (spread Y'.Vertices Y.Vertices) c')
        (relabelGraph (spread Y.Vertices Y'.Vertices) c))
      (SearchTree Y' (p.map (List.map (mapGet (Y.Vertices.zip Y'.Vertices).reverse))) prune)
      (SearchTree Y p prune) := by
  have hα := spread_strictMono Y.Vertices Y'.Vertices h.len.symm
  have hβ := spread_strictMono Y'.Vertices Y.Vertices h.len
  have hp' : (p.map (List.map (spread Y.Vertices Y'.Vertices))).flatten.Perm
      (relabelGraph (spread Y.Vertices Y'.Vertices) Y).Vertices := by
    rw [← List.map_flatten]
    exact hp.map _
  have hq : (p.map (List.map (mapGet (Y.Vertices.zip Y'.Vertices).reverse))).flatten.Perm
      Y'.Vertices := by
    have := hp.map (mapGet (Y.Vertices.zip Y'.Vertices).reverse)
    rw [h.vertices] at this
    rw [← List.map_flatten]
    exact this
  have hrel := SearchTree_rel h.graphRel prune _ hp'
  have hpart : (p.map (List.map (spread Y.Vertices Y'.Vertices))).map
        (List.map (relabelOn (relabelGraph (spread Y.Vertices Y'.Vertices) Y).Vertices
          (relabelGraph (spread Y'.Vertices Y.Vertices) Y').Vertices))
      = (p.map (List.map (mapGet (Y.Vertices.zip Y'.Vertices).reverse))).map
          (List.map (spread Y'.Vertices Y.Vertices)) := by
    rw [List.map_map, List.map_map]
    apply List.map_congr_left
    intro part hpart
    simp only [Function.comp_apply, List.map_map]
    apply List.map_congr_left
    intro v hv
    exact h.commute (hp.mem_iff.mp (List.mem_flatten.mpr ⟨part, hpart, hv⟩))
  rw [hpart, SearchTree_relabel hβ Y' h.nodup' h.endpoints' prune _ hq,
    SearchTree_relabel hα Y h.nodup h.endpoints prune p hp] at hrel
  revert hrel
  cases SearchTree Y' (p.map (List.map (mapGet (Y.Vertices.zip Y'.Vertices).reverse))) prune <;>
    cases SearchTree Y p prune <;> simp [SameOutcome]

/-! ## Graphs with new labels: relabelling, partition and layers -/

theorem GraphVertexRelabel_posRel (X : Graph) (W : List Int) (hX : WellFormed X) (hW : W.Nodup)
    (hlen : W.length = X.Vertices.length) :
    ∃ X', GraphVertexRelabel X W = some X' ∧ X'.Vertices = W ∧ PosRel X X' := by
  unfold GraphVertexRelabel
  rw [if_neg (not_not.mpr hlen.symm)]
  exact ⟨_, rfl, rfl, ⟨hX.nodup, hW, hlen, hX.endpoints, rfl, rfl, rfl⟩⟩

theorem mapGet_zip_inverse {V W : List Int} (hV : V.Nodup) (hW : W.Nodup)
    (hlen : V.length = W.length) {x : Int} (hx : x ∈ V) :
    mapGet (W.zip V).reverse (mapGet (V.zip W).reverse x) = x := by
  obtain ⟨i, hi, rfl⟩ := List.getElem_of_mem hx
  have hiW : i < W.length := by omega
  have h1 : mapGet (V.zip W).reverse V[i] = W[i] :=
    mapGet_zip_getElem hV hlen (List.getElem?_eq_getElem hi) (List.getElem?_eq_getElem hiW)
  rw [h1]
  exact mapGet_zip_getElem hW hlen.symm (List.getElem?_eq_getElem hiW)
    (List.getElem?_eq_getElem hi)

theorem PosRel.flip {Y Y' : Graph} (h : PosRel Y Y') : PosRel Y' Y := by
  refine ⟨h.nodup', h.nodup, h.len.symm, h.endpoints', ?_, h.vertexColours.symm,
    h.edgeColours.symm⟩
  rw [h.edges, List.map_map]
  conv_lhs => rw [← List.map_id Y.Edges]
  apply List.map_congr_left
  intro e he
  have := h.endpoints e he
  simp only [id, Function.comp_apply, relabelEdge,
    mapGet_zip_inverse h.nodup h.nodup' h.len.symm this.1,
    mapGet_zip_inverse h.nodup h.nodup' h.len.symm this.2]

theorem PosRel.wellFormedRight {Y Y' : Graph} (h : PosRel Y Y') (hY : WellFormed Y) :
    WellFormed Y' := by
  refine ⟨h.nodup', h.endpoints', ?_, ?_⟩
  · rw [h.vertexColours, h.len]; exact hY.vertexColours
  · rw [h.edgeColours, h.edges, List.length_map]; exact hY.edgeColours

theorem GraphColourPartition_posRel {Y Y' : Graph} (h : PosRel Y Y') :
    GraphColourPartition Y'
      = (GraphColourPartition Y).map
          (List.map (List.map (mapGet (Y.Vertices.zip Y'.Vertices).reverse))) := by
  have hV := h.vertices
  unfold GraphColourPartition
  rw [h.vertexColours, h.len]
  by_cases h0 : Y.VertexColours.length = 0
  · rw [if_pos h0, if_pos h0]
    simp only [Option.map_some', List.map_cons, List.map_nil, hV]
  · rw [if_neg h0, if_neg h0]
    by_cases h1 : Y.VertexColours.length < Y.Vertices.length
    · rw [if_pos h1, if_pos h1]; rfl
    · rw [if_neg h1, if_neg h1]
      simp only [Option.map_some', Option.some.injEq, List.map_map]
      apply List.map_congr_left
      intro c _
      simp only [Function.comp_apply]
      have hz : Y'.Vertices.zip Y.VertexColours
          = (Y.Vertices.zip Y.VertexColours).map
              (fun vc => (mapGet (Y.Vertices.zip Y'.Vertices).reverse vc.1, vc.2)) :=
        zip_map_key _ hV.symm rfl
      rw [hz, List.filter_map, List.map_map, List.map_map]
      rfl

theorem edgeColours_layers_pos (X : Graph) (h2 : 2 ≤ X.EdgeColours.length) :
    1 ≤ (sortStrings (distinctStrings X.EdgeColours)).length := by
  have hd := distinctStrings_spec X.EdgeColours
  have hperm : (sortStrings (distinctStrings X.EdgeColours)).Perm
      (distinctStrings X.EdgeColours) := List.perm_insertionSort _ _
  obtain ⟨c, hc⟩ : ∃ c, c ∈ X.EdgeColours := List.exists_mem_of_length_pos (by omega)
  have : c ∈ sortStrings (distinctStrings X.EdgeColours) := by
    rw [hperm.mem_iff, hd.2]; exact hc
  exact List.length_pos_of_mem this

theorem EdgeColourConversion_total (X : Graph) (hX : WellFormed X)
    (hec : X.EdgeColours.length = X.Edges.length) (h2 : 2 ≤ X.EdgeColours.length)
    (hvc : X.VertexColours.length = X.Vertices.length) :
    ∃ L, EdgeColourConversionZ X = some L := by
  have hd := distinctStrings_spec X.EdgeColours
  have hperm : (sortStrings (distinctStrings X.EdgeColours)).Perm
      (distinctStrings X.EdgeColours) := List.perm_insertionSort _ _
  have hk := edgeColours_layers_pos X h2
  unfold EdgeColourConversionZ
  rw [if_neg (by omega)]
  simp only
  have hv := vertexLayersLoop_spec X.Vertices _ hk hX.nodup X.Vertices [] X.VertexColours
    (NewColourGraph [] [] [] []) [] (by simp) (by omega)
  simp only [List.length_nil, Nat.zero_mul, Nat.cast_zero, add_zero] at hv
  rw [hv]
  simp only
  have he := edgeLayersLoop_spec X.Vertices _ (sortStrings (distinctStrings X.EdgeColours)) rfl
    hX.nodup X.Edges X.EdgeColours
    { NewColourGraph [] [] [] [] with
      Vertices := (NewColourGraph [] [] [] []).Vertices
        ++ X.Vertices.flatMap (fun v =>
            (List.range (sortStrings (distinctStrings X.EdgeColours)).length).map
              (layerLabel X.Vertices (sortStrings (distinctStrings X.EdgeColours)).length v))
      Edges := (NewColourGraph [] [] [] []).Edges
        ++ X.Vertices.flatMap (fun v =>
            (List.range' 1 ((sortStrings (distinctStrings X.EdgeColours)).length - 1)).map
              (fun i =>
                (layerLabel X.Vertices (sortStrings (distinctStrings X.EdgeColours)).length v
                    (i - 1),
                  layerLabel X.Vertices (sortStrings (distinctStrings X.EdgeColours)).length v i)))
      VertexColours := (NewColourGraph [] [] [] []).VertexColours
        ++ (X.Vertices.zip X.VertexColours).flatMap (fun vc =>
            (List.range (sortStrings (distinctStrings X.EdgeColours)).length).map
              (fun i => vc.2 ++ toString i)) }
    (by omega) hX.endpoints
    (by
      intro ec hmem
      rw [hperm.mem_iff, hd.2]
      exact (List.of_mem_zip hmem).2)
  rw [he]
  exact ⟨_, rfl⟩

theorem EdgeColourConversion_none (X : Graph) (hX : WellFormed X)
    (hec : X.EdgeColours.length = X.Edges.length) (h2 : 2 ≤ X.EdgeColours.length)
    (hvc : X.VertexColours.length ≠ X.Vertices.length) : EdgeColourConversionZ X = none := by
  cases h : EdgeColourConversionZ X with
  | none => rfl
  | some L => exact absurd (EdgeColourConversion_spec X L hX hec h2 h).1 hvc

theorem layered_mapGet {V V' : List Int} {k : Nat} (τ : Int → Int) (hV : V.Nodup)
    (hV' : V' = V.map τ) {v : Int} (hv : v ∈ V) {i : Nat} (hi : i < k) :
    mapGet ((V.flatMap (fun v => (List.range k).map (layerLabel V k v))).zip
        (V'.flatMap (fun v => (List.range k).map (layerLabel V' k v)))).reverse
        (layerLabel V k v i)
      = layerLabel V' k (τ v) i := by
  subst hV'
  have hzip : (V.flatMap (fun v => (List.range k).map (layerLabel V k v))).zip
        ((V.map τ).flatMap (fun v => (List.range k).map (layerLabel (V.map τ) k v)))
      = V.flatMap (fun v => (List.range k).map
          (fun i => (layerLabel V k v i, layerLabel (V.map τ) k (τ v) i))) := by
    rw [List.flatMap_map, zip_flatMap_eq _ _ _ (by intro a _; simp)]
    apply List.flatMap_congr
    intro a _
    rw [List.zip_map']
  apply mapGet_of_mem
  · rw [List.map_reverse, List.nodup_reverse, map_fst_zip_of_length_eq]
    · exact layerVertices_nodup V k hV
    · simp only [List.length_flatMap, List.length_map, List.length_range, List.map_map,
        Function.comp_def]
  · rw [List.mem_reverse, hzip, List.mem_flatMap]
    exact ⟨v, hv, List.mem_map.mpr ⟨i, List.mem_range.mpr hi, rfl⟩⟩

theorem Layered.posRel {k : Nat} {cols : List String} {X X' L L' : Graph}
    (h : Layered X.Vertices k cols X L) (h' : Layered X'.Vertices k cols X' L')
    (hp : PosRel X X') (hcols : cols.length = k) : PosRel L L' := by
  have hV' : X'.Vertices = X.Vertices.map (mapGet (X.Vertices.zip X'.Vertices).reverse) :=
    hp.vertices.symm
  have hK : ∀ v ∈ X.Vertices, ∀ i, i < k →
      mapGet (L.Vertices.zip L'.Vertices).reverse (layerLabel X.Vertices k v i)
        = layerLabel X'.Vertices k (mapGet (X.Vertices.zip X'.Vertices).reverse v) i := by
    intro v hv i hi
    rw [h.lvertices, h'.lvertices]
    exact layered_mapGet _ hp.nodup hV' hv hi
  refine ⟨?_, ?_, ?_, (h.wellFormed hp.nodup hcols).endpoints, ?_, ?_, ?_⟩
  · rw [h.lvertices]; exact layerVertices_nodup _ k hp.nodup
  · rw [h'.lvertices]; exact layerVertices_nodup _ k hp.nodup'
  · rw [h.lvertices, h'.lvertices]
    simp only [List.length_flatMap, List.length_map, List.length_range, Function.comp_def,
      List.map_const', List.sum_replicate, hp.len]
  · rw [h.ledges, h'.ledges, List.map_append]
    congr 1
    · conv_lhs => rw [hV', List.flatMap_map]
      rw [List.map_flatMap]
      apply List.flatMap_congr
      intro v hv
      rw [List.map_map]
      apply List.map_congr_left
      intro i hi
      have hi' := List.mem_range'_1.mp hi
      simp only [Function.comp_apply, relabelEdge, hK v hv (i - 1) (by omega),
        hK v hv i (by omega)]
      rw [← hV']
    · have hz : X'.Edges.zip X'.EdgeColours
          = (X.Edges.zip X.EdgeColours).map
              (fun ec => (relabelEdge (mapGet (X.Vertices.zip X'.Vertices).reverse) ec.1, ec.2)) := by
        rw [hp.edges, hp.edgeColours, List.zip_map_left]
        rfl
      rw [hz, List.map_map, List.map_map]
      apply List.map_congr_left
      intro ec hec
      have hend := h.endpoints ec.1 (List.of_mem_zip hec).1
      have hidx : cols.indexOf ec.2 < k := by
        rw [← hcols]; exact List.indexOf_lt_length.mpr (h.colsMem ec hec)
      simp only [Function.comp_apply, relabelEdge, hK _ hend.1 _ hidx, hK _ hend.2 _ hidx]
  · rw [h.lcolours, h'.lcolours]
    have hz : X'.Vertices.zip X'.VertexColours
        = (X.Vertices.zip X.VertexColours).map
            (fun vc => (mapGet (X.Vertices.zip X'.Vertices).reverse vc.1, vc.2)) :=
      zip_map_key _ hV' hp.vertexColours
    rw [hz, List.flatMap_map]
  · rw [h.ledgeColours, h'.ledgeColours]

theorem EdgeColourConversion_posRel {X X' : Graph} (hp : PosRel X X') (hX : WellFormed X)
    (hec : X.EdgeColours.length = X.Edges.length) :
    SameOutcome PosRel (EdgeColourConversionZ X) (EdgeColourConversionZ X') := by
  have hX' := hp.wellFormedRight hX
  have hec' : X'.EdgeColours.length = X'.Edges.length := by
    rw [hp.edgeColours, hp.edges, List.length_map]; exact hec
  by_cases h2 : 2 ≤ X.EdgeColours.length
  · have h2' : 2 ≤ X'.EdgeColours.length := by rw [hp.edgeColours]; exact h2
    by_cases hvc : X.VertexColours.length = X.Vertices.length
    · have hvc' : X'.VertexColours.length = X'.Vertices.length := by
        rw [hp.vertexColours, hp.len]; exact hvc
      obtain ⟨L, hL⟩ := EdgeColourConversion_total X hX hec h2 hvc
      obtain ⟨L', hL'⟩ := EdgeColourConversion_total X' hX' hec' h2' hvc'
      rw [hL, hL']
      simp only [SameOutcome]
      have hl := (layered_of_conversion X L hX hec h2 hL).1
      have hl' := (layered_of_conversion X' L' hX' hec' h2' hL').1
      rw [hp.edgeColours] at hl'
      exact hl.posRel hl' hp rfl
    · have hvc' : X'.VertexColours.length ≠ X'.Vertices.length := by
        rw [hp.vertexColours, hp.len]; exact hvc
      rw [EdgeColourConversion_none X hX hec h2 hvc,
        EdgeColourConversion_none X' hX' hec' h2' hvc']
      simp [SameOutcome]
  · unfold EdgeColourConversionZ
    rw [if_pos (by omega), if_pos (by rw [hp.edgeColours]; omega), CopyGraph_eq, CopyGraph_eq]
    simpa [SameOutcome] using hp

/-! ## The isomorphism test does not depend on the order of its arguments -/

theorem canonicalsEqual_search (l r : Graph) :
    (match GraphColourPartition l with
      | none => none
      | some partLeft =>
        match SearchTree l partLeft true with
        | none => none
        | some canonicalLeft =>
          match GraphColourPartition r with
          | none => none
          | some partRight =>
            match SearchTree r partRight true with
            | none => none
            | some canonicalRight => some (GraphEquals canonicalLeft canonicalRight))
      = canonicalsEqual
          (match GraphColourPartition l with
            | none => none
            | some p => SearchTree l p true)
          (match GraphColourPartition r with
            | none => none
            | some p => SearchTree r p true) := by
  cases GraphColourPartition l with
  | none => simp [canonicalsEqual]
  | some pl =>
    simp only
    cases SearchTree l pl true with
    | none => simp [canonicalsEqual]
    | some cl =>
      simp only
      cases GraphColourPartition r with
      | none => simp [canonicalsEqual]
      | some pr =>
        simp only
        cases SearchTree r pr true with
        | none => simp [canonicalsEqual]
        | some cr => simp [canonicalsEqual]

theorem GraphsIsomorphic_eq (L R : Graph) :
    GraphsIsomorphicZ L R
      = if !CanonicalInitialCheck L R then some false
        else
          match (if L.Vertices = R.Vertices then some R
            else GraphVertexRelabel R L.Vertices) with
          | none => none
          | some R0 =>
            canonicalsEqual (canonicalOf (decide (L.Edges.length = L.EdgeColours.length)) L)
              (canonicalOf (decide (L.Edges.length = L.EdgeColours.length)) R0) := by
  unfold GraphsIsomorphicZ
  split
  · rfl
  · cases (if L.Vertices = R.Vertices then some R else GraphVertexRelabel R L.Vertices) with
    | none => rfl
    | some R0 =>
      simp only [canonicalOf, checkGraph]
      by_cases hc : L.Edges.length = L.EdgeColours.length
      · simp only [hc, decide_True, if_true]
        cases EdgeColourConversionZ L with
        | none => simp [canonicalsEqual]
        | some l =>
          cases EdgeColourConversionZ R0 with
          | none =>
            simp only
            cases GraphColourPartition l with
            | none => simp [canonicalsEqual]
            | some pl => cases SearchTree l pl true <;> simp [canonicalsEqual]
          | some r =>
            simp only
            exact canonicalsEqual_search l r
      · simp only [hc, decide_False, if_false]
        exact canonicalsEqual_search L R0

theorem CanonicalInitialCheck_symm (A B : Graph) :
    CanonicalInitialCheck A B = CanonicalInitialCheck B A := by
  unfold CanonicalInitialCheck
  have h1 : decide (A.Vertices.length = B.Vertices.length)
      = decide (B.Vertices.length = A.Vertices.length) := by
    rw [Bool.eq_iff_iff, decide_eq_true_eq, decide_eq_true_eq]; exact eq_comm
  have h2 : decide (A.Edges.length = B.Edges.length)
      = decide (B.Edges.length = A.Edges.length) := by
    rw [Bool.eq_iff_iff, decide_eq_true_eq, decide_eq_true_eq]; exact eq_comm
  have h3 : decide (A.VertexColours.length = B.VertexColours.length)
      = decide (B.VertexColours.length = A.VertexColours.length) := by
    rw [Bool.eq_iff_iff, decide_eq_true_eq, decide_eq_true_eq]; exact eq_comm
  have h4 : decide (A.EdgeColours.length = B.EdgeColours.length)
      = decide (B.EdgeColours.length = A.EdgeColours.length) := by
    rw [Bool.eq_iff_iff, decide_eq_true_eq, decide_eq_true_eq]; exact eq_comm
  have h5 : (sortStrings A.EdgeColours ≠ sortStrings B.EdgeColours)
      ↔ (sortStrings B.EdgeColours ≠ sortStrings A.EdgeColours) := ne_comm
  have h6 : (sortStrings A.VertexColours ≠ sortStrings B.VertexColours)
      ↔ (sortStrings B.VertexColours ≠ sortStrings A.VertexColours) := ne_comm
  simp only [h1, h2, h3, h4]
  split
  · rfl
  · by_cases e : sortStrings A.EdgeColours ≠ sortStrings B.EdgeColours
    · rw [if_pos e, if_pos (h5.mp e)]
    · rw [if_neg e, if_neg (fun h => e (h5.mpr h))]
      by_cases v : sortStrings A.VertexColours ≠ sortStrings B.VertexColours
      · rw [if_pos v, if_pos (h6.mp v)]
      · rw [if_neg v, if_neg (fun h => v (h6.mpr h))]

theorem canonicalsEqual_comm (a b : Option Graph) : canonicalsEqual a b = canonicalsEqual b a := by
  cases a <;> cases b <;> simp [canonicalsEqual, GraphEquals_symm]

theorem EdgeColourConversion_wellFormed (X L : Graph) (hX : WellFormed X)
    (hec : X.EdgeColours.length = X.Edges.length) (h : EdgeColourConversionZ X = some L) :
    WellFormed L := by
  by_cases h2 : 2 ≤ X.EdgeColours.length
  · exact (layered_of_conversion X L hX hec h2 h).1.wellFormed hX.nodup rfl
  · unfold EdgeColourConversionZ at h
    rw [if_pos (by omega), CopyGraph_eq] at h
    simp only [Option.some.injEq] at h
    rw [← h]; exact hX

theorem checkGraph_wellFormed (c : Bool) (X Y : Graph) (hX : WellFormed X)
    (hc : c = true → X.EdgeColours.length = X.Edges.length) (h : checkGraph c X = some Y) :
    WellFormed Y := by
  unfold checkGraph at h
  cases c with
  | true => exact EdgeColourConversion_wellFormed X Y hX (hc rfl) h
  | false =>
    simp only [Bool.false_eq_true, if_false, Option.some.injEq] at h
    rw [← h]; exact hX

theorem checkGraph_posRel {X X' : Graph} (hp : PosRel X X') (hX : WellFormed X) (c : Bool)
    (hc : c = true → X.EdgeColours.length = X.Edges.length) :
    SameOutcome PosRel (checkGraph c X) (checkGraph c X') := by
  unfold checkGraph
  cases c with
  | true => simpa using EdgeColourConversion_posRel hp hX (hc rfl)
  | false => simpa [SameOutcome] using hp

theorem checkGraph_vertices (c : Bool) {X1 X2 Y1 Y2 : Graph} (h1 : WellFormed X1)
    (h2 : WellFormed X2) (hV : X1.Vertices = X2.Vertices)
    (hE : sortStrings X1.EdgeColours = sortStrings X2.EdgeColours)
    (hc1 : c = true → X1.EdgeColours.length = X1.Edges.length)
    (hc2 : c = true → X2.EdgeColours.length = X2.Edges.length)
    (hY1 : checkGraph c X1 = some Y1) (hY2 : checkGraph c X2 = some Y2) :
    Y1.Vertices = Y2.Vertices := by
  unfold checkGraph at hY1 hY2
  cases c with
  | false =>
    simp only [Bool.false_eq_true, if_false, Option.some.injEq] at hY1 hY2
    rw [← hY1, ← hY2]; exact hV
  | true =>
    simp only [if_true] at hY1 hY2
    have hlen : X1.EdgeColours.length = X2.EdgeColours.length :=
      (perm_of_sortStrings_eq hE).length_eq
    by_cases hk : 2 ≤ X1.EdgeColours.length
    · have s1 := EdgeColourConversion_spec X1 Y1 h1 (hc1 rfl) hk hY1
      have s2 := EdgeColourConversion_spec X2 Y2 h2 (hc2 rfl) (by omega) hY2
      rw [s1.2.1, s2.2.1, hV, sortedColours_eq hE]
    · unfold EdgeColourConversionZ at hY1 hY2
      rw [if_pos (by omega), CopyGraph_eq] at hY1 hY2
      simp only [Option.some.injEq] at hY1 hY2
      rw [← hY1, ← hY2]; exact hV

theorem canonicalOf_posRel {X X' : Graph} (hp : PosRel X X') (hX : WellFormed X) (c : Bool)
    (hc : c = true → X.EdgeColours.length = X.Edges.length) :
    SameOutcome
      (fun c' c0 => ∃ Y Y', checkGraph c X = some Y ∧ checkGraph c X' = some Y'
        ∧ CandRel (relabelGraph (spread Y'.Vertices Y.Vertices) c')
            (relabelGraph (spread Y.Vertices Y'.Vertices) c0))
      (canonicalOf c X') (canonicalOf c X) := by
  have hcheck := checkGraph_posRel hp hX c hc
  unfold canonicalOf
  cases hY : checkGraph c X with
  | none =>
    rw [hY] at hcheck
    cases hY' : checkGraph c X' with
    | none => simp [SameOutcome]
    | some Y' => rw [hY'] at hcheck; simp [SameOutcome] at hcheck
  | some Y =>
    rw [hY] at hcheck
    cases hY' : checkGraph c X' with
    | none => rw [hY'] at hcheck; simp [SameOutcome] at hcheck
    | some Y' =>
      rw [hY'] at hcheck
      simp only [SameOutcome] at hcheck
      have hwf := checkGraph_wellFormed c X Y hX hc hY
      simp only [GraphColourPartition_posRel hcheck]
      cases hP : GraphColourPartition Y with
      | none => simp [SameOutcome]
      | some p =>
        simp only [Option.map_some']
        have hflat := GraphColourPartition_flatten Y p hwf.vertexColours hP
        have ht := SearchTree_posRel hcheck p hflat true
        revert ht
        cases SearchTree Y' (p.map (List.map (mapGet (Y.Vertices.zip Y'.Vertices).reverse))) true <;>
          cases SearchTree Y p true <;> simp only [SameOutcome, imp_self]
        intro ht
        exact ⟨Y, Y', rfl, rfl, ht⟩

theorem canonicalsEqual_posRel {c : Bool} {G G' H H' : Graph} (hG : WellFormed G)
    (hH' : WellFormed H') (hpG : PosRel G G') (hpH : PosRel H' H)
    (hcG : c = true → G.EdgeColours.length = G.Edges.length)
    (hcH : c = true → H'.EdgeColours.length = H'.Edges.length)
    (hV : H'.Vertices = G.Vertices) (hV' : H.Vertices = G'.Vertices)
    (hE : sortStrings H'.EdgeColours = sortStrings G.EdgeColours) :
    canonicalsEqual (canonicalOf c H) (canonicalOf c G')
      = canonicalsEqual (canonicalOf c H') (canonicalOf c G) := by
  have t1 := canonicalOf_posRel hpG hG c hcG
  have t2 := canonicalOf_posRel hpH hH' c hcH
  have hG' := hpG.wellFormedRight hG
  have hH := hpH.wellFormedRight hH'
  cases hcg : canonicalOf c G with
  | none =>
    rw [hcg] at t1
    cases hcg' : canonicalOf c G' with
    | some x => rw [hcg'] at t1; simp [SameOutcome] at t1
    | none => cases canonicalOf c H <;> cases canonicalOf c H' <;> rfl
  | some cG =>
    rw [hcg] at t1
    cases hcg' : canonicalOf c G' with
    | none => rw [hcg'] at t1; simp [SameOutcome] at t1
    | some cG' =>
      rw [hcg'] at t1
      cases hch' : canonicalOf c H' with
      | none =>
        rw [hch'] at t2
        cases hch : canonicalOf c H with
        | some x => rw [hch] at t2; simp [SameOutcome] at t2
        | none => rfl
      | some cH' =>
        rw [hch'] at t2
        cases hch : canonicalOf c H with
        | none => rw [hch] at t2; simp [SameOutcome] at t2
        | some cH =>
          rw [hch] at t2
          simp only [SameOutcome] at t1 t2
          obtain ⟨Y1, Y1', hY1, hY1', r1⟩ := t1
          obtain ⟨Y2, Y2', hY2, hY2', r2⟩ := t2
          have e1 : Y2.Vertices = Y1.Vertices :=
            checkGraph_vertices c hH' hG hV hE hcH hcG hY2 hY1
          have e2 : Y2'.Vertices = Y1'.Vertices := by
            refine checkGraph_vertices c hH hG' hV' ?_ ?_ ?_ hY2' hY1'
            · rw [hpH.edgeColours, hpG.edgeColours]; exact hE
            · intro hc
              rw [hpH.edgeColours, hpH.edges, List.length_map]; exact hcH hc
            · intro hc
              rw [hpG.edgeColours, hpG.edges, List.length_map]; exact hcG hc
          rw [e1, e2] at r2
          have hα := spread_strictMono Y1.Vertices Y1'.Vertices (by
            have := checkGraph_posRel hpG hG c hcG
            rw [hY1, hY1'] at this
            exact this.len.symm)
          have hβ := spread_strictMono Y1'.Vertices Y1.Vertices (by
            have := checkGraph_posRel hpG hG c hcG
            rw [hY1, hY1'] at this
            exact this.len)
          simp only [canonicalsEqual, Option.some.injEq]
          rw [← GraphEquals_relabel hβ cH cG', GraphEquals_congr r2 r1,
            GraphEquals_relabel hα cH' cG]

set_option maxRecDepth 1000000 in
/-- C14 (as stated it fails): for the graphs `wrapGraph` and `smallTwin` of the
data model `GraphsIsomorphic` returns true in the one order and false in the
other: the graph on the right is relabelled with the labels of the graph on the
left, and the new labels of the layers wrap around only from the labels of
`wrapGraph`. -/
theorem C14_counterexample_labels_wrap :
    WellFormed wrapGraph ∧ WellFormed smallTwin
    ∧ GraphsIsomorphic wrapGraph smallTwin = some true
    ∧ GraphsIsomorphic smallTwin wrapGraph = some false := by
  refine ⟨⟨by decide, by decide, by decide, by decide⟩,
    ⟨by decide, by decide, by decide, by decide⟩, ?_, ?_⟩
  · decide!
  · decide!

/-- C14 (amended): for all graphs `G` and `H` (pairwise distinct vertex labels,
edge endpoints among the vertices, each list of colours empty or complete)
whose labels leave room for the labels of the layers (`LabelsFit`),
`GraphsIsomorphic G H` and `GraphsIsomorphic H G` end the same way: both with
the same answer, or both with a fatal error. -/
theorem C14_graphsIsomorphic_symmetric (G H : Graph) (hG : WellFormed G) (hH : WellFormed H)
    (hfG : LabelsFit G) (hfH : LabelsFit H) :
    GraphsIsomorphic G H = GraphsIsomorphic H G := by
  rw [GraphsIsomorphic_eq_Z G H hfG hfH, GraphsIsomorphic_eq_Z H G hfH hfG,
    GraphsIsomorphic_eq G H, GraphsIsomorphic_eq H G, CanonicalInitialCheck_symm H G]
  by_cases hc : CanonicalInitialCheck G H = true
  · obtain ⟨hVl, hEl, hVCl, hECl, hEC⟩ := CanonicalInitialCheck_unfold hc
    have hdec : decide (H.Edges.length = H.EdgeColours.length)
        = decide (G.Edges.length = G.EdgeColours.length) := by
      rw [Bool.eq_iff_iff, decide_eq_true_eq, decide_eq_true_eq]
      omega
    rw [hdec]
    simp only [hc, Bool.not_true, Bool.false_eq_true, if_false]
    by_cases hV : G.Vertices = H.Vertices
    · rw [if_pos hV, if_pos hV.symm]
      exact canonicalsEqual_comm _ _
    · rw [if_neg hV, if_neg (Ne.symm hV)]
      obtain ⟨H', hH'eq, hH'V, hpH⟩ := GraphVertexRelabel_posRel H G.Vertices hH hG.nodup hVl
      obtain ⟨G', hG'eq, hG'V, hpG⟩ :=
        GraphVertexRelabel_posRel G H.Vertices hG hH.nodup hVl.symm
      rw [hH'eq, hG'eq]
      simp only
      rw [canonicalsEqual_posRel hG (hpH.wellFormedRight hH) hpG hpH.flip
        (fun h => (of_decide_eq_true h).symm)
        (fun h => by
          have := of_decide_eq_true h
          rw [hpH.edgeColours, hpH.edges, List.length_map]
          omega)
        hH'V hG'V.symm (by rw [hpH.edgeColours]; exact hEC.symm)]
      exact canonicalsEqual_comm _ _
  · have hc' : CanonicalInitialCheck G H = false := by
      cases h : CanonicalInitialCheck G H
      · rfl
      · exact absurd h hc
    simp only [hc', Bool.not_false, if_true]

set_option maxRecDepth 100000 in
/-- C14 (amended) at the coloured path and its mirror image: the test accepts
the pair in the other order as well. -/
theorem C14_graphsIsomorphic_symmetric_witness :
    GraphsIsomorphic colouredPathRelabelled colouredPath = some true :=
  (C14_graphsIsomorphic_symmetric colouredPath colouredPathRelabelled colouredPath_wellFormed
    colouredPathRelabelled_wellFormed (by decide!) (by decide!)).symm.trans (by decide!)

/-! ## The update of the best pathway -/

theorem BestPathwayUpdate_index_le (best new : Pathway) (G : Graph) :
    AssemblyIndex (BestPathwayUpdate best new) G ≤ AssemblyIndex best G := by
  unfold BestPathwayUpdate AssemblyIndex
  simp only
  split
  · omega
  · exact le_refl _

theorem foldl_BestPathwayUpdate_index_le (G : Graph) :
    ∀ (news : List Pathway) (best : Pathway),
      AssemblyIndex (news.foldl BestPathwayUpdate best) G ≤ AssemblyIndex best G
  | [], _ => le_refl _
  | new :: news, best => by
    simp only [List.foldl_cons]
    exact le_trans (foldl_BestPathwayUpdate_index_le G news _)
      (BestPathwayUpdate_index_le best new G)

/-- C22: `BestPathwayUpdate best new` is `new` when `new` saves strictly more
steps than `best` and `best` otherwise; `BestPathwayListUpdate` with the variant
"shortest" does the same with the head of the list (the list becomes `[new]` or
stays as it is); hence over any sequence of updates the assembly index of the
incumbent with respect to a fixed graph does not increase. -/
theorem C22_bestPathwayUpdate_replaces_iff_better (best new : Pathway) (rest news : List Pathway)
    (G : Graph) :
    BestPathwayUpdate best new
        = (if PathwayStepsSaved best true < PathwayStepsSaved new true then new else best)
      ∧ BestPathwayListUpdate (best :: rest) new "shortest"
        = (if PathwayStepsSaved best true < PathwayStepsSaved new true then [new]
            else best :: rest)
      ∧ (BestPathwayListUpdate (best :: rest) new "shortest").head?
        = some (BestPathwayUpdate best new)
      ∧ AssemblyIndex (BestPathwayUpdate best new) G ≤ AssemblyIndex best G
      ∧ AssemblyIndex (news.foldl BestPathwayUpdate best) G ≤ AssemblyIndex best G := by
  refine ⟨rfl, ?_, ?_, BestPathwayUpdate_index_le best new G,
    foldl_BestPathwayUpdate_index_le G news best⟩
  · simp only [BestPathwayListUpdate, gt_iff_lt]
    split
    · rfl
    · rw [if_neg (fun h => absurd h.2 (by decide))]
  · simp only [BestPathwayListUpdate, BestPathwayUpdate, gt_iff_lt]
    split
    · rfl
    · rw [if_neg (fun h => absurd h.2 (by decide))]
      rfl

/-! ## The fatal error of the split of a graph -/

theorem vertexPosition_none {V : List Int} {v : Int} (hv : v ∉ V) :
    vertexPosition V v = none := by
  obtain ⟨h1, _⟩ := vertexPosition_aux V v (List.range V.length) none (by simp)
  cases h : vertexPosition V v with
  | none => rfl
  | some p => exact absurd (List.getElem?_mem (h1 p h)) hv

theorem copyGraphVertex_subset {G X X1 : Graph} {v : Int}
    (hX : ∀ w ∈ X.Vertices, w ∈ G.Vertices) (h : copyGraphVertex G X v = some X1) :
    v ∈ G.Vertices ∧ ∀ w ∈ X1.Vertices, w ∈ G.Vertices := by
  unfold copyGraphVertex at h
  by_cases hc : Contains X.Vertices v = true
  · rw [if_pos hc] at h
    cases h
    exact ⟨hX v (Contains_iff.mp hc), hX⟩
  · rw [if_neg hc] at h
    by_cases hv : v ∈ G.Vertices
    · refine ⟨hv, ?_⟩
      have hsub : ∀ w ∈ X.Vertices ++ [v], w ∈ G.Vertices := by
        intro w hw
        rcases List.mem_append.mp hw with hw | hw
        · exact hX w hw
        · rw [List.mem_singleton.mp hw]; exact hv
      simp only at h
      split at h
      · cases h
      · split at h
        · split at h
          · cases h
          · split at h
            · cases h
            · cases h; exact hsub
        · cases h; exact hsub
    · rw [vertexPosition_none hv] at h
      cases h

theorem CopyGraphEdge_subset {G X X1 : Graph} {i : Nat}
    (hX : ∀ w ∈ X.Vertices, w ∈ G.Vertices) (h : CopyGraphEdge G X i = some X1) :
    (∃ e, G.Edges[i]? = some e ∧ e.1 ∈ G.Vertices ∧ e.2 ∈ G.Vertices)
      ∧ ∀ w ∈ X1.Vertices, w ∈ G.Vertices := by
  have key : ∀ Y : Graph, CopyGraphVerticesFromEdge G Y i = some X1 →
      Y.Vertices = X.Vertices →
      (∃ e, G.Edges[i]? = some e ∧ e.1 ∈ G.Vertices ∧ e.2 ∈ G.Vertices)
        ∧ ∀ w ∈ X1.Vertices, w ∈ G.Vertices := by
    intro Y hc hY
    unfold CopyGraphVerticesFromEdge at hc
    cases he : G.Edges[i]? with
    | none => rw [he] at hc; cases hc
    | some e =>
      rw [he] at hc
      simp only at hc
      cases h1 : copyGraphVertex G Y e.1 with
      | none => rw [h1] at hc; cases hc
      | some Y1 =>
        rw [h1] at hc
        simp only at hc
        obtain ⟨ha, hY1⟩ := copyGraphVertex_subset (by rw [hY]; exact hX) h1
        obtain ⟨hb, hX1⟩ := copyGraphVertex_subset hY1 hc
        exact ⟨⟨e, rfl, ha, hb⟩, hX1⟩
  unfold CopyGraphEdge at h
  cases he : G.Edges[i]? with
  | none => rw [he] at h; cases h
  | some e =>
    rw [he] at h
    simp only at h
    split at h
    · split at h
      · cases h
      · split at h
        · cases h
        · have := key _ h rfl
          rwa [he] at this
    · have := key _ h rfl
      rwa [he] at this

theorem breakLoop_fatal {G : Graph} (edges : List Nat) {e : Int × Int}
    (hbad : e.1 ∉ G.Vertices ∨ e.2 ∉ G.Vertices) :
    ∀ (l : List Nat) (B R : Graph), (∃ i ∈ l, G.Edges[i]? = some e) →
      (∀ w ∈ B.Vertices, w ∈ G.Vertices) → (∀ w ∈ R.Vertices, w ∈ G.Vertices) →
      breakLoop G edges l (B, R) = none
  | [], _, _, h, _, _ => by simp at h
  | j :: l, B, R, h, hB, hR => by
    have hstep : ∀ X X1 : Graph, (∀ w ∈ X.Vertices, w ∈ G.Vertices) →
        CopyGraphEdge G X j = some X1 →
        (∃ i ∈ l, G.Edges[i]? = some e) ∧ ∀ w ∈ X1.Vertices, w ∈ G.Vertices := by
      intro X X1 hX hc
      obtain ⟨⟨e1, he1, ha, hb⟩, hX1⟩ := CopyGraphEdge_subset hX hc
      refine ⟨?_, hX1⟩
      obtain ⟨i, hi, hie⟩ := h
      rcases List.mem_cons.mp hi with rfl | hi
      · rw [he1] at hie
        cases hie
        rcases hbad with hbad | hbad
        · exact absurd ha hbad
        · exact absurd hb hbad
      · exact ⟨i, hi, hie⟩
    simp only [breakLoop]
    split
    · cases hc : CopyGraphEdge G B j with
      | none => rfl
      | some B1 =>
        obtain ⟨hl, hB1⟩ := hstep B B1 hB hc
        exact breakLoop_fatal edges hbad l B1 R hl hB1 hR
    · cases hc : CopyGraphEdge G R j with
      | none => rfl
      | some R1 =>
        obtain ⟨hl, hR1⟩ := hstep R R1 hR hc
        exact breakLoop_fatal edges hbad l B R1 hl hB hR1

/-- C25: `BreakGraphOnEdges G E'` ends in a fatal error when some edge of `G`
has an endpoint that is not in the vertex list of `G`, and it returns a pair of
graphs when every endpoint of an edge is in the vertex list and each colour list
of `G` is empty or as long as the list of vertices, respectively edges. -/
theorem C25_breakGraphOnEdges_fatal_or_succeeds (G : Graph) (E' : List Nat) :
    ((∃ e ∈ G.Edges, e.1 ∉ G.Vertices ∨ e.2 ∉ G.Vertices) → BreakGraphOnEdges G E' = none)
      ∧ ((∀ e ∈ G.Edges, e.1 ∈ G.Vertices ∧ e.2 ∈ G.Vertices) →
          (G.VertexColours = [] ∨ G.VertexColours.length = G.Vertices.length) →
          (G.EdgeColours = [] ∨ G.EdgeColours.length = G.Edges.length) →
          ∃ B R, BreakGraphOnEdges G E' = some (B, R)) := by
  constructor
  · rintro ⟨e, he, hbad⟩
    obtain ⟨i, hi, hie⟩ := List.getElem_of_mem he
    exact breakLoop_fatal E' hbad (List.range G.Edges.length) _ _
      ⟨i, List.mem_range.mpr hi, by rw [List.getElem?_eq_getElem hi, hie]⟩
      (by simp [NewColourGraph]) (by simp [NewColourGraph])
  · intro hend hvc hec
    obtain ⟨B, R, h, _, _⟩ := breakLoop_spec E' hend hvc hec (List.range G.Edges.length) [] []
      _ _ (fun i hi => List.mem_range.mp hi) (extracted_empty G) (extracted_empty G)
    exact ⟨B, R, h⟩

/-- C25 at an edge with an endpoint that is not a vertex, and at the coloured
path. -/
theorem C25_breakGraphOnEdges_fatal_or_succeeds_witness :
    BreakGraphOnEdges (NewGraph [1, 2] [(1, 2), (2, 3)]) [0] = none
      ∧ ∃ B R, BreakGraphOnEdges colouredPath [1] = some (B, R) :=
  ⟨(C25_breakGraphOnEdges_fatal_or_succeeds (NewGraph [1, 2] [(1, 2), (2, 3)]) [0]).1
      ⟨(2, 3), by decide, by decide⟩,
    (C25_breakGraphOnEdges_fatal_or_succeeds colouredPath [1]).2
      (by decide) (by decide) (by decide)⟩

/-! ## The layered graph of an edge-coloured graph -/

theorem length_flatMap_const {α β : Type} (l : List α) (f : α → List β) (n : Nat)
    (h : ∀ a ∈ l, (f a).length = n) : (l.flatMap f).length = n * l.length := by
  induction l with
  | nil => simp
  | cons a l ih =>
    rw [List.flatMap_cons, List.length_append, h a (by simp),
      ih (fun b hb => h b (by simp [hb])), List.length_cons]
    ring

/-- C24 (as stated it fails): `wrapGraph` is a graph of the data model with one
colour per vertex, one colour per edge and two edges, and the layered graph of
`EdgeColourConversion` lists two labels twice: the new labels start at
`MaxInt64 + 1`, which wraps around to the smallest `int`, a label of the
graph. -/
theorem C24_counterexample_labels_wrap :
    WellFormed wrapGraph
    ∧ wrapGraph.VertexColours.length = wrapGraph.Vertices.length
    ∧ wrapGraph.EdgeColours.length = wrapGraph.Edges.length
    ∧ 2 ≤ wrapGraph.Edges.length
    ∧ (EdgeColourConversion wrapGraph).map (fun L => L.Vertices)
        = some [9223372036854775807, -9223372036854775808, -9223372036854775808,
            -9223372036854775807, -9223372036854775807, -9223372036854775806]
    ∧ ¬ ([9223372036854775807, -9223372036854775808, -9223372036854775808,
            -9223372036854775807, -9223372036854775807, -9223372036854775806] : List Int).Nodup := by
  refine ⟨⟨by decide, by decide, by decide, by decide⟩, by decide, by decide, by decide, ?_,
    by decide⟩
  decide!

/-- C24 (amended): for a graph `G` of the data model (distinct vertices, every
endpoint a vertex) with one colour per vertex, one colour per edge and at least
two edges, whose labels leave room for the labels of the layers (`LabelsFit`),
and the list `c_0 < ... < c_(k-1)` of its distinct edge colours in increasing
order, `EdgeColourConversion G` returns a graph `L` without edge colours, with
`k * |V|` pairwise distinct vertices and `(k - 1) * |V| + |E|` edges: the
vertices are the copies `layerLabel v i` of the vertices `v` at the layers
`i < k`, the copy at layer 0 being `v`, the copy at layer `i` of a vertex of
colour `g` has the colour `g` followed by the decimal numeral of `i`, the edges
are the edges between the copies at the layers `i - 1` and `i` of each vertex
(`1 ≤ i < k`), followed by, for each edge `(u, v)` of `G` of colour `c_i`, the
edge between the copies of `u` and `v` at the layer `i`. -/
theorem C24_edgeColourConversion_layered (G : Graph) (hG : WellFormed G)
    (hvc : G.VertexColours.length = G.Vertices.length)
    (hec : G.EdgeColours.length = G.Edges.length) (h2 : 2 ≤ G.Edges.length)
    (hfit : LabelsFit G) :
    ∃ L, EdgeColourConversion G = some L
      ∧ (colourLayers G).Pairwise (fun a b => strLe a b = true ∧ a ≠ b)
      ∧ (∀ c, c ∈ colourLayers G ↔ c ∈ G.EdgeColours)
      ∧ L.EdgeColours = []
      ∧ L.Vertices.length = (colourLayers G).length * G.Vertices.length
      ∧ L.Vertices.Nodup
      ∧ L.Edges.length = ((colourLayers G).length - 1) * G.Vertices.length + G.Edges.length
      ∧ L.Vertices = G.Vertices.flatMap (fun v =>
          (List.range (colourLayers G).length).map
            (layerLabel G.Vertices (colourLayers G).length v))
      ∧ (∀ v, layerLabel G.Vertices (colourLayers G).length v 0 = v)
      ∧ L.VertexColours = (G.Vertices.zip G.VertexColours).flatMap (fun vc =>
          (List.range (colourLayers G).length).map (fun i => vc.2 ++ toString i))
      ∧ L.Edges = G.Vertices.flatMap (fun v =>
            (List.range' 1 ((colourLayers G).length - 1)).map
              (fun i =>
                (layerLabel G.Vertices (colourLayers G).length v (i - 1),
                  layerLabel G.Vertices (colourLayers G).length v i)))
          ++ (G.Edges.zip G.EdgeColours).map (fun ec =>
            (layerLabel G.Vertices (colourLayers G).length ec.1.1
                ((colourLayers G).indexOf ec.2),
              layerLabel G.Vertices (colourLayers G).length ec.1.2
                ((colourLayers G).indexOf ec.2)))
      ∧ (∀ ec ∈ G.Edges.zip G.EdgeColours,
          (colourLayers G)[(colourLayers G).indexOf ec.2]? = some ec.2) := by
  have h2c : 2 ≤ G.EdgeColours.length := by omega
  rw [EdgeColourConversion_eq_Z G hfit]
  obtain ⟨L, hL⟩ := EdgeColourConversion_total G hG hec h2c hvc
  obtain ⟨_, hV, hC, hE, hEC⟩ := EdgeColourConversion_spec G L hG hec h2c hL
  have hd := distinctStrings_spec G.EdgeColours
  have hperm : (colourLayers G).Perm (distinctStrings G.EdgeColours) :=
    List.perm_insertionSort _ _
  have hmem : ∀ c, c ∈ colourLayers G ↔ c ∈ G.EdgeColours := by
    intro c
    rw [hperm.mem_iff, hd.2]
  have hsorted : (colourLayers G).Pairwise (fun a b => strLe a b = true) :=
    List.sorted_insertionSort _ _
  have hnd : (colourLayers G).Nodup := hperm.nodup_iff.mpr hd.1
  refine ⟨L, hL, hsorted.and hnd, hmem, hEC, ?_, ?_, ?_, hV, ?_, hC, hE, ?_⟩
  · rw [hV]
    exact length_flatMap_const _ _ _ (fun a _ => by simp [colourLayers])
  · rw [hV]
    exact layerVertices_nodup _ _ hG.nodup
  · rw [hE, List.length_append, List.length_map, List.length_zip, hec, Nat.min_self]
    congr 1
    exact length_flatMap_const _ _ _ (fun a _ => by simp [colourLayers])
  · intro v
    exact layerLabel_zero _ _ v
  · intro ec hmemec
    have hc : ec.2 ∈ colourLayers G := (hmem ec.2).mpr (List.of_mem_zip hmemec).2
    rw [List.getElem?_eq_getElem (List.indexOf_lt_length.mpr hc)]
    simp

/-- C24 (amended) at the path with three vertices, vertex colours `a`, `b`, `c`
and edge colours `x`, `y`. -/
theorem C24_edgeColourConversion_layered_witness :
    ∃ L, EdgeColourConversion colouredPath = some L
      ∧ (colourLayers colouredPath).Pairwise (fun a b => strLe a b = true ∧ a ≠ b)
      ∧ (∀ c, c ∈ colourLayers colouredPath ↔ c ∈ colouredPath.EdgeColours)
      ∧ L.EdgeColours = []
      ∧ L.Vertices.length = (colourLayers colouredPath).length * colouredPath.Vertices.length
      ∧ L.Vertices.Nodup
      ∧ L.Edges.length = ((colourLayers colouredPath).length - 1) * colouredPath.Vertices.length
          + colouredPath.Edges.length
      ∧ L.Vertices = colouredPath.Vertices.flatMap (fun v =>
          (List.range (colourLayers colouredPath).length).map
            (layerLabel colouredPath.Vertices (colourLayers colouredPath).length v))
      ∧ (∀ v, layerLabel colouredPath.Vertices (colourLayers colouredPath).length v 0 = v)
      ∧ L.VertexColours = (colouredPath.Vertices.zip colouredPath.VertexColours).flatMap
          (fun vc => (List.range (colourLayers colouredPath).length).map
            (fun i => vc.2 ++ toString i))
      ∧ L.Edges = colouredPath.Vertices.flatMap (fun v =>
            (List.range' 1 ((colourLayers colouredPath).length - 1)).map
              (fun i =>
                (layerLabel colouredPath.Vertices (colourLayers colouredPath).length v (i - 1),
                  layerLabel colouredPath.Vertices (colourLayers colouredPath).length v i)))
          ++ (colouredPath.Edges.zip colouredPath.EdgeColours).map (fun ec =>
            (layerLabel colouredPath.Vertices (colourLayers colouredPath).length ec.1.1
                ((colourLayers colouredPath).indexOf ec.2),
              layerLabel colouredPath.Vertices (colourLayers colouredPath).length ec.1.2
                ((colourLayers colouredPath).indexOf ec.2)))
      ∧ (∀ ec ∈ colouredPath.Edges.zip colouredPath.EdgeColours,
          (colourLayers colouredPath)[(colourLayers colouredPath).indexOf ec.2]? = some ec.2) :=
  C24_edgeColourConversion_layered colouredPath
    ⟨by decide, by decide, by decide, by decide⟩ (by decide) (by decide) (by decide)
    (by decide!)

/-! ## The order filter on pairs of copies -/

theorem SliceCompareEq_xor : ∀ l1 l2 : List Int, l1.length = l2.length → l1 ≠ l2 →
    SliceCompareEq l1 l2 = !SliceCompareEq l2 l1
  | [], [], _, hne => absurd rfl hne
  | [], _ :: _, hlen, _ => by simp at hlen
  | _ :: _, [], hlen, _ => by simp at hlen
  | a :: l1, b :: l2, hlen, hne => by
    simp only [SliceCompareEq]
    by_cases hab : a = b
    · subst hab
      simp only [ne_eq, not_true_eq_false, if_false]
      exact SliceCompareEq_xor l1 l2 (by simpa using hlen) (fun h => hne (by rw [h]))
    · have hba : b ≠ a := fun h => hab h.symm
      rw [if_pos hab, if_pos hba]
      by_cases h : a < b
      · have : ¬ b < a := by omega
        simp [h, this]
      · have : b < a := by omega
        simp [h, this]

theorem sortInts_pair (e : Int × Int) :
    sortInts [e.1, e.2] = [(orientEdge e).1, (orientEdge e).2] := by
  unfold sortInts orientEdge
  simp only [List.insertionSort, List.orderedInsert]
  by_cases h : e.1 < e.2
  · rw [if_pos (le_of_lt h), if_pos h]
  · rw [if_neg h]
    by_cases h1 : e.1 ≤ e.2
    · have : e.1 = e.2 := by omega
      rw [if_pos h1, this]
    · rw [if_neg h1]

theorem EdgeSortWith_eq_map (sort : List (List Int) → List (List Int))
    (hsort : ∀ l, (sort l).Perm l) (edges : List (Int × Int)) :
    ∃ l : List (Int × Int), l.Perm (edges.map orientEdge)
      ∧ EdgeSortWith sort edges = l.map (fun p => [p.1, p.2]) := by
  have h1 : edges.map (fun e => sortInts [e.1, e.2])
      = (edges.map orientEdge).map (fun p => [p.1, p.2]) := by
    rw [List.map_map]
    apply List.map_congr_left
    intro e _
    exact sortInts_pair e
  unfold EdgeSortWith
  rw [h1]
  have hp := hsort ((edges.map orientEdge).map (fun p => [p.1, p.2]))
  refine ⟨(sort ((edges.map orientEdge).map (fun p => [p.1, p.2]))).map
      (fun l => (l.headD 0, l.getD 1 0)), ?_, ?_⟩
  · have := hp.map (fun l : List Int => (l.headD 0, l.getD 1 0))
    refine this.trans ?_
    rw [List.map_map]
    have hid : (edges.map orientEdge).map
        ((fun l : List Int => (l.headD 0, l.getD 1 0)) ∘ (fun p : Int × Int => [p.1, p.2]))
        = edges.map orientEdge := by
      conv_rhs => rw [← List.map_id (edges.map orientEdge)]
      apply List.map_congr_left
      intro x _
      rfl
    rw [hid]
  · have hmem : ∀ x ∈ sort ((edges.map orientEdge).map (fun p => [p.1, p.2])),
        ∃ q : Int × Int, x = [q.1, q.2] := by
      intro x hx
      obtain ⟨q, _, rfl⟩ := List.mem_map.mp (hp.mem_iff.mp hx)
      exact ⟨q, rfl⟩
    have key : ∀ S : List (List Int), (∀ x ∈ S, ∃ q : Int × Int, x = [q.1, q.2]) →
        S = (S.map (fun l => (l.headD 0, l.getD 1 0))).map
          (fun p : Int × Int => [p.1, p.2]) := by
      intro S
      induction S with
      | nil => intro _; rfl
      | cons x S ih =>
        intro h
        obtain ⟨q, rfl⟩ := h x (by simp)
        simp only [List.map_cons]
        rw [← ih (fun y hy => h y (by simp [hy]))]
        rfl
    exact key _ hmem

theorem EdgeSort_eq_with (edges : List (Int × Int)) :
    EdgeSort edges = EdgeSortWith stableEdgeSort edges := rfl

theorem SubgraphEdgeCompare_eq_with (a b : List (Int × Int)) :
    SubgraphEdgeCompare a b = SubgraphEdgeCompareWith stableEdgeSort a b := rfl

theorem stableEdgeSort_perm (l : List (List Int)) : (stableEdgeSort l).Perm l :=
  List.perm_insertionSort _ l

theorem flatten_pairs_injective : ∀ p q : List (Int × Int),
    (p.map (fun e => [e.1, e.2])).flatten = (q.map (fun e => [e.1, e.2])).flatten → p = q
  | [], [], _ => rfl
  | [], _ :: _, h => by simp at h
  | _ :: _, [], h => by simp at h
  | a :: p, b :: q, h => by
    simp only [List.map_cons, List.flatten_cons, List.cons_append, List.nil_append,
      List.cons.injEq] at h
    obtain ⟨h1, h2, h3⟩ := h
    rw [flatten_pairs_injective p q h3, Prod.ext h1 h2]

theorem length_flatten_EdgeSortWith (sort : List (List Int) → List (List Int))
    (hsort : ∀ l, (sort l).Perm l) (edges : List (Int × Int)) :
    (Flatten (EdgeSortWith sort edges)).length = 2 * edges.length := by
  obtain ⟨l, hl, he⟩ := EdgeSortWith_eq_map sort hsort edges
  rw [he, Flatten]
  have : ∀ l : List (Int × Int), ((l.map (fun p => [p.1, p.2])).flatten).length = 2 * l.length := by
    intro l
    induction l with
    | nil => rfl
    | cons a l ih =>
      simp only [List.map_cons, List.flatten_cons, List.length_append, ih, List.length_cons,
        List.length_nil]
      omega
  rw [this, hl.length_eq, List.length_map]

theorem perm_orient_of_flatten_eq (sort : List (List Int) → List (List Int))
    (hsort : ∀ l, (sort l).Perm l) {a b : List (Int × Int)}
    (h : Flatten (EdgeSortWith sort a) = Flatten (EdgeSortWith sort b)) :
    (a.map orientEdge).Perm (b.map orientEdge) := by
  obtain ⟨la, hla, hea⟩ := EdgeSortWith_eq_map sort hsort a
  obtain ⟨lb, hlb, heb⟩ := EdgeSortWith_eq_map sort hsort b
  rw [hea, heb] at h
  have := flatten_pairs_injective la lb h
  rw [this] at hla
  exact hla.symm.trans hlb

theorem length_edgesAt (R : Graph) : ∀ idxs : List Nat, (∀ i ∈ idxs, i < R.Edges.length) →
    (edgesAt R idxs).length = idxs.length
  | [], _ => rfl
  | i :: idxs, h => by
    have hi := h i (by simp)
    unfold edgesAt
    rw [List.filterMap_cons, List.getElem?_eq_getElem hi]
    simp only [List.length_cons]
    have := length_edgesAt R idxs (fun j hj => h j (by simp [hj]))
    unfold edgesAt at this
    rw [this]

theorem mem_edgesAt {R : Graph} {idxs : List Nat} {e : Int × Int} (h : e ∈ edgesAt R idxs) :
    ∃ i ∈ idxs, R.Edges[i]? = some e := by
  unfold edgesAt at h
  obtain ⟨i, hi, hie⟩ := List.mem_filterMap.mp h
  exact ⟨i, hi, hie⟩

theorem edgesAt_flatten_ne (sort : List (List Int) → List (List Int))
    (hsort : ∀ l, (sort l).Perm l) {R : Graph} (hR : NoParallelEdges R) {la lb : List Nat}
    (hA : ∀ i ∈ la, i < R.Edges.length) (hd : ∀ i ∈ la, i ∉ lb) (hne : la ≠ []) :
    Flatten (EdgeSortWith sort (edgesAt R la)) ≠ Flatten (EdgeSortWith sort (edgesAt R lb)) := by
  intro h
  have hp := perm_orient_of_flatten_eq sort hsort h
  obtain ⟨i, hi⟩ := List.exists_mem_of_ne_nil la hne
  have hiR := hA i hi
  have hmem : orientEdge R.Edges[i] ∈ (edgesAt R la).map orientEdge := by
    apply List.mem_map_of_mem
    unfold edgesAt
    exact List.mem_filterMap.mpr ⟨i, hi, List.getElem?_eq_getElem hiR⟩
  rw [hp.mem_iff] at hmem
  obtain ⟨e, he, heq⟩ := List.mem_map.mp hmem
  obtain ⟨j, hj, hje⟩ := mem_edgesAt he
  obtain ⟨hjR, hje1⟩ := List.getElem?_eq_some_iff.mp hje
  have hij : i ≠ j := fun hij => hd i hi (hij ▸ hj)
  unfold NoParallelEdges at hR
  have h1 : (R.Edges.map orientEdge)[i]? = some (orientEdge R.Edges[i]) := by
    rw [List.getElem?_map, List.getElem?_eq_getElem hiR]; rfl
  have h2 : (R.Edges.map orientEdge)[j]? = some (orientEdge R.Edges[i]) := by
    rw [List.getElem?_map, List.getElem?_eq_getElem hjR, hje1, ← heq]; rfl
  have hi1 : i < (R.Edges.map orientEdge).length := by simpa using hiR
  have hj1 : j < (R.Edges.map orientEdge).length := by simpa using hjR
  rw [List.getElem?_eq_getElem hi1] at h1
  rw [List.getElem?_eq_getElem hj1] at h2
  have heq1 : (R.Edges.map orientEdge)[i] = (R.Edges.map orientEdge)[j] := by
    rw [Option.some.inj h1, Option.some.inj h2]
  exact hij (hR.getElem_inj_iff.mp heq1)

/-- C29 as stated fails for a graph with two parallel edges: the edge lists of
the disjoint index sets `{0}` and `{1}` have the same sorted flattened list, and
`SubgraphEdgeCompare` is false in both orders. -/
theorem C29_counterexample_parallel_edges :
    Disjoint ({0} : Finset Nat) {1}
      ∧ (∀ i ∈ ({0} : Finset Nat), i < doubleEdge.Edges.length)
      ∧ (∀ i ∈ ({1} : Finset Nat), i < doubleEdge.Edges.length)
      ∧ ({0} : Finset Nat).Nonempty ∧ ({1} : Finset Nat).Nonempty
      ∧ ({0} : Finset Nat).card = ({1} : Finset Nat).card
      ∧ SubgraphEdgeCompare (edgesAt doubleEdge (({0} : Finset Nat).sort (fun a b => a ≤ b)))
          (edgesAt doubleEdge (({1} : Finset Nat).sort (fun a b => a ≤ b))) = false
      ∧ SubgraphEdgeCompare (edgesAt doubleEdge (({1} : Finset Nat).sort (fun a b => a ≤ b)))
          (edgesAt doubleEdge (({0} : Finset Nat).sort (fun a b => a ≤ b))) = false := by
  refine ⟨by decide, by decide, by decide, by decide, by decide, by decide, ?_, ?_⟩
  · simp only [Finset.sort_singleton]; decide
  · simp only [Finset.sort_singleton]; decide

/-- C29, amended: for every graph `R` in which no two edges join the same two
vertices and every two disjoint, non-empty sets `A` and `B` of edge indices of
`R` of the same size, with edge lists `a` and `b` taken in increasing index
order, and for every function `sort` that returns a rearrangement of its input
in the place of `sort.Slice` (whatever order it gives to the edges with the same
first endpoint), the sorted flattened edge lists of `a` and `b` differ and
exactly one of `SubgraphEdgeCompare a b` and `SubgraphEdgeCompare b a` is true;
so it is for the insertion sort of the embedding. -/
theorem C29_subgraphEdgeCompare_one_order (R : Graph) (hR : NoParallelEdges R)
    (A B : Finset Nat) (hA : ∀ i ∈ A, i < R.Edges.length) (hB : ∀ i ∈ B, i < R.Edges.length)
    (hd : Disjoint A B) (hne : A.Nonempty) (hcard : A.card = B.card)
    (sort : List (List Int) → List (List Int)) (hsort : ∀ l, (sort l).Perm l) :
    (Flatten (EdgeSortWith sort (edgesAt R (A.sort (fun a b => a ≤ b))))
        ≠ Flatten (EdgeSortWith sort (edgesAt R (B.sort (fun a b => a ≤ b))))
      ∧ SubgraphEdgeCompareWith sort (edgesAt R (A.sort (fun a b => a ≤ b)))
          (edgesAt R (B.sort (fun a b => a ≤ b)))
        = !SubgraphEdgeCompareWith sort (edgesAt R (B.sort (fun a b => a ≤ b)))
          (edgesAt R (A.sort (fun a b => a ≤ b))))
    ∧ SubgraphEdgeCompare (edgesAt R (A.sort (fun a b => a ≤ b)))
          (edgesAt R (B.sort (fun a b => a ≤ b)))
        = !SubgraphEdgeCompare (edgesAt R (B.sort (fun a b => a ≤ b)))
          (edgesAt R (A.sort (fun a b => a ≤ b))) := by
  have hA1 : ∀ i ∈ A.sort (fun a b => a ≤ b), i < R.Edges.length :=
    fun i hi => hA i ((Finset.mem_sort _).mp hi)
  have hB1 : ∀ i ∈ B.sort (fun a b => a ≤ b), i < R.Edges.length :=
    fun i hi => hB i ((Finset.mem_sort _).mp hi)
  have hd1 : ∀ i ∈ A.sort (fun a b => a ≤ b), i ∉ B.sort (fun a b => a ≤ b) := by
    intro i hi hj
    exact Finset.disjoint_left.mp hd ((Finset.mem_sort _).mp hi) ((Finset.mem_sort _).mp hj)
  have hne1 : A.sort (fun a b => a ≤ b) ≠ [] := by
    obtain ⟨i, hi⟩ := hne
    exact List.ne_nil_of_mem ((Finset.mem_sort _).mpr hi)
  have key : ∀ (srt : List (List Int) → List (List Int)), (∀ l, (srt l).Perm l) →
      Flatten (EdgeSortWith srt (edgesAt R (A.sort (fun a b => a ≤ b))))
          ≠ Flatten (EdgeSortWith srt (edgesAt R (B.sort (fun a b => a ≤ b))))
        ∧ SubgraphEdgeCompareWith srt (edgesAt R (A.sort (fun a b => a ≤ b)))
            (edgesAt R (B.sort (fun a b => a ≤ b)))
          = !SubgraphEdgeCompareWith srt (edgesAt R (B.sort (fun a b => a ≤ b)))
            (edgesAt R (A.sort (fun a b => a ≤ b))) := by
    intro srt hsrt
    have hflat := edgesAt_flatten_ne srt hsrt hR hA1 hd1 hne1
    have hlen : (Flatten (EdgeSortWith srt (edgesAt R (A.sort (fun a b => a ≤ b))))).length
        = (Flatten (EdgeSortWith srt (edgesAt R (B.sort (fun a b => a ≤ b))))).length := by
      rw [length_flatten_EdgeSortWith srt hsrt, length_flatten_EdgeSortWith srt hsrt,
        length_edgesAt R _ hA1, length_edgesAt R _ hB1, Finset.length_sort, Finset.length_sort,
        hcard]
    refine ⟨hflat, ?_⟩
    unfold SubgraphEdgeCompareWith SliceCompare
    rw [if_neg (by simp [hlen]), if_neg (by simp [hlen])]
    exact SliceCompareEq_xor _ _ hlen hflat
  refine ⟨key sort hsort, ?_⟩
  rw [SubgraphEdgeCompare_eq_with, SubgraphEdgeCompare_eq_with]
  exact (key stableEdgeSort stableEdgeSort_perm).2

/-- C29 (amended) at the first and the last edge of the coloured path, for the
sort that reverses the result of the insertion sort. -/
theorem C29_subgraphEdgeCompare_one_order_witness :
    (Flatten (EdgeSortWith (fun l => (stableEdgeSort l).reverse)
          (edgesAt colouredPath (({0} : Finset Nat).sort (fun a b => a ≤ b))))
        ≠ Flatten (EdgeSortWith (fun l => (stableEdgeSort l).reverse)
          (edgesAt colouredPath (({1} : Finset Nat).sort (fun a b => a ≤ b))))
      ∧ SubgraphEdgeCompareWith (fun l => (stableEdgeSort l).reverse)
          (edgesAt colouredPath (({0} : Finset Nat).sort (fun a b => a ≤ b)))
          (edgesAt colouredPath (({1} : Finset Nat).sort (fun a b => a ≤ b)))
        = !SubgraphEdgeCompareWith (fun l => (stableEdgeSort l).reverse)
          (edgesAt colouredPath (({1} : Finset Nat).sort (fun a b => a ≤ b)))
          (edgesAt colouredPath (({0} : Finset Nat).sort (fun a b => a ≤ b))))
    ∧ SubgraphEdgeCompare (edgesAt colouredPath (({0} : Finset Nat).sort (fun a b => a ≤ b)))
          (edgesAt colouredPath (({1} : Finset Nat).sort (fun a b => a ≤ b)))
        = !SubgraphEdgeCompare (edgesAt colouredPath (({1} : Finset Nat).sort (fun a b => a ≤ b)))
          (edgesAt colouredPath (({0} : Finset Nat).sort (fun a b => a ≤ b))) :=
  C29_subgraphEdgeCompare_one_order colouredPath (by decide) {0} {1} (by decide) (by decide)
    (by decide) (by decide) (by decide) (fun l => (stableEdgeSort l).reverse)
    (fun l => (List.reverse_perm _).trans (stableEdgeSort_perm l))

/-! ## The update of the atom equivalents -/

theorem findIdx?_first {α : Type} (p : α → Bool) : ∀ (xs : List α) (s : Nat),
    (∃ i a, List.findIdx? p xs s = some (s + i) ∧ xs[i]? = some a ∧ p a = true
        ∧ ∀ j < i, ∀ b, xs[j]? = some b → p b = false)
      ∨ (List.findIdx? p xs s = none ∧ ∀ x ∈ xs, p x = false)
  | [], s => Or.inr ⟨rfl, by simp⟩
  | x :: xs, s => by
    rw [List.findIdx?_cons]
    by_cases hx : p x = true
    · rw [if_pos hx]
      exact Or.inl ⟨0, x, rfl, by simp, hx, by simp⟩
    · rw [if_neg hx]
      rcases findIdx?_first p xs (s + 1) with ⟨i, a, h1, h2, h3, h4⟩ | ⟨h1, h2⟩
      · refine Or.inl ⟨i + 1, a, ?_, ?_, h3, ?_⟩
        · rw [h1]; congr 1; omega
        · simpa using h2
        · intro j hj b hb
          cases j with
          | zero =>
            simp only [List.getElem?_cons_zero, Option.some.injEq] at hb
            rw [← hb]; simpa using hx
          | succ j =>
            simp only [List.getElem?_cons_succ] at hb
            exact h4 j (by omega) b hb
      · refine Or.inr ⟨h1, ?_⟩
        intro y hy
        rcases List.mem_cons.mp hy with rfl | hy
        · simpa using hx
        · exact h2 y hy

theorem atomEquivalentsStep_cases (m : List (Int × Int)) (classes : List (List Int)) (old : Int)
    (hne : mapGet m old ≠ old) :
    (∃ (i : Nat) (c : List Int), classes[i]? = some c ∧ old ∈ c
        ∧ (∀ j < i, ∀ d, classes[j]? = some d → old ∉ d)
        ∧ atomEquivalentsStep m classes old = classes.set i (c ++ [mapGet m old]))
      ∨ ((∀ c ∈ classes, old ∉ c)
        ∧ atomEquivalentsStep m classes old = classes ++ [[old, mapGet m old]]) := by
  unfold atomEquivalentsStep IntInSliceOfSlices
  simp only [if_pos hne]
  rcases findIdx?_first (fun slice => Contains slice old) classes 0 with
    ⟨i, c, h1, h2, h3, h4⟩ | ⟨h1, h2⟩
  · left
    rw [Nat.zero_add] at h1
    refine ⟨i, c, h2, Contains_iff.mp h3, ?_, ?_⟩
    · intro j hj d hd hmem
      have := h4 j hj d hd
      simp only at this
      rw [Contains_iff.mpr hmem] at this
      cases this
    · rw [h1]
      simp only
      rw [List.modify_eq_set, h2]
      rfl
  · right
    refine ⟨?_, ?_⟩
    · intro c hc hmem
      have := h2 c hc
      simp only at this
      rw [Contains_iff.mpr hmem] at this
      cases this
    · rw [h1]

theorem atomEquivalentsStep_of_eq (m : List (Int × Int)) (classes : List (List Int)) (old : Int)
    (h : mapGet m old = old) : atomEquivalentsStep m classes old = classes := by
  unfold atomEquivalentsStep
  simp [h]

theorem atomEquivalentsStep_extends (m : List (Int × Int)) (classes : List (List Int))
    (old : Int) (i : Nat) (c : List Int) (h : classes[i]? = some c) :
    ∃ c1, (atomEquivalentsStep m classes old)[i]? = some c1 ∧ c <+: c1 := by
  by_cases hne : mapGet m old = old
  · rw [atomEquivalentsStep_of_eq m classes old hne]
    exact ⟨c, h, List.prefix_refl c⟩
  · rcases atomEquivalentsStep_cases m classes old hne with ⟨k, d, h1, _, _, h4⟩ | ⟨_, h2⟩
    · rw [h4]
      have hi : i < classes.length := (List.getElem?_eq_some_iff.mp h).1
      by_cases hk : k = i
      · subst hk
        rw [h] at h1
        cases h1
        refine ⟨c ++ [mapGet m old], ?_, List.prefix_append _ _⟩
        rw [List.getElem?_set_self hi]
      · refine ⟨c, ?_, List.prefix_refl c⟩
        rw [List.getElem?_set_ne hk]
        exact h
    · rw [h2]
      refine ⟨c, ?_, List.prefix_refl c⟩
      rw [List.getElem?_append_left (List.getElem?_eq_some_iff.mp h).1]
      exact h

theorem atomEquivalentsStep_pair (m : List (Int × Int)) (classes : List (List Int))
    (old : Int) (hne : mapGet m old ≠ old) :
    ∃ (i : Nat) (c : List Int),
      (atomEquivalentsStep m classes old)[i]? = some c ∧ old ∈ c ∧ mapGet m old ∈ c := by
  rcases atomEquivalentsStep_cases m classes old hne with ⟨k, d, h1, h2, _, h4⟩ | ⟨_, h2⟩
  · rw [h4]
    refine ⟨k, d ++ [mapGet m old], ?_, by simp [h2], by simp⟩
    rw [List.getElem?_set_self (List.getElem?_eq_some_iff.mp h1).1]
  · rw [h2]
    refine ⟨classes.length, [old, mapGet m old], ?_, by simp, by simp⟩
    simp

theorem atomEquivalents_foldl_extends (m : List (Int × Int)) :
    ∀ (keys : List Int) (classes : List (List Int)) (i : Nat) (c : List Int),
      classes[i]? = some c →
      ∃ c1, (keys.foldl (atomEquivalentsStep m) classes)[i]? = some c1 ∧ c <+: c1
  | [], _, _, c, h => ⟨c, h, List.prefix_refl c⟩
  | k :: keys, classes, i, c, h => by
    obtain ⟨c1, h1, hp1⟩ := atomEquivalentsStep_extends m classes k i c h
    obtain ⟨c2, h2, hp2⟩ := atomEquivalents_foldl_extends m keys _ i c1 h1
    exact ⟨c2, h2, hp1.trans hp2⟩

theorem atomEquivalents_foldl_pair (m : List (Int × Int)) :
    ∀ (keys : List Int) (classes : List (List Int)) (old : Int), old ∈ keys →
      mapGet m old ≠ old →
      ∃ c ∈ keys.foldl (atomEquivalentsStep m) classes, old ∈ c ∧ mapGet m old ∈ c
  | [], _, _, h, _ => by simp at h
  | k :: keys, classes, old, h, hne => by
    simp only [List.foldl_cons]
    by_cases hmem : old ∈ keys
    · exact atomEquivalents_foldl_pair m keys _ old hmem hne
    · rcases List.mem_cons.mp h with rfl | h
      · obtain ⟨i, c, h1, h2, h3⟩ := atomEquivalentsStep_pair m classes old hne
        obtain ⟨c1, h4, hp⟩ := atomEquivalents_foldl_extends m keys _ i c h1
        exact ⟨c1, List.getElem?_mem h4, hp.subset h2, hp.subset h3⟩
      · exact absurd h hmem

theorem atomEquivalents_foldl_fixed (m : List (Int × Int)) :
    ∀ (keys : List Int) (classes : List (List Int)), (∀ k ∈ keys, mapGet m k = k) →
      keys.foldl (atomEquivalentsStep m) classes = classes
  | [], _, _ => rfl
  | k :: keys, classes, h => by
    simp only [List.foldl_cons]
    rw [atomEquivalentsStep_of_eq m classes k (h k (by simp))]
    exact atomEquivalents_foldl_fixed m keys classes (fun j hj => h j (by simp [hj]))

/-- C23: `UpdateAtomEquivalents P m` is the loop over the keys of `m` in
increasing order, and in whatever order `keys` the keys of the map are visited:
the fragments, the remnant and the duplicates of `P` stay; every class of `P` is
still at its index, as a prefix of the class that is there now; for every entry
`old -> new` of `m` with `old ≠ new` some class contains both `old` and `new`;
when every entry has `old = new` the classes are unchanged.  One round for an
entry with `old ≠ new` appends `new` to the first class that contains `old`, and
appends the class `[old, new]` when no class contains `old`. -/
theorem C23_updateAtomEquivalents_classes (P : Pathway) (m : List (Int × Int))
    (keys : List Int) (hkeys : ∀ k, k ∈ keys ↔ k ∈ m.map Prod.fst) :
    UpdateAtomEquivalents P m
        = updateAtomEquivalentsIn P m (sortInts ((m.map Prod.fst).dedup))
      ∧ (∀ k, k ∈ sortInts ((m.map Prod.fst).dedup) ↔ k ∈ m.map Prod.fst)
      ∧ (updateAtomEquivalentsIn P m keys).pathway = P.pathway
      ∧ (updateAtomEquivalentsIn P m keys).remnant = P.remnant
      ∧ (updateAtomEquivalentsIn P m keys).duplicates = P.duplicates
      ∧ (∀ (i : Nat) (c : List Int), P.atomEquivalents[i]? = some c →
          ∃ c1, (updateAtomEquivalentsIn P m keys).atomEquivalents[i]? = some c1 ∧ c <+: c1)
      ∧ (∀ old ∈ m.map Prod.fst, mapGet m old ≠ old →
          ∃ c ∈ (updateAtomEquivalentsIn P m keys).atomEquivalents,
            old ∈ c ∧ mapGet m old ∈ c)
      ∧ ((∀ old ∈ m.map Prod.fst, mapGet m old = old) →
          (updateAtomEquivalentsIn P m keys).atomEquivalents = P.atomEquivalents)
      ∧ (∀ (classes : List (List Int)) (old : Int), mapGet m old ≠ old →
          (∃ (i : Nat) (c : List Int), classes[i]? = some c ∧ old ∈ c
              ∧ (∀ j < i, ∀ d, classes[j]? = some d → old ∉ d)
              ∧ atomEquivalentsStep m classes old = classes.set i (c ++ [mapGet m old]))
            ∨ ((∀ c ∈ classes, old ∉ c)
              ∧ atomEquivalentsStep m classes old = classes ++ [[old, mapGet m old]])) := by
  refine ⟨rfl, ?_, rfl, rfl, rfl, ?_, ?_, ?_, ?_⟩
  · intro k
    unfold sortInts
    rw [(List.perm_insertionSort _ _).mem_iff, List.mem_dedup]
  · intro i c h
    exact atomEquivalents_foldl_extends m keys _ i c h
  · intro old hold hne
    exact atomEquivalents_foldl_pair m keys _ old ((hkeys old).mpr hold) hne
  · intro h
    exact atomEquivalents_foldl_fixed m keys _ (fun k hk => h k ((hkeys k).mp hk))
  · intro classes old hne
    exact atomEquivalentsStep_cases m classes old hne

/-- C23 at the classes `[[1, 7]]` and the map `1 -> 5, 2 -> 2`, visited in the
order `2, 1`: the class of `1` is extended by `5`. -/
theorem C23_updateAtomEquivalents_classes_witness :
    (∀ k, k ∈ [2, 1] ↔ k ∈ [((2 : Int), (2 : Int)), (1, 5)].map Prod.fst)
      ∧ UpdateAtomEquivalents (NewPathway [] plainEdge none [[1, 7]]) [(2, 2), (1, 5)]
        = updateAtomEquivalentsIn (NewPathway [] plainEdge none [[1, 7]]) [(2, 2), (1, 5)]
            (sortInts (([((2 : Int), (2 : Int)), (1, 5)].map Prod.fst).dedup))
      ∧ (∀ old ∈ [((2 : Int), (2 : Int)), (1, 5)].map Prod.fst,
          mapGet [(2, 2), (1, 5)] old ≠ old →
          ∃ c ∈ (updateAtomEquivalentsIn (NewPathway [] plainEdge none [[1, 7]])
              [(2, 2), (1, 5)] [2, 1]).atomEquivalents,
            old ∈ c ∧ mapGet [(2, 2), (1, 5)] old ∈ c) :=
  ⟨fun k => by simp,
    (C23_updateAtomEquivalents_classes (NewPathway [] plainEdge none [[1, 7]]) [(2, 2), (1, 5)]
      [2, 1] (fun k => by simp)).1,
    (C23_updateAtomEquivalents_classes (NewPathway [] plainEdge none [[1, 7]]) [(2, 2), (1, 5)]
      [2, 1] (fun k => by simp)).2.2.2.2.2.2.1⟩

/-! ## The copy of a pathway -/

theorem GraphEquals_self (A : Graph) : GraphEquals A A = true := by
  unfold GraphEquals checkColoursEqual
  simp

theorem all_zip_self (l : List Graph) :
    (l.zip l).all (fun lr => GraphEquals lr.1 lr.2) = true := by
  rw [List.all_eq_true]
  intro lr h
  rw [List.zip_eq_zipWith, List.mem_iff_getElem?] at h
  obtain ⟨i, hi⟩ := h
  rw [List.getElem?_zipWith] at hi
  cases hl : l[i]? with
  | none => rw [hl] at hi; cases hi
  | some a =>
    rw [hl] at hi
    cases hi
    exact GraphEquals_self a

theorem length_elems_foldl_appendTo {α β : Type} (f : β → α) :
    ∀ (l : List β) (out : Option (List α)),
      (elems (l.foldl (fun o d => appendTo o (f d)) out)).length = (elems out).length + l.length
  | [], _ => rfl
  | d :: l, out => by
    rw [List.foldl_cons, length_elems_foldl_appendTo f l]
    simp only [appendTo, elems, Option.getD_some, List.length_append, List.length_cons,
      List.length_nil]
    omega

theorem length_elems_CopyDuplicates (d : Option (List Duplicates)) :
    (elems (CopyDuplicates d)).length = (elems d).length := by
  unfold CopyDuplicates
  rw [length_elems_foldl_appendTo (fun d : Duplicates =>
    ({ left := CopyEdgeList d.left, right := CopyEdgeList d.right } : Duplicates))]
  simp [elems]

theorem PathwayEqual_CopyPathway (P : Pathway) :
    PathwayEqual (CopyPathway P) P = decide (CopyDuplicates P.duplicates = P.duplicates) := by
  have h : CopyGraph = id := funext CopyGraph_eq
  unfold PathwayEqual CopyPathway NewPathway
  simp only [h, List.map_id, id_eq, length_elems_CopyDuplicates, ne_eq, not_true_eq_false,
    or_self, if_false, GraphEquals_self, Bool.not_true, Bool.false_eq_true, all_zip_self]
  by_cases hd : CopyDuplicates P.duplicates = P.duplicates
  · simp [hd]
  · simp [hd]

/-- C21 (fails on the code): `AssemblyIndex (CopyPathway P) G = AssemblyIndex P G`
for every pathway and graph, and `PathwayEqual (CopyPathway P) P` is true
exactly when `CopyDuplicates` returns the duplicates of `P` nil where they are
nil and not nil where they are not; for the first pathway of `TestCopyPathway`,
whose duplicates are the empty slice `[]Duplicates{}`, the copy has the nil
slice as its duplicates and `PathwayEqual` of the copy and the pathway is false
in both orders. -/
theorem C21_copyPathway_not_equal :
    (∀ (P : Pathway) (G : Graph), AssemblyIndex (CopyPathway P) G = AssemblyIndex P G)
      ∧ (∀ P : Pathway,
          PathwayEqual (CopyPathway P) P = decide (CopyDuplicates P.duplicates = P.duplicates))
      ∧ testCopyPathway.duplicates = some []
      ∧ (CopyPathway testCopyPathway).duplicates = none
      ∧ PathwayEqual (CopyPathway testCopyPathway) testCopyPathway = false
      ∧ PathwayEqual testCopyPathway (CopyPathway testCopyPathway) = false := by
  refine ⟨?_, PathwayEqual_CopyPathway, rfl, rfl, by decide, by decide⟩
  intro P G
  unfold AssemblyIndex PathwayStepsSaved
  rw [CopyPathway_pathway]

/-! ## The bound and the candidates of the search -/

set_option maxRecDepth 1000000 in
/-- C27 (fails on the code): for the graph `G` of two disjoint two-edge paths
and its starting pathway `P`, `MaxStepsSaved P = 0` and `BestAssemblyIndex G P
= 3`, but for the candidate made of the first path `CheckSubgraphMatches` finds
the second path as its duplicate and constructs the pathway `P'` with the first
path as fragment, whose assembly index is 2, below the floor of `P`.  And the
pruning discards a pathway that beats the incumbent: on the graph `forest`
`Assembly` (one worker, queue of 1) returns a pathway of index 6; the first
pathway `Q` constructed for the candidate made of the path (6,8), (6,7) has
index 8 and floor 7, so with that incumbent `ExtendPathway` returns on `Q`
without building a pathway, while the search started from `Q` returns a pathway
of index 5. -/
theorem C27_extension_below_floor :
    MaxStepsSaved (NewStartingPathway pathPair) = 0
      ∧ BestAssemblyIndex pathPair (NewStartingPathway pathPair) = 3
      ∧ (BreakGraphOnEdges pathPair [0, 1]).map (fun sr => (sr.1.Edges, sr.2.Edges))
        = some ([(1, 2), (2, 3)], [(4, 5), (5, 6)])
      ∧ (BreakGraphOnEdges pathPair [0, 1]).bind (fun sr =>
          (CheckSubgraphMatches pathPair "shortest" 100 100 (NewStartingPathway pathPair)
              sr.1 sr.2 (startPool (NewStartingPathway pathPair))).map
            (fun r => (r.1, r.2.jobs.map (fun p => p.pathway.map (fun g => g.Edges)))))
        = some (true, [[[(1, 2), (2, 3)]]])
      ∧ (BreakGraphOnEdges pathPair [0, 1]).bind (fun sr =>
          (CheckSubgraphMatches pathPair "shortest" 100 100 (NewStartingPathway pathPair)
              sr.1 sr.2 (startPool (NewStartingPathway pathPair))).map
            (fun r => r.2.jobs.map (fun p => (p.remnant.Edges, AssemblyIndex p pathPair))))
        = some [([(4, 5), (5, 6)], 2)]
      ∧ (firstExtension forest [5, 6]).map (fun Q =>
          (Q.pathway.map (fun g => g.Edges), AssemblyIndex Q forest, BestAssemblyIndex forest Q))
        = some ([[(6, 8), (6, 7)]], 8, 7)
      ∧ (Assembly 300 forest 1 "shortest").bind (fun best =>
          (firstExtension forest [5, 6]).bind (fun Q =>
            (ExtendPathway forest "shortest" 1 300 Q
                { bestPathways := best, jobs := [], activeWorkers := 1 }).map
              (fun pool =>
                (best.map (fun p => AssemblyIndex p forest),
                  pool.bestPathways.map (fun p => AssemblyIndex p forest),
                  pool.jobs.length, pool.activeWorkers))))
        = some ([6], [6], 0, 0)
      ∧ (firstExtension forest [5, 6]).bind (fun Q =>
          (AssemblyPathway 300 forest Q 1 "shortest").map
            (fun ps => ps.map (fun p => AssemblyIndex p forest)))
        = some [5] := by
  refine ⟨?_, ?_, ?_, ?_, ?_, ?_, ?_, ?_⟩
  · decide!
  · decide!
  · decide!
  · decide!
  · decide!
  · decide!
  · decide!
  · decide!

set_option maxRecDepth 100000 in
/-- C28 (fails on the code): in the graph of two disjoint three-edge paths, for
the connected edge set `S = {0, 1}` `CheckSubgraphMatches` returns false and
constructs no pathway (both copies of `S` in the rest are rejected by the order
filter `SubgraphEdgeCompare`), while for the connected superset `T = {0, 1, 3}`
it returns true and constructs a pathway. -/
theorem C28_superset_matches_after_no_match :
    (BreakGraphOnEdges twoPaths [0, 1]).bind (fun sr =>
        (CheckSubgraphMatches twoPaths "shortest" 100 100 (NewStartingPathway twoPaths)
            sr.1 sr.2 (startPool (NewStartingPathway twoPaths))).map
          (fun r => (sr.1.Edges, sr.2.Edges, r.1, r.2.jobs.length)))
      = some ([(5, 4), (7, 4)], [(2, 3), (1, 7), (8, 3), (6, 8)], false, 0)
    ∧ (BreakGraphOnEdges twoPaths [0, 1, 3]).bind (fun sr =>
        (CheckSubgraphMatches twoPaths "shortest" 100 100 (NewStartingPathway twoPaths)
            sr.1 sr.2 (startPool (NewStartingPathway twoPaths))).map
          (fun r => (sr.1.Edges, sr.2.Edges, r.1, r.2.jobs.length)))
      = some ([(5, 4), (7, 4), (1, 7)], [(2, 3), (8, 3), (6, 8)], true, 1) := by
  refine ⟨by decide!, by decide!⟩

/-- C30 (fails on the code): for the starting pathway `P` of the path with two
edges, whose remnant has `floor(2 / 2) = 1`, the inner loop of `ExtendPathway`
for the starting edge 0 grows the candidate `[0]` by the edge 1 (the length 1
passes the test `len(sub) <= sizesToCheck`, made before the edge is appended)
and passes the candidate with the edges 0 and 1, the whole remnant, to
`CheckSubgraphMatches`: a candidate with 2 edges, more than `floor(|E(R)| / 2)`. -/
theorem C30_candidate_above_half (fuel : Nat) (pool : Pool) :
    (NewStartingPathway shortPath).remnant.Edges.length / 2 = 1
      ∧ (BreakGraphOnEdges (NewStartingPathway shortPath).remnant [0, 1]).map
          (fun sr => (sr.1.Edges, sr.2.Edges)) = some ([(1, 2), (2, 3)], [])
      ∧ ∃ subgraph remnant,
          BreakGraphOnEdges (NewStartingPathway shortPath).remnant [0, 1]
            = some (subgraph, remnant)
          ∧ subgraph.Edges.length = 2
          ∧ extendLoop shortPath "shortest" 100 (fuel + 1) (NewStartingPathway shortPath) [0]
              (fun _ => false) (fun _ => none) pool
            = match CheckSubgraphMatches shortPath "shortest" 100 fuel
                (NewStartingPathway shortPath) subgraph remnant pool with
              | none => none
              | some (true, pool1) =>
                extendLoop shortPath "shortest" 100 fuel (NewStartingPathway shortPath) [0, 1]
                  (fun _ => false) (fun _ => none) pool1
              | some (false, pool1) =>
                extendLoop shortPath "shortest" 100 fuel (NewStartingPathway shortPath) [0]
                  (forbidUpdate 1 2 (fun _ => false) (fun _ => none)).1
                  (forbidUpdate 1 2 (fun _ => false) (fun _ => none)).2 pool1 := by
  refine ⟨by decide, by decide, ?_⟩
  have hn : nonForbiddenNeighbour [0] (EdgeAdjacencies (NewStartingPathway shortPath).remnant)
      (fun _ => false) = some 1 := by decide
  have hb : ∃ sr, BreakGraphOnEdges (NewStartingPathway shortPath).remnant [0, 1] = some sr
      ∧ sr.1.Edges.length = 2 := by
    cases h : BreakGraphOnEdges (NewStartingPathway shortPath).remnant [0, 1] with
    | none => exact absurd h (by decide)
    | some sr =>
      refine ⟨sr, rfl, ?_⟩
      have h2 : (BreakGraphOnEdges (NewStartingPathway shortPath).remnant [0, 1]).map
          (fun sr => sr.1.Edges.length) = some 2 := by decide
      rw [h] at h2
      exact Option.some.inj h2
  obtain ⟨⟨subgraph, remnant⟩, hsr, hlen⟩ := hb
  refine ⟨subgraph, remnant, hsr, hlen, ?_⟩
  rw [extendLoop]
  simp only [hn]
  rw [if_pos (by decide)]
  simp only [List.singleton_append, hsr]
  rw [if_pos (by decide)]
  cases hc : CheckSubgraphMatches shortPath "shortest" 100 fuel (NewStartingPathway shortPath)
      subgraph remnant pool with
  | none => rfl
  | some r =>
    obtain ⟨m, pool1⟩ := r
    cases m with
    | true => rfl
    | false =>
      simp only [List.length_cons, List.length_nil, List.getLastD_cons, List.dropLast]
      rfl

/-! ## The search with and without the automorphism pruning -/

set_option maxRecDepth 1000000 in
/-- C33 (fails on the code): for the graph `triangleSquare` (a triangle on 1, 2,
3 and a four-cycle on 4, 5, 6, 7) and the partition with all vertices in one
part, the search with the automorphism pruning returns a graph with the triangle
on 1, 6, 7 and the search without it a graph with the triangle on 3, 4, 5, and
`GraphEquals` of the two results is false. -/
theorem C33_pruned_search_differs :
    (SearchTree triangleSquare [triangleSquare.Vertices] true).bind (fun a =>
        (SearchTree triangleSquare [triangleSquare.Vertices] false).map (fun b =>
          (a.Edges, b.Edges, GraphEquals a b)))
      = some ([(1, 6), (6, 7), (7, 1), (2, 4), (4, 3), (3, 5), (5, 2)],
          [(3, 4), (4, 5), (5, 3), (1, 6), (6, 2), (2, 7), (7, 1)], false) := by
  decide!

/-! ## Equitable partitions -/

/-- C35: for every graph `G` and every partition `p`, `EquitableRefinement G p`
is equitable, and when `p` is equitable `EquitableRefinement G p = p`. -/
theorem C35_equitableRefinement_equitable (G : Graph) (p : List (List Int)) :
    IsEquitable G (EquitableRefinement G p) = true
      ∧ (IsEquitable G p = true → EquitableRefinement G p = p) :=
  ⟨(EquitableRefinement_spec G p).1, (EquitableRefinement_spec G p).2.2.2⟩

/-- C35 at the 3x3 grid: the partition of `TestEquitableRefinement` into
corners, sides and centre is equitable and is returned as it is. -/
theorem C35_equitableRefinement_equitable_witness :
    IsEquitable nineGrid [[1, 3, 7, 9], [2, 4, 6, 8], [5]] = true
      ∧ IsEquitable nineGrid (EquitableRefinement nineGrid [[1, 3, 7, 9], [2, 4, 6, 8], [5]])
        = true
      ∧ EquitableRefinement nineGrid [[1, 3, 7, 9], [2, 4, 6, 8], [5]]
        = [[1, 3, 7, 9], [2, 4, 6, 8], [5]] :=
  ⟨by decide,
    (C35_equitableRefinement_equitable nineGrid [[1, 3, 7, 9], [2, 4, 6, 8], [5]]).1,
    (C35_equitableRefinement_equitable nineGrid [[1, 3, 7, 9], [2, 4, 6, 8], [5]]).2
      (by decide)⟩

theorem mem_degrees (g : Graph) (A B : List Int) (d : Nat) :
    d ∈ ((A.map (fun v => DegreeInPart g v B)).dedup).insertionSort (fun a b => a ≤ b)
      ↔ ∃ v ∈ A, DegreeInPart g v B = d := by
  rw [(List.perm_insertionSort _ _).mem_iff, List.mem_dedup, List.mem_map]

theorem nodup_degrees (g : Graph) (A B : List Int) :
    (((A.map (fun v => DegreeInPart g v B)).dedup).insertionSort (fun a b => a ≤ b)).Nodup :=
  (List.perm_insertionSort _ _).nodup_iff.mpr (List.nodup_dedup _)

theorem Shatter_length_le_one (g : Graph) (A B : List Int) :
    (Shatter g A B).length ≤ 1
      ↔ ∀ u ∈ A, ∀ v ∈ A, DegreeInPart g u B = DegreeInPart g v B := by
  unfold Shatter
  simp only [List.length_map]
  have hmem := mem_degrees g A B
  have hnd := nodup_degrees g A B
  generalize ((A.map (fun v => DegreeInPart g v B)).dedup).insertionSort (fun a b => a ≤ b)
    = degs at hmem hnd
  constructor
  · intro h u hu v hv
    have h1 : DegreeInPart g u B ∈ degs := (hmem _).mpr ⟨u, hu, rfl⟩
    have h2 : DegreeInPart g v B ∈ degs := (hmem _).mpr ⟨v, hv, rfl⟩
    match degs, h, h1, h2 with
    | [a], _, h1, h2 =>
      rw [List.mem_singleton] at h1 h2
      rw [h1, h2]
  · intro h
    match degs, hmem, hnd with
    | [], _, _ => simp
    | [_], _, _ => simp
    | a :: b :: t, hmem, hnd =>
      exfalso
      obtain ⟨u, hu, hua⟩ := (hmem a).mp (by simp)
      obtain ⟨v, hv, hvb⟩ := (hmem b).mp (by simp)
      have hab : a = b := by rw [← hua, ← hvb]; exact h u hu v hv
      rw [hab] at hnd
      simp at hnd

/-- C36: `IsEquitable G p` is true exactly when, for all parts `A` and `B` of
`p`, all vertices of `A` have the same `DegreeInPart` into `B`; and
`DegreeInPart G v B` is the number of edges of `G` with one end `v` and the
other end in `B`. -/
theorem C36_isEquitable_iff_equal_degrees (G : Graph) (p : List (List Int)) :
    (IsEquitable G p = true
        ↔ ∀ A ∈ p, ∀ B ∈ p, ∀ u ∈ A, ∀ v ∈ A, DegreeInPart G u B = DegreeInPart G v B)
      ∧ ∀ (v : Int) (B : List Int),
          DegreeInPart G v B
            = G.Edges.countP (fun e => decide ((v = e.1 ∧ e.2 ∈ B) ∨ (v = e.2 ∧ e.1 ∈ B))) := by
  constructor
  · unfold IsEquitable
    simp only [List.all_eq_true, decide_eq_true_eq, Shatter_length_le_one]
  · intro v B
    rw [DegreeInPart_eq_countP]
    congr 1
    funext e
    rw [Bool.eq_iff_iff]
    simp [Contains_iff]

/-! ## The shattering of a part and the individualisation of a vertex -/

/-- C37: `Shatter G A B` is the list, over the degrees `d` that vertices of `A`
have into `B`, in strictly increasing order of `d`, of the vertices of `A` of
degree `d` in the order they have in `A`; no class is empty and the classes put
together are a permutation of `A`.  On the square, `Shatter [1,2,3] [4]` is
`[[2],[1,3]]`. -/
theorem C37_shatter_classes_by_degree (G : Graph) (A B : List Int) :
    (∃ degrees : List Nat,
        degrees.Pairwise (fun a b => a < b)
          ∧ (∀ d, d ∈ degrees ↔ ∃ v ∈ A, DegreeInPart G v B = d)
          ∧ Shatter G A B
            = degrees.map (fun d => A.filter (fun v => decide (DegreeInPart G v B = d))))
      ∧ (∀ c ∈ Shatter G A B, c ≠ [] ∧ c.Sublist A)
      ∧ (Shatter G A B).flatten.Perm A
      ∧ Shatter square [1, 2, 3] [4] = [[2], [1, 3]] := by
  refine ⟨⟨_, ?_, mem_degrees G A B, rfl⟩, ?_, Shatter_flatten_perm G A B, by decide⟩
  · have hs : (((A.map (fun v => DegreeInPart G v B)).dedup).insertionSort
        (fun a b => a ≤ b)).Pairwise (fun a b => a ≤ b) := List.sorted_insertionSort _ _
    have hn := nodup_degrees G A B
    exact (hs.and hn).imp (fun h => lt_of_le_of_ne h.1 h.2)
  · intro c hc
    refine ⟨Shatter_ne_nil G A B c hc, ?_⟩
    unfold Shatter at hc
    obtain ⟨d, _, rfl⟩ := List.mem_map.mp hc
    exact List.filter_sublist _

theorem Individualise_absent : ∀ (p : List (List Int)) (v : Int), (∀ part ∈ p, v ∉ part) →
    Individualise p v = p
  | [], _, _ => rfl
  | part :: rest, v, h => by
    have hc : ¬ Contains part v = true := fun hc => h part (by simp) (Contains_iff.mp hc)
    simp only [Individualise, if_neg hc]
    rw [Individualise_absent rest v (fun q hq => h q (by simp [hq]))]

theorem Individualise_split (pre post : List (List Int)) (part : List Int) (v : Int)
    (hpre : ∀ q ∈ pre, v ∉ q) (hpost : ∀ q ∈ post, v ∉ q) (hv : v ∈ part) :
    Individualise (pre ++ part :: post) v
      = pre ++ [v] ::
          ((if part.filter (fun w => decide (w ≠ v)) = [] then []
            else [part.filter (fun w => decide (w ≠ v))]) ++ post) := by
  induction pre with
  | nil =>
    have hc : Contains part v = true := Contains_iff.mpr hv
    rw [List.nil_append, List.nil_append, Individualise, if_pos hc,
      Individualise_absent post v hpost]
    by_cases hr : part.filter (fun w => decide (w ≠ v)) = []
    · rw [if_pos hr]
      simp only
      rw [if_neg (by rw [hr]; simp)]
      rfl
    · have : (part.filter (fun w => decide (w ≠ v))).length ≠ 0 :=
        fun h => hr (List.length_eq_zero.mp h)
      rw [if_neg hr]
      simp only
      rw [if_pos this]
      rfl
  | cons q pre ih =>
    have hc : ¬ Contains q v = true := fun hc => hpre q (by simp) (Contains_iff.mp hc)
    rw [List.cons_append, Individualise, if_neg hc, ih (fun r hr => hpre r (by simp [hr]))]
    rfl

/-- C38: for a partition `p` with pairwise disjoint parts and a vertex `v` in
the part at index `i`, `Individualise p v` is `p` with that part replaced by
`[v]` followed by the other vertices of the part in their order (nothing when
there are none), the parts before and after it as they were; when `v` is in no
part `Individualise p v = p`.  `Individualise [[1],[2,3,4],[5,6]] 3` is
`[[1],[3],[2,4],[5,6]]`. -/
theorem C38_individualise_splits_part (p : List (List Int)) (v : Int) :
    (∀ (i : Nat) (part : List Int), p.Pairwise List.Disjoint → p[i]? = some part → v ∈ part →
        Individualise p v
          = p.take i ++ [v] ::
              ((if part.filter (fun w => decide (w ≠ v)) = [] then []
                else [part.filter (fun w => decide (w ≠ v))]) ++ p.drop (i + 1)))
      ∧ ((∀ part ∈ p, v ∉ part) → Individualise p v = p)
      ∧ Individualise [[1], [2, 3, 4], [5, 6]] 3 = [[1], [3], [2, 4], [5, 6]] := by
  refine ⟨?_, Individualise_absent p v, by decide⟩
  intro i part hdis hi hv
  have hlt : i < p.length := (List.getElem?_eq_some_iff.mp hi).1
  have hsplit : p = p.take i ++ part :: p.drop (i + 1) := by
    have h1 : p[i] = part := (List.getElem?_eq_some_iff.mp hi).2
    rw [← h1, ← List.drop_eq_getElem_cons hlt, List.take_append_drop]
  have hother : ∀ q, q ∈ p.take i ∨ q ∈ p.drop (i + 1) → v ∉ q := by
    intro q hq hvq
    rw [hsplit, List.pairwise_append] at hdis
    obtain ⟨_, h2, h3⟩ := hdis
    rcases hq with hq | hq
    · exact h3 q hq part (by simp) hvq hv
    · exact (List.pairwise_cons.mp h2).1 q hq hv hvq
  conv_lhs => rw [hsplit]
  exact Individualise_split _ _ part v (fun q hq => hother q (Or.inl hq))
    (fun q hq => hother q (Or.inr hq)) hv

/-- C38 at the example of `TestIndividualise`. -/
theorem C38_individualise_splits_part_witness :
    Individualise [[1], [2, 3, 4], [5, 6]] 3
        = ([[1], [2, 3, 4], [5, 6]] : List (List Int)).take 1 ++ [3] ::
            ((if ([2, 3, 4] : List Int).filter (fun w => decide (w ≠ 3)) = [] then []
              else [([2, 3, 4] : List Int).filter (fun w => decide (w ≠ 3))])
              ++ ([[1], [2, 3, 4], [5, 6]] : List (List Int)).drop (1 + 1))
      ∧ Individualise [[1], [2, 3, 4], [5, 6]] 7 = [[1], [2, 3, 4], [5, 6]] :=
  ⟨(C38_individualise_splits_part [[1], [2, 3, 4], [5, 6]] 3).1 1 [2, 3, 4]
      (by simp [List.Disjoint]) rfl (by decide),
    (C38_individualise_splits_part [[1], [2, 3, 4], [5, 6]] 7).2.1 (by decide)⟩

/-! ## The order of flattened edge lists -/

theorem SliceGreaterThan_lex : ∀ (l r : List Int), l ≠ [] → r ≠ [] →
    ∃ b, SliceGreaterThan l r = some b
      ∧ (b = true ↔
          ((∃ (p s t : List Int) (x y : Int), l = p ++ x :: s ∧ r = p ++ y :: t ∧ y < x)
            ∨ ∃ s : List Int, s ≠ [] ∧ l = r ++ s))
  | [], _, h, _ => absurd rfl h
  | _ :: _, [], _, h => absurd rfl h
  | a :: l, b :: r, _, _ => by
    by_cases hab : a = b
    · subst hab
      by_cases hl : l = []
      · subst hl
        refine ⟨false, by simp [SliceGreaterThan], ?_⟩
        constructor
        · intro h; cases h
        · rintro (⟨p, s, t, x, y, h1, h2, hxy⟩ | ⟨s, hs, h1⟩)
          · exfalso
            cases p with
            | nil =>
              simp only [List.nil_append, List.cons.injEq] at h1 h2
              omega
            | cons c p =>
              simp only [List.cons_append, List.cons.injEq] at h1
              have := h1.2
              cases p <;> simp at this
          · exfalso
            simp only [List.cons_append, List.cons.injEq, true_and] at h1
            have h2 := congrArg List.length h1
            simp only [List.length_nil, List.length_append] at h2
            have : s.length = 0 := by omega
            exact hs (List.length_eq_zero.mp this)
      · by_cases hr : r = []
        · subst hr
          have hl0 : l.length ≠ 0 := fun h => hl (List.length_eq_zero.mp h)
          refine ⟨true, by simp [SliceGreaterThan, hl0], ?_⟩
          constructor
          · intro _
            exact Or.inr ⟨l, hl, rfl⟩
          · intro _; rfl
        · obtain ⟨b, hb, hiff⟩ := SliceGreaterThan_lex l r hl hr
          have hl0 : l.length ≠ 0 := fun h => hl (List.length_eq_zero.mp h)
          have hr0 : r.length ≠ 0 := fun h => hr (List.length_eq_zero.mp h)
          refine ⟨b, by simp [SliceGreaterThan, hl0, hr0, hb], ?_⟩
          rw [hiff]
          constructor
          · rintro (⟨p, s, t, x, y, h1, h2, hxy⟩ | ⟨s, hs, h1⟩)
            · exact Or.inl ⟨a :: p, s, t, x, y, by rw [h1]; rfl, by rw [h2]; rfl, hxy⟩
            · exact Or.inr ⟨s, hs, by rw [h1]; rfl⟩
          · rintro (⟨p, s, t, x, y, h1, h2, hxy⟩ | ⟨s, hs, h1⟩)
            · cases p with
              | nil =>
                simp only [List.nil_append, List.cons.injEq] at h1 h2
                omega
              | cons c p =>
                simp only [List.cons_append, List.cons.injEq] at h1 h2
                exact Or.inl ⟨p, s, t, x, y, h1.2, h2.2, hxy⟩
            · simp only [List.cons_append, List.cons.injEq, true_and] at h1
              exact Or.inr ⟨s, hs, h1⟩
    · refine ⟨decide (a > b), by simp [SliceGreaterThan, hab], ?_⟩
      rw [decide_eq_true_eq]
      constructor
      · intro h
        exact Or.inl ⟨[], l, r, a, b, rfl, rfl, h⟩
      · rintro (⟨p, s, t, x, y, h1, h2, hxy⟩ | ⟨s, _, h1⟩)
        · cases p with
          | nil =>
            simp only [List.nil_append, List.cons.injEq] at h1 h2
            omega
          | cons c p =>
            simp only [List.cons_append, List.cons.injEq] at h1 h2
            exact absurd (h1.1.trans h2.1.symm) hab
        · simp only [List.cons_append, List.cons.injEq] at h1
          exact absurd h1.1 hab

/-- C39: for non-empty lists `l` and `r`, `SliceGreaterThan l r` returns a
result (no index is out of range), and the result is true exactly when `l` is
above `r` in the lexicographic order: the two lists have a common prefix after
which `l` has a larger element than `r`, or `l` is `r` followed by at least one
more element.  `GraphGreaterThan G H` is `SliceGreaterThan` of the flattened
`ListPairSort` edge lists of `G` and `H`. -/
theorem C39_sliceGreaterThan_lexicographic (l r : List Int) (hl : l ≠ []) (hr : r ≠ []) :
    (∃ b, SliceGreaterThan l r = some b)
      ∧ (SliceGreaterThan l r = some true ↔
          ((∃ (p s t : List Int) (x y : Int), l = p ++ x :: s ∧ r = p ++ y :: t ∧ y < x)
            ∨ ∃ s : List Int, s ≠ [] ∧ l = r ++ s))
      ∧ ∀ G H : Graph,
          GraphGreaterThan G H
            = SliceGreaterThan (FlattenEdgeList (ListPairSort G.Edges))
                (FlattenEdgeList (ListPairSort H.Edges)) := by
  obtain ⟨b, hb, hiff⟩ := SliceGreaterThan_lex l r hl hr
  refine ⟨⟨b, hb⟩, ?_, fun _ _ => rfl⟩
  rw [hb, ← hiff]
  simp

/-- C39 at `[1, 2, 3]` and its prefix `[1, 2]`. -/
theorem C39_sliceGreaterThan_lexicographic_witness :
    (∃ b, SliceGreaterThan [1, 2, 3] [1, 2] = some b)
      ∧ (SliceGreaterThan [1, 2, 3] [1, 2] = some true ↔
          ((∃ (p s t : List Int) (x y : Int),
              [1, 2, 3] = p ++ x :: s ∧ [1, 2] = p ++ y :: t ∧ y < x)
            ∨ ∃ s : List Int, s ≠ [] ∧ [1, 2, 3] = [1, 2] ++ s))
      ∧ ∀ G H : Graph,
          GraphGreaterThan G H
            = SliceGreaterThan (FlattenEdgeList (ListPairSort G.Edges))
                (FlattenEdgeList (ListPairSort H.Edges)) :=
  C39_sliceGreaterThan_lexicographic [1, 2, 3] [1, 2] (by decide) (by decide)

/-! ## The end of the path trace -/

theorem NextSubgraph_countMode {adj : Nat → List Nat} {t1 t2 : SubgraphTrace}
    (hs : t1.sub = t2.sub) (hf : t1.forbidden = t2.forbidden)
    (hfs : t1.forbiddenSize = t2.forbiddenSize) :
    (NextSubgraph t1 adj true).sub = (NextSubgraph t2 adj false).sub
      ∧ (NextSubgraph t1 adj true).forbidden = (NextSubgraph t2 adj false).forbidden
      ∧ (NextSubgraph t1 adj true).forbiddenSize = (NextSubgraph t2 adj false).forbiddenSize := by
  unfold NextSubgraph
  rw [hs, hf, hfs]
  cases nonForbiddenNeighbour t2.sub adj t2.forbidden with
  | none => exact ⟨rfl, rfl, rfl⟩
  | some x => exact ⟨rfl, rfl, rfl⟩

theorem subsLoop_countMode (adj : Nat → List Nat) :
    ∀ (fuel : Nat) (t1 t2 : SubgraphTrace), t1.sub = t2.sub → t1.forbidden = t2.forbidden →
      t1.forbiddenSize = t2.forbiddenSize →
      (subsLoop adj true fuel t1).sub = (subsLoop adj false fuel t2).sub
  | 0, _, _, hs, _, _ => hs
  | fuel + 1, t1, t2, hs, hf, hfs => by
    by_cases h : t2.sub = []
    · rw [subsLoop_nil _ h, subsLoop_nil _ (hs.trans h)]
      exact hs
    · have h1 : t1.sub ≠ [] := fun h1 => h (hs.symm.trans h1)
      rw [subsLoop_succ _ h, subsLoop_succ _ h1]
      obtain ⟨a, b, c⟩ := @NextSubgraph_countMode adj t1 t2 hs hf hfs
      exact subsLoop_countMode adj fuel _ _ a b c

theorem subsLoop_ends (G : Graph) (e : Nat) (he : e < G.Edges.length) :
    ∃ T, T + 1 ≤ 2 ^ (G.Edges.length + 1)
      ∧ ∀ fuel, (subsLoop (InitialiseSubsOnEdge G e).1 false (T + fuel)
          (InitialiseSubsOnEdge G e).2).sub = [] := by
  have hpre : TracePre G e (InitialiseSubsOnEdge G e).2 := by
    refine ⟨by simp [InitialiseSubsOnEdge], ?_, by simp [InitialiseSubsOnEdge], ?_, ?_⟩
    · intro x hx
      simp [InitialiseSubsOnEdge] at hx
      subst hx
      exact ⟨le_refl _, he⟩
    · simp only [InitialiseSubsOnEdge, List.toFinset_cons, List.toFinset_nil,
        insert_emptyc_eq]
      exact connectedSet_singleton G e
    · intro k hk
      simp [InitialiseSubsOnEdge] at hk
  have hfree : freeEdges G (InitialiseSubsOnEdge G e).2 ≤ G.Edges.length := by
    unfold freeEdges
    have := List.length_filter_le
      (fun k => decide (k ∉ (InitialiseSubsOnEdge G e).2.sub)
        && !(InitialiseSubsOnEdge G e).2.forbidden k) (List.range G.Edges.length)
    simpa using this
  obtain ⟨T, out, t', R⟩ := traceRun_exists G e G.Edges.length _ hpre hfree
  refine ⟨T, R.rounds, ?_⟩
  intro fuel
  have hnil : t'.sub = [] := by rw [R.sub_eq]; simp [InitialiseSubsOnEdge]
  have hrun := R.run fuel
  rw [subsLoop_nil _ hnil] at hrun
  have hinit : (InitialiseSubsOnEdge G e).1 = modifyEdgeAdjacencies (EdgeAdjacencies G) e := rfl
  rw [hinit, hrun]
  exact hnil

/-- C40: for every graph `G`, every edge index `e` of `G` and both modes of
`AllSubsOnEdge`, the loop that repeats `NextSubgraph` ends: there is a number
`T` of rounds, below the bound `2 ^ (|E| + 1)` that the embedding gives the
loop, such that after `T` rounds or any larger number allowed the current
subgraph is empty, which is the exit of the loop. -/
theorem C40_allSubsOnEdge_loop_ends (G : Graph) (e : Nat) (countMode : Bool)
    (he : e < G.Edges.length) :
    ∃ T, T + 1 ≤ 2 ^ (G.Edges.length + 1)
      ∧ (∀ fuel, (subsLoop (InitialiseSubsOnEdge G e).1 countMode (T + fuel)
          (InitialiseSubsOnEdge G e).2).sub = [])
      ∧ (subsLoop (InitialiseSubsOnEdge G e).1 countMode (2 ^ (G.Edges.length + 1))
          (InitialiseSubsOnEdge G e).2).sub = [] := by
  obtain ⟨T, hT, hrun⟩ := subsLoop_ends G e he
  have hall : ∀ fuel, (subsLoop (InitialiseSubsOnEdge G e).1 countMode (T + fuel)
      (InitialiseSubsOnEdge G e).2).sub = [] := by
    intro fuel
    cases countMode with
    | false => exact hrun fuel
    | true =>
      rw [subsLoop_countMode _ _ _ _ rfl rfl rfl]
      exact hrun fuel
  refine ⟨T, hT, hall, ?_⟩
  have := hall (2 ^ (G.Edges.length + 1) - T)
  have hfuel : T + (2 ^ (G.Edges.length + 1) - T) = 2 ^ (G.Edges.length + 1) := by omega
  rw [hfuel] at this
  exact this

/-- C40 at the first edge of the square, in count mode. -/
theorem C40_allSubsOnEdge_loop_ends_witness :
    ∃ T, T + 1 ≤ 2 ^ (square.Edges.length + 1)
      ∧ (∀ fuel, (subsLoop (InitialiseSubsOnEdge square 0).1 true (T + fuel)
          (InitialiseSubsOnEdge square 0).2).sub = [])
      ∧ (subsLoop (InitialiseSubsOnEdge square 0).1 true (2 ^ (square.Edges.length + 1))
          (InitialiseSubsOnEdge square 0).2).sub = [] :=
  C40_allSubsOnEdge_loop_ends square 0 true (by decide)

/-! ## The effect of the search on the shared state -/

theorem Increment_of_nonneg {c : Int} (h : 0 ≤ c) : Increment c = c + 1 := by
  unfold Increment
  rw [if_neg (by omega)]

theorem PoolStep.rfl0 (I : Pathway → Prop) (pool : Pool) : PoolStep I 0 pool pool :=
  ⟨[], by simp, fun _ => by simp, by simp⟩

theorem PoolStep.trans {I : Pathway → Prop} {b : Int} {p1 p2 p3 : Pool}
    (h1 : PoolStep I 0 p1 p2) (h2 : PoolStep I b p2 p3) : PoolStep I b p1 p3 := by
  obtain ⟨l1, hj1, hc1, hI1⟩ := h1
  obtain ⟨l2, hj2, hc2, hI2⟩ := h2
  refine ⟨l1 ++ l2, by rw [hj2, hj1, List.append_assoc], ?_, ?_⟩
  · intro h0
    have e1 := hc1 h0
    have e2 := hc2 (by rw [e1]; omega)
    rw [e2, e1, List.length_append]; push_cast; ring
  · intro Q hQ
    rcases List.mem_append.mp hQ with h | h
    · exact hI1 Q h
    · exact hI2 Q h

theorem PoolStep.trans0 {I : Pathway → Prop} {p1 p2 p3 : Pool}
    (h1 : PoolStep I 0 p1 p2) (h2 : PoolStep I 0 p2 p3) : PoolStep I 0 p1 p3 :=
  h1.trans h2

theorem searchEffect_zero (I : Pathway → Prop) (G : Graph) (variant : String) (cap : Nat) :
    SearchEffect I G variant cap 0 := by
  refine ⟨?_, ?_, ?_, ?_, ?_, ?_⟩
  · intro P pool pool' _ h; simp [ExtendPathway] at h
  · intro P anchors F FS pool r _ h; simp [extendAnchors] at h
  · intro P sub F FS pool r _ h; simp [extendLoop] at h
  · intro P subgraph remnant pool r _ _ _ h; simp [CheckSubgraphMatches] at h
  · intro P subgraph remnant anchors F FS m pool r _ _ _ h; simp [checkAnchors] at h
  · intro P subgraph remnant sub F FS m pool r _ _ _ h; simp [checkLoop] at h

theorem searchEffect_succ (I : Pathway → Prop) (hI : StepClosed I) (G : Graph)
    (variant : String) (cap fuel : Nat)
    (ih : SearchEffect I G variant cap fuel) : SearchEffect I G variant cap (fuel + 1) := by
  obtain ⟨ihE, ihA, ihL, ihC, ihCA, ihCL⟩ := ih
  refine ⟨?_, ?_, ?_, ?_, ?_, ?_⟩
  · intro P pool pool' hP h
    simp only [ExtendPathway] at h
    split at h
    · simp at h
    · split at h
      · simp at h; subst h
        exact ⟨[], by simp, fun _ => by simp, by simp⟩
      · split at h
        · simp at h
        · rename_i r hr
          simp at h; subst h
          obtain ⟨added, hj, hc, hIa⟩ := ihA _ _ _ _ _ _ hP hr
          simp only at hj hc
          exact ⟨added, hj, fun h0 => by simp only [hc h0]; ring, hIa⟩
  · intro P anchors F FS pool r hP h
    cases anchors with
    | nil => simp [extendAnchors] at h; subst h; exact PoolStep.rfl0 I pool
    | cons i rest =>
      simp only [extendAnchors] at h
      split at h
      · simp at h
      · rename_i r1 hr1
        exact (ihL _ _ _ _ _ _ hP hr1).trans0 (ihA _ _ _ _ _ _ hP h)
  · intro P sub F FS pool r hP h
    simp only [extendLoop] at h
    generalize hg : (match nonForbiddenNeighbour sub (EdgeAdjacencies P.remnant) F with
      | some neighbour =>
        if sub.length ≤ P.remnant.Edges.length / 2 then
          match BreakGraphOnEdges P.remnant (sub ++ [neighbour]) with
          | none => none
          | some (subgraph, remnant) =>
            if (sub ++ [neighbour]).length > 1 then
              match CheckSubgraphMatches G variant cap fuel P subgraph remnant pool with
              | none => none
              | some (m, pool1) => some (some (sub ++ [neighbour], m, pool1))
            else some (some (sub ++ [neighbour], true, pool))
        else some none
      | none => (some none : Option (Option (List Nat × Bool × Pool)))) = grown at h
    have hgrown : ∀ sub1 m pool1, grown = some (some (sub1, m, pool1)) →
        PoolStep I 0 pool pool1 := by
      intro sub1 m pool1 he
      rw [he] at hg
      split at hg
      · rename_i neighbour hn
        split at hg
        · split at hg
          · simp at hg
          · rename_i subgraph remnant hb
            split at hg
            · split at hg
              · simp at hg
              · rename_i m1 p1 hc
                simp at hg
                obtain ⟨_, _, rfl⟩ := hg
                exact ihC _ _ _ _ _ hP ⟨_, hb⟩ (break_subgraph_pos hn hb) hc
            · simp at hg
              obtain ⟨_, _, rfl⟩ := hg
              exact PoolStep.rfl0 I pool
        · simp at hg
      · simp at hg
    clear hg
    split at h
    · simp at h
    · rename_i sub1 pool1
      exact (hgrown _ _ _ rfl).trans0 (ihL _ _ _ _ _ _ hP h)
    · rename_i other _
      cases other with
      | none =>
        simp only at h
        split at h
        · simp at h; subst h; exact PoolStep.rfl0 I pool
        · exact ihL _ _ _ _ _ _ hP h
      | some x =>
        obtain ⟨a, b, c⟩ := x
        have hp2 := hgrown _ _ _ rfl
        simp only at h
        split at h
        · simp at h; subst h; exact hp2
        · exact hp2.trans0 (ihL _ _ _ _ _ _ hP h)
  · intro P subgraph remnant pool r hP hbr hpos h
    simp only [CheckSubgraphMatches] at h
    split at h
    · simp at h
    · rename_i r1 hr1
      simp at h; subst h
      exact ihCA _ _ _ _ _ _ _ _ _ hP hbr hpos hr1
  · intro P subgraph remnant anchors F FS m pool r hP hbr hpos h
    cases anchors with
    | nil => simp [checkAnchors] at h; subst h; exact PoolStep.rfl0 I pool
    | cons i rest =>
      simp only [checkAnchors] at h
      split at h
      · simp at h
      · rename_i r1 hr1
        exact (ihCL _ _ _ _ _ _ _ _ _ hP hbr hpos hr1).trans0
          (ihCA _ _ _ _ _ _ _ _ _ hP hbr hpos h)
  · intro P subgraph remnant sub F FS m pool r hP hbr hpos h
    obtain ⟨sub0, hbr0⟩ := hbr
    simp only [checkLoop] at h
    split at h
    · rename_i neighbour hn
      split at h
      · split at h
        · split at h
          · simp at h
          · rename_i D R hb
            split at h
            · simp at h
            · exact ihCL _ _ _ _ _ _ _ _ _ hP ⟨_, hbr0⟩ hpos h
            · rename_i hmatch
              have hcmp : SubgraphEdgeCompare subgraph.Edges D.Edges = true
                  ∧ GraphsIsomorphic subgraph D = some true := by
                by_cases hc : SubgraphEdgeCompare subgraph.Edges D.Edges = true
                · rw [if_pos hc] at hmatch
                  exact ⟨hc, hmatch⟩
                · rw [if_neg hc] at hmatch
                  simp at hmatch
              have hnew : I (matchPathway P subgraph D R) :=
                hI P subgraph remnant D R sub0 _ hP hbr0 hpos hb hcmp.1 hcmp.2
              split at h
              · refine PoolStep.trans0 ?_ (ihCL _ _ _ _ _ _ _ _ _ hP ⟨_, hbr0⟩ hpos h)
                refine ⟨[matchPathway P subgraph D R], rfl,
                  fun h0 => by simp [Increment_of_nonneg h0], ?_⟩
                intro Q hQ
                rw [List.mem_singleton] at hQ
                subst hQ; exact hnew
              · split at h
                · simp at h
                · rename_i pool1 he
                  refine PoolStep.trans0 ?_ (ihCL _ _ _ _ _ _ _ _ _ hP ⟨_, hbr0⟩ hpos h)
                  obtain ⟨added, hj, hc, hIa⟩ := ihE _ _ _ hnew he
                  simp only at hj hc
                  refine ⟨added, hj, fun h0 => ?_, hIa⟩
                  rw [hc (by rw [Increment_of_nonneg h0]; omega), Increment_of_nonneg h0]
                  ring
        · exact ihCL _ _ _ _ _ _ _ _ _ hP ⟨_, hbr0⟩ hpos h
      · split at h
        · simp at h; subst h; exact PoolStep.rfl0 I pool
        · exact ihCL _ _ _ _ _ _ _ _ _ hP ⟨_, hbr0⟩ hpos h
    · split at h
      · simp at h; subst h; exact PoolStep.rfl0 I pool
      · exact ihCL _ _ _ _ _ _ _ _ _ hP ⟨_, hbr0⟩ hpos h

theorem searchEffect (I : Pathway → Prop) (hI : StepClosed I) (G : Graph) (variant : String)
    (cap : Nat) : ∀ fuel, SearchEffect I G variant cap fuel
  | 0 => searchEffect_zero I G variant cap
  | fuel + 1 => searchEffect_succ I hI G variant cap fuel (searchEffect I hI G variant cap fuel)

/-! ## The pathways that the search constructs -/

theorem Reachable_constructed {G : Graph} {P : Pathway} (h : Reachable G P) :
    Constructed G P := by
  induction h with
  | start => exact Constructed.start
  | step P P' variant cap fuel best active pool' _ hext hmem ih =>
    obtain ⟨added, hj, _, hI⟩ :=
      (searchEffect (Constructed G) (fun Q S rest D R sub sub1 hQ h1 hpos h2 _ _ =>
        Constructed.step Q S rest D R sub sub1 hQ h1 hpos h2) G variant cap fuel).1
        P _ pool' ih hext
    rw [hj, List.nil_append] at hmem
    exact hI P' hmem

theorem elems_foldl_appendTo {α β : Type} (f : β → α) :
    ∀ (l : List β) (out : Option (List α)),
      elems (l.foldl (fun o d => appendTo o (f d)) out) = elems out ++ l.map f
  | [], _ => by simp
  | d :: l, out => by
    rw [List.foldl_cons, elems_foldl_appendTo f l]
    simp [appendTo, elems]

theorem elems_CopyEdgeList (l : Option (List (Int × Int))) :
    elems (CopyEdgeList l) = elems l := by
  unfold CopyEdgeList
  rw [elems_foldl_appendTo (fun e : Int × Int => (e.1, e.2))]
  simp [elems]

theorem elems_CopyDuplicates (d : Option (List Duplicates)) :
    (elems (CopyDuplicates d)).map (fun x => (elems x.left, elems x.right))
      = (elems d).map (fun x => (elems x.left, elems x.right)) := by
  unfold CopyDuplicates
  rw [elems_foldl_appendTo (fun d : Duplicates =>
    ({ left := CopyEdgeList d.left, right := CopyEdgeList d.right } : Duplicates))]
  have hnil : elems (none : Option (List Duplicates)) = [] := rfl
  rw [hnil, List.nil_append, List.map_map]
  apply List.map_congr_left
  intro x _
  simp only [Function.comp, elems_CopyEdgeList]

theorem matchPathway_duplicates (P : Pathway) (S D R : Graph) :
    elems (matchPathway P S D R).duplicates
      = elems (CopyDuplicates P.duplicates)
        ++ [{ left := CopyEdgeList (some S.Edges), right := CopyEdgeList (some D.Edges) }] := by
  simp [matchPathway, UpdateAtomEquivalents, CopyPathway, NewPathway, appendTo, elems]

/-- C31: for every pathway `P` that `CheckSubgraphMatches` can construct from
`NewStartingPathway G` (`Constructed`: whatever the order filter and the
isomorphism test answer, whichever worker takes the step), the edges of the
remnant and of the fragments of `P` add up to the edges of `G`; every pathway
that the embedded search reaches is such a pathway.  Each construction step,
from a pathway `Q`, a candidate `S` broken out of the remnant of `Q` and a match
`D` broken out of the rest, appends `S` as the last fragment, appends the record
with the edges of `S` and the edges of `D` as the last duplicates record (the
records before it are those of `Q`), and yields a remnant with `|E(S)|` edges
fewer than the remnant of `Q`. -/
theorem C31_pathway_edges_accounted (G : Graph) (P : Pathway) (hP : Constructed G P) :
    P.remnant.Edges.length + (P.pathway.map (fun f => f.Edges.length)).sum = G.Edges.length
      ∧ (∀ P1, Reachable G P1 → Constructed G P1)
      ∧ ∀ (Q : Pathway) (S rest D R : Graph) (sub sub1 : List Nat),
          BreakGraphOnEdges Q.remnant sub = some (S, rest) →
          BreakGraphOnEdges rest sub1 = some (D, R) →
          (matchPathway Q S D R).pathway = Q.pathway ++ [S]
            ∧ elems (matchPathway Q S D R).duplicates
              = elems (CopyDuplicates Q.duplicates)
                ++ [{ left := CopyEdgeList (some S.Edges),
                      right := CopyEdgeList (some D.Edges) }]
            ∧ elems (CopyEdgeList (some S.Edges)) = S.Edges
            ∧ elems (CopyEdgeList (some D.Edges)) = D.Edges
            ∧ (elems (CopyDuplicates Q.duplicates)).map (fun x => (elems x.left, elems x.right))
              = (elems Q.duplicates).map (fun x => (elems x.left, elems x.right))
            ∧ (matchPathway Q S D R).remnant.Edges.length + S.Edges.length
              = Q.remnant.Edges.length := by
  refine ⟨?_, fun P1 h1 => Reachable_constructed h1, ?_⟩
  · have := (Constructed_inv hP).1
    omega
  · intro Q S rest D R sub sub1 h1 h2
    refine ⟨matchPathway_pathway Q S D R, matchPathway_duplicates Q S D R,
      elems_CopyEdgeList _, elems_CopyEdgeList _, elems_CopyDuplicates _, ?_⟩
    rw [matchPathway_remnant_length]
    have a := (BreakGraphOnEdges_length h1).2
    have b := (BreakGraphOnEdges_length h2).2
    omega

set_option maxRecDepth 100000 in
/-- C31 at the pathway constructed in one step from the starting pathway of the
two disjoint paths of two edges: the fragment is the first path, the record
holds the edges of both paths, and the remnant keeps the two edges of the
second path. -/
theorem C31_pathway_edges_accounted_witness :
    Constructed pathPair pathPairStep
      ∧ pathPairStep.pathway = [NewGraph [1, 2, 3] [(1, 2), (2, 3)]]
      ∧ (elems pathPairStep.duplicates).map (fun x => (elems x.left, elems x.right))
          = [([(1, 2), (2, 3)], [(4, 5), (5, 6)])]
      ∧ pathPairStep.remnant.Edges = [(4, 5), (5, 6)]
      ∧ pathPairStep.remnant.Edges.length
          + (pathPairStep.pathway.map (fun f => f.Edges.length)).sum
        = pathPair.Edges.length :=
  ⟨pathPairStep_constructed, by decide!, by decide!, by decide!,
    (C31_pathway_edges_accounted pathPair pathPairStep pathPairStep_constructed).1⟩

/-! ## The counter of active jobs -/

set_option maxRecDepth 1000000 in
/-- C32 (as stated it fails): for the square and a counter of `-1`,
`ExtendPathway` puts two pathways on the queue and leaves the counter at 1 (the
first `Increment` sets `-1` to `1`), where the claim gives `-1 - 1 + 2 = 0`. -/
theorem C32_counterexample_counter_reset :
    (ExtendPathway square "shortest" 100 30 (NewStartingPathway square)
        { bestPathways := [NewStartingPathway square], jobs := [], activeWorkers := -1 }).map
      (fun pool1 => (pool1.jobs.length, pool1.activeWorkers)) = some (2, 1) := by
  decide!

/-- C32 (amended): when a call of `ExtendPathway` returns, with the recursive
calls that it makes when the queue is full, the jobs queue is the queue before
the call followed by the pathways that the call added, and, if the counter of
active jobs was not negative before the call, the counter is its value before
the call minus 1 plus the number of pathways added; a call that is pruned adds
nothing and lowers the counter by 1. -/
theorem C32_counter_follows_queue (G : Graph) (variant : String) (cap fuel : Nat)
    (P : Pathway) (pool pool1 : Pool)
    (h : ExtendPathway G variant cap fuel P pool = some pool1) :
    (∃ added : List Pathway, pool1.jobs = pool.jobs ++ added
        ∧ (0 ≤ pool.activeWorkers →
            pool1.activeWorkers = pool.activeWorkers - 1 + (added.length : Int)))
      ∧ ∀ best rest, pool.bestPathways = best :: rest →
          AssemblyIndex best G < BestAssemblyIndex G P →
          pool1.jobs = pool.jobs ∧ pool1.activeWorkers = pool.activeWorkers - 1
            ∧ pool1.bestPathways = pool.bestPathways := by
  constructor
  · obtain ⟨added, hj, hc, _⟩ :=
      (searchEffect (fun _ => True) (fun _ _ _ _ _ _ _ _ _ _ _ _ _ => trivial) G variant cap
        fuel).1 P pool pool1 trivial h
    exact ⟨added, hj, fun h0 => by rw [hc h0]; ring⟩
  · intro best rest hbest hlt
    cases fuel with
    | zero => simp [ExtendPathway] at h
    | succ n =>
      simp only [ExtendPathway, hbest, if_pos hlt] at h
      cases h
      exact ⟨rfl, rfl, hbest.symm ▸ rfl⟩

set_option maxRecDepth 1000000 in
/-- C32 (amended) at the starting pathway of the square, with one active job
and an empty queue: the call puts two pathways on the queue and the counter
ends at `1 - 1 + 2 = 2`. -/
theorem C32_counter_follows_queue_witness :
    (ExtendPathway square "shortest" 100 30 (NewStartingPathway square)
        (startPool (NewStartingPathway square))).map
      (fun pool1 => (pool1.jobs.length, pool1.activeWorkers)) = some (2, 2)
    ∧ ∃ pool1, ExtendPathway square "shortest" 100 30 (NewStartingPathway square)
          (startPool (NewStartingPathway square)) = some pool1
        ∧ ∃ added : List Pathway,
            pool1.jobs = (startPool (NewStartingPathway square)).jobs ++ added
            ∧ pool1.activeWorkers
              = (startPool (NewStartingPathway square)).activeWorkers - 1
                + (added.length : Int) := by
  have hrun : (ExtendPathway square "shortest" 100 30 (NewStartingPathway square)
        (startPool (NewStartingPathway square))).map
      (fun pool1 => (pool1.jobs.length, pool1.activeWorkers)) = some (2, 2) := by decide!
  refine ⟨hrun, ?_⟩
  cases h : ExtendPathway square "shortest" 100 30 (NewStartingPathway square)
      (startPool (NewStartingPathway square)) with
  | none => rw [h] at hrun; exact absurd hrun (by simp)
  | some pool1 =>
    obtain ⟨added, hj, hc⟩ :=
      (C32_counter_follows_queue square "shortest" 100 30 (NewStartingPathway square)
        (startPool (NewStartingPathway square)) pool1 h).1
    exact ⟨pool1, rfl, added, hj, hc (by decide)⟩

/-! ## The candidates that `CheckSubgraphMatches` tests -/

theorem candidateLoop_pop {adj : Nat → List Nat} {k : Nat} {t : SubgraphTrace}
    (h : nonForbiddenNeighbour t.sub adj t.forbidden = none ∨ k < t.sub.length)
    (fuel : Nat) (tested : List (List Nat)) :
    candidateLoop adj k (fuel + 1) t.sub t.forbidden t.forbiddenSize tested
      = candidateCont adj k fuel (popTrace t).sub (popTrace t).forbidden
          (popTrace t).forbiddenSize tested := by
  rw [candidateLoop]
  cases hn : nonForbiddenNeighbour t.sub adj t.forbidden with
  | none => rfl
  | some x =>
    rcases h with h | h
    · rw [hn] at h; cases h
    · simp only
      rw [if_neg (by omega)]
      rfl

theorem candidateLoop_push {adj : Nat → List Nat} {k : Nat} {t : SubgraphTrace} {x : Nat}
    (h : nonForbiddenNeighbour t.sub adj t.forbidden = some x) (hk : t.sub.length ≤ k)
    (fuel : Nat) (tested : List (List Nat)) :
    candidateLoop adj k (fuel + 1) t.sub t.forbidden t.forbiddenSize tested
      = candidateLoop adj k fuel (t.sub ++ [x]) t.forbidden t.forbiddenSize
          (tested ++ (if (t.sub ++ [x]).length = k then [t.sub ++ [x]] else [])) := by
  rw [candidateLoop]
  simp only [h, if_pos hk]
  by_cases hl : (t.sub ++ [x]).length = k
  · rw [if_pos hl, if_pos hl]
  · rw [if_neg hl, if_neg hl, List.append_nil]

theorem candidateRun_pop {g : Graph} {e k : Nat} {t : SubgraphTrace} (hpre : TracePre g e t)
    (hcase : nonForbiddenNeighbour t.sub (EdgeAdjacencies g) t.forbidden = none
      ∨ k < t.sub.length) :
    CandidateRun g e k t (popTrace t) 1 [] := by
  have hinv := hpre.inv
  refine
    { run := ?_, sub_eq := rfl, forbidden_iff := ?_, size_last := ?_, size_keep := ?_,
      sound := ?_, complete := ?_, distinct := ?_ }
  · intro fuel tested
    rw [Nat.add_comm, candidateLoop_pop hcase, List.append_nil]
  · intro j
    simp only [popTrace, forbidUpdate]
    by_cases hj : j = t.sub.getLastD 0
    · simp [hj]
    · simp only [hj, if_false, false_or]
      cases hs : t.forbiddenSize j with
      | none =>
        simp only
        constructor
        · intro hF
          obtain ⟨v, hv, _⟩ := hinv j hF
          rw [hs] at hv; simp at hv
        · rintro ⟨hF, _⟩; exact hF
      | some v =>
        simp only
        by_cases hv : v > t.sub.length
        · simp only [hv, if_true, Bool.false_eq_true, false_iff, not_and, not_exists]
          intro _ w hw
          simp at hw
          omega
        · simp only [hv, if_false]
          constructor
          · intro hF; exact ⟨hF, v, rfl, by omega⟩
          · rintro ⟨hF, _⟩; exact hF
  · simp [popTrace, forbidUpdate]
  · intro j hj _
    simp only [popTrace, forbidUpdate]
    rw [if_neg hj]
  · intro l hl; simp at hl
  · intro S hS hsub hvalid hfree hcard
    exfalso
    rcases hcase with hnone | hdeep
    · obtain ⟨s, hs, y, hyS, hy, hadj⟩ := hS.exists_neighbour hpre.nonempty hsub
      have hmem : y ∈ EdgeAdjacencies g s := mem_EdgeAdjacencies.mpr hadj
      rcases nonForbiddenNeighbour_none hnone s hs y hmem with h | h
      · rw [hfree y hyS hy] at h; simp at h
      · exact hy h
    · have h1 := Finset.card_lt_card hsub
      rw [List.toFinset_card_of_nodup hpre.nodup] at h1
      omega
  · simp

theorem candidateRun_push {g : Graph} {e k m : Nat} {t : SubgraphTrace}
    (hpre : TracePre g e t) (hlow : LowForbidden e t) (hdepth : t.sub.length ≤ k) {x : Nat}
    (hsome : nonForbiddenNeighbour t.sub (EdgeAdjacencies g) t.forbidden = some x)
    (hfree : freeEdges g t ≤ m + 1)
    (ih : ∀ t : SubgraphTrace, TracePre g e t → LowForbidden e t → t.sub.length ≤ k + 1 →
      freeEdges g t ≤ m → ∃ T out t', CandidateRun g e k t t' T out) :
    ∃ T out t', CandidateRun g e k t t' T out := by
  obtain ⟨s, hs, hxadj, hFx, hxc⟩ := nonForbiddenNeighbour_mem hsome
  have hxsub : x ∉ t.sub := fun h => by
    rw [ContainsIdx_iff.mpr h] at hxc; simp at hxc
  have hadj : EdgeAdjacent g s x := mem_EdgeAdjacencies.mp hxadj
  have hxn : x < g.Edges.length := edgeAdjacent_lt hadj
  have hex : e ≤ x := by
    by_contra hc
    have := (hlow x (by omega)).1
    rw [hFx] at this; simp at this
  -- the state after the push
  obtain ⟨t1, hsub1, hF1, hFS1⟩ : ∃ t1 : SubgraphTrace, t1.sub = t.sub ++ [x]
      ∧ t1.forbidden = t.forbidden ∧ t1.forbiddenSize = t.forbiddenSize :=
    ⟨{ t with sub := t.sub ++ [x] }, rfl, rfl, rfl⟩
  have hpre1 : TracePre g e t1 := by
    refine ⟨?_, ?_, ?_, ?_, ?_⟩
    · rw [hsub1]; simp
    · intro y hy
      rw [hsub1] at hy
      rcases List.mem_append.mp hy with h | h
      · exact hpre.valid y h
      · simp at h; subst h; exact ⟨hex, hxn⟩
    · rw [hsub1]
      exact List.Nodup.append hpre.nodup (by simp) (by
        intro a ha hb; simp at hb; subst hb; exact hxsub ha)
    · rw [hsub1]
      have : (t.sub ++ [x]).toFinset = insert x t.sub.toFinset := by
        ext y; simp [or_comm]
      rw [this]
      exact connectedSet_insert hpre.connected (List.mem_toFinset.mpr hs) hadj
    · intro j hj
      rw [hF1] at hj
      obtain ⟨v, hv, hle⟩ := hpre.inv j hj
      exact ⟨v, by rw [hFS1]; exact hv, by rw [hsub1]; simp; omega⟩
  have hlow1 : LowForbidden e t1 := by
    intro j hj
    rw [hF1, hFS1]
    exact hlow j hj
  have hdepth1 : t1.sub.length ≤ k + 1 := by rw [hsub1]; simp; omega
  have hfree1 : freeEdges g t1 ≤ m := by
    have : freeEdges g t1 < freeEdges g t := by
      unfold freeEdges
      apply filter_length_lt (x := x)
      · intro j hj
        rw [hsub1, hF1] at hj
        simp only [Bool.and_eq_true, decide_eq_true_eq, List.mem_append, List.mem_singleton,
          not_or] at hj ⊢
        exact ⟨hj.1.1, hj.2⟩
      · exact List.mem_range.mpr hxn
      · simp [hxsub, hFx]
      · rw [hsub1]; simp
    omega
  obtain ⟨T1, out1, t2, R1⟩ := ih t1 hpre1 hlow1 hdepth1 hfree1
  have hsub2 : t2.sub = t.sub := by rw [R1.sub_eq, hsub1]; simp
  have hlast1 : t1.sub.getLastD 0 = x := by rw [hsub1]; simp
  have hlen1 : t1.sub.length = t.sub.length + 1 := by rw [hsub1]; simp
  have hF2 : ∀ j, t2.forbidden j = true ↔ (j = x ∨ t.forbidden j = true) := by
    intro j
    rw [R1.forbidden_iff, hlast1, hF1, hFS1, hlen1]
    constructor
    · rintro (h | ⟨h, _⟩)
      · exact Or.inl h
      · exact Or.inr h
    · rintro (h | h)
      · exact Or.inl h
      · exact Or.inr ⟨h, hpre.inv j h⟩
  have hFS2x : t2.forbiddenSize x = some (t.sub.length + 1) := by
    have := R1.size_last
    rw [hlast1, hlen1] at this
    exact this
  have hFS2 : ∀ j, j ≠ x → t.forbidden j = true → t2.forbiddenSize j = t.forbiddenSize j := by
    intro j hj hFj
    have := R1.size_keep j (by rw [hlast1]; exact hj) (by rw [hF1]; exact hFj)
    rw [this, hFS1]
  have hpre2 : TracePre g e t2 := by
    refine ⟨?_, ?_, ?_, ?_, ?_⟩
    · rw [hsub2]; exact hpre.nonempty
    · rw [hsub2]; exact hpre.valid
    · rw [hsub2]; exact hpre.nodup
    · rw [hsub2]; exact hpre.connected
    · intro j hj
      rw [hsub2]
      rcases (hF2 j).mp hj with h | h
      · subst h; exact ⟨_, hFS2x, le_refl _⟩
      · by_cases hjx : j = x
        · subst hjx; exact ⟨_, hFS2x, le_refl _⟩
        · obtain ⟨v, hv, hle⟩ := hpre.inv j h
          exact ⟨v, by rw [hFS2 j hjx h]; exact hv, hle⟩
  have hlow2 : LowForbidden e t2 := by
    intro j hj
    obtain ⟨h1, h2⟩ := hlow j hj
    refine ⟨(hF2 j).mpr (Or.inr h1), ?_⟩
    rw [hFS2 j (by omega) h1]
    exact h2
  have hdepth2 : t2.sub.length ≤ k + 1 := by rw [hsub2]; omega
  have hfree2 : freeEdges g t2 ≤ m := by
    have : freeEdges g t2 < freeEdges g t := by
      unfold freeEdges
      apply filter_length_lt (x := x)
      · intro j hj
        rw [hsub2] at hj
        simp only [Bool.and_eq_true, decide_eq_true_eq, Bool.not_eq_true'] at hj ⊢
        refine ⟨hj.1, ?_⟩
        by_contra hc
        have : t2.forbidden j = true := (hF2 j).mpr (Or.inr (by simpa using hc))
        rw [hj.2] at this; simp at this
      · exact List.mem_range.mpr hxn
      · simp [hxsub, hFx]
      · have : t2.forbidden x = true := (hF2 x).mpr (Or.inl rfl)
        simp [this]
    omega
  obtain ⟨T2, out2, t3, R2⟩ := ih t2 hpre2 hlow2 hdepth2 hfree2
  have hnF2 : ∀ y, t2.forbidden y = false → t.forbidden y = false := by
    intro y hy
    by_contra hc
    have : t2.forbidden y = true := (hF2 y).mpr (Or.inr (by simpa using hc))
    rw [hy] at this; simp at this
  have hF2x : t2.forbidden x = true := (hF2 x).mpr (Or.inl rfl)
  have hout2 : ∀ l ∈ out2, x ∉ l := by
    intro l hl hxl
    obtain ⟨ext, _, hleq, _, _, _, hext, _⟩ := R2.sound l hl
    rw [hleq, hsub2] at hxl
    rcases List.mem_append.mp hxl with h | h
    · exact hxsub h
    · rw [hext x h] at hF2x; simp at hF2x
  have hout1 : ∀ l ∈ out1, x ∈ l ∧ (t.sub ++ [x]).toFinset ≠ l.toFinset := by
    intro l hl
    obtain ⟨ext, hne, hleq, hnd, _, _, _, _⟩ := R1.sound l hl
    rw [hsub1] at hleq
    refine ⟨by rw [hleq]; simp, ?_⟩
    intro heq
    have h1 : (t.sub ++ [x]).toFinset.card = l.toFinset.card := by rw [heq]
    have hnd1 : (t.sub ++ [x]).Nodup := by rw [← hsub1]; exact hpre1.nodup
    rw [List.toFinset_card_of_nodup hnd1, List.toFinset_card_of_nodup hnd, hleq] at h1
    simp at h1
    exact hne h1
  have hnd1 : (t.sub ++ [x]).Nodup := by rw [← hsub1]; exact hpre1.nodup
  refine ⟨1 + T1 + T2,
    (if (t.sub ++ [x]).length = k then [t.sub ++ [x]] else []) ++ (out1 ++ out2), t3,
    { run := ?_, sub_eq := ?_, forbidden_iff := ?_, size_last := ?_, size_keep := ?_,
      sound := ?_, complete := ?_, distinct := ?_ }⟩
  · intro fuel tested
    have h1 : 1 + T1 + T2 + fuel = (T1 + (T2 + fuel)) + 1 := by omega
    have hne2 : t2.sub.length ≠ 0 := by
      rw [hsub2]; exact fun h => hpre.nonempty (List.length_eq_zero.mp h)
    rw [h1, candidateLoop_push hsome hdepth, ← hsub1, ← hF1, ← hFS1, R1.run, candidateCont,
      if_neg hne2, R2.run, hsub1]
    simp only [List.append_assoc]
  · rw [R2.sub_eq, hsub2]
  · intro j
    rw [R2.forbidden_iff, hsub2]
    constructor
    · rintro (h | ⟨h, v, hv, hle⟩)
      · exact Or.inl h
      · right
        by_cases hjx : j = x
        · subst hjx
          rw [hFS2x] at hv
          simp at hv
          omega
        · have hFj : t.forbidden j = true := by
            rcases (hF2 j).mp h with h' | h'
            · exact absurd h' hjx
            · exact h'
          exact ⟨hFj, v, by rw [← hFS2 j hjx hFj]; exact hv, hle⟩
    · rintro (h | ⟨h, v, hv, hle⟩)
      · exact Or.inl h
      · right
        have hjx : j ≠ x := by
          intro hjx; subst hjx; rw [hFx] at h; simp at h
        exact ⟨(hF2 j).mpr (Or.inr h), v, by rw [hFS2 j hjx h]; exact hv, hle⟩
  · have := R2.size_last
    rw [hsub2] at this
    exact this
  · intro j hj hFj
    have hjx : j ≠ x := by
      intro hjx; subst hjx; rw [hFx] at hFj; simp at hFj
    rw [R2.size_keep j (by rw [hsub2]; exact hj) ((hF2 j).mpr (Or.inr hFj)), hFS2 j hjx hFj]
  · intro l hl
    simp only [List.mem_append] at hl
    rcases hl with hl | hl | hl
    · by_cases hlen : (t.sub ++ [x]).length = k
      · rw [if_pos hlen, List.mem_singleton] at hl
        subst hl
        refine ⟨[x], by simp, rfl, hnd1, ?_, ?_, ?_, hlen⟩
        · rw [← hsub1]; exact hpre1.valid
        · rw [← hsub1]; exact hpre1.connected
        · intro y hy; simp at hy; subst hy; exact hFx
      · rw [if_neg hlen] at hl; simp at hl
    · obtain ⟨ext, hne, hleq, hnd, hval, hconn, hext, hlen⟩ := R1.sound l hl
      refine ⟨[x] ++ ext, by simp, ?_, hnd, hval, hconn, ?_, hlen⟩
      · rw [hleq, hsub1]; simp
      · intro y hy
        rcases List.mem_append.mp hy with h | h
        · simp at h; subst h; exact hFx
        · have := hext y h
          rw [hF1] at this
          exact this
    · obtain ⟨ext, hne, hleq, hnd, hval, hconn, hext, hlen⟩ := R2.sound l hl
      refine ⟨ext, hne, by rw [hleq, hsub2], hnd, hval, hconn, ?_, hlen⟩
      intro y hy
      exact hnF2 y (hext y hy)
  · intro S hS hsubS hvalid hfreeS hcard
    by_cases hxS : x ∈ S
    · by_cases heq : (t.sub ++ [x]).toFinset = S
      · have hlen : (t.sub ++ [x]).length = k := by
          rw [← List.toFinset_card_of_nodup hnd1, heq, hcard]
        exact ⟨t.sub ++ [x], by simp [hlen], heq⟩
      · have hss : t1.sub.toFinset ⊂ S := by
          rw [hsub1]
          refine Finset.ssubset_iff_subset_ne.mpr ⟨?_, heq⟩
          intro y hy
          rw [List.mem_toFinset] at hy
          rcases List.mem_append.mp hy with h | h
          · exact hsubS.subset (List.mem_toFinset.mpr h)
          · simp at h; subst h; exact hxS
        obtain ⟨l, hl, hlS⟩ := R1.complete S hS hss hvalid (by
          intro y hyS hy
          rw [hF1]
          apply hfreeS y hyS
          intro h
          exact hy (by rw [hsub1]; exact List.mem_append.mpr (Or.inl h))) hcard
        exact ⟨l, by simp [hl], hlS⟩
    · obtain ⟨l, hl, hlS⟩ := R2.complete S hS (by rw [hsub2]; exact hsubS) hvalid (by
        intro y hyS hy
        rw [hsub2] at hy
        have hFy := hfreeS y hyS hy
        by_contra hc
        rcases (hF2 y).mp (by simpa using hc) with h | h
        · subst h; exact hxS hyS
        · rw [hFy] at h; simp at h) hcard
      exact ⟨l, by simp [hl], hlS⟩
  · simp only [List.map_append]
    rw [List.nodup_append, List.nodup_append]
    refine ⟨?_, ⟨R1.distinct, R2.distinct, ?_⟩, ?_⟩
    · by_cases hlen : (t.sub ++ [x]).length = k
      · rw [if_pos hlen]; simp
      · rw [if_neg hlen]; simp
    · intro S h1 h2
      obtain ⟨l1, hl1, hleq1⟩ := List.mem_map.mp h1
      obtain ⟨l2, hl2, hleq2⟩ := List.mem_map.mp h2
      have : x ∈ l2.toFinset := by
        rw [hleq2, ← hleq1]; exact List.mem_toFinset.mpr (hout1 l1 hl1).1
      exact hout2 l2 hl2 (List.mem_toFinset.mp this)
    · intro S h1 h2
      obtain ⟨l0, hl0, hleq0⟩ := List.mem_map.mp h1
      have hl0eq : l0 = t.sub ++ [x] := by
        by_cases hlen : (t.sub ++ [x]).length = k
        · rw [if_pos hlen, List.mem_singleton] at hl0; exact hl0
        · rw [if_neg hlen] at hl0; simp at hl0
      subst hl0eq
      rcases List.mem_append.mp h2 with h | h
      · obtain ⟨l, hl, hleq⟩ := List.mem_map.mp h
        exact (hout1 l hl).2 (hleq0.trans hleq.symm)
      · obtain ⟨l, hl, hleq⟩ := List.mem_map.mp h
        have : x ∈ l.toFinset := by rw [hleq, ← hleq0]; simp
        exact hout2 l hl (List.mem_toFinset.mp this)

theorem candidateRun_exists (g : Graph) (e k : Nat) :
    ∀ (m : Nat) (t : SubgraphTrace), TracePre g e t → LowForbidden e t →
      t.sub.length ≤ k + 1 → freeEdges g t ≤ m → ∃ T out t', CandidateRun g e k t t' T out := by
  intro m
  induction m with
  | zero =>
    intro t hpre hlow hdepth hfree
    by_cases hk : k < t.sub.length
    · exact ⟨1, [], _, candidateRun_pop hpre (Or.inr hk)⟩
    · cases hn : nonForbiddenNeighbour t.sub (EdgeAdjacencies g) t.forbidden with
      | none => exact ⟨1, [], _, candidateRun_pop hpre (Or.inl hn)⟩
      | some x =>
        exfalso
        obtain ⟨s, hs, hxadj, hFx, hxc⟩ := nonForbiddenNeighbour_mem hn
        have hxsub : x ∉ t.sub := fun h => by
          rw [ContainsIdx_iff.mpr h] at hxc; simp at hxc
        have hpos : 0 < freeEdges g t := by
          unfold freeEdges
          apply List.length_pos_of_mem (a := x)
          rw [List.mem_filter]
          exact ⟨List.mem_range.mpr (EdgeAdjacencies_lt hxadj), by simp [hxsub, hFx]⟩
        omega
  | succ m ih =>
    intro t hpre hlow hdepth hfree
    by_cases hk : k < t.sub.length
    · exact ⟨1, [], _, candidateRun_pop hpre (Or.inr hk)⟩
    · cases hn : nonForbiddenNeighbour t.sub (EdgeAdjacencies g) t.forbidden with
      | none => exact ⟨1, [], _, candidateRun_pop hpre (Or.inl hn)⟩
      | some x => exact candidateRun_push hpre hlow (by omega) hn hfree ih

theorem candidateLoop_grow {adj : Nat → List Nat} {k : Nat} {sub : List Nat}
    {F : Nat → Bool} {FS : Nat → Option Nat} {x : Nat}
    (h : nonForbiddenNeighbour sub adj F = some x) (hk : sub.length ≤ k)
    (fuel : Nat) (tested : List (List Nat)) :
    candidateLoop adj k (fuel + 1) sub F FS tested
      = candidateLoop adj k fuel (sub ++ [x]) F FS
          (tested ++ (if (sub ++ [x]).length = k then [sub ++ [x]] else [])) :=
  candidateLoop_push
    (t := { edgeSubgraphs := [], subCount := 0, sub := sub, forbidden := F, forbiddenSize := FS })
    h hk fuel tested

theorem candidateLoop_back {adj : Nat → List Nat} {k : Nat} {sub : List Nat}
    {F : Nat → Bool} {FS : Nat → Option Nat}
    (h : nonForbiddenNeighbour sub adj F = none ∨ k < sub.length)
    (fuel : Nat) (tested : List (List Nat)) :
    candidateLoop adj k (fuel + 1) sub F FS tested
      = candidateCont adj k fuel sub.dropLast
          (forbidUpdate (sub.getLastD 0) sub.length F FS).1
          (forbidUpdate (sub.getLastD 0) sub.length F FS).2 tested :=
  candidateLoop_pop
    (t := { edgeSubgraphs := [], subCount := 0, sub := sub, forbidden := F, forbiddenSize := FS })
    h fuel tested

theorem candidateLoop_mono (adj : Nat → List Nat) (k : Nat) :
    ∀ (fuel : Nat) (sub : List Nat) (F : Nat → Bool) (FS : Nat → Option Nat)
      (tested : List (List Nat)) (r : (Nat → Bool) × (Nat → Option Nat) × List (List Nat)),
      candidateLoop adj k fuel sub F FS tested = some r →
      candidateLoop adj k (fuel + 1) sub F FS tested = some r := by
  intro fuel
  induction fuel with
  | zero => intro sub F FS tested r h; simp [candidateLoop] at h
  | succ n ih =>
    intro sub F FS tested r h
    by_cases hk : k < sub.length
    · rw [candidateLoop_back (Or.inr hk)] at h ⊢
      unfold candidateCont at h ⊢
      by_cases h0 : sub.dropLast.length = 0
      · rw [if_pos h0] at h ⊢; exact h
      · rw [if_neg h0] at h ⊢; exact ih _ _ _ _ _ h
    · cases hn : nonForbiddenNeighbour sub adj F with
      | none =>
        rw [candidateLoop_back (Or.inl hn)] at h ⊢
        unfold candidateCont at h ⊢
        by_cases h0 : sub.dropLast.length = 0
        · rw [if_pos h0] at h ⊢; exact h
        · rw [if_neg h0] at h ⊢; exact ih _ _ _ _ _ h
      | some x =>
        rw [candidateLoop_grow hn (by omega)] at h ⊢
        exact ih _ _ _ _ _ h

theorem candidateAnchors_mono (adj : Nat → List Nat) (k : Nat) :
    ∀ (fuel : Nat) (anchors : List Nat) (F : Nat → Bool) (FS : Nat → Option Nat)
      (tested : List (List Nat)) (r : (Nat → Bool) × (Nat → Option Nat) × List (List Nat)),
      candidateAnchors adj k fuel anchors F FS tested = some r →
      candidateAnchors adj k (fuel + 1) anchors F FS tested = some r := by
  intro fuel
  induction fuel with
  | zero => intro anchors F FS tested r h; simp [candidateAnchors] at h
  | succ n ih =>
    intro anchors F FS tested r h
    cases anchors with
    | nil => simp only [candidateAnchors] at h ⊢; exact h
    | cons i rest =>
      rw [candidateAnchors] at h ⊢
      cases hl : candidateLoop adj k n [i] F FS tested with
      | none => rw [hl] at h; simp at h
      | some r1 =>
        rw [hl] at h
        rw [candidateLoop_mono adj k n _ _ _ _ _ hl]
        obtain ⟨a, b, c⟩ := r1
        simp only at h ⊢
        exact ih _ _ _ _ _ h

theorem testedCandidates_succ {R : Graph} {k fuel : Nat} {out : List (List Nat)}
    (h : testedCandidates R k fuel = some out) :
    testedCandidates R k (fuel + 1) = some out := by
  unfold testedCandidates at h ⊢
  cases hc : candidateAnchors (EdgeAdjacencies R) k fuel (List.range R.Edges.length)
      (fun _ => false) (fun _ => none) [] with
  | none => rw [hc] at h; simp at h
  | some r =>
    rw [hc] at h
    rw [candidateAnchors_mono _ _ _ _ _ _ _ _ hc]
    exact h

theorem testedCandidates_mono {R : Graph} {k fuel fuel1 : Nat} {out : List (List Nat)}
    (h : testedCandidates R k fuel = some out) (hle : fuel ≤ fuel1) :
    testedCandidates R k fuel1 = some out := by
  induction hle with
  | refl => exact h
  | step _ ih => exact testedCandidates_succ ih

theorem candidateAnchors_run (g : Graph) (k : Nat) (hk : 2 ≤ k) :
    ∀ (len e : Nat) (F : Nat → Bool) (FS : Nat → Option Nat), e + len = g.Edges.length →
      (∀ j, F j = true ↔ j < e) → (∀ j, j < e → FS j = some 1) →
      ∃ (N : Nat) (out : List (List Nat)) (F1 : Nat → Bool) (FS1 : Nat → Option Nat),
        (∀ fuel tested, candidateAnchors (EdgeAdjacencies g) k (N + fuel) (List.range' e len)
            F FS tested = some (F1, FS1, tested ++ out))
        ∧ (∀ l ∈ out, l.length = k ∧ l.Nodup ∧ (∀ x ∈ l, e ≤ x ∧ x < g.Edges.length)
            ∧ ConnectedSet g l.toFinset)
        ∧ (∀ S : Finset Nat, ConnectedSet g S → (∀ x ∈ S, e ≤ x ∧ x < g.Edges.length) →
            S.card = k → ∃ l ∈ out, l.toFinset = S)
        ∧ (out.map List.toFinset).Nodup := by
  intro len
  induction len with
  | zero =>
    intro e F FS hlen _ _
    refine ⟨1, [], F, FS, ?_, ?_, ?_, by simp⟩
    · intro fuel tested
      rw [Nat.add_comm, List.append_nil]
      rfl
    · intro l hl; simp at hl
    · intro S _ hval hcard
      exfalso
      have hne : S.Nonempty := by
        rw [← Finset.card_pos]; omega
      obtain ⟨x, hx⟩ := hne
      have := hval x hx
      omega
  | succ len ih =>
    intro e F FS hlen hF hFS
    have he : e < g.Edges.length := by omega
    obtain ⟨t0, hsub0, hF0, hFS0⟩ : ∃ t0 : SubgraphTrace, t0.sub = [e]
        ∧ t0.forbidden = F ∧ t0.forbiddenSize = FS :=
      ⟨{ edgeSubgraphs := [], subCount := 0, sub := [e], forbidden := F, forbiddenSize := FS },
        rfl, rfl, rfl⟩
    have hpre : TracePre g e t0 := by
      refine ⟨?_, ?_, ?_, ?_, ?_⟩
      · rw [hsub0]; simp
      · intro x hx
        rw [hsub0] at hx
        simp at hx
        subst hx
        exact ⟨le_refl _, he⟩
      · rw [hsub0]; simp
      · rw [hsub0]
        simp only [List.toFinset_cons, List.toFinset_nil, insert_emptyc_eq]
        exact connectedSet_singleton g e
      · intro j hj
        rw [hF0] at hj
        rw [hFS0, hFS j ((hF j).mp hj)]
        exact ⟨1, rfl, by omega⟩
    have hlow : LowForbidden e t0 := by
      intro j hj
      rw [hF0, hFS0]
      exact ⟨(hF j).mpr hj, hFS j hj⟩
    have hfree : freeEdges g t0 ≤ g.Edges.length := by
      unfold freeEdges
      have := List.length_filter_le
        (fun k => decide (k ∉ t0.sub) && !t0.forbidden k) (List.range g.Edges.length)
      simpa using this
    obtain ⟨T, out1, t1, R1⟩ := candidateRun_exists g e k g.Edges.length t0 hpre hlow
      (by rw [hsub0]; simp) hfree
    have hsub1 : t1.sub = [] := by rw [R1.sub_eq, hsub0]; rfl
    have hlast : t0.sub.getLastD 0 = e := by rw [hsub0]; rfl
    have hlen0 : t0.sub.length = 1 := by rw [hsub0]; rfl
    have hF1 : ∀ j, t1.forbidden j = true ↔ j < e + 1 := by
      intro j
      rw [R1.forbidden_iff, hlast, hF0, hFS0, hlen0]
      constructor
      · rintro (h | ⟨h, _⟩)
        · omega
        · have := (hF j).mp h; omega
      · intro h
        by_cases hje : j = e
        · exact Or.inl hje
        · have hlt : j < e := by omega
          exact Or.inr ⟨(hF j).mpr hlt, 1, hFS j hlt, le_refl _⟩
    have hFS1 : ∀ j, j < e + 1 → t1.forbiddenSize j = some 1 := by
      intro j hj
      by_cases hje : j = e
      · have := R1.size_last
        rw [hlast, hlen0] at this
        rw [hje]; exact this
      · have hlt : j < e := by omega
        rw [R1.size_keep j (by rw [hlast]; exact hje) (by rw [hF0]; exact (hF j).mpr hlt), hFS0]
        exact hFS j hlt
    obtain ⟨N2, out2, F2, FS2, hrun2, hsound2, hcomplete2, hdist2⟩ :=
      ih (e + 1) t1.forbidden t1.forbiddenSize (by omega) hF1 hFS1
    refine ⟨T + N2 + 1, out1 ++ out2, F2, FS2, ?_, ?_, ?_, ?_⟩
    · intro fuel tested
      have h1 : T + N2 + 1 + fuel = (T + N2 + fuel) + 1 := by omega
      have hloop : candidateLoop (EdgeAdjacencies g) k (T + N2 + fuel) [e] F FS tested
          = some (t1.forbidden, t1.forbiddenSize, tested ++ out1) := by
        have h2 : T + N2 + fuel = T + (N2 + fuel) := by omega
        have := R1.run (N2 + fuel) tested
        rw [hsub0, hF0, hFS0] at this
        rw [h2, this, candidateCont, if_pos (by rw [hsub1]; rfl)]
      have hrest := hrun2 (T + fuel) (tested ++ out1)
      have h3 : N2 + (T + fuel) = T + N2 + fuel := by omega
      rw [h3] at hrest
      rw [h1, List.range'_succ, candidateAnchors, hloop]
      simp only
      rw [hrest, List.append_assoc]
    · intro l hl
      rcases List.mem_append.mp hl with h | h
      · obtain ⟨ext, _, _, hnd, hval, hconn, _, hlenl⟩ := R1.sound l h
        exact ⟨hlenl, hnd, hval, hconn⟩
      · obtain ⟨h1, h2, h3, h4⟩ := hsound2 l h
        exact ⟨h1, h2, fun x hx => ⟨by have := (h3 x hx).1; omega, (h3 x hx).2⟩, h4⟩
    · intro S hconn hval hcard
      by_cases heS : e ∈ S
      · have hss : t0.sub.toFinset ⊂ S := by
          rw [hsub0]
          refine Finset.ssubset_iff_subset_ne.mpr ⟨?_, ?_⟩
          · intro x hx
            simp at hx
            subst hx
            exact heS
          · intro heq
            rw [← heq] at hcard
            simp at hcard
            omega
        obtain ⟨l, hl, hlS⟩ := R1.complete S hconn hss hval (by
          intro x hxS hx
          rw [hsub0] at hx
          simp at hx
          rw [hF0]
          by_contra hc
          have := (hF x).mp (by simpa using hc)
          have := (hval x hxS).1
          omega) hcard
        exact ⟨l, List.mem_append.mpr (Or.inl hl), hlS⟩
      · obtain ⟨l, hl, hlS⟩ := hcomplete2 S hconn (by
          intro x hx
          have := hval x hx
          have hne : x ≠ e := fun h => heS (h ▸ hx)
          omega) hcard
        exact ⟨l, List.mem_append.mpr (Or.inr hl), hlS⟩
    · rw [List.map_append, List.nodup_append]
      refine ⟨R1.distinct, hdist2, ?_⟩
      intro S h1 h2
      obtain ⟨l1, hl1, hleq1⟩ := List.mem_map.mp h1
      obtain ⟨l2, hl2, hleq2⟩ := List.mem_map.mp h2
      obtain ⟨ext, _, hleq, _⟩ := R1.sound l1 hl1
      have he1 : e ∈ l1 := by rw [hleq, hsub0]; simp
      have he2 : e ∈ l2 := by
        have : e ∈ l2.toFinset := by rw [hleq2, ← hleq1]; exact List.mem_toFinset.mpr he1
        exact List.mem_toFinset.mp this
      have := ((hsound2 l2 hl2).2.2.1 e he2).1
      omega

theorem allSubgraphs_sets (g : Graph) (S : Finset Nat) :
    S ∈ (AllSubgraphs g false).1.map List.toFinset
      ↔ (S.Nonempty ∧ (∀ x ∈ S, x < g.Edges.length) ∧ ConnectedSet g S) := by
  obtain ⟨_, _, h3⟩ := allSubgraphs_fold g (List.range g.Edges.length) ([], 0)
    (List.pairwise_lt_range _) (fun i hi => List.mem_range.mp hi) (by simp) (by simp) (by simp)
  constructor
  · intro hS
    obtain ⟨l, hl, rfl⟩ := List.mem_map.mp hS
    rcases (h3 l).mp hl with h | ⟨i, hi, hli⟩
    · simp at h
    · have := (allSubsOnEdge_sets g i (List.mem_range.mp hi) l.toFinset).mp ⟨l, hli, rfl⟩
      exact ⟨⟨i, this.1⟩, fun x hx => (this.2.1 x hx).2, this.2.2⟩
  · rintro ⟨hne, hval, hconn⟩
    have hmin := Finset.min'_mem S hne
    have hlt := hval _ hmin
    obtain ⟨l, hl, hleq⟩ := (allSubsOnEdge_sets g (S.min' hne) hlt S).mpr
      ⟨hmin, fun x hx => ⟨Finset.min'_le S x hx, hval x hx⟩, hconn⟩
    exact List.mem_map.mpr ⟨l, (h3 l).mpr (Or.inr ⟨_, List.mem_range.mpr hlt, hl⟩), hleq⟩

theorem checkLoop_back {G : Graph} {variant : String} {cap : Nat} {P : Pathway}
    {subgraph remnant : Graph} {sub : List Nat} {F : Nat → Bool} {FS : Nat → Option Nat}
    (h : nonForbiddenNeighbour sub (EdgeAdjacencies remnant) F = none
      ∨ subgraph.Edges.length < sub.length)
    (fuel : Nat) (m : Bool) (pool : Pool) :
    checkLoop G variant cap (fuel + 1) P subgraph remnant sub F FS m pool
      = if sub.dropLast.length = 0 then
          some ((forbidUpdate (sub.getLastD 0) sub.length F FS).1,
            (forbidUpdate (sub.getLastD 0) sub.length F FS).2, m, pool)
        else
          checkLoop G variant cap fuel P subgraph remnant sub.dropLast
            (forbidUpdate (sub.getLastD 0) sub.length F FS).1
            (forbidUpdate (sub.getLastD 0) sub.length F FS).2 m pool := by
  rw [checkLoop]
  cases hn : nonForbiddenNeighbour sub (EdgeAdjacencies remnant) F with
  | none => rfl
  | some x =>
    rcases h with h | h
    · rw [hn] at h; cases h
    · simp only [if_neg (Nat.not_le.mpr h)]

theorem checkLoop_grow_skip {G : Graph} {variant : String} {cap : Nat} {P : Pathway}
    {subgraph remnant : Graph} {sub : List Nat} {F : Nat → Bool} {FS : Nat → Option Nat}
    {x : Nat} (h : nonForbiddenNeighbour sub (EdgeAdjacencies remnant) F = some x)
    (hk : sub.length ≤ subgraph.Edges.length)
    (hlen : (sub ++ [x]).length ≠ subgraph.Edges.length)
    (fuel : Nat) (m : Bool) (pool : Pool) :
    checkLoop G variant cap (fuel + 1) P subgraph remnant sub F FS m pool
      = checkLoop G variant cap fuel P subgraph remnant (sub ++ [x]) F FS m pool := by
  rw [checkLoop]
  simp only [h, if_pos hk, if_neg hlen]

theorem checkLoop_grow_test {G : Graph} {variant : String} {cap : Nat} {P : Pathway}
    {subgraph remnant : Graph} {sub : List Nat} {F : Nat → Bool} {FS : Nat → Option Nat}
    {x : Nat} (h : nonForbiddenNeighbour sub (EdgeAdjacencies remnant) F = some x)
    (hk : sub.length ≤ subgraph.Edges.length)
    (hlen : (sub ++ [x]).length = subgraph.Edges.length)
    (fuel : Nat) (m : Bool) (pool : Pool) :
    checkLoop G variant cap (fuel + 1) P subgraph remnant sub F FS m pool
      = match testCandidate G variant cap fuel P subgraph remnant (sub ++ [x]) m pool with
        | none => none
        | some s => checkLoop G variant cap fuel P subgraph remnant (sub ++ [x]) F FS s.1 s.2 := by
  rw [checkLoop]
  simp only [h, if_pos hk, if_pos hlen, testCandidate]
  cases hb : BreakGraphOnEdges remnant (sub ++ [x]) with
  | none => rfl
  | some dr =>
    obtain ⟨D, R⟩ := dr
    simp only
    cases hm : (if SubgraphEdgeCompare subgraph.Edges D.Edges = true then
        GraphsIsomorphic subgraph D else some false) with
    | none => rfl
    | some b =>
      cases b with
      | false => rfl
      | true =>
        simp only
        by_cases hroom : pool.jobs.length < cap
        · simp only [if_pos hroom]
        · simp only [if_neg hroom]
          cases ExtendPathway G variant cap fuel (matchPathway P subgraph D R)
            { pool with activeWorkers := Increment pool.activeWorkers } <;> rfl

theorem extendLoop_back {G : Graph} {variant : String} {cap : Nat} {P : Pathway}
    {sub : List Nat} {F : Nat → Bool} {FS : Nat → Option Nat}
    (h : nonForbiddenNeighbour sub (EdgeAdjacencies P.remnant) F = none
      ∨ P.remnant.Edges.length / 2 < sub.length)
    (fuel : Nat) (pool : Pool) :
    extendLoop G variant cap (fuel + 1) P sub F FS pool
      = if sub.dropLast.length = 0 then
          some ((forbidUpdate (sub.getLastD 0) sub.length F FS).1,
            (forbidUpdate (sub.getLastD 0) sub.length F FS).2, pool)
        else
          extendLoop G variant cap fuel P sub.dropLast
            (forbidUpdate (sub.getLastD 0) sub.length F FS).1
            (forbidUpdate (sub.getLastD 0) sub.length F FS).2 pool := by
  rw [extendLoop]
  cases hn : nonForbiddenNeighbour sub (EdgeAdjacencies P.remnant) F with
  | none => rfl
  | some x =>
    rcases h with h | h
    · rw [hn] at h; cases h
    · simp only [if_neg (Nat.not_le.mpr h)]

theorem extendLoop_grow {G : Graph} {variant : String} {cap : Nat} {P : Pathway}
    {sub : List Nat} {F : Nat → Bool} {FS : Nat → Option Nat} {x : Nat}
    (h : nonForbiddenNeighbour sub (EdgeAdjacencies P.remnant) F = some x)
    (hk : sub.length ≤ P.remnant.Edges.length / 2)
    (fuel : Nat) (pool : Pool) :
    extendLoop G variant cap (fuel + 1) P sub F FS pool
      = match BreakGraphOnEdges P.remnant (sub ++ [x]) with
        | none => none
        | some (subgraph, remnant) =>
          if (sub ++ [x]).length > 1 then
            match CheckSubgraphMatches G variant cap fuel P subgraph remnant pool with
            | none => none
            | some (true, pool1) => extendLoop G variant cap fuel P (sub ++ [x]) F FS pool1
            | some (false, pool1) =>
              if (sub ++ [x]).dropLast.length = 0 then
                some ((forbidUpdate ((sub ++ [x]).getLastD 0) (sub ++ [x]).length F FS).1,
                  (forbidUpdate ((sub ++ [x]).getLastD 0) (sub ++ [x]).length F FS).2, pool1)
              else
                extendLoop G variant cap fuel P (sub ++ [x]).dropLast
                  (forbidUpdate ((sub ++ [x]).getLastD 0) (sub ++ [x]).length F FS).1
                  (forbidUpdate ((sub ++ [x]).getLastD 0) (sub ++ [x]).length F FS).2 pool1
          else extendLoop G variant cap fuel P (sub ++ [x]) F FS pool := by
  rw [extendLoop]
  simp only [h, if_pos hk]
  cases hb : BreakGraphOnEdges P.remnant (sub ++ [x]) with
  | none => rfl
  | some dr =>
    obtain ⟨D, R⟩ := dr
    simp only
    by_cases h1 : (sub ++ [x]).length > 1
    · simp only [if_pos h1]
      cases hc : CheckSubgraphMatches G variant cap fuel P D R pool with
      | none => rfl
      | some mp =>
        obtain ⟨m, pool1⟩ := mp
        cases m <;> rfl
    · simp only [if_neg h1]

theorem testCandidate_succ {G : Graph} {variant : String} {cap fuel : Nat}
    (hE : ∀ P pool r, ExtendPathway G variant cap fuel P pool = some r →
      ExtendPathway G variant cap (fuel + 1) P pool = some r)
    {P : Pathway} {subgraph remnant : Graph} {sub : List Nat} {m : Bool} {pool : Pool}
    {s : Bool × Pool}
    (h : testCandidate G variant cap fuel P subgraph remnant sub m pool = some s) :
    testCandidate G variant cap (fuel + 1) P subgraph remnant sub m pool = some s := by
  unfold testCandidate at h ⊢
  cases hb : BreakGraphOnEdges remnant sub with
  | none => rw [hb] at h; simp at h
  | some dr =>
    obtain ⟨D, R⟩ := dr
    rw [hb] at h
    simp only at h ⊢
    cases hm : (if SubgraphEdgeCompare subgraph.Edges D.Edges = true then
        GraphsIsomorphic subgraph D else some false) with
    | none => rw [hm] at h; simp at h
    | some b =>
      rw [hm] at h
      cases b with
      | false => exact h
      | true =>
        simp only at h ⊢
        by_cases hroom : pool.jobs.length < cap
        · rw [if_pos hroom] at h ⊢; exact h
        · rw [if_neg hroom] at h ⊢
          cases he : ExtendPathway G variant cap fuel (matchPathway P subgraph D R)
            { pool with activeWorkers := Increment pool.activeWorkers } with
          | none => rw [he] at h; simp at h
          | some pool1 =>
            rw [he] at h
            rw [hE _ _ _ he]
            exact h

theorem search_fuel_succ (G : Graph) (variant : String) (cap : Nat) : ∀ fuel : Nat,
    (∀ P pool r, ExtendPathway G variant cap fuel P pool = some r →
      ExtendPathway G variant cap (fuel + 1) P pool = some r)
    ∧ (∀ P anchors F FS pool r,
        extendAnchors G variant cap fuel P anchors F FS pool = some r →
        extendAnchors G variant cap (fuel + 1) P anchors F FS pool = some r)
    ∧ (∀ P sub F FS pool r, extendLoop G variant cap fuel P sub F FS pool = some r →
        extendLoop G variant cap (fuel + 1) P sub F FS pool = some r)
    ∧ (∀ P subgraph remnant pool r,
        CheckSubgraphMatches G variant cap fuel P subgraph remnant pool = some r →
        CheckSubgraphMatches G variant cap (fuel + 1) P subgraph remnant pool = some r)
    ∧ (∀ P subgraph remnant anchors F FS m pool r,
        checkAnchors G variant cap fuel P subgraph remnant anchors F FS m pool = some r →
        checkAnchors G variant cap (fuel + 1) P subgraph remnant anchors F FS m pool = some r)
    ∧ (∀ P subgraph remnant sub F FS m pool r,
        checkLoop G variant cap fuel P subgraph remnant sub F FS m pool = some r →
        checkLoop G variant cap (fuel + 1) P subgraph remnant sub F FS m pool = some r) := by
  intro fuel
  induction fuel with
  | zero =>
    refine ⟨?_, ?_, ?_, ?_, ?_, ?_⟩
    · intro P pool r h; simp [ExtendPathway] at h
    · intro P anchors F FS pool r h; simp [extendAnchors] at h
    · intro P sub F FS pool r h; simp [extendLoop] at h
    · intro P subgraph remnant pool r h; simp [CheckSubgraphMatches] at h
    · intro P subgraph remnant anchors F FS m pool r h; simp [checkAnchors] at h
    · intro P subgraph remnant sub F FS m pool r h; simp [checkLoop] at h
  | succ n ih =>
    obtain ⟨ihE, ihEA, ihEL, ihC, ihCA, ihCL⟩ := ih
    refine ⟨?_, ?_, ?_, ?_, ?_, ?_⟩
    · intro P pool r h
      rw [ExtendPathway] at h ⊢
      cases hb : pool.bestPathways with
      | nil => rw [hb] at h; simp at h
      | cons best rest =>
        rw [hb] at h
        simp only at h ⊢
        by_cases hlt : AssemblyIndex best G < BestAssemblyIndex G P
        · rw [if_pos hlt] at h ⊢; exact h
        · rw [if_neg hlt] at h ⊢
          cases he : extendAnchors G variant cap n P (List.range P.remnant.Edges.length)
              (fun _ => false) (fun _ => none)
              { pool with
                bestPathways := BestPathwayListUpdate (best :: rest) P variant } with
          | none => rw [he] at h; simp at h
          | some x =>
            rw [he] at h
            rw [ihEA _ _ _ _ _ _ he]
            exact h
    · intro P anchors F FS pool r h
      cases anchors with
      | nil => rw [extendAnchors] at h ⊢; exact h
      | cons i rest =>
        rw [extendAnchors] at h ⊢
        cases hl : extendLoop G variant cap n P [i] F FS pool with
        | none => rw [hl] at h; simp at h
        | some x =>
          obtain ⟨F1, FS1, pool1⟩ := x
          rw [hl] at h
          rw [ihEL _ _ _ _ _ _ hl]
          exact ihEA _ _ _ _ _ _ h
    · intro P sub F FS pool r h
      cases hn : nonForbiddenNeighbour sub (EdgeAdjacencies P.remnant) F with
      | none =>
        rw [extendLoop_back (Or.inl hn)] at h ⊢
        by_cases h0 : sub.dropLast.length = 0
        · rw [if_pos h0] at h ⊢; exact h
        · rw [if_neg h0] at h ⊢; exact ihEL _ _ _ _ _ _ h
      | some x =>
        by_cases hk : sub.length ≤ P.remnant.Edges.length / 2
        · rw [extendLoop_grow hn hk] at h ⊢
          cases hb : BreakGraphOnEdges P.remnant (sub ++ [x]) with
          | none => rw [hb] at h; simp at h
          | some dr =>
            obtain ⟨D, R⟩ := dr
            rw [hb] at h
            simp only at h ⊢
            by_cases h1 : (sub ++ [x]).length > 1
            · rw [if_pos h1] at h ⊢
              cases hc : CheckSubgraphMatches G variant cap n P D R pool with
              | none => rw [hc] at h; simp at h
              | some mp =>
                obtain ⟨m, pool1⟩ := mp
                rw [hc] at h
                rw [ihC _ _ _ _ _ hc]
                cases m with
                | true => exact ihEL _ _ _ _ _ _ h
                | false =>
                  simp only at h ⊢
                  by_cases h0 : (sub ++ [x]).dropLast.length = 0
                  · rw [if_pos h0] at h ⊢; exact h
                  · rw [if_neg h0] at h ⊢; exact ihEL _ _ _ _ _ _ h
            · rw [if_neg h1] at h ⊢
              exact ihEL _ _ _ _ _ _ h
        · rw [extendLoop_back (Or.inr (Nat.not_le.mp hk))] at h ⊢
          by_cases h0 : sub.dropLast.length = 0
          · rw [if_pos h0] at h ⊢; exact h
          · rw [if_neg h0] at h ⊢; exact ihEL _ _ _ _ _ _ h
    · intro P subgraph remnant pool r h
      rw [CheckSubgraphMatches] at h ⊢
      cases hc : checkAnchors G variant cap n P subgraph remnant
          (List.range remnant.Edges.length) (fun _ => false) (fun _ => none) false pool with
      | none => rw [hc] at h; simp at h
      | some x =>
        rw [hc] at h
        rw [ihCA _ _ _ _ _ _ _ _ _ hc]
        exact h
    · intro P subgraph remnant anchors F FS m pool r h
      cases anchors with
      | nil => rw [checkAnchors] at h ⊢; exact h
      | cons i rest =>
        rw [checkAnchors] at h ⊢
        cases hl : checkLoop G variant cap n P subgraph remnant [i] F FS m pool with
        | none => rw [hl] at h; simp at h
        | some x =>
          obtain ⟨F1, FS1, m1, pool1⟩ := x
          rw [hl] at h
          rw [ihCL _ _ _ _ _ _ _ _ _ hl]
          exact ihCA _ _ _ _ _ _ _ _ _ h
    · intro P subgraph remnant sub F FS m pool r h
      cases hn : nonForbiddenNeighbour sub (EdgeAdjacencies remnant) F with
      | none =>
        rw [checkLoop_back (Or.inl hn)] at h ⊢
        by_cases h0 : sub.dropLast.length = 0
        · rw [if_pos h0] at h ⊢; exact h
        · rw [if_neg h0] at h ⊢; exact ihCL _ _ _ _ _ _ _ _ _ h
      | some x =>
        by_cases hk : sub.length ≤ subgraph.Edges.length
        · by_cases hlen : (sub ++ [x]).length = subgraph.Edges.length
          · rw [checkLoop_grow_test hn hk hlen] at h ⊢
            cases ht : testCandidate G variant cap n P subgraph remnant (sub ++ [x]) m pool with
            | none => rw [ht] at h; simp at h
            | some s =>
              rw [ht] at h
              rw [testCandidate_succ ihE ht]
              exact ihCL _ _ _ _ _ _ _ _ _ h
          · rw [checkLoop_grow_skip hn hk hlen] at h ⊢
            exact ihCL _ _ _ _ _ _ _ _ _ h
        · rw [checkLoop_back (Or.inr (Nat.not_le.mp hk))] at h ⊢
          by_cases h0 : sub.dropLast.length = 0
          · rw [if_pos h0] at h ⊢; exact h
          · rw [if_neg h0] at h ⊢; exact ihCL _ _ _ _ _ _ _ _ _ h

theorem checkSubgraphMatches_fuel_le {G : Graph} {variant : String} {cap fuel fuel1 : Nat}
    {P : Pathway} {subgraph remnant : Graph} {pool : Pool} {r : Bool × Pool}
    (h : CheckSubgraphMatches G variant cap fuel P subgraph remnant pool = some r)
    (hle : fuel ≤ fuel1) :
    CheckSubgraphMatches G variant cap fuel1 P subgraph remnant pool = some r := by
  induction hle with
  | refl => exact h
  | step _ ih => exact (search_fuel_succ G variant cap _).2.2.2.1 _ _ _ _ _ ih

theorem checkAnchors_fuel_le {G : Graph} {variant : String} {cap fuel fuel1 : Nat}
    {P : Pathway} {subgraph remnant : Graph} {anchors : List Nat} {F : Nat → Bool}
    {FS : Nat → Option Nat} {m : Bool} {pool : Pool}
    {r : (Nat → Bool) × (Nat → Option Nat) × Bool × Pool}
    (h : checkAnchors G variant cap fuel P subgraph remnant anchors F FS m pool = some r)
    (hle : fuel ≤ fuel1) :
    checkAnchors G variant cap fuel1 P subgraph remnant anchors F FS m pool = some r := by
  induction hle with
  | refl => exact h
  | step _ ih => exact (search_fuel_succ G variant cap _).2.2.2.2.1 _ _ _ _ _ _ _ _ _ ih

theorem checkLoop_fuel_le {G : Graph} {variant : String} {cap fuel fuel1 : Nat}
    {P : Pathway} {subgraph remnant : Graph} {sub : List Nat} {F : Nat → Bool}
    {FS : Nat → Option Nat} {m : Bool} {pool : Pool}
    {r : (Nat → Bool) × (Nat → Option Nat) × Bool × Pool}
    (h : checkLoop G variant cap fuel P subgraph remnant sub F FS m pool = some r)
    (hle : fuel ≤ fuel1) :
    checkLoop G variant cap fuel1 P subgraph remnant sub F FS m pool = some r := by
  induction hle with
  | refl => exact h
  | step _ ih => exact (search_fuel_succ G variant cap _).2.2.2.2.2 _ _ _ _ _ _ _ _ _ ih

theorem testCandidate_fuel_le {G : Graph} {variant : String} {cap fuel fuel1 : Nat}
    {P : Pathway} {subgraph remnant : Graph} {sub : List Nat} {m : Bool} {pool : Pool}
    {s : Bool × Pool}
    (h : testCandidate G variant cap fuel P subgraph remnant sub m pool = some s)
    (hle : fuel ≤ fuel1) :
    testCandidate G variant cap fuel1 P subgraph remnant sub m pool = some s := by
  induction hle with
  | refl => exact h
  | step _ ih => exact testCandidate_succ (search_fuel_succ G variant cap _).1 ih

theorem testCandidates_cons {G : Graph} {variant : String} {cap fuel : Nat}
    {P : Pathway} {subgraph remnant : Graph} {sub : List Nat} {rest : List (List Nat)}
    {s r : Bool × Pool} :
    testCandidates G variant cap fuel P subgraph remnant (sub :: rest) s = some r
      ↔ ∃ s1, testCandidate G variant cap fuel P subgraph remnant sub s.1 s.2 = some s1
          ∧ testCandidates G variant cap fuel P subgraph remnant rest s1 = some r := by
  rw [testCandidates]
  cases ht : testCandidate G variant cap fuel P subgraph remnant sub s.1 s.2 with
  | none => simp
  | some s1 => simp

theorem testCandidates_append {G : Graph} {variant : String} {cap fuel : Nat}
    {P : Pathway} {subgraph remnant : Graph} (l1 l2 : List (List Nat)) :
    ∀ (s r : Bool × Pool),
    testCandidates G variant cap fuel P subgraph remnant (l1 ++ l2) s = some r
      ↔ ∃ s1, testCandidates G variant cap fuel P subgraph remnant l1 s = some s1
          ∧ testCandidates G variant cap fuel P subgraph remnant l2 s1 = some r := by
  induction l1 with
  | nil => intro s r; simp [testCandidates]
  | cons a l1 ih =>
    intro s r
    rw [List.cons_append, testCandidates_cons]
    constructor
    · rintro ⟨s1, h1, h2⟩
      obtain ⟨s2, h3, h4⟩ := (ih s1 r).mp h2
      exact ⟨s2, testCandidates_cons.mpr ⟨s1, h1, h3⟩, h4⟩
    · rintro ⟨s2, h3, h4⟩
      obtain ⟨s1, h1, h5⟩ := testCandidates_cons.mp h3
      exact ⟨s1, h1, (ih s1 r).mpr ⟨s2, h5, h4⟩⟩

theorem testCandidates_fuel_le {G : Graph} {variant : String} {cap fuel fuel1 : Nat}
    {P : Pathway} {subgraph remnant : Graph} (hle : fuel ≤ fuel1) :
    ∀ (l : List (List Nat)) (s r : Bool × Pool),
    testCandidates G variant cap fuel P subgraph remnant l s = some r →
    testCandidates G variant cap fuel1 P subgraph remnant l s = some r := by
  intro l
  induction l with
  | nil => intro s r h; simpa [testCandidates] using h
  | cons a l ih =>
    intro s r h
    obtain ⟨s1, h1, h2⟩ := testCandidates_cons.mp h
    exact testCandidates_cons.mpr ⟨s1, testCandidate_fuel_le h1 hle, ih s1 r h2⟩

theorem candidateLoop_prefix (adj : Nat → List Nat) (k : Nat) :
    ∀ (fuel : Nat) (sub : List Nat) (F : Nat → Bool) (FS : Nat → Option Nat)
      (tested : List (List Nat)) (r : (Nat → Bool) × (Nat → Option Nat) × List (List Nat)),
      candidateLoop adj k fuel sub F FS tested = some r → ∃ new, r.2.2 = tested ++ new := by
  intro fuel
  induction fuel with
  | zero => intro sub F FS tested r h; simp [candidateLoop] at h
  | succ n ih =>
    intro sub F FS tested r h
    have hback : candidateCont adj k n sub.dropLast
        (forbidUpdate (sub.getLastD 0) sub.length F FS).1
        (forbidUpdate (sub.getLastD 0) sub.length F FS).2 tested = some r →
        ∃ new, r.2.2 = tested ++ new := by
      intro h
      unfold candidateCont at h
      by_cases h0 : sub.dropLast.length = 0
      · rw [if_pos h0] at h
        cases h
        exact ⟨[], by simp⟩
      · rw [if_neg h0] at h
        exact ih _ _ _ _ _ h
    cases hn : nonForbiddenNeighbour sub adj F with
    | none =>
      rw [candidateLoop_back (Or.inl hn)] at h
      exact hback h
    | some x =>
      by_cases hk : sub.length ≤ k
      · rw [candidateLoop_grow hn hk] at h
        obtain ⟨new, hnew⟩ := ih _ _ _ _ _ h
        exact ⟨(if (sub ++ [x]).length = k then [sub ++ [x]] else []) ++ new,
          by rw [hnew, List.append_assoc]⟩
      · rw [candidateLoop_back (Or.inr (Nat.not_le.mp hk))] at h
        exact hback h

theorem candidateAnchors_prefix (adj : Nat → List Nat) (k : Nat) :
    ∀ (fuel : Nat) (anchors : List Nat) (F : Nat → Bool) (FS : Nat → Option Nat)
      (tested : List (List Nat)) (r : (Nat → Bool) × (Nat → Option Nat) × List (List Nat)),
      candidateAnchors adj k fuel anchors F FS tested = some r →
      ∃ new, r.2.2 = tested ++ new := by
  intro fuel
  induction fuel with
  | zero => intro anchors F FS tested r h; simp [candidateAnchors] at h
  | succ n ih =>
    intro anchors F FS tested r h
    cases anchors with
    | nil =>
      rw [candidateAnchors] at h
      cases h
      exact ⟨[], by simp⟩
    | cons i rest =>
      rw [candidateAnchors] at h
      cases hl : candidateLoop adj k n [i] F FS tested with
      | none => rw [hl] at h; simp at h
      | some x =>
        obtain ⟨F1, FS1, T1⟩ := x
        rw [hl] at h
        obtain ⟨new1, h1⟩ := candidateLoop_prefix adj k _ _ _ _ _ _ hl
        obtain ⟨new2, h2⟩ := ih _ _ _ _ _ h
        simp only at h1
        exact ⟨new1 ++ new2, by rw [h2, h1, List.append_assoc]⟩

/-- Every returning run of the inner loop of `CheckSubgraphMatches` has tested
the candidates that the loop with recording records, in that order, each once. -/
theorem checkLoop_tested (G : Graph) (variant : String) (cap : Nat) :
    ∀ (fuel : Nat) (P : Pathway) (subgraph remnant : Graph) (sub : List Nat)
      (F : Nat → Bool) (FS : Nat → Option Nat) (m : Bool) (pool : Pool)
      (r : (Nat → Bool) × (Nat → Option Nat) × Bool × Pool),
      checkLoop G variant cap fuel P subgraph remnant sub F FS m pool = some r →
      ∀ tested, ∃ new,
        candidateLoop (EdgeAdjacencies remnant) subgraph.Edges.length fuel sub F FS tested
          = some (r.1, r.2.1, tested ++ new)
        ∧ testCandidates G variant cap fuel P subgraph remnant new (m, pool)
          = some (r.2.2.1, r.2.2.2) := by
  intro fuel
  induction fuel with
  | zero => intro P subgraph remnant sub F FS m pool r h; simp [checkLoop] at h
  | succ n ih =>
    intro P subgraph remnant sub F FS m pool r h tested
    have hback : (if sub.dropLast.length = 0 then
          some ((forbidUpdate (sub.getLastD 0) sub.length F FS).1,
            (forbidUpdate (sub.getLastD 0) sub.length F FS).2, m, pool)
        else
          checkLoop G variant cap n P subgraph remnant sub.dropLast
            (forbidUpdate (sub.getLastD 0) sub.length F FS).1
            (forbidUpdate (sub.getLastD 0) sub.length F FS).2 m pool) = some r →
        ∃ new, candidateCont (EdgeAdjacencies remnant) subgraph.Edges.length n sub.dropLast
            (forbidUpdate (sub.getLastD 0) sub.length F FS).1
            (forbidUpdate (sub.getLastD 0) sub.length F FS).2 tested
            = some (r.1, r.2.1, tested ++ new)
          ∧ testCandidates G variant cap (n + 1) P subgraph remnant new (m, pool)
            = some (r.2.2.1, r.2.2.2) := by
      intro h
      unfold candidateCont
      by_cases h0 : sub.dropLast.length = 0
      · rw [if_pos h0] at h ⊢
        cases h
        exact ⟨[], by simp, rfl⟩
      · rw [if_neg h0] at h ⊢
        obtain ⟨new, h1, h2⟩ := ih _ _ _ _ _ _ _ _ _ h tested
        exact ⟨new, h1, testCandidates_fuel_le (Nat.le_succ n) _ _ _ h2⟩
    cases hn : nonForbiddenNeighbour sub (EdgeAdjacencies remnant) F with
    | none =>
      rw [checkLoop_back (Or.inl hn)] at h
      rw [candidateLoop_back (Or.inl hn)]
      exact hback h
    | some x =>
      by_cases hk : sub.length ≤ subgraph.Edges.length
      · rw [candidateLoop_grow hn hk]
        by_cases hlen : (sub ++ [x]).length = subgraph.Edges.length
        · rw [checkLoop_grow_test hn hk hlen] at h
          rw [if_pos hlen]
          cases ht : testCandidate G variant cap n P subgraph remnant (sub ++ [x]) m pool with
          | none => rw [ht] at h; simp at h
          | some s =>
            rw [ht] at h
            obtain ⟨new, h1, h2⟩ := ih _ _ _ _ _ _ _ _ _ h (tested ++ [sub ++ [x]])
            refine ⟨(sub ++ [x]) :: new, ?_, ?_⟩
            · rw [h1]; simp
            · exact testCandidates_cons.mpr ⟨s, testCandidate_fuel_le ht (Nat.le_succ n),
                testCandidates_fuel_le (Nat.le_succ n) _ _ _ h2⟩
        · rw [checkLoop_grow_skip hn hk hlen] at h
          rw [if_neg hlen, List.append_nil]
          obtain ⟨new, h1, h2⟩ := ih _ _ _ _ _ _ _ _ _ h tested
          exact ⟨new, h1, testCandidates_fuel_le (Nat.le_succ n) _ _ _ h2⟩
      · rw [checkLoop_back (Or.inr (Nat.not_le.mp hk))] at h
        rw [candidateLoop_back (Or.inr (Nat.not_le.mp hk))]
        exact hback h

/-- When the loop with recording returns and the tests of the recorded
candidates return, the inner loop of `CheckSubgraphMatches` returns, with the
state that the tests leave. -/
theorem checkLoop_of_tested (G : Graph) (variant : String) (cap f : Nat) (P : Pathway)
    (subgraph remnant : Graph) :
    ∀ (fuel : Nat) (sub : List Nat) (F : Nat → Bool) (FS : Nat → Option Nat)
      (tested new : List (List Nat)) (F1 : Nat → Bool) (FS1 : Nat → Option Nat)
      (m : Bool) (pool : Pool) (s : Bool × Pool),
      candidateLoop (EdgeAdjacencies remnant) subgraph.Edges.length fuel sub F FS tested
        = some (F1, FS1, tested ++ new) →
      testCandidates G variant cap f P subgraph remnant new (m, pool) = some s →
      checkLoop G variant cap (fuel + f) P subgraph remnant sub F FS m pool
        = some (F1, FS1, s.1, s.2) := by
  intro fuel
  induction fuel with
  | zero => intro sub F FS tested new F1 FS1 m pool s h; simp [candidateLoop] at h
  | succ n ih =>
    intro sub F FS tested new F1 FS1 m pool s h ht
    have hfuel : n + 1 + f = (n + f) + 1 := by omega
    rw [hfuel]
    have hback : candidateCont (EdgeAdjacencies remnant) subgraph.Edges.length n sub.dropLast
            (forbidUpdate (sub.getLastD 0) sub.length F FS).1
            (forbidUpdate (sub.getLastD 0) sub.length F FS).2 tested
            = some (F1, FS1, tested ++ new) →
        (if sub.dropLast.length = 0 then
          some ((forbidUpdate (sub.getLastD 0) sub.length F FS).1,
            (forbidUpdate (sub.getLastD 0) sub.length F FS).2, m, pool)
        else
          checkLoop G variant cap (n + f) P subgraph remnant sub.dropLast
            (forbidUpdate (sub.getLastD 0) sub.length F FS).1
            (forbidUpdate (sub.getLastD 0) sub.length F FS).2 m pool)
          = some (F1, FS1, s.1, s.2) := by
      intro h
      unfold candidateCont at h
      by_cases h0 : sub.dropLast.length = 0
      · rw [if_pos h0] at h ⊢
        have hnew : new = [] := by
          have h3 := congrArg (fun r => r.2.2) (Option.some.inj h)
          simpa using h3.symm
        subst hnew
        simp only [testCandidates, Option.some.injEq] at ht
        subst ht
        have h1 := congrArg (fun r => r.1) (Option.some.inj h)
        have h2 := congrArg (fun r => r.2.1) (Option.some.inj h)
        simp only at h1 h2
        rw [h1, h2]
      · rw [if_neg h0] at h ⊢
        exact ih _ _ _ _ _ _ _ _ _ _ h ht
    cases hn : nonForbiddenNeighbour sub (EdgeAdjacencies remnant) F with
    | none =>
      rw [candidateLoop_back (Or.inl hn)] at h
      rw [checkLoop_back (Or.inl hn)]
      exact hback h
    | some x =>
      by_cases hk : sub.length ≤ subgraph.Edges.length
      · rw [candidateLoop_grow hn hk] at h
        by_cases hlen : (sub ++ [x]).length = subgraph.Edges.length
        · rw [if_pos hlen] at h
          rw [checkLoop_grow_test hn hk hlen]
          obtain ⟨new1, hnew1⟩ := candidateLoop_prefix _ _ _ _ _ _ _ _ h
          simp only [List.append_assoc, List.append_cancel_left_eq] at hnew1
          subst hnew1
          obtain ⟨s1, ht1, ht2⟩ := testCandidates_cons.mp ht
          rw [testCandidate_fuel_le ht1 (Nat.le_add_left f n)]
          simp only
          refine ih _ _ _ (tested ++ [sub ++ [x]]) new1 _ _ _ _ _ ?_ ht2
          rw [h]; simp
        · rw [if_neg hlen, List.append_nil] at h
          rw [checkLoop_grow_skip hn hk hlen]
          exact ih _ _ _ _ _ _ _ _ _ _ h ht
      · rw [candidateLoop_back (Or.inr (Nat.not_le.mp hk))] at h
        rw [checkLoop_back (Or.inr (Nat.not_le.mp hk))]
        exact hback h

theorem checkAnchors_tested (G : Graph) (variant : String) (cap : Nat) :
    ∀ (fuel : Nat) (P : Pathway) (subgraph remnant : Graph) (anchors : List Nat)
      (F : Nat → Bool) (FS : Nat → Option Nat) (m : Bool) (pool : Pool)
      (r : (Nat → Bool) × (Nat → Option Nat) × Bool × Pool),
      checkAnchors G variant cap fuel P subgraph remnant anchors F FS m pool = some r →
      ∀ tested, ∃ new,
        candidateAnchors (EdgeAdjacencies remnant) subgraph.Edges.length fuel anchors F FS tested
          = some (r.1, r.2.1, tested ++ new)
        ∧ testCandidates G variant cap fuel P subgraph remnant new (m, pool)
          = some (r.2.2.1, r.2.2.2) := by
  intro fuel
  induction fuel with
  | zero => intro P subgraph remnant anchors F FS m pool r h; simp [checkAnchors] at h
  | succ n ih =>
    intro P subgraph remnant anchors F FS m pool r h tested
    cases anchors with
    | nil =>
      rw [checkAnchors] at h
      cases h
      exact ⟨[], by rw [candidateAnchors, List.append_nil], rfl⟩
    | cons i rest =>
      rw [checkAnchors] at h
      cases hl : checkLoop G variant cap n P subgraph remnant [i] F FS m pool with
      | none => rw [hl] at h; simp at h
      | some x =>
        obtain ⟨F1, FS1, m1, pool1⟩ := x
        rw [hl] at h
        simp only at h
        obtain ⟨new1, h1, h2⟩ := checkLoop_tested G variant cap n _ _ _ _ _ _ _ _ _ hl tested
        obtain ⟨new2, h3, h4⟩ := ih _ _ _ _ _ _ _ _ _ h (tested ++ new1)
        refine ⟨new1 ++ new2, ?_, ?_⟩
        · rw [candidateAnchors, h1]
          simp only
          rw [h3, List.append_assoc]
        · exact (testCandidates_append new1 new2 _ _).mpr
            ⟨(m1, pool1), testCandidates_fuel_le (Nat.le_succ n) _ _ _ h2,
              testCandidates_fuel_le (Nat.le_succ n) _ _ _ h4⟩

theorem checkAnchors_of_tested (G : Graph) (variant : String) (cap f : Nat) (P : Pathway)
    (subgraph remnant : Graph) :
    ∀ (fuel : Nat) (anchors : List Nat) (F : Nat → Bool) (FS : Nat → Option Nat)
      (tested new : List (List Nat)) (F1 : Nat → Bool) (FS1 : Nat → Option Nat)
      (m : Bool) (pool : Pool) (s : Bool × Pool),
      candidateAnchors (EdgeAdjacencies remnant) subgraph.Edges.length fuel anchors F FS tested
        = some (F1, FS1, tested ++ new) →
      testCandidates G variant cap f P subgraph remnant new (m, pool) = some s →
      checkAnchors G variant cap (fuel + f) P subgraph remnant anchors F FS m pool
        = some (F1, FS1, s.1, s.2) := by
  intro fuel
  induction fuel with
  | zero => intro anchors F FS tested new F1 FS1 m pool s h; simp [candidateAnchors] at h
  | succ n ih =>
    intro anchors F FS tested new F1 FS1 m pool s h ht
    have hfuel : n + 1 + f = (n + f) + 1 := by omega
    rw [hfuel]
    cases anchors with
    | nil =>
      rw [candidateAnchors] at h
      rw [checkAnchors]
      have hnew : new = [] := by
        have h3 := congrArg (fun r => r.2.2) (Option.some.inj h)
        simpa using h3.symm
      subst hnew
      simp only [testCandidates, Option.some.injEq] at ht
      subst ht
      have h1 := congrArg (fun r => r.1) (Option.some.inj h)
      have h2 := congrArg (fun r => r.2.1) (Option.some.inj h)
      simp only at h1 h2
      rw [h1, h2]
    | cons i rest =>
      rw [candidateAnchors] at h
      rw [checkAnchors]
      cases hl : candidateLoop (EdgeAdjacencies remnant) subgraph.Edges.length n [i] F FS
          tested with
      | none => rw [hl] at h; simp at h
      | some x =>
        obtain ⟨F2, FS2, T2⟩ := x
        rw [hl] at h
        simp only at h
        obtain ⟨new1, h1⟩ := candidateLoop_prefix _ _ _ _ _ _ _ _ hl
        simp only at h1
        subst h1
        obtain ⟨new2, h2⟩ := candidateAnchors_prefix _ _ _ _ _ _ _ _ h
        simp only [List.append_assoc, List.append_cancel_left_eq] at h2
        subst h2
        obtain ⟨s1, ht1, ht2⟩ := (testCandidates_append new1 new2 _ _).mp ht
        rw [checkLoop_of_tested G variant cap f P subgraph remnant n _ _ _ _ _ _ _ _ _ _ hl ht1]
        simp only
        refine ih _ _ _ (tested ++ new1) new2 _ _ _ _ _ ?_ ht2
        rw [h, List.append_assoc]

/-- C34: for every graph `R` and every `k ≥ 2` there is a list `out` of edge
lists such that (1) `out` is what `CheckSubgraphMatches` records when the
values of `sub` at the moments `len(sub) == k` are written down, with one
adjacency map for the whole graph and the forbidden maps shared by the starting
edges, and with enough rounds the loops do return; (2) every returning run of
`CheckSubgraphMatches` on a subgraph of `k` edges and the remnant `R` returns
what testing the lists of `out` one after the other, each once, returns (the
break of the remnant, the comparison and the isomorphism test, and for a match
the new pathway queued or extended at once); (3) whenever these tests return,
`CheckSubgraphMatches` returns that result from some number of rounds on;
(4) every list of `out` has `k` distinct edges, no two lists contain the same
set of edges, and the sets of the lists are exactly the sets of `k` edges among
the lists that `AllSubgraphs(R, false)` returns. -/
theorem C34_checkSubgraphMatches_candidates (R : Graph) (k : Nat) (hk : 2 ≤ k) :
    ∃ out : List (List Nat),
      ((∃ N, ∀ fuel, N ≤ fuel → testedCandidates R k fuel = some out)
        ∧ (∀ fuel out1, testedCandidates R k fuel = some out1 → out1 = out))
      ∧ (∀ (G : Graph) (variant : String) (cap fuel : Nat) (P : Pathway) (subgraph : Graph)
          (pool : Pool) (r : Bool × Pool), subgraph.Edges.length = k →
          CheckSubgraphMatches G variant cap fuel P subgraph R pool = some r →
          testCandidates G variant cap fuel P subgraph R out (false, pool) = some r)
      ∧ (∃ N, ∀ (G : Graph) (variant : String) (cap fuel : Nat) (P : Pathway)
          (subgraph : Graph) (pool : Pool) (r : Bool × Pool), subgraph.Edges.length = k →
          testCandidates G variant cap fuel P subgraph R out (false, pool) = some r →
          ∀ fuel1, N + fuel ≤ fuel1 →
            CheckSubgraphMatches G variant cap fuel1 P subgraph R pool = some r)
      ∧ (∀ l ∈ out, l.length = k ∧ l.Nodup)
      ∧ (out.map List.toFinset).Nodup
      ∧ ∀ S : Finset Nat, S ∈ out.map List.toFinset
          ↔ (S.card = k ∧ S ∈ (AllSubgraphs R false).1.map List.toFinset) := by
  obtain ⟨N, out, F1, FS1, hrun, hsound, hcomplete, hdist⟩ :=
    candidateAnchors_run R k hk R.Edges.length 0 (fun _ => false) (fun _ => none)
      (by omega) (by intro j; simp) (by intro j hj; omega)
  have hres : ∀ fuel, N ≤ fuel → testedCandidates R k fuel = some out := by
    intro fuel hle
    obtain ⟨d, rfl⟩ := Nat.exists_eq_add_of_le hle
    have := hrun d []
    rw [← List.range_eq_range'] at this
    rw [testedCandidates, this]
    rfl
  have huniq : ∀ fuel out1, testedCandidates R k fuel = some out1 → out1 = out := by
    intro fuel out1 h
    have h1 := testedCandidates_mono h (Nat.le_max_left fuel N)
    rw [hres _ (Nat.le_max_right fuel N)] at h1
    exact (Option.some.inj h1).symm
  refine ⟨out, ⟨⟨N, hres⟩, huniq⟩, ?_, ⟨N + 1, ?_⟩, ?_, hdist, ?_⟩
  · intro G variant cap fuel P subgraph pool r hlen h
    cases fuel with
    | zero => simp [CheckSubgraphMatches] at h
    | succ n =>
      rw [CheckSubgraphMatches] at h
      cases hc : checkAnchors G variant cap n P subgraph R (List.range R.Edges.length)
          (fun _ => false) (fun _ => none) false pool with
      | none => rw [hc] at h; simp at h
      | some x =>
        obtain ⟨F2, FS2, m2, pool2⟩ := x
        rw [hc] at h
        simp only [Option.some.injEq] at h
        subst h
        obtain ⟨new, h1, h2⟩ := checkAnchors_tested G variant cap n _ _ _ _ _ _ _ _ _ hc []
        rw [hlen] at h1
        have h3 : testedCandidates R k n = some new := by
          rw [testedCandidates, h1]; rfl
        rw [huniq n new h3] at h2
        exact testCandidates_fuel_le (Nat.le_succ n) _ _ _ h2
  · intro G variant cap fuel P subgraph pool r hlen ht fuel1 hle
    have hc : CheckSubgraphMatches G variant cap (N + fuel + 1) P subgraph R pool
        = some r := by
      rw [CheckSubgraphMatches]
      have h1 := hrun 0 []
      rw [← List.range_eq_range', Nat.add_zero, ← hlen] at h1
      rw [checkAnchors_of_tested G variant cap fuel P subgraph R N _ _ _ _ _ _ _ _ _ _ h1 ht]
    exact checkSubgraphMatches_fuel_le hc (by omega)
  · intro l hl
    exact ⟨(hsound l hl).1, (hsound l hl).2.1⟩
  · intro S
    rw [allSubgraphs_sets]
    constructor
    · intro hS
      obtain ⟨l, hl, rfl⟩ := List.mem_map.mp hS
      obtain ⟨hlen, hnd, hval, hconn⟩ := hsound l hl
      have hcard : l.toFinset.card = k := by rw [List.toFinset_card_of_nodup hnd, hlen]
      refine ⟨hcard, ?_, ?_, hconn⟩
      · rw [← Finset.card_pos]; omega
      · intro x hx; exact (hval x (List.mem_toFinset.mp hx)).2
    · rintro ⟨hcard, _, hval, hconn⟩
      obtain ⟨l, hl, hlS⟩ := hcomplete S hconn (fun x hx => ⟨Nat.zero_le _, hval x hx⟩) hcard
      exact List.mem_map.mpr ⟨l, hl, hlS⟩

/-- C34 at the second path of two edges of `pathPair` and `k = 2`: the single
candidate is the pair of its edges; the run of `CheckSubgraphMatches` for the
first path against it returns, with a match and one new pathway on the queue. -/
theorem C34_checkSubgraphMatches_candidates_witness :
    (2 ≤ 2
      ∧ testedCandidates (NewGraph [4, 5, 6] [(4, 5), (5, 6)]) 2 20 = some [[0, 1]]
      ∧ (CheckSubgraphMatches pathPair "shortest" 100 20 (NewStartingPathway pathPair)
          (NewGraph [1, 2, 3] [(1, 2), (2, 3)]) (NewGraph [4, 5, 6] [(4, 5), (5, 6)])
          (startPool (NewStartingPathway pathPair))).map
            (fun r => (r.1, r.2.jobs.length, r.2.activeWorkers)) = some (true, 1, 2))
    ∧ ∃ out : List (List Nat),
      ((∃ N, ∀ fuel, N ≤ fuel →
          testedCandidates (NewGraph [4, 5, 6] [(4, 5), (5, 6)]) 2 fuel = some out)
        ∧ (∀ fuel out1,
            testedCandidates (NewGraph [4, 5, 6] [(4, 5), (5, 6)]) 2 fuel = some out1 →
            out1 = out))
      ∧ (∀ (G : Graph) (variant : String) (cap fuel : Nat) (P : Pathway) (subgraph : Graph)
          (pool : Pool) (r : Bool × Pool), subgraph.Edges.length = 2 →
          CheckSubgraphMatches G variant cap fuel P subgraph
            (NewGraph [4, 5, 6] [(4, 5), (5, 6)]) pool = some r →
          testCandidates G variant cap fuel P subgraph
            (NewGraph [4, 5, 6] [(4, 5), (5, 6)]) out (false, pool) = some r)
      ∧ (∃ N, ∀ (G : Graph) (variant : String) (cap fuel : Nat) (P : Pathway)
          (subgraph : Graph) (pool : Pool) (r : Bool × Pool), subgraph.Edges.length = 2 →
          testCandidates G variant cap fuel P subgraph
            (NewGraph [4, 5, 6] [(4, 5), (5, 6)]) out (false, pool) = some r →
          ∀ fuel1, N + fuel ≤ fuel1 →
            CheckSubgraphMatches G variant cap fuel1 P subgraph
              (NewGraph [4, 5, 6] [(4, 5), (5, 6)]) pool = some r)
      ∧ (∀ l ∈ out, l.length = 2 ∧ l.Nodup)
      ∧ (out.map List.toFinset).Nodup
      ∧ ∀ S : Finset Nat, S ∈ out.map List.toFinset
          ↔ (S.card = 2
            ∧ S ∈ (AllSubgraphs (NewGraph [4, 5, 6] [(4, 5), (5, 6)]) false).1.map
                List.toFinset) :=
  ⟨⟨by decide, by decide!, by decide!⟩,
    C34_checkSubgraphMatches_candidates (NewGraph [4, 5, 6] [(4, 5), (5, 6)]) 2 (by decide)⟩

end AssemblyGo
